import Mathlib

/-!
# FiltersView (gmic-qt): the filter tree, its favorites subtree and its path cache

A shallow embedding of `src/FilterSelector/FiltersView/FiltersView.cpp`.

* A `QStandardItem` is an `Item`: its own data (`ItemData`) and its rows. The
  address of the C++ object is the field `id`; a pointer is an `Option Nat`
  (`none` is `nullptr`) and `new` takes the next address from
  `FiltersView.nextAddr`.
* `FiltersView` holds the members the functions of the file read and write:
  the invisible root with everything below it, `_faveFolder`, the path cache,
  `_isInSelectionMode`, and the (static) `FiltersVisibilityMap`.
* What the file uses but does not define (the item classes of
  `FilterTreeFolder.h`, `FilterTreeItem.h`, `FilterTreeAbstractItem.h`, the
  constants of `Globals.h`) is collected in `Env` and left arbitrary.
-/

namespace GmicQt

/-! ## Items -/

/-- Qt::CheckState of a checkbox cell. -/
inductive CheckState where
  | Unchecked
  | PartiallyChecked
  | Checked
  deriving DecidableEq, Repr

/-- The dynamic type of an item, what `dynamic_cast` tests: a plain
`QStandardItem` (the invisible root), a `FilterTreeFolder`, a `FilterTreeItem`
or a `FilterTreeNullItem`. -/
inductive Kind where
  | StandardItem
  | Folder
  | FilterItem
  | NullItem
  deriving DecidableEq, Repr

/-- The data one item carries, apart from its rows. `visibilityItem` is the
checkbox cell that `addStandardItemWithCheckbox` puts in column 1 of the row
(`none` when the row has no checkbox), with its check state. -/
structure ItemData where
  id : Nat
  kind : Kind
  text : String
  hash : String
  isWarning : Bool
  isFave : Bool
  isFaveFolder : Bool
  editable : Bool
  visibilityItem : Option CheckState
  deriving DecidableEq, Repr

/-- A `QStandardItem` with the rows below it (column 0). -/
inductive Item where
  | node (d : ItemData) (rows : List Item)
  deriving Repr

namespace Item

def d : Item → ItemData
  | node d _ => d

def rows : Item → List Item
  | node _ rows => rows

def id (i : Item) : Nat := i.d.id

def kind (i : Item) : Kind := i.d.kind

def text (i : Item) : String := i.d.text

def hash (i : Item) : String := i.d.hash

/-- The test `dynamic_cast<FilterTreeFolder *>(item) != nullptr`. -/
def isFolder (i : Item) : Bool := decide (i.d.kind = Kind.Folder)

/-- The test `dynamic_cast<FilterTreeItem *>(item) != nullptr`. -/
def isFilterItem (i : Item) : Bool := decide (i.d.kind = Kind.FilterItem)

/-- The test `dynamic_cast<FilterTreeNullItem *>(item) != nullptr`. -/
def isNullItem (i : Item) : Bool := decide (i.d.kind = Kind.NullItem)

/-- QStandardItem::rowCount. -/
def rowCount (i : Item) : Nat := i.rows.length

def setRows (i : Item) (rs : List Item) : Item := node i.d rs

def setData (i : Item) (d : ItemData) : Item := node d i.rows

/-- QStandardItem::appendRow. -/
def appendRow (i : Item) (c : Item) : Item := node i.d (i.rows ++ [c])

/-- QStandardItem::removeRow(row). -/
def removeRow (row : Nat) (i : Item) : Item := node i.d (i.rows.eraseIdx row)

/-- QStandardItem::setEditable. -/
def setEditable (b : Bool) (i : Item) : Item := node { i.d with editable := b } i.rows

/-- Modelled from the spec: FilterTreeAbstractItem::setVisibility is not in
src/. It sets the checkbox of the item, when the row has one, to checked or
unchecked; partial is never set this way. -/
def setVisibility (flag : Bool) (i : Item) : Item :=
  match i.d.visibilityItem with
  | none => i
  | some _ =>
    node { i.d with visibilityItem := some (if flag then CheckState.Checked else CheckState.Unchecked) }
      i.rows

/-- Modelled from the spec: FilterTreeAbstractItem::isVisible is not in src/.
The checkbox state of the item read as a bool; an item without a checkbox is
visible. -/
def isVisible (i : Item) : Bool :=
  match i.d.visibilityItem with
  | none => true
  | some c => decide (c = CheckState.Checked)

mutual
/-- The item at address `p` in the subtree of an item (the item itself
included), first in depth-first order. -/
def find? (p : Nat) : Item → Option Item
  | node d rows => if d.id = p then some (node d rows) else findRows? p rows
/-- The item at address `p` below one of the rows. -/
def findRows? (p : Nat) : List Item → Option Item
  | [] => none
  | x :: xs =>
    match find? p x with
    | some r => some r
    | none => findRows? p xs
end

mutual
/-- Run `g` on the item at address `p`: the effect of a member call through
the pointer `p`. -/
def modify (p : Nat) (g : Item → Item) : Item → Item
  | node d rows => if d.id = p then g (node d rows) else node d (modifyRows p g rows)
/-- Run `g` on the item at address `p` below one of the rows: in the first row
that holds it. -/
def modifyRows (p : Nat) (g : Item → Item) : List Item → List Item
  | [] => []
  | x :: xs =>
    match find? p x with
    | some _ => modify p g x :: xs
    | none => x :: modifyRows p g xs
end

mutual
/-- The item that has the item at address `p` among its rows. (For a top-level
item this is the invisible root, where QStandardItem::parent gives nullptr.) -/
def parent? (p : Nat) : Item → Option Item
  | node d rows =>
    if rows.any (fun c => decide (c.d.id = p)) then some (node d rows) else parentRows? p rows
/-- The parent of the item at address `p`, searched below the rows. -/
def parentRows? (p : Nat) : List Item → Option Item
  | [] => none
  | x :: xs =>
    match parent? p x with
    | some r => some r
    | none => parentRows? p xs
end

mutual
/-- Take the item at address `p` (and everything below it) out of the rows of
its parent: `parent->removeRow(item->row())`. -/
def removeItem (p : Nat) : Item → Item
  | node d rows => node d (removeItemRows p rows)
/-- Take the item at address `p` out of the rows or out of what is below
them. -/
def removeItemRows (p : Nat) : List Item → List Item
  | [] => []
  | x :: xs => if x.d.id = p then xs else removeItem p x :: removeItemRows p xs
end

mutual
/-- All addresses in the subtree of an item, depth first. -/
def ids : Item → List Nat
  | node d rows => d.id :: idsRows rows
/-- All addresses in the subtrees of the rows. -/
def idsRows : List Item → List Nat
  | [] => []
  | x :: xs => ids x ++ idsRows xs
end

mutual
/-- All items of the subtree of an item, depth first, the item first. -/
def items : Item → List Item
  | node d rows => node d rows :: itemsRows rows
/-- All items of the subtrees of the rows. -/
def itemsRows : List Item → List Item
  | [] => []
  | x :: xs => items x ++ itemsRows xs
end

end Item

/-! ## What FiltersView.cpp takes from the rest of the repository -/

/-- The parts of the repository that FiltersView.cpp uses and src/ does not
contain. They are parameters of every function below.

* `removeWarningPrefix`: FilterTreeAbstractItem::removeWarningPrefix.
* `folderText s`, `folderWarning s`: the text and the warning flag of
  `new FilterTreeFolder(s)`.
* `itemText s`: the text of `new FilterTreeItem(s)`.
* `lessThan`: the virtual `operator<` that QStandardItem::sortChildren uses.
* `faveFolderText`: `tr(FAVE_FOLDER_TEXT)`.
* `favePathSeparator`: `FAVE_PATH_SEPATATOR`. -/
structure Env where
  removeWarningPrefix : String → String
  folderText : String → String
  folderWarning : String → Bool
  itemText : String → String
  lessThan : Item → Item → Bool
  faveFolderText : String
  favePathSeparator : String

/-- Modelled from the spec: the constructor FilterTreeFolder(text) is not in
src/. The object `new FilterTreeFolder(s)` at address `a`: a Folder with the
display text and warning flag the environment gives, not editable, not the
fave folder, no checkbox, no rows. -/
def newFolder (env : Env) (a : Nat) (s : String) : Item :=
  Item.node
    { id := a, kind := Kind.Folder, text := env.folderText s, hash := "",
      isWarning := env.folderWarning s, isFave := false, isFaveFolder := false,
      editable := false, visibilityItem := none } []

/-- Modelled from the spec: the constructor FilterTreeItem(text) and its
setters are not in src/. The object `new FilterTreeItem(text)` at address `a`,
after `setHash`, `setWarningFlag` and `setFaveFlag`: a filter leaf with its
display name, hash and flags, no checkbox, no rows. -/
def newFilterItem (env : Env) (a : Nat) (text hash : String) (warning fave : Bool) : Item :=
  Item.node
    { id := a, kind := Kind.FilterItem, text := env.itemText text, hash := hash,
      isWarning := warning, isFave := fave, isFaveFolder := false,
      editable := false, visibilityItem := none } []

/-- Modelled from the spec: the class FilterTreeNullItem is not in src/. The
object `new FilterTreeNullItem()` at address `a`: a placeholder leaf. -/
def newNullItem (a : Nat) : Item :=
  Item.node
    { id := a, kind := Kind.NullItem, text := "", hash := "",
      isWarning := false, isFave := false, isFaveFolder := false,
      editable := false, visibilityItem := none } []

/-- The row that FiltersView::addStandardItemWithCheckbox appends: the item
with a fresh checkbox cell (a new checkable QStandardItem is unchecked). -/
def withCheckbox (i : Item) : Item :=
  Item.node { i.d with visibilityItem := some CheckState.Unchecked } i.rows

/-- FiltersView::addStandardItemWithCheckbox(folder, item) followed by
`item->setVisibility(flag)`, as every caller does: the folder after the two
calls. The second call acts on the row just appended. -/
def addStandardItemWithCheckbox (folder : Item) (item : Item) (flag : Bool) : Item :=
  folder.appendRow ((withCheckbox item).setVisibility flag)

/-! ## Sorting (QStandardItem::sortChildren) -/

/-- One step of a stable insertion sort: `x` goes before the first element it
is less than-or-equal to, that is before the first `y` with `¬ y < x`. -/
def insertSorted (lt : Item → Item → Bool) (x : Item × Item) : List (Item × Item) → List (Item × Item)
  | [] => [x]
  | y :: ys => if lt y.1 x.1 then y :: insertSorted lt x ys else x :: y :: ys

/-- A stable sort of pairs by their first components (`std::stable_sort`). -/
def stableSort (lt : Item → Item → Bool) : List (Item × Item) → List (Item × Item)
  | [] => []
  | x :: xs => insertSorted lt x (stableSort lt xs)

namespace Item

mutual
/-- QStandardItem::sortChildren(0): the rows are compared as they are and
put in order (stable), and every row is sorted in turn (the function is
recursive in Qt). -/
def sortChildren (lt : Item → Item → Bool) : Item → Item
  | node d rows => node d ((stableSort lt (sortedPairs lt rows)).map Prod.snd)
/-- Every row paired with its sorted version. -/
def sortedPairs (lt : Item → Item → Bool) : List Item → List (Item × Item)
  | [] => []
  | x :: xs => (x, sortChildren lt x) :: sortedPairs lt xs
end

end Item

/-! ## Path resolution -/

/-- The loop test of createFolder and getFolderFromPath: the row is a
FilterTreeFolder whose text is the segment without its warning prefix. -/
def isFolderNamed (env : Env) (seg : String) (c : Item) : Bool :=
  c.isFolder && decide (c.text = env.removeWarningPrefix seg)

/-- FiltersView::getFolderFromPath(QStandardItem * parent, QList<QString> path),
for a non-null parent: descend into the first matching row, segment by
segment; `none` is nullptr. -/
def getFolderFromPath (env : Env) : Item → List String → Option Item
  | parent, [] => some parent
  | parent, seg :: rest =>
    match parent.rows.find? (isFolderNamed env seg) with
    | some folder => getFolderFromPath env folder rest
    | none => none

/-- The loop of FiltersView::createFolder over the rows of the parent: `step`
is the recursive call on the folder found or created, `fresh` the folder that
is created and appended when no row matches. Gives the new rows, the address
returned and the next free address. -/
def createFolderRows (step : Item → Nat → Item × Nat × Nat) (fresh : Nat → Item)
    (found : Item → Bool) : List Item → Nat → List Item × Nat × Nat
  | [], next =>
    let r := step (fresh next) (next + 1)
    ([r.1], r.2)
  | x :: xs, next =>
    if found x then
      let r := step x next
      (r.1 :: xs, r.2)
    else
      let r := createFolderRows step fresh found xs next
      (x :: r.1, r.2)

/-- FiltersView::createFolder(QStandardItem * parent, QList<QString> path) for
a non-null parent, on the subtree of the parent: gives the parent after the
call, the address of the folder returned and the next free address. In
selection mode the new folder gets a checkbox, set to checked. -/
def createFolder (env : Env) (sel : Bool) : List String → Item → Nat → Item × Nat × Nat
  | [], parent, next => (parent, parent.id, next)
  | seg :: rest, parent, next =>
    let r := createFolderRows (createFolder env sel rest)
      (fun a => if sel then (withCheckbox (newFolder env a seg)).setVisibility true
                else newFolder env a seg)
      (isFolderNamed env seg) parent.rows next
    (parent.setRows r.1, r.2)

/-! ## The view -/

/-- Modelled from the spec: FiltersVisibilityMap is not in src/. A map from
hash to bool; a hash the map does not know is visible. -/
def filterIsVisible (m : List (String × Bool)) (hash : String) : Bool :=
  match m.find? (fun e => decide (e.1 = hash)) with
  | some e => e.2
  | none => true

/-- Modelled from the spec: FiltersVisibilityMap::setVisibility is not in
src/. The entry of the hash is overridden. -/
def setVisibility (m : List (String × Bool)) (hash : String) (b : Bool) : List (String × Bool) :=
  (hash, b) :: m.filter (fun e => !decide (e.1 = hash))

/-- The members of FiltersView that the functions below read and write.
`root` is `_model.invisibleRootItem()` with the whole tree below it,
`visibilityMap` the static FiltersVisibilityMap, `nextAddr` the address the
next `new` returns. -/
structure FiltersView where
  root : Item
  _faveFolder : Option Nat
  _cachedFolder : Option Nat
  _cachedFolderPath : List String
  _isInSelectionMode : Bool
  visibilityMap : List (String × Bool)
  nextAddr : Nat

namespace FiltersView

/-- The state the constructor leaves: an empty model, no fave folder, the
cache on the invisible root with the empty path, browse mode. -/
def init (visibilityMap : List (String × Bool)) : FiltersView :=
  { root := Item.node
      { id := 0, kind := Kind.StandardItem, text := "", hash := "", isWarning := false,
        isFave := false, isFaveFolder := false, editable := true, visibilityItem := none } [],
    _faveFolder := none,
    _cachedFolder := some 0,
    _cachedFolderPath := [],
    _isInSelectionMode := false,
    visibilityMap := visibilityMap,
    nextAddr := 1 }

/-- The pointer `dynamic_cast<FilterTreeFolder *>(item->parent())` for the
item at address `p`. -/
def parentFolder (s : FiltersView) (p : Nat) : Option Nat :=
  ((s.root.parent? p).filter Item.isFolder).map Item.id

/-- FiltersView::enableSelectionMode. -/
def enableSelectionMode (s : FiltersView) : FiltersView :=
  { s with _isInSelectionMode := true }

/-- FiltersView::createFolder(QStandardItem * parent, QList<QString> path)
through the pointer `parent`. A null or dangling parent (the Q_ASSERT_X of the
source) gives no folder and changes nothing. -/
def createFolderAt (env : Env) (s : FiltersView) (parent : Option Nat) (path : List String) :
    FiltersView × Option Nat :=
  match parent.bind (fun p => s.root.find? p) with
  | none => (s, none)
  | some par =>
    let r := createFolder env s._isInSelectionMode path par s.nextAddr
    ({ s with root := s.root.modify par.id (fun _ => r.1), nextAddr := r.2.2 }, some r.2.1)

/-- FiltersView::createFolder(const QList<QString> & path). -/
def createFolder (env : Env) (s : FiltersView) (path : List String) : FiltersView :=
  (s.createFolderAt env (some s.root.id) path).1

/-- FiltersView::createFaveFolder. -/
def createFaveFolder (env : Env) (s : FiltersView) : FiltersView :=
  match s._faveFolder with
  | some _ => s
  | none =>
    let f := Item.node { (newFolder env s.nextAddr env.faveFolderText).d with isFaveFolder := true } []
    { s with
      _faveFolder := some s.nextAddr,
      root := (s.root.appendRow f).sortChildren env.lessThan,
      nextAddr := s.nextAddr + 1 }

/-- FiltersView::removeFaveFolder: `removeRow(_faveFolder->row())` on the
invisible root. -/
def removeFaveFolder (s : FiltersView) : FiltersView :=
  match s._faveFolder with
  | none => s
  | some f =>
    { s with
      root :=
        match (s.root.parent? f).bind (fun par => par.rows.findIdx? (fun c => decide (c.id = f))) with
        | some row => s.root.removeRow row
        | none => s.root,
      _faveFolder := none }

/-- FiltersView::sort. -/
def sort (env : Env) (s : FiltersView) : FiltersView :=
  { s with root := s.root.sortChildren env.lessThan }

/-- FiltersView::sortFaves. -/
def sortFaves (env : Env) (s : FiltersView) : FiltersView :=
  match s._faveFolder with
  | some f => { s with root := s.root.modify f (Item.sortChildren env.lessThan) }
  | none => s

/-- FiltersView::clear. -/
def clear (s : FiltersView) : FiltersView :=
  let s1 := s.removeFaveFolder
  { s1 with
    root := s1.root.setRows [],
    _cachedFolder := some s1.root.id,
    _cachedFolderPath := [] }

/-- FiltersView::getFolderFromPath(const QList<QString> & path): the lookup
through the single-entry cache. Gives the view (the cache may change) and the
pointer returned. -/
def getFolderFromPath (env : Env) (s : FiltersView) (path : List String) :
    FiltersView × Option Nat :=
  if path = s._cachedFolderPath then (s, s._cachedFolder)
  else
    let r := (GmicQt.getFolderFromPath env s.root path).map Item.id
    ({ s with _cachedFolder := r, _cachedFolderPath := path }, r)

/-- The uncached lookup `getFolderFromPath(_model.invisibleRootItem(), path)`
as a pointer. -/
def getFolderFromRoot (env : Env) (s : FiltersView) (path : List String) : Option Nat :=
  (GmicQt.getFolderFromPath env s.root path).map Item.id

/-- FiltersView::getFaveSubfolderFromPath. -/
def getFaveSubfolderFromPath (env : Env) (s : FiltersView) (path : List String) : Option Nat :=
  match s._faveFolder with
  | none => none
  | some f =>
    if path.isEmpty then some f
    else
      (((s.root.find? f).bind (fun fi => GmicQt.getFolderFromPath env fi path)).filter
        Item.isFolder).map Item.id

/-- FiltersView::updateNullItemInFaveSubfolder. -/
def updateNullItemInFaveSubfolder (s : FiltersView) (folder : Option Nat) : FiltersView :=
  match folder.bind (fun p => s.root.find? p) with
  | none => s
  | some f =>
    if f.rowCount = 0 then
      { s with
        root := s.root.modify f.id (fun i => i.appendRow (newNullItem s.nextAddr)),
        nextAddr := s.nextAddr + 1 }
    else if decide (f.rowCount > 1) && (f.rows.head?.map Item.isNullItem).getD false then
      { s with root := s.root.modify f.id (Item.removeRow 0) }
    else s

/-- FiltersView::createFaveSubfolder. The source calls `setEditable` on the
result of the cast before it tests it; on a null pointer nothing is modelled
to happen. -/
def createFaveSubfolder (env : Env) (s : FiltersView) (path : List String) :
    FiltersView × Option Nat :=
  let s1 := if s._faveFolder.isNone then s.createFaveFolder env else s
  let r := s1.createFolderAt env s1._faveFolder path
  let folder := ((r.2.bind (fun p => r.1.root.find? p)).filter Item.isFolder).map Item.id
  match folder with
  | none => (r.1, none)
  | some p =>
    let s2 := { r.1 with root := r.1.root.modify p (Item.setEditable true) }
    let s3 := s2.updateNullItemInFaveSubfolder (some p)
    (s3.sortFaves env, some p)

/-- The address `nextAddr` has been given to a new object. -/
def allocated (s : FiltersView) : FiltersView :=
  { s with nextAddr := s.nextAddr + 1 }

/-- The two ways addFilter and addFave put the new item in the folder:
with a checkbox set from the visibility in selection mode, a plain appendRow
otherwise. -/
def appendItem (s : FiltersView) (folder : Nat) (item : Item) (visible : Bool) : FiltersView :=
  if s._isInSelectionMode then
    { s with
      root := s.root.modify folder (fun f => addStandardItemWithCheckbox f item visible) }
  else
    { s with root := s.root.modify folder (fun f => f.appendRow item) }

/-- FiltersView::addFilter. -/
def addFilter (env : Env) (s : FiltersView) (text hash : String) (path : List String)
    (warning : Bool) : FiltersView :=
  let filterIsVisible := GmicQt.filterIsVisible s.visibilityMap hash
  if !s._isInSelectionMode && !filterIsVisible then s
  else
    let r := s.getFolderFromPath env path
    let r2 :=
      match r.2 with
      | some folder => (r.1, some folder)
      | none => r.1.createFolderAt env (some r.1.root.id) path
    match r2.2 with
    | none => r2.1
    | some folder =>
      (r2.1.appendItem folder (newFilterItem env r2.1.nextAddr text hash warning false)
        filterIsVisible).allocated

/-- FiltersView::addFave. Where the source would go through a null `folder`
(createFaveSubfolder gave nullptr), the view is left as it is at that point. -/
def addFave (env : Env) (s : FiltersView) (text hash : String) (path : List String) :
    FiltersView :=
  let faveIsVisible := GmicQt.filterIsVisible s.visibilityMap hash
  if !s._isInSelectionMode && !faveIsVisible then s
  else
    let s1 := if s._faveFolder.isNone then s.createFaveFolder env else s
    let r :=
      match s1.getFaveSubfolderFromPath env path with
      | some folder => (s1, some folder)
      | none =>
        let c := s1.createFaveSubfolder env path
        match c.2 with
        | none => (c.1, none)
        | some folder => (c.1.updateNullItemInFaveSubfolder (c.1.parentFolder folder), some folder)
    match r.2 with
    | none => r.1
    | some folder =>
      if text.isEmpty then r.1.updateNullItemInFaveSubfolder (some folder)
      else
        let s2 :=
          (r.1.appendItem folder (newFilterItem env r.1.nextAddr text hash false true)
            faveIsVisible).allocated
        s2.updateNullItemInFaveSubfolder (some folder)

end FiltersView

namespace Item

mutual
/-- FiltersView::findFave(hash, folder) for a non-null folder: the first
FilterTreeItem with this hash in the rows, searched depth first through the
rows that are folders. -/
def findFave (hash : String) : Item → Option Item
  | node _ rows => findFaveRows hash rows
/-- The loop of findFave over the rows. -/
def findFaveRows (hash : String) : List Item → Option Item
  | [] => none
  | node d rs :: xs =>
    if d.kind = Kind.FilterItem ∧ d.hash = hash then some (node d rs)
    else if d.kind = Kind.Folder then
      match findFave hash (node d rs) with
      | some r => some r
      | none => findFaveRows hash xs
    else findFaveRows hash xs
end

end Item

namespace FiltersView

/-- FiltersView::findFave(hash): the search below `_faveFolder`, nullptr
without a fave folder. -/
def findFave (s : FiltersView) (hash : String) : Option Item :=
  (s._faveFolder.bind (fun f => s.root.find? f)).bind (Item.findFave hash)

/-- FiltersView::removeFave. -/
def removeFave (s : FiltersView) (hash : String) : FiltersView :=
  match s.findFave hash with
  | none => s
  | some fave =>
    let parentFolder := s.parentFolder fave.id
    let s1 := { s with root := s.root.removeItem fave.id }
    let s2 := s1.updateNullItemInFaveSubfolder parentFolder
    match s2._faveFolder.bind (fun f => s2.root.find? f) with
    | some f => if f.rowCount = 0 then s2.removeFaveFolder else s2
    | none => s2

/-- FiltersView::updateFaveItem. -/
def updateFaveItem (s : FiltersView) (currentHash newHash newName : String) : FiltersView :=
  match s.findFave currentHash with
  | none => s
  | some item =>
    { s with
      root := s.root.modify item.id
        (fun i => Item.node { i.d with text := newName, hash := newHash } i.rows) }

end FiltersView

/-! ## A concrete environment, for the examples -/

/-- A warning prefix of one character, `!`, taken off the front. -/
def stripBang (s : String) : String :=
  match s.data with
  | '!' :: cs => String.mk cs
  | _ => s

/-- Whether the text starts with `!`. -/
def hasBang (s : String) : Bool :=
  match s.data with
  | '!' :: _ => true
  | _ => false

/-- An order for the examples: the fave folder first, then folders before
other items, then by text. -/
def sampleLessThan (a b : Item) : Bool :=
  if a.d.isFaveFolder != b.d.isFaveFolder then a.d.isFaveFolder
  else if a.isFolder != b.isFolder then a.isFolder
  else decide (a.text.data < b.text.data)

/-- An environment for the examples: the prefix `!` marks a warning, a new
folder or item shows its name without the prefix, the fave folder is called
`Faves`. -/
def sampleEnv : Env :=
  { removeWarningPrefix := stripBang,
    folderText := stripBang,
    folderWarning := hasBang,
    itemText := fun s => s,
    lessThan := sampleLessThan,
    faveFolderText := "Faves",
    favePathSeparator := "/" }

/-! ## The words of the specification, for the lookup -/

/-- The row a lookup of `seg` descends into: the first row of `parent` that is
a folder whose display text is the segment with its warning prefix removed. -/
def MatchingChild (env : Env) (parent : Item) (seg : String) (c : Item) : Prop :=
  ∃ before after, parent.rows = before ++ c :: after ∧
    c.isFolder = true ∧ c.text = env.removeWarningPrefix seg ∧
    ∀ x ∈ before, ¬ (x.isFolder = true ∧ x.text = env.removeWarningPrefix seg)

/-- `f` is the folder reached from `parent` by descending, segment by segment,
into the matching child folder. -/
inductive Descends (env : Env) : Item → List String → Item → Prop where
  | nil (parent : Item) : Descends env parent [] parent
  | cons {parent c f : Item} {seg : String} {rest : List String} :
      MatchingChild env parent seg c → Descends env c rest f →
      Descends env parent (seg :: rest) f

/-- At some level of the descent no child folder has a display text equal to
the next segment with its warning prefix removed. -/
def MissingSegment (env : Env) (parent : Item) (path : List String) : Prop :=
  ∃ done seg rest g, path = done ++ seg :: rest ∧ Descends env parent done g ∧
    ∀ c ∈ g.rows, ¬ (c.isFolder = true ∧ c.text = env.removeWarningPrefix seg)

/-! ## Well-formed views -/

/-- The view is well formed: no two items of the tree have the same address
(they are distinct C++ objects) and every address in use is below the next
one `new` gives. -/
def FiltersView.WF (s : FiltersView) : Prop :=
  (Item.ids s.root).Nodup ∧ ∀ i ∈ Item.ids s.root, i < s.nextAddr

/-- The cache is coherent: it holds nullptr or what the uncached lookup of
the cached path gives in the tree as it is. -/
def FiltersView.CacheCoherent (env : Env) (s : FiltersView) : Prop :=
  s._cachedFolder = none ∨
    s._cachedFolder = (GmicQt.getFolderFromPath env s.root s._cachedFolderPath).map Item.id

/-! ## The tree seen along a path -/

/-- Apply `h` to the first row that `found` accepts. -/
def modifyFirst (found : Item → Bool) (h : Item → Item) : List Item → List Item
  | [] => []
  | x :: xs => if found x then h x :: xs else x :: modifyFirst found h xs

/-- The tree with `g` applied to the folder that the lookup of `path` reaches
(the tree itself when the lookup fails). -/
def modifyPath (env : Env) (g : Item → Item) : List String → Item → Item
  | [], t => g t
  | seg :: rest, t => t.setRows (modifyFirst (isFolderNamed env seg) (modifyPath env g rest) t.rows)

/-- Two paths with the same segments once the warning prefix is removed. -/
def samePath (env : Env) (p q : List String) : Bool :=
  decide (p.map env.removeWarningPrefix = q.map env.removeWarningPrefix)

/-- The hashes of the filter leaves that are rows of the folder `path`
addresses, in row order; none when the lookup fails. -/
def leafHashes (env : Env) (t : Item) (path : List String) : List String :=
  match getFolderFromPath env t path with
  | some f => (f.rows.filter Item.isFilterItem).map Item.hash
  | none => []

/-- One call of addFilter. -/
structure AddFilterCall where
  text : String
  hash : String
  path : List String
  warning : Bool

/-- A sequence of addFilter calls, in order. -/
def FiltersView.addFilters (env : Env) (s : FiltersView) (calls : List AddFilterCall) :
    FiltersView :=
  calls.foldl (fun v c => v.addFilter env c.text c.hash c.path c.warning) s

/-- The row addFilter and addFave append for `item`: with its checkbox set
from the visibility in selection mode, the item as it is otherwise. -/
def checkedRow (sel : Bool) (item : Item) (visible : Bool) : Item :=
  if sel then (withCheckbox item).setVisibility visible else item

/-- The view after addFilter has found or created the folder of the path and
appended the row of the new item. -/
def FiltersView.withFilter (env : Env) (v : FiltersView) (text hash : String)
    (path : List String) (warning visible : Bool) : FiltersView :=
  { v with
    root := modifyPath env
      (fun f => f.appendRow (checkedRow v._isInSelectionMode
        (newFilterItem env (GmicQt.createFolder env v._isInSelectionMode path v.root v.nextAddr).2.2
          text hash warning false) visible))
      path (GmicQt.createFolder env v._isInSelectionMode path v.root v.nextAddr).1,
    nextAddr := (GmicQt.createFolder env v._isInSelectionMode path v.root v.nextAddr).2.2 + 1 }

/-- The empty view: what the constructor leaves, in browse mode or (for
`sel`) after enableSelectionMode. -/
def FiltersView.empty (visibilityMap : List (String × Bool)) (sel : Bool) : FiltersView :=
  { FiltersView.init visibilityMap with _isInSelectionMode := sel }

/-- The path `q` leads into or below the folder of `p`: the segments of `p`
start the segments of `q`, the warning prefix removed. -/
def underPath (env : Env) : List String → List String → Bool
  | [], _ => true
  | _ :: _, [] => false
  | a :: p, b :: q =>
    decide (env.removeWarningPrefix a = env.removeWarningPrefix b) && underPath env p q

/-- The filter leaves at any depth below an item, depth first. -/
def allLeaves (f : Item) : List Item :=
  (Item.itemsRows f.rows).filter Item.isFilterItem

/-- The hashes of the filter leaves at any depth below the folder `path`
addresses; none when the lookup fails. -/
def leafHashesBelow (env : Env) (t : Item) (path : List String) : List String :=
  match getFolderFromPath env t path with
  | some f => (allLeaves f).map Item.hash
  | none => []

/-! ## The tree view: indexes, the selection, expanded folders -/

/-- A QModelIndex of `_model`: the invalid index, or the cell in `row` and
`column` below the item at address `parent` (the invisible root for a
top-level row). Column 0 holds the item of the row, column 1 its checkbox. -/
inductive ModelIndex where
  | invalid
  | cell (parent : Nat) (row : Nat) (column : Nat)
  deriving DecidableEq, Repr

/-- What FiltersView.cpp reads and writes outside the model: in `ui->treeView`
the folders shown expanded (by address) and the current index, in
`_itemEditionDelegate` the text the editor started with. -/
structure TreeView where
  expanded : List Nat
  currentIndex : ModelIndex
  textBeforeEditing : String

namespace TreeView

/-- QTreeView::isExpanded, for the index of the item at address `a`. -/
def isExpanded (v : TreeView) (a : Nat) : Bool := decide (a ∈ v.expanded)

/-- QTreeView::expand, for the index of the item at address `a`. -/
def expand (v : TreeView) (a : Nat) : TreeView :=
  { v with expanded := a :: v.expanded.filter (fun b => !decide (b = a)) }

/-- QTreeView::collapse, for the index of the item at address `a`. -/
def collapse (v : TreeView) (a : Nat) : TreeView :=
  { v with expanded := v.expanded.filter (fun b => !decide (b = a)) }

end TreeView

/-- A `QStandardItem *` as a cell of the model holds it: the item of a row, in
column 0 (`left`, a FilterTree item with its rows), or the plain item in a
further column of a row (`other`), given by the address of the item of the row
and the column: the checkbox that addStandardItemWithCheckbox puts in column
1, or an item without data. -/
inductive QStandardItem where
  | left (x : Item)
  | other (rowItem : Nat) (column : Nat)

namespace QStandardItem

/-- The cast `dynamic_cast<FilterTreeItem *>(item)`: a plain item is not a
FilterTreeItem. -/
def asFilterTreeItem : QStandardItem → Option Item
  | left x => if x.isFilterItem then some x else none
  | other _ _ => none

/-- The cast `dynamic_cast<FilterTreeFolder *>(item)`. -/
def asFilterTreeFolder : QStandardItem → Option Item
  | left x => if x.isFolder then some x else none
  | other _ _ => none

end QStandardItem

/-- QStandardItem::child(row, column) of an item of the tree: column 0 of a
row holds the item of the row; a further column holds a plain item of its
own, the checkbox in column 1 or the item that itemFromIndex creates where the
cell is empty. Nothing (nullptr) when the row is not there. -/
def Item.child (p : Item) (row column : Nat) : Option QStandardItem :=
  (p.rows.get? row).map
    (fun x => if column = 0 then QStandardItem.left x else QStandardItem.other x.id column)

namespace FiltersView

/-- `_model.itemFromIndex(index)` for an index of the model: the item in the
cell of the index, the child in its row and column of the item the index has
as parent. -/
def itemFromIndex (s : FiltersView) : ModelIndex → Option QStandardItem
  | ModelIndex.invalid => none
  | ModelIndex.cell parent row column =>
    (s.root.find? parent).bind (fun p => p.child row column)

/-- `item->parent()` with `_model.invisibleRootItem()` in the place of nullptr,
as filterTreeStandardItemFromIndex computes it: a cell of a further column has
the parent of the item of its row. -/
def parentOrRoot (s : FiltersView) : QStandardItem → Item
  | QStandardItem.left x => (s.root.parent? x.id).getD s.root
  | QStandardItem.other a _ => (s.root.parent? a).getD s.root

/-- FiltersView::filterTreeStandardItemFromIndex: the item of the index, its
parent (the invisible root for a top-level row), then
`parentFolder->child(row, 0)`, the item in column 0 of the row of the index
below that parent. -/
def filterTreeStandardItemFromIndex (s : FiltersView) : ModelIndex → Option QStandardItem
  | ModelIndex.invalid => none
  | ModelIndex.cell parent row column =>
    match s.itemFromIndex (ModelIndex.cell parent row column) with
    | none => none
    | some item =>
      let parentFolder := s.parentOrRoot item
      parentFolder.child row 0

/-- FiltersView::filterTreeItemFromIndex. -/
def filterTreeItemFromIndex (s : FiltersView) (index : ModelIndex) : Option Item :=
  (s.filterTreeStandardItemFromIndex index).bind QStandardItem.asFilterTreeItem

/-- FiltersView::filterTreeFolderFromIndex. -/
def filterTreeFolderFromIndex (s : FiltersView) (index : ModelIndex) : Option Item :=
  (s.filterTreeStandardItemFromIndex index).bind QStandardItem.asFilterTreeFolder

/-- FiltersView::selectedItem. -/
def selectedItem (s : FiltersView) (v : TreeView) : Option Item :=
  s.filterTreeItemFromIndex v.currentIndex

/-- FiltersView::selectedFolder. -/
def selectedFolder (s : FiltersView) (v : TreeView) : Option Item :=
  s.filterTreeFolderFromIndex v.currentIndex

end FiltersView

/-! ## Paths of items, and the rename request -/

namespace Item

mutual
/-- Modelled from the spec: FilterTreeAbstractItem::path is not in src/. The
path of the item at address `p` below this item: the display texts from the
top-level folder down to the item itself (the invisible root has no name);
`none` when the address is not below this item. -/
def pathBelow (p : Nat) : Item → Option (List String)
  | node _ rows => pathRows p rows
/-- The path of the item at address `p`, searched in the rows. -/
def pathRows (p : Nat) : List Item → Option (List String)
  | [] => none
  | x :: xs =>
    if x.d.id = p then some [x.d.text]
    else
      match pathBelow p x with
      | some l => some (x.d.text :: l)
      | none => pathRows p xs
end

end Item

/-- The signals onRenameFinished emits, with their arguments. -/
inductive Signal where
  | faveRenamed (hash : String) (name : String)
  | faveSubfolderRenamed (path : String) (name : String)
  deriving DecidableEq, Repr

namespace FiltersView

/-- FiltersView::onRenameFinished(editor), `editorText` being
`lineEdit->text()`: the signal emitted, if any. `path.back()` on an empty list
(the selected folder is a top-level one) is undefined in the source; no signal
is modelled there. -/
def onRenameFinished (env : Env) (s : FiltersView) (v : TreeView) (editorText : String) :
    Option Signal :=
  match s.selectedItem v with
  | some item => some (Signal.faveRenamed item.hash editorText)
  | none =>
    match s.selectedFolder v with
    | none => none
    | some folder =>
      let path := ((s.root.pathBelow folder.id).getD []).drop 1
      match path.getLast? with
      | none => none
      | some newName =>
        let path2 := path.dropLast ++ [v.textBeforeEditing]
        some (Signal.faveSubfolderRenamed (env.favePathSeparator.intercalate path2) newName)

end FiltersView

/-! ## Expanded folders -/

/-- FiltersView::FilterTreePathSeparator. -/
def FilterTreePathSeparator : String := "\t"

namespace Item

mutual
/-- FiltersView::expandFolders(folderPaths, folder) for a non-null folder of
the tree below `root`: every row that is a folder is expanded when its path,
joined, is in the list and collapsed otherwise, then its own rows are
visited. -/
def expandFolders (root : Item) (folderPaths : List String) : Item → TreeView → TreeView
  | node _ rows, v => expandFoldersRows root folderPaths rows v
/-- The loop of expandFolders over the rows. -/
def expandFoldersRows (root : Item) (folderPaths : List String) : List Item → TreeView → TreeView
  | [], v => v
  | node d rs :: xs, v =>
    if d.kind = Kind.Folder then
      let v1 :=
        if folderPaths.contains (FilterTreePathSeparator.intercalate ((root.pathBelow d.id).getD []))
        then v.expand d.id else v.collapse d.id
      expandFoldersRows root folderPaths xs (expandFolders root folderPaths (node d rs) v1)
    else expandFoldersRows root folderPaths xs v
end

end Item

/-- FiltersView::expandFolders(folderPaths): the walk from the invisible
root. -/
def FiltersView.expandFolders (s : FiltersView) (folderPaths : List String) (v : TreeView) :
    TreeView :=
  Item.expandFolders s.root folderPaths s.root v

/-! ## Checkboxes -/

namespace Item

mutual
/-- Modelled from the spec: FilterTreeFolder::applyVisibilityStatusToFolderContents
is not in src/. The rows below a folder after the cascade: the checkbox of
every folder and filter leaf is set to the state given, at any depth below
folders (each folder hands the state on to its own rows). -/
def setVisibilityBelow (flag : Bool) : Item → Item
  | node d rows => node d (setVisibilityRows flag rows)
/-- The cascade over the rows. -/
def setVisibilityRows (flag : Bool) : List Item → List Item
  | [] => []
  | node d rs :: xs =>
    (if d.kind = Kind.Folder then (setVisibilityBelow flag (node d rs)).setVisibility flag
     else if d.kind = Kind.FilterItem then (node d rs).setVisibility flag
     else node d rs) :: setVisibilityRows flag xs
end

/-- Modelled from the spec: FilterTreeFolder::applyVisibilityStatusToFolderContents
is not in src/. The state of the folder, checked or not, goes to everything
below it. -/
def applyVisibilityStatusToFolderContents (f : Item) : Item :=
  setVisibilityBelow f.isVisible f

/-- Modelled from the spec: FilterTreeFolder::isFullyUnchecked is not in src/.
All the filter leaves below the folder, at any depth, are unchecked. -/
def isFullyUnchecked (f : Item) : Bool :=
  (allLeaves f).all (fun l => !l.isVisible)

/-- The call `folder->setVisibility(flag)` with the signal it raises: when the
state of the checkbox changes, the model emits itemChanged and the slot
onItemChanged (connected in the constructor) hands the state on to the
contents of the folder. -/
def setFolderVisibility (flag : Bool) (f : Item) : Item :=
  if (f.setVisibility flag).d.visibilityItem = f.d.visibilityItem then f.setVisibility flag
  else (f.setVisibility flag).applyVisibilityStatusToFolderContents

mutual
/-- FiltersView::uncheckFullyUncheckedFolders(folder) for a non-null folder:
the folder after the pass over its rows. -/
def uncheckFullyUncheckedFolders : Item → Item
  | node d rows => node d (uncheckRows rows)
/-- The loop of uncheckFullyUncheckedFolders over the rows. -/
def uncheckRows : List Item → List Item
  | [] => []
  | node d rs :: xs =>
    (if d.kind = Kind.Folder then
      (if (uncheckFullyUncheckedFolders (node d rs)).isFullyUnchecked
       then (uncheckFullyUncheckedFolders (node d rs)).setFolderVisibility false
       else uncheckFullyUncheckedFolders (node d rs))
     else node d rs) :: uncheckRows xs
end

mutual
/-- FiltersView::saveFiltersVisibility(item), on the visibility map: a filter
leaf stores its state under its hash, any other item hands the map through
its rows in order. -/
def saveFiltersVisibility (m : List (String × Bool)) : Item → List (String × Bool)
  | node d rows =>
    if d.kind = Kind.FilterItem then GmicQt.setVisibility m d.hash (node d rows).isVisible
    else saveFiltersVisibilityRows m rows
/-- The loop of saveFiltersVisibility over the rows. -/
def saveFiltersVisibilityRows (m : List (String × Bool)) : List Item → List (String × Bool)
  | [] => m
  | x :: xs => saveFiltersVisibilityRows (saveFiltersVisibility m x) xs
end

end Item

/-- A cell of the model, as the signal itemChanged passes it: the item of a
row (column 0) or the checkbox of the row (column 1), by the address of the
item of the row. Only checkbox cells are checkable. -/
inductive Cell where
  | item (a : Nat)
  | checkbox (a : Nat)
  deriving DecidableEq, Repr

namespace FiltersView

/-- The item `parentFolder->child(row)` of onItemChanged for a cell of the row
of the item at address `a`: the parent of the cell (the invisible root in the
place of nullptr), then its child in the row of the cell. -/
def leftItem (s : FiltersView) (a : Nat) : Option Item :=
  (s.root.parent? a).bind
    (fun p => (p.rows.findIdx? (fun c => decide (c.id = a))).bind (fun row => p.rows.get? row))

/-- FiltersView::onItemChanged. The last statement, `setData` with the data
the item has, changes nothing. -/
def onItemChanged (s : FiltersView) : Cell → FiltersView
  | Cell.item _ => s
  | Cell.checkbox a =>
    match s.leftItem a with
    | none => s
    | some left =>
      if left.isFolder then
        { s with root := s.root.modify left.id Item.applyVisibilityStatusToFolderContents }
      else s

/-- The user, or a caller, sets the checkbox of the row of the item at address
`a`; the model emits itemChanged for the checkbox cell when the state changes
and onItemChanged runs before control returns. -/
def setCheckState (s : FiltersView) (a : Nat) (c : CheckState) : FiltersView :=
  match s.root.find? a with
  | none => s
  | some i =>
    match i.d.visibilityItem with
    | none => s
    | some old =>
      if old = c then s
      else
        onItemChanged
          { s with
            root := s.root.modify a
              (fun i => Item.node { i.d with visibilityItem := some c } i.rows) }
          (Cell.checkbox a)

/-- FiltersView::uncheckFullyUncheckedFolders(), from the invisible root. -/
def uncheckFullyUncheckedFolders (s : FiltersView) : FiltersView :=
  { s with root := s.root.uncheckFullyUncheckedFolders }

/-- FiltersView::enableModel, on the tree: the pass over the folders in
selection mode (the header, the column count and the widths of the view are
not modelled). -/
def enableModel (s : FiltersView) : FiltersView :=
  if s._isInSelectionMode then s.uncheckFullyUncheckedFolders else s

/-- FiltersView::saveFiltersVisibility(_model.invisibleRootItem()). -/
def saveFiltersVisibility (s : FiltersView) : FiltersView :=
  { s with visibilityMap := Item.saveFiltersVisibility s.visibilityMap s.root }

/-- FiltersView::disableSelectionMode. -/
def disableSelectionMode (s : FiltersView) : FiltersView :=
  { s with _isInSelectionMode := false }.saveFiltersVisibility

end FiltersView

/-- Below the item only folders have rows: filter leaves and placeholders are
leaves. (A test; the trees the view builds are of this form.) -/
def Item.onlyFoldersHaveRows (t : Item) : Bool :=
  (Item.itemsRows t.rows).all (fun y => y.isFolder || y.rows.isEmpty)

/-- The visibility map after the states of a list of leaves are stored in
order, each under its hash. -/
def storeLeaves (m : List (String × Bool)) (leaves : List Item) : List (String × Bool) :=
  leaves.foldl (fun m l => setVisibility m l.hash l.isVisible) m

namespace Item

mutual
/-- The folders below an item that are reached through folders only: each row
that is a folder, then the folders below it. -/
def subfolders : Item → List Item
  | node _ rows => subfoldersRows rows
/-- The folders reached through folders in the rows. -/
def subfoldersRows : List Item → List Item
  | [] => []
  | node d rs :: xs =>
    if d.kind = Kind.Folder then node d rs :: (subfolders (node d rs) ++ subfoldersRows xs)
    else subfoldersRows xs
end

end Item

/-- One step of expandFolders, for the folder at address `a`: expanded when the
joined path of the folder is in the list, collapsed otherwise. -/
def expandStep (root : Item) (folderPaths : List String) (v : TreeView) (a : Nat) : TreeView :=
  if folderPaths.contains (FilterTreePathSeparator.intercalate ((root.pathBelow a).getD []))
  then v.expand a else v.collapse a

/-- Below these rows only folders have rows. -/
def LeafyRows (rows : List Item) : Prop :=
  ∀ y ∈ Item.itemsRows rows, y.isFolder = false → y.rows = []

/-- The filter leaves in and below the rows, at any depth, depth first. -/
def leavesOfRows (rows : List Item) : List Item :=
  (Item.itemsRows rows).filter Item.isFilterItem

/-- The row has no checkbox, or its checkbox shows the state given: checked
for true, unchecked for false. -/
def Item.BoxIs (flag : Bool) (x : Item) : Prop :=
  x.d.visibilityItem = none ∨
    x.d.visibilityItem = some (if flag then CheckState.Checked else CheckState.Unchecked)

/-! ## Invariants of the rows of an item -/

/-- What a row that is a folder shows to its parent: its address, its
fave-folder flag and its display text. -/
abbrev FKey : Type := Nat × Bool × String

/-- The key of a row. -/
def Item.fkey (c : Item) : FKey := (c.id, c.d.isFaveFolder, c.text)

/-- The keys of the rows of an item that are folders, in row order. -/
def Item.fkeys (x : Item) : List FKey := (x.rows.filter Item.isFolder).map Item.fkey

/-- A property of the tree stated row by row: `P` of the folder rows of the
invisible root, `Q` of the folder rows of every item below it. Both do not
depend on the order of the rows, and both survive a new folder, not flagged,
at the end of the rows, whose text no folder there has when `needFresh`
says that this matters. -/
structure RowInv where
  P : List FKey → Prop
  Q : List FKey → Prop
  needFresh : Prop
  permP : ∀ l l2 : List FKey, l.Perm l2 → P l → P l2
  permQ : ∀ l l2 : List FKey, l.Perm l2 → Q l → Q l2
  freshP : ∀ (l : List FKey) (a : Nat) (text : String),
    (needFresh → ∀ k ∈ l, k.2.2 ≠ text) → P l → P (l ++ [(a, false, text)])
  freshQ : ∀ (l : List FKey) (a : Nat) (text : String),
    (needFresh → ∀ k ∈ l, k.2.2 ≠ text) → Q l → Q (l ++ [(a, false, text)])
  nilQ : Q []

/-- The item `b2` takes the place of `b` without harm to a row invariant: it
is at the same address, a folder when `b` is, with the same key then, and what
held of the rows of `b` and below them holds of the rows of `b2` and below
them. -/
def Local (I : RowInv) (b b2 : Item) : Prop :=
  b2.id = b.id ∧ b2.isFolder = b.isFolder ∧ (b.isFolder = true → b2.fkey = b.fkey) ∧
  (I.P b.fkeys → I.P b2.fkeys) ∧ (I.Q b.fkeys → I.Q b2.fkeys) ∧
  ((∀ x ∈ Item.itemsRows b.rows, I.Q x.fkeys) → ∀ x ∈ Item.itemsRows b2.rows, I.Q x.fkeys)

/-- The row invariant holds in the tree of the view, and the view is well
formed. -/
def FiltersView.Inv (I : RowInv) (s : FiltersView) : Prop :=
  s.WF ∧ I.P s.root.fkeys ∧ ∀ x ∈ Item.itemsRows s.root.rows, I.Q x.fkeys

/-- One step of the view that keeps `_faveFolder`, and keeps well-formedness
and a row invariant. -/
def Evolves (I : RowInv) (s s2 : FiltersView) : Prop :=
  s2._faveFolder = s._faveFolder ∧ (s.WF → s2.WF) ∧ (s.WF → Local I s.root s2.root)

/-- The row invariant of the favorites root, for the value `o` of
`_faveFolder`: the folder rows of the invisible root that are flagged
isFaveFolder are exactly the one `o` refers to (none when `o` is nullptr), and
no folder row of any item below the root is flagged. -/
def flaggedInv (o : Option Nat) : RowInv where
  P := fun l => (l.filter (fun k => k.2.1)).map (fun k => k.1) = o.toList
  Q := fun l => l.filter (fun k => k.2.1) = []
  needFresh := False
  permP := by
    intro l l2 h hp
    have h2 := (h.filter (fun k => k.2.1)).map (fun k => k.1)
    rw [hp] at h2
    cases o with
    | none => exact List.Perm.eq_nil h2.symm
    | some a => exact List.perm_singleton.1 h2.symm
  permQ := by
    intro l l2 h hq
    have h2 := h.filter (fun k => k.2.1)
    rw [hq] at h2
    exact List.Perm.eq_nil h2.symm
  freshP := by
    intro l a text _ hp
    simpa [List.filter_append] using hp
  freshQ := by
    intro l a text _ hq
    simpa [List.filter_append] using hq
  nilQ := rfl

/-- The row invariant of the names: among the folder rows of an item that are
not flagged isFaveFolder, no two have the same display text. -/
def namesInv : RowInv where
  P := fun l => ((l.filter (fun k => !k.2.1)).map (fun k => k.2.2)).Nodup
  Q := fun l => ((l.filter (fun k => !k.2.1)).map (fun k => k.2.2)).Nodup
  needFresh := True
  permP := by
    intro l l2 h hp
    exact (((h.filter (fun k => !k.2.1)).map (fun k => k.2.2)).nodup_iff).1 hp
  permQ := by
    intro l l2 h hp
    exact (((h.filter (fun k => !k.2.1)).map (fun k => k.2.2)).nodup_iff).1 hp
  freshP := by
    intro l a text hf hp
    simp only [List.filter_append, List.map_append, List.filter_cons, List.filter_nil,
      Bool.not_false, if_true, List.map_cons, List.map_nil]
    rw [List.nodup_append]
    refine ⟨hp, List.nodup_singleton _, ?_⟩
    intro t ht1 ht2
    simp only [List.mem_singleton] at ht2
    subst ht2
    obtain ⟨k, hk, rfl⟩ := List.mem_map.1 ht1
    exact hf trivial k (List.mem_filter.1 hk).1 rfl
  freshQ := by
    intro l a text hf hp
    simp only [List.filter_append, List.map_append, List.filter_cons, List.filter_nil,
      Bool.not_false, if_true, List.map_cons, List.map_nil]
    rw [List.nodup_append]
    refine ⟨hp, List.nodup_singleton _, ?_⟩
    intro t ht1 ht2
    simp only [List.mem_singleton] at ht2
    subst ht2
    obtain ⟨k, hk, rfl⟩ := List.mem_map.1 ht1
    exact hf trivial k (List.mem_filter.1 hk).1 rfl
  nilQ := List.nodup_nil

/-- The states of the view that are reached from the state the constructor
leaves by the operations the controller drives on the tree. -/
inductive FiltersView.Reachable (env : Env) : FiltersView → Prop where
  | init (visibilityMap : List (String × Bool)) : Reachable env (FiltersView.init visibilityMap)
  | clear {s : FiltersView} : Reachable env s → Reachable env s.clear
  | addFilter {s : FiltersView} (text hash : String) (path : List String) (warning : Bool) :
      Reachable env s → Reachable env (s.addFilter env text hash path warning)
  | addFave {s : FiltersView} (text hash : String) (path : List String) :
      Reachable env s → Reachable env (s.addFave env text hash path)
  | createFolder {s : FiltersView} (path : List String) :
      Reachable env s → Reachable env (s.createFolder env path)
  | createFaveSubfolder {s : FiltersView} (path : List String) :
      Reachable env s → Reachable env (s.createFaveSubfolder env path).1
  | removeFave {s : FiltersView} (hash : String) :
      Reachable env s → Reachable env (s.removeFave hash)
  | updateFaveItem {s : FiltersView} (currentHash newHash newName : String) :
      Reachable env s → Reachable env (s.updateFaveItem currentHash newHash newName)
  | sort {s : FiltersView} : Reachable env s → Reachable env (s.sort env)
  | sortFaves {s : FiltersView} : Reachable env s → Reachable env (s.sortFaves env)
  | enableSelectionMode {s : FiltersView} : Reachable env s → Reachable env s.enableSelectionMode
  | disableSelectionMode {s : FiltersView} :
      Reachable env s → Reachable env s.disableSelectionMode

/-- A folder flagged isFaveFolder. -/
def Item.isFlaggedFolder (c : Item) : Bool := c.isFolder && c.d.isFaveFolder

/-- A folder that is not flagged isFaveFolder. -/
def Item.isRegularFolder (c : Item) : Bool := c.isFolder && !c.d.isFaveFolder

/-- The addresses of the filter leaves of the subtree of an item, the item
included, depth first. -/
def Item.leafIds (t : Item) : List Nat :=
  ((Item.items t).filter Item.isFilterItem).map Item.id

/-- The addresses of the filter leaves in and below the rows. -/
def leafIdsRows (rows : List Item) : List Nat :=
  ((Item.itemsRows rows).filter Item.isFilterItem).map Item.id

/-- What updateNullItemInFaveSubfolder leaves of the rows of the folder: a
placeholder (at address `a`) when there is no row, the rows without the first
one when that is a placeholder and others follow, the rows as they are
otherwise. -/
def updateNullRows (rows : List Item) (a : Nat) : List Item :=
  match rows with
  | [] => [newNullItem a]
  | n :: c :: rest => if n.isNullItem then c :: rest else n :: c :: rest
  | [c] => [c]

/-! ## The words of the specification, for updateFaveItem -/

namespace Item

mutual
/-- The tree with the text and the hash of the item at address `p` replaced,
and nothing else: every item keeps its place, its rows and the rest of its
data. Written from the words of the specification, to be compared with what
updateFaveItem does through the pointer. -/
def withTextAndHash (p : Nat) (newName newHash : String) : Item → Item
  | node d rows =>
    node (if d.id = p then { d with text := newName, hash := newHash } else d)
      (withTextAndHashRows p newName newHash rows)
/-- The rows, each with the text and the hash at address `p` replaced. -/
def withTextAndHashRows (p : Nat) (newName newHash : String) : List Item → List Item
  | [] => []
  | x :: xs => withTextAndHash p newName newHash x :: withTextAndHashRows p newName newHash xs
end

end Item

/-! ## Keeping and restoring the expanded folders -/

namespace Item

mutual
/-- FiltersView::preserveExpandedFolders(folder, list) for a non-null folder
of the tree below `root`: the joined path of every row that is a folder shown
expanded is pushed on the list, and the rows of every row that is a folder are
visited. -/
def preserveExpandedFolders (root : Item) (v : TreeView) : Item → List String → List String
  | node _ rows, list => preserveExpandedFoldersRows root v rows list
/-- The loop of preserveExpandedFolders over the rows. -/
def preserveExpandedFoldersRows (root : Item) (v : TreeView) :
    List Item → List String → List String
  | [], list => list
  | node d rs :: xs, list =>
    if d.kind = Kind.Folder then
      let list1 :=
        if v.isExpanded d.id then
          list ++ [FilterTreePathSeparator.intercalate ((root.pathBelow d.id).getD [])]
        else list
      preserveExpandedFoldersRows root v xs (preserveExpandedFolders root v (node d rs) list1)
    else preserveExpandedFoldersRows root v xs list
end

end Item

namespace FiltersView

/-- FiltersView::preserveExpandedFolders(): the new value of the member
`_expandedFolderPaths`. `emptyModel` is the test
`ui->treeView->model() == &_emptyModel` (the model is disabled), under which
the member is left as it is. -/
def preserveExpandedFolders (s : FiltersView) (v : TreeView) (emptyModel : Bool)
    (_expandedFolderPaths : List String) : List String :=
  if emptyModel then _expandedFolderPaths
  else Item.preserveExpandedFolders s.root v s.root []

/-- FiltersView::restoreExpandedFolders(), for the value of the member
`_expandedFolderPaths`. -/
def restoreExpandedFolders (s : FiltersView) (_expandedFolderPaths : List String)
    (v : TreeView) : TreeView :=
  s.expandFolders _expandedFolderPaths v

end FiltersView

/-- The path of the folder at address `a`, joined with the separator: the
string preserveExpandedFolders stores and expandFolders looks for. -/
def joinedPath (root : Item) (a : Nat) : String :=
  FilterTreePathSeparator.intercalate ((root.pathBelow a).getD [])

/-! # Theorems -/

namespace Item

@[simp] theorem d_node (d : ItemData) (rs : List Item) : (node d rs).d = d := rfl

@[simp] theorem rows_node (d : ItemData) (rs : List Item) : (node d rs).rows = rs := rfl

@[simp] theorem id_node (d : ItemData) (rs : List Item) : (node d rs).id = d.id := rfl

theorem node_eta (i : Item) : node i.d i.rows = i := by cases i; rfl

theorem ext_d_rows {a b : Item} (hd : a.d = b.d) (hr : a.rows = b.rows) : a = b := by
  cases a; cases b; simp at hd hr; simp [hd, hr]

end Item

theorem isFolderNamed_iff (env : Env) (seg : String) (c : Item) :
    isFolderNamed env seg c = true ↔
      (c.isFolder = true ∧ c.text = env.removeWarningPrefix seg) := by
  simp [isFolderNamed]

theorem isFolderNamed_congr (env : Env) (seg : String) {a b : Item} (h : a.d = b.d) :
    isFolderNamed env seg a = isFolderNamed env seg b := by
  simp [isFolderNamed, Item.isFolder, Item.text, h]

/-! ## C6: an entry that is not visible is skipped in browse mode -/

/-- C6. In browse mode, for a hash the visibility map marks not visible,
addFilter and addFave return the view as it was: no leaf, no folder along the
path and no fave folder is created (the cache and the allocator are untouched
as well). -/
theorem addFilter_addFave_skip_hidden (env : Env) (s : FiltersView) (text hash : String)
    (path : List String) (warning : Bool)
    (hmode : s._isInSelectionMode = false)
    (hhidden : filterIsVisible s.visibilityMap hash = false) :
    s.addFilter env text hash path warning = s ∧ s.addFave env text hash path = s := by
  constructor
  · simp [FiltersView.addFilter, hmode, hhidden]
  · simp [FiltersView.addFave, hmode, hhidden]

/-- C6, at a concrete input: the hash `h1` is hidden, the view is the one the
constructor leaves. -/
theorem addFilter_addFave_skip_hidden_witness :
    (FiltersView.init [("h1", false)]).addFilter sampleEnv "Blur" "h1" ["Effects"] false
        = FiltersView.init [("h1", false)] ∧
    (FiltersView.init [("h1", false)]).addFave sampleEnv "Blur" "h1" ["Mine"]
        = FiltersView.init [("h1", false)] :=
  addFilter_addFave_skip_hidden sampleEnv (FiltersView.init [("h1", false)]) "Blur" "h1"
    ["Effects"] false rfl (by decide)

/-! ## C8: the read-only lookup -/

theorem find?_isFolderNamed_iff (env : Env) (parent : Item) (seg : String) (c : Item) :
    parent.rows.find? (isFolderNamed env seg) = some c ↔ MatchingChild env parent seg c := by
  rw [List.find?_eq_some]
  constructor
  · rintro ⟨hc, before, after, hrows, hbefore⟩
    refine ⟨before, after, hrows, ((isFolderNamed_iff env seg c).1 hc).1,
      ((isFolderNamed_iff env seg c).1 hc).2, ?_⟩
    intro x hx hmatch
    have := hbefore x hx
    rw [(isFolderNamed_iff env seg x).2 hmatch] at this
    simp at this
  · rintro ⟨before, after, hrows, hf, ht, hbefore⟩
    refine ⟨(isFolderNamed_iff env seg c).2 ⟨hf, ht⟩, before, after, hrows, ?_⟩
    intro x hx
    have := hbefore x hx
    rw [← isFolderNamed_iff] at this
    simpa using this

theorem getFolderFromPath_iff_descends (env : Env) (path : List String) :
    ∀ (parent f : Item), getFolderFromPath env parent path = some f ↔ Descends env parent path f := by
  induction path with
  | nil =>
    intro parent f
    constructor
    · intro h
      simp [getFolderFromPath] at h
      subst h
      exact Descends.nil parent
    · intro h
      cases h
      simp [getFolderFromPath]
  | cons seg rest ih =>
    intro parent f
    constructor
    · intro h
      simp only [getFolderFromPath] at h
      split at h
      · next c hc =>
        exact Descends.cons ((find?_isFolderNamed_iff env parent seg c).1 hc) ((ih c f).1 h)
      · cases h
    · intro h
      cases h with
      | cons hm hd =>
        simp only [getFolderFromPath]
        rw [(find?_isFolderNamed_iff env parent seg _).2 hm]
        exact (ih _ f).2 hd

theorem getFolderFromPath_none_iff (env : Env) (path : List String) :
    ∀ (parent : Item), getFolderFromPath env parent path = none ↔ MissingSegment env parent path := by
  induction path with
  | nil =>
    intro parent
    simp [getFolderFromPath, MissingSegment]
  | cons seg rest ih =>
    intro parent
    simp only [getFolderFromPath]
    constructor
    · intro h
      split at h
      · next c hc =>
        obtain ⟨done, seg2, rest2, g, hpath, hdesc, hnone⟩ := (ih c).1 h
        refine ⟨seg :: done, seg2, rest2, g, by simp [hpath], ?_, hnone⟩
        exact Descends.cons ((find?_isFolderNamed_iff env parent seg c).1 hc) hdesc
      · next hnone =>
        refine ⟨[], seg, rest, parent, rfl, Descends.nil parent, ?_⟩
        intro c hc
        have := (List.find?_eq_none.1 hnone) c hc
        rwa [isFolderNamed_iff] at this
    · rintro ⟨done, seg2, rest2, g, hpath, hdesc, hnone⟩
      cases hdesc with
      | nil =>
        simp at hpath
        obtain ⟨rfl, rfl⟩ := hpath
        have : parent.rows.find? (isFolderNamed env seg) = none := by
          rw [List.find?_eq_none]
          intro c hc
          rw [isFolderNamed_iff]
          exact hnone c hc
        rw [this]
      | cons hm hd =>
        simp at hpath
        obtain ⟨rfl, rfl⟩ := hpath
        rw [(find?_isFolderNamed_iff env parent _ _).2 hm]
        exact (ih _).2 ⟨_, _, _, _, rfl, hd, hnone⟩

/-- C8. The lookup getFolderFromPath(parent, path) is a function of the tree
alone (it returns a pointer and no tree, so it modifies nothing, and the
cached variant leaves the tree as it is); it returns `parent` for the empty
path, nullptr exactly when at some level no child folder carries the next
segment without its warning prefix, and otherwise exactly the folder reached
by descending segment by segment into the matching child folder. -/
theorem getFolderFromPath_spec (env : Env) (parent : Item) (path : List String) :
    getFolderFromPath env parent [] = some parent ∧
    (getFolderFromPath env parent path = none ↔ MissingSegment env parent path) ∧
    (∀ f, getFolderFromPath env parent path = some f ↔ Descends env parent path f) ∧
    (∀ s : FiltersView, (s.getFolderFromPath env path).1.root = s.root) := by
  refine ⟨rfl, getFolderFromPath_none_iff env path parent,
    fun f => getFolderFromPath_iff_descends env path parent f, ?_⟩
  intro s
  simp only [FiltersView.getFolderFromPath]
  split <;> rfl

/-! ## Addresses: find? and modify -/

namespace Item

theorem find?_id (p : Nat) (t : Item) :
    ∀ a, find? p t = some a → a.id = p := by
  refine Item.rec (motive_1 := fun t => ∀ a, find? p t = some a → a.id = p)
    (motive_2 := fun rs => ∀ a, findRows? p rs = some a → a.id = p) ?_ ?_ ?_ t
  · intro d rows ih a h
    simp only [find?] at h
    split at h
    · next hid => cases h; simpa using hid
    · exact ih a h
  · intro a h
    simp [findRows?] at h
  · intro x xs ihx ihxs a h
    simp only [findRows?] at h
    split at h
    · next r hr => cases h; exact ihx _ hr
    · exact ihxs a h

theorem find?_self (t : Item) : find? t.id t = some t := by
  cases t with
  | node d rows => simp [find?]

theorem modify_self (g : Item → Item) (t : Item) : modify t.id g t = g t := by
  cases t with
  | node d rows => simp [modify]

/-- The item found at `p` after a call through `p` is the item found before,
after the call. -/
theorem find?_modify (p : Nat) (g : Item → Item) (hg : ∀ x, x.id = p → (g x).id = p) (t : Item) :
    find? p (modify p g t) = (find? p t).map g := by
  refine Item.rec (motive_1 := fun t => find? p (modify p g t) = (find? p t).map g)
    (motive_2 := fun rs => findRows? p (modifyRows p g rs) = (findRows? p rs).map g) ?_ ?_ ?_ t
  · intro d rows ih
    by_cases hid : d.id = p
    · have h1 : (g (node d rows)).id = p := hg _ (by simpa using hid)
      simp only [modify, find?, if_pos hid, Option.map_some']
      have := find?_self (g (node d rows))
      rw [h1] at this
      exact this
    · simp only [modify, find?, if_neg hid]
      exact ih
  · simp [modifyRows, findRows?]
  · intro x xs ihx ihxs
    simp only [modifyRows, findRows?]
    cases hx : find? p x with
    | some r =>
      simp only [findRows?, ihx, hx, Option.map_some']
    | none =>
      simp only [findRows?, hx, ihxs]

/-- A call through an address that is not in the tree changes nothing. -/
theorem modify_of_find?_none (p : Nat) (g : Item → Item) (t : Item) :
    find? p t = none → modify p g t = t := by
  refine Item.rec (motive_1 := fun t => find? p t = none → modify p g t = t)
    (motive_2 := fun rs => findRows? p rs = none → modifyRows p g rs = rs) ?_ ?_ ?_ t
  · intro d rows ih h
    by_cases hid : d.id = p
    · simp [find?, hid] at h
    · simp only [find?, if_neg hid] at h
      simp only [modify, if_neg hid, ih h]
  · intro _
    rfl
  · intro x xs ihx ihxs h
    simp only [findRows?] at h
    cases hx : find? p x with
    | some r => simp [hx] at h
    | none =>
      simp only [hx] at h
      simp only [modifyRows, hx, ihxs h]

/-- Putting back the item that is at `p` changes nothing. -/
theorem modify_const_of_find? (p : Nat) (a : Item) (t : Item) :
    find? p t = some a → modify p (fun _ => a) t = t := by
  refine Item.rec (motive_1 := fun t => find? p t = some a → modify p (fun _ => a) t = t)
    (motive_2 := fun rs => findRows? p rs = some a → modifyRows p (fun _ => a) rs = rs) ?_ ?_ ?_ t
  · intro d rows ih h
    by_cases hid : d.id = p
    · simp only [find?, if_pos hid, Option.some.injEq] at h
      simp only [modify, if_pos hid, h]
    · simp only [find?, if_neg hid] at h
      simp only [modify, if_neg hid, ih h]
  · intro h
    simp [findRows?] at h
  · intro x xs ihx ihxs h
    simp only [findRows?] at h
    cases hx : find? p x with
    | some r =>
      simp only [hx, Option.some.injEq] at h
      subst h
      simp only [modifyRows, hx, ihx hx]
    | none =>
      simp only [hx] at h
      simp only [modifyRows, hx, ihxs h]

/-- Two calls through the same address are one call. -/
theorem modify_modify (p : Nat) (g h : Item → Item) (hh : ∀ x, x.id = p → (h x).id = p) (t : Item) :
    modify p g (modify p h t) = modify p (fun x => g (h x)) t := by
  refine Item.rec
    (motive_1 := fun t => modify p g (modify p h t) = modify p (fun x => g (h x)) t)
    (motive_2 := fun rs =>
      modifyRows p g (modifyRows p h rs) = modifyRows p (fun x => g (h x)) rs) ?_ ?_ ?_ t
  · intro d rows ih
    by_cases hid : d.id = p
    · have h1 : (h (node d rows)).id = p := hh _ (by simpa using hid)
      simp only [modify, if_pos hid]
      rw [← h1, modify_self]
    · simp only [modify, if_neg hid, ih]
  · rfl
  · intro x xs ihx ihxs
    cases hx : find? p x with
    | some r =>
      have h2 : find? p (modify p h x) = some (h r) := by rw [find?_modify p h hh, hx]; rfl
      simp only [modifyRows, hx, h2, ihx]
    | none =>
      simp only [modifyRows, hx, ihxs]

theorem d_modify_of_keeps_d (p : Nat) (g : Item → Item) (hg : ∀ x, (g x).d = x.d) (t : Item) :
    (modify p g t).d = t.d := by
  cases t with
  | node d rows =>
    by_cases hid : d.id = p
    · simp only [modify, if_pos hid, hg, d_node]
    · simp only [modify, if_neg hid, d_node]

end Item

/-! ## C4: createFolder is idempotent -/

/-- The loop of createFolder run a second time on its own result finds the
folder of the first run and creates nothing, when the recursive call does. -/
theorem createFolderRows_idem (step : Item → Nat → Item × Nat × Nat) (fresh : Nat → Item)
    (found : Item → Bool) (hstep : ∀ x n, found (step x n).1 = found x)
    (hfresh : ∀ n, found (fresh n) = true)
    (hidem : ∀ x n m, step (step x n).1 m = ((step x n).1, (step x n).2.1, m)) :
    ∀ (rows : List Item) (n m : Nat),
      createFolderRows step fresh found (createFolderRows step fresh found rows n).1 m
        = ((createFolderRows step fresh found rows n).1,
           (createFolderRows step fresh found rows n).2.1, m) := by
  intro rows
  induction rows with
  | nil =>
    intro n m
    have h1 : found (step (fresh n) (n + 1)).1 = true := by rw [hstep]; exact hfresh n
    simp only [createFolderRows, h1, if_true, hidem]
  | cons x xs ih =>
    intro n m
    by_cases hx : found x = true
    · have h1 : found (step x n).1 = true := by rw [hstep]; exact hx
      simp only [createFolderRows, hx, if_true, h1, hidem]
    · simp only [createFolderRows, hx, if_false, Bool.false_eq_true, ih]

theorem createFolder_d (env : Env) (sel : Bool) (path : List String) (parent : Item) (next : Nat) :
    (createFolder env sel path parent next).1.d = parent.d := by
  cases path with
  | nil => rfl
  | cons seg rest => simp [createFolder, Item.setRows]

theorem isFolderNamed_fresh (env : Env) (hEnv : ∀ x, env.folderText x = env.removeWarningPrefix x)
    (sel : Bool) (seg : String) (a : Nat) :
    isFolderNamed env seg
      (if sel then (withCheckbox (newFolder env a seg)).setVisibility true
       else newFolder env a seg) = true := by
  cases sel <;>
    simp [isFolderNamed, Item.isFolder, Item.text, newFolder, withCheckbox, Item.setVisibility, hEnv]

theorem createFolder_idem (env : Env) (hEnv : ∀ x, env.folderText x = env.removeWarningPrefix x)
    (sel : Bool) (path : List String) :
    ∀ (parent : Item) (n m : Nat),
      createFolder env sel path (createFolder env sel path parent n).1 m
        = ((createFolder env sel path parent n).1, (createFolder env sel path parent n).2.1, m) := by
  induction path with
  | nil =>
    intro parent n m
    rfl
  | cons seg rest ih =>
    intro parent n m
    have key := createFolderRows_idem (createFolder env sel rest)
      (fun a => if sel then (withCheckbox (newFolder env a seg)).setVisibility true
                else newFolder env a seg)
      (isFolderNamed env seg)
      (fun x k => isFolderNamed_congr env seg (createFolder_d env sel rest x k))
      (fun k => isFolderNamed_fresh env hEnv sel seg k)
      ih parent.rows n m
    simp only [createFolder, Item.setRows, Item.rows_node, Item.d_node, key]

theorem createFolderAt_of_find? (env : Env) (s : FiltersView) (parent : Nat) (path : List String)
    (par : Item) (hpar : s.root.find? parent = some par) :
    s.createFolderAt env (some parent) path =
      ({ s with
          root := s.root.modify parent
            (fun _ => (createFolder env s._isInSelectionMode path par s.nextAddr).1),
          nextAddr := (createFolder env s._isInSelectionMode path par s.nextAddr).2.2 },
        some (createFolder env s._isInSelectionMode path par s.nextAddr).2.1) := by
  have hid : par.id = parent := Item.find?_id parent s.root par hpar
  simp only [FiltersView.createFolderAt, Option.some_bind, hpar, hid]

/-- C4. createFolder(parent, path) is idempotent, for the folder constructor
that shows a segment without its warning prefix (the text the loop of
createFolder looks for): a second call with the same arguments returns the
same folder and leaves the view after the first call as it is (the same tree,
nothing allocated); for the empty path the call returns `parent` and changes
nothing. -/
theorem createFolder_idempotent (env : Env)
    (hEnv : ∀ x, env.folderText x = env.removeWarningPrefix x)
    (s : FiltersView) (parent : Nat) (path : List String)
    (hparent : (s.root.find? parent).isSome = true) :
    (s.createFolderAt env (some parent) path).1.createFolderAt env (some parent) path
        = s.createFolderAt env (some parent) path ∧
    (s.createFolderAt env (some parent) path).2.isSome = true ∧
    s.createFolderAt env (some parent) [] = (s, some parent) := by
  obtain ⟨par, hpar⟩ := Option.isSome_iff_exists.1 hparent
  have hid : par.id = parent := Item.find?_id parent s.root par hpar
  have hr : ((createFolder env s._isInSelectionMode path par s.nextAddr).1).id = parent := by
    rw [Item.id, createFolder_d, ← Item.id, hid]
  have hfind : Item.find? parent
      (Item.modify parent (fun _ => (createFolder env s._isInSelectionMode path par s.nextAddr).1)
        s.root) = some (createFolder env s._isInSelectionMode path par s.nextAddr).1 := by
    rw [Item.find?_modify parent _ (fun _ _ => hr), hpar]
    rfl
  rw [createFolderAt_of_find? env s parent path par hpar]
  refine ⟨?_, rfl, ?_⟩
  · rw [createFolderAt_of_find? env _ parent path _ hfind]
    simp only [createFolder_idem env hEnv, Item.modify_modify parent _ _ (fun _ _ => hr)]
  · rw [createFolderAt_of_find? env s parent [] par hpar]
    simp only [createFolder, hid, Item.modify_const_of_find? parent par s.root hpar]

/-- C4, at a concrete input: the path Effects/!Blur created twice below the
invisible root of the empty view. -/
theorem createFolder_idempotent_witness :
    ((FiltersView.init []).createFolderAt sampleEnv (some 0) ["Effects", "!Blur"]).1.createFolderAt
        sampleEnv (some 0) ["Effects", "!Blur"]
        = (FiltersView.init []).createFolderAt sampleEnv (some 0) ["Effects", "!Blur"] ∧
    ((FiltersView.init []).createFolderAt sampleEnv (some 0) ["Effects", "!Blur"]).2.isSome = true ∧
    (FiltersView.init []).createFolderAt sampleEnv (some 0) [] = (FiltersView.init [], some 0) :=
  createFolder_idempotent sampleEnv (fun _ => rfl) (FiltersView.init []) 0 ["Effects", "!Blur"]
    (by decide)

/-! ## The placeholder of a favorites folder -/

theorem updateNull_of_empty (s : FiltersView) (F : Nat) (Fitem : Item)
    (hF : s.root.find? F = some Fitem) (hrows : Fitem.rows = []) :
    s.updateNullItemInFaveSubfolder (some F) =
      { s with
        root := s.root.modify F (fun i => i.appendRow (newNullItem s.nextAddr)),
        nextAddr := s.nextAddr + 1 } := by
  have hid : Fitem.id = F := Item.find?_id F s.root Fitem hF
  simp [FiltersView.updateNullItemInFaveSubfolder, hF, Item.rowCount, hrows, hid]

theorem updateNull_of_null_first (s : FiltersView) (F : Nat) (Fitem n c : Item) (rest : List Item)
    (hF : s.root.find? F = some Fitem) (hrows : Fitem.rows = n :: c :: rest)
    (hn : n.isNullItem = true) :
    s.updateNullItemInFaveSubfolder (some F) =
      { s with root := s.root.modify F (Item.removeRow 0) } := by
  have hid : Fitem.id = F := Item.find?_id F s.root Fitem hF
  simp [FiltersView.updateNullItemInFaveSubfolder, hF, Item.rowCount, hrows, hid, hn]

theorem updateNull_of_single (s : FiltersView) (F : Nat) (Fitem c : Item)
    (hF : s.root.find? F = some Fitem) (hrows : Fitem.rows = [c]) :
    s.updateNullItemInFaveSubfolder (some F) = s := by
  simp [FiltersView.updateNullItemInFaveSubfolder, hF, Item.rowCount, hrows]

theorem updateNull_of_real_first (s : FiltersView) (F : Nat) (Fitem c : Item) (rest : List Item)
    (hF : s.root.find? F = some Fitem) (hrows : Fitem.rows = c :: rest)
    (hc : c.isNullItem = false) :
    s.updateNullItemInFaveSubfolder (some F) = s := by
  simp [FiltersView.updateNullItemInFaveSubfolder, hF, Item.rowCount, hrows, hc]

theorem isEmpty_false_of_ne (s : String) (h : s ≠ "") : s.isEmpty = false := by
  cases hs : s.isEmpty with
  | false => rfl
  | true =>
    exfalso
    apply h
    simpa [String.isEmpty_iff] using hs

@[simp] theorem FiltersView.allocated_root (s : FiltersView) : s.allocated.root = s.root := rfl

/-! ## C9: a real entry takes the place of the placeholder -/

/-- C9. Let F be the favorites folder that `path` addresses and let the
placeholder be its only row. addFave with a non-empty name and a hash that
passes the visibility policy leaves F with exactly one row, the new favorite
leaf with that name and hash; the placeholder is gone. -/
theorem addFave_replaces_placeholder (env : Env) (s : FiltersView) (name hash : String)
    (path : List String) (F : Nat) (Fitem n : Item)
    (hpath : s.getFaveSubfolderFromPath env path = some F)
    (hF : s.root.find? F = some Fitem)
    (hrows : Fitem.rows = [n])
    (hn : n.isNullItem = true)
    (hname : name ≠ "")
    (hvis : s._isInSelectionMode = true ∨ filterIsVisible s.visibilityMap hash = true) :
    ∃ leaf, ((s.addFave env name hash path).root.find? F).map Item.rows = some [leaf] ∧
      leaf.kind = Kind.FilterItem ∧ leaf.text = env.itemText name ∧ leaf.hash = hash ∧
      leaf.d.isFave = true ∧ leaf.rows = [] := by
  have hff : s._faveFolder.isNone = false := by
    cases h : s._faveFolder with
    | none => simp [FiltersView.getFaveSubfolderFromPath, h] at hpath
    | some f => rfl
  have hgate : (!s._isInSelectionMode && !filterIsVisible s.visibilityMap hash) = false := by
    rcases hvis with h | h <;> simp [h]
  have hFid : Fitem.id = F := Item.find?_id F s.root Fitem hF
  have hempty := isEmpty_false_of_ne name hname
  -- the row that appendItem adds, in either mode
  obtain ⟨leaf, hleaf, hk, ht, hh, hfave, hr⟩ : ∃ leaf : Item,
      (s.appendItem F (newFilterItem env s.nextAddr name hash false true)
        (filterIsVisible s.visibilityMap hash)).root
        = s.root.modify F (fun f => f.appendRow leaf) ∧
      leaf.kind = Kind.FilterItem ∧ leaf.text = env.itemText name ∧ leaf.hash = hash ∧
      leaf.d.isFave = true ∧ leaf.rows = [] := by
    cases hsel : s._isInSelectionMode
    · exact ⟨newFilterItem env s.nextAddr name hash false true,
        by simp [FiltersView.appendItem, hsel], rfl, rfl, rfl, rfl, rfl⟩
    · exact ⟨(withCheckbox (newFilterItem env s.nextAddr name hash false true)).setVisibility
          (filterIsVisible s.visibilityMap hash),
        by simp [FiltersView.appendItem, hsel, addStandardItemWithCheckbox],
        rfl, rfl, rfl, rfl, rfl⟩
  refine ⟨leaf, ?_, hk, ht, hh, hfave, hr⟩
  have hpres : ∀ x : Item, x.id = F → (x.appendRow leaf).id = F := fun x hx => hx
  have hfind1 : Item.find? F (s.root.modify F (fun f => f.appendRow leaf))
      = some (Fitem.appendRow leaf) := by
    rw [Item.find?_modify F _ hpres, hF]; rfl
  have hrows1 : (Fitem.appendRow leaf).rows = n :: leaf :: [] := by
    simp [Item.appendRow, hrows]
  simp only [FiltersView.addFave, hgate, hff, hpath, hempty, if_false, Bool.false_eq_true]
  rw [updateNull_of_null_first _ F (Fitem.appendRow leaf) n leaf []
    (by simpa only [FiltersView.allocated_root, hleaf] using hfind1) hrows1 hn]
  simp only [FiltersView.allocated_root, hleaf]
  rw [Item.modify_modify F _ _ hpres,
    Item.find?_modify F (fun x => Item.removeRow 0 (x.appendRow leaf)) (fun x hx => hx), hF]
  simp [Item.removeRow, Item.appendRow, hrows]

set_option maxRecDepth 100000 in
/-- C9, at the input of the specification: addFave("", "", [Portraits]) on
the empty view, then addFave("Retouch", "h3", [Portraits]). The folder
Portraits (address 2) ends with the single row Retouch/h3. -/
theorem addFave_replaces_placeholder_witness :
    ∃ leaf, ((((FiltersView.init []).addFave sampleEnv "" "" ["Portraits"]).addFave sampleEnv
        "Retouch" "h3" ["Portraits"]).root.find? 2).map Item.rows = some [leaf] ∧
      leaf.kind = Kind.FilterItem ∧ leaf.text = sampleEnv.itemText "Retouch" ∧ leaf.hash = "h3" ∧
      leaf.d.isFave = true ∧ leaf.rows = [] :=
  addFave_replaces_placeholder sampleEnv ((FiltersView.init []).addFave sampleEnv "" "" ["Portraits"])
    "Retouch" "h3" ["Portraits"] 2
    (Item.node (newFolder sampleEnv 2 "Portraits").d [newNullItem 3] |>.setEditable true)
    (newNullItem 3) (by rfl) (by rfl) (by rfl) (by rfl) (by decide) (Or.inr (by rfl))

/-! ## C2: a placeholder beside another row -/

set_option maxRecDepth 100000 in
/-- C2, the code at the failing input. On the empty view,
addFave("", "", [A]) and then addFave("", "", [A, B, C]): the favorites
subfolder A (address 2) ends with two rows, the new folder B and the
placeholder it had, whatever the order sortFaves gives them (first with the
sample order, which puts folders first, then with an order that keeps every
row in place). -/
theorem placeholder_beside_folder :
    ((((FiltersView.init []).addFave sampleEnv "" "" ["A"]).addFave sampleEnv "" ""
        ["A", "B", "C"]).root.find? 2).map (fun f => f.rows.map Item.kind)
      = some [Kind.Folder, Kind.NullItem] ∧
    ((((FiltersView.init []).addFave { sampleEnv with lessThan := fun _ _ => false } "" ""
        ["A"]).addFave { sampleEnv with lessThan := fun _ _ => false } "" ""
        ["A", "B", "C"]).root.find? 2).map (fun f => f.rows.map Item.kind)
      = some [Kind.NullItem, Kind.Folder] := by
  constructor <;> rfl

/-! ## C3: the single-entry cache -/

set_option maxRecDepth 100000 in
/-- C3, the code at the failing input. On the empty view,
addFilter("Blur", "h1", [Effects], false): the lookup inside addFilter caches
nullptr for the path, createFolder then makes the folder and the cache is not
refreshed. The cached lookup of [Effects] still answers nullptr, the uncached
traversal answers the folder Effects (address 1). -/
theorem cached_lookup_stale :
    (((FiltersView.init []).addFilter sampleEnv "Blur" "h1" ["Effects"] false).getFolderFromPath
        sampleEnv ["Effects"]).2 = none ∧
    ((FiltersView.init []).addFilter sampleEnv "Blur" "h1" ["Effects"] false).getFolderFromRoot
        sampleEnv ["Effects"] = some 1 := by
  constructor <;> rfl

/-! ## Addresses are unique: items, ids and find? -/

namespace Item

/-- Induction on an item with the property known for every row. -/
theorem ind {P : Item → Prop} (h : ∀ d rows, (∀ x ∈ rows, P x) → P (node d rows)) :
    ∀ t, P t := by
  intro t
  refine Item.rec (motive_1 := P) (motive_2 := fun rs => ∀ x ∈ rs, P x) ?_ ?_ ?_ t
  · exact h
  · intro x hx
    cases hx
  · intro x xs hx hxs y hy
    rcases List.mem_cons.1 hy with rfl | hy
    · exact hx
    · exact hxs y hy

theorem mem_idsRows {i : Nat} : ∀ {rows : List Item}, i ∈ idsRows rows ↔ ∃ x ∈ rows, i ∈ ids x
  | [] => by simp [idsRows]
  | x :: xs => by simp [idsRows, @mem_idsRows i xs]

theorem mem_itemsRows {a : Item} : ∀ {rows : List Item}, a ∈ itemsRows rows ↔ ∃ x ∈ rows, a ∈ items x
  | [] => by simp [itemsRows]
  | x :: xs => by simp [itemsRows, @mem_itemsRows a xs]

theorem ids_eq (t : Item) : ids t = t.id :: idsRows t.rows := by
  cases t; rfl

theorem items_eq (t : Item) : items t = t :: itemsRows t.rows := by
  cases t; rfl

theorem self_mem_items (t : Item) : t ∈ items t := by
  rw [items_eq]; exact List.mem_cons_self _ _

theorem id_mem_ids (t : Item) : t.id ∈ ids t := by
  rw [ids_eq]; exact List.mem_cons_self _ _

theorem sublist_idsRows_of_mem {x : Item} : ∀ {rows : List Item}, x ∈ rows →
    (ids x).Sublist (idsRows rows)
  | [], h => by cases h
  | y :: ys, h => by
    rcases List.mem_cons.1 h with rfl | h
    · simp only [idsRows]
      exact List.sublist_append_left _ _
    · simp only [idsRows]
      exact (sublist_idsRows_of_mem h).trans (List.sublist_append_right _ _)

/-- The addresses below an item of the tree are among the addresses of the
tree, in the same order. -/
theorem ids_sublist_of_mem_items : ∀ (t a : Item), a ∈ items t → (ids a).Sublist (ids t) := by
  intro t
  induction t using Item.ind with
  | h d rows ih =>
    intro a ha
    rw [items_eq] at ha
    rcases List.mem_cons.1 ha with rfl | ha
    · exact List.Sublist.refl _
    · obtain ⟨x, hx, hax⟩ := mem_itemsRows.1 ha
      rw [ids_eq (node d rows)]
      exact ((ih x hx a hax).trans (sublist_idsRows_of_mem hx)).cons _

theorem id_mem_ids_of_mem_items {t a : Item} (h : a ∈ items t) : a.id ∈ ids t :=
  (ids_sublist_of_mem_items t a h).subset (id_mem_ids a)

theorem nodup_of_mem_items {t a : Item} (h : a ∈ items t) (hn : (ids t).Nodup) : (ids a).Nodup :=
  hn.sublist (ids_sublist_of_mem_items t a h)

theorem mem_items_trans {t a b : Item} (hab : a ∈ items b) : b ∈ items t → a ∈ items t := by
  induction t using Item.ind with
  | h d rows ih =>
    intro hb
    rw [items_eq] at hb
    rcases List.mem_cons.1 hb with rfl | hb
    · exact hab
    · obtain ⟨x, hx, hbx⟩ := mem_itemsRows.1 hb
      rw [items_eq]
      exact List.mem_cons_of_mem _ (mem_itemsRows.2 ⟨x, hx, ih x hx hbx⟩)

theorem mem_items_of_mem_rows {a c : Item} (h : c ∈ a.rows) : c ∈ items a := by
  rw [items_eq]
  exact List.mem_cons_of_mem _ (mem_itemsRows.2 ⟨c, h, self_mem_items c⟩)

theorem findRows?_mem {p : Nat} : ∀ {rows : List Item} {a : Item},
    (∀ x ∈ rows, ∀ a, find? p x = some a → a ∈ items x) →
    findRows? p rows = some a → a ∈ itemsRows rows
  | [], a, _, h => by simp [findRows?] at h
  | x :: xs, a, ih, h => by
    simp only [findRows?] at h
    cases hx : find? p x with
    | some r =>
      simp only [hx, Option.some.injEq] at h
      subst h
      exact mem_itemsRows.2 ⟨x, List.mem_cons_self _ _, ih x (List.mem_cons_self _ _) _ hx⟩
    | none =>
      simp only [hx] at h
      have := findRows?_mem (fun y hy => ih y (List.mem_cons_of_mem _ hy)) h
      simp only [itemsRows, List.mem_append]
      exact Or.inr this

/-- What find? gives is an item of the tree. -/
theorem find?_mem_items (p : Nat) : ∀ (t a : Item), find? p t = some a → a ∈ items t := by
  intro t
  induction t using Item.ind with
  | h d rows ih =>
    intro a h
    simp only [find?] at h
    split at h
    · cases h
      exact self_mem_items _
    · rw [items_eq]
      exact List.mem_cons_of_mem _ (findRows?_mem ih h)

theorem find?_none_of_not_mem_ids {p : Nat} {t : Item} (h : p ∉ ids t) : find? p t = none := by
  cases hf : find? p t with
  | none => rfl
  | some a =>
    exfalso
    apply h
    have := id_mem_ids_of_mem_items (find?_mem_items p t a hf)
    rwa [find?_id p t a hf] at this

theorem nodup_idsRows_cons {x : Item} {xs : List Item} (h : (idsRows (x :: xs)).Nodup) :
    (ids x).Nodup ∧ (idsRows xs).Nodup ∧ ∀ i, i ∈ ids x → i ∈ idsRows xs → False := by
  simp only [idsRows] at h
  have := List.nodup_append.1 h
  exact ⟨this.1, this.2.1, fun i h1 h2 => this.2.2 h1 h2⟩

theorem nodup_ids_node {d : ItemData} {rows : List Item} (h : (ids (node d rows)).Nodup) :
    d.id ∉ idsRows rows ∧ (idsRows rows).Nodup := by
  simp only [ids] at h
  exact List.nodup_cons.1 h

theorem findRows?_of_mem_items : ∀ {rows : List Item} {a : Item},
    (∀ x ∈ rows, (ids x).Nodup → ∀ a ∈ items x, find? a.id x = some a) →
    (idsRows rows).Nodup → a ∈ itemsRows rows → findRows? a.id rows = some a
  | [], a, _, _, h => by simp [itemsRows] at h
  | x :: xs, a, ih, hn, h => by
    obtain ⟨hnx, hnxs, hdisj⟩ := nodup_idsRows_cons hn
    simp only [itemsRows, List.mem_append] at h
    simp only [findRows?]
    rcases h with h | h
    · rw [ih x (List.mem_cons_self _ _) hnx a h]
    · have hid : a.id ∈ idsRows xs := by
        obtain ⟨y, hy, hay⟩ := mem_itemsRows.1 h
        exact mem_idsRows.2 ⟨y, hy, id_mem_ids_of_mem_items hay⟩
      rw [find?_none_of_not_mem_ids (fun hin => hdisj _ hin hid)]
      exact findRows?_of_mem_items (fun y hy => ih y (List.mem_cons_of_mem _ hy)) hnxs h

/-- With unique addresses, the item at the address of an item of the tree is
that item. -/
theorem find?_of_mem_items : ∀ (t : Item), (ids t).Nodup → ∀ a ∈ items t, find? a.id t = some a := by
  intro t
  induction t using Item.ind with
  | h d rows ih =>
    intro hn a ha
    obtain ⟨hd, hnr⟩ := nodup_ids_node hn
    rw [items_eq] at ha
    rcases List.mem_cons.1 ha with rfl | ha
    · exact find?_self _
    · have hid : a.id ∈ idsRows rows := by
        obtain ⟨y, hy, hay⟩ := mem_itemsRows.1 ha
        exact mem_idsRows.2 ⟨y, hy, id_mem_ids_of_mem_items hay⟩
      have hne : d.id ≠ a.id := fun h => hd (h ▸ hid)
      simp only [find?, if_neg hne]
      exact findRows?_of_mem_items ih hnr ha

end Item

/-! ## Addresses are unique: parents and removal -/

namespace Item

theorem id_mem_idsRows_of_mem_rows {a c t : Item} (ha : a ∈ items t) (hc : c ∈ a.rows) :
    c.id ∈ idsRows t.rows := by
  rw [items_eq] at ha
  rcases List.mem_cons.1 ha with rfl | ha
  · exact mem_idsRows.2 ⟨c, hc, id_mem_ids c⟩
  · obtain ⟨x, hx, hax⟩ := mem_itemsRows.1 ha
    exact mem_idsRows.2 ⟨x, hx, id_mem_ids_of_mem_items (mem_items_trans (mem_items_of_mem_rows hc) hax)⟩

theorem id_not_mem_idsRows {t : Item} (hn : (ids t).Nodup) : t.id ∉ idsRows t.rows := by
  rw [ids_eq] at hn
  exact (List.nodup_cons.1 hn).1

theorem parentRows?_mem {p : Nat} : ∀ {rows : List Item} {b : Item},
    (∀ x ∈ rows, ∀ b, parent? p x = some b → p ∈ idsRows x.rows) →
    parentRows? p rows = some b → p ∈ idsRows rows
  | [], b, _, h => by simp [parentRows?] at h
  | x :: xs, b, ih, h => by
    simp only [parentRows?] at h
    simp only [idsRows, List.mem_append]
    cases hx : parent? p x with
    | some r =>
      left
      rw [ids_eq]
      exact List.mem_cons_of_mem _ (ih x (List.mem_cons_self _ _) r hx)
    | none =>
      simp only [hx] at h
      exact Or.inr (parentRows?_mem (fun y hy => ih y (List.mem_cons_of_mem _ hy)) h)

/-- An address that has a parent in the tree is the address of an item below
the top of the tree. -/
theorem parent?_mem (p : Nat) : ∀ (t b : Item), parent? p t = some b → p ∈ idsRows t.rows := by
  intro t
  induction t using Item.ind with
  | h d rows ih =>
    intro b h
    simp only [parent?] at h
    split at h
    · next hany =>
      obtain ⟨c, hc, hcid⟩ := List.any_eq_true.1 hany
      have hcid2 : c.id = p := by simpa [Item.id] using hcid
      exact mem_idsRows.2 ⟨c, hc, hcid2 ▸ id_mem_ids c⟩
    · exact parentRows?_mem ih h

theorem parent?_none_of_not_mem {p : Nat} {t : Item} (h : p ∉ idsRows t.rows) :
    parent? p t = none := by
  cases hp : parent? p t with
  | none => rfl
  | some b => exact absurd (parent?_mem p t b hp) h

theorem parentRows?_of_mem_rows {a c : Item} : ∀ {rows : List Item},
    (∀ x ∈ rows, (ids x).Nodup → a ∈ items x → parent? c.id x = some a) →
    (idsRows rows).Nodup → a ∈ itemsRows rows → c ∈ a.rows →
    rows.any (fun y => decide (y.d.id = c.id)) = false ∧ parentRows? c.id rows = some a
  | [], _, _, h, _ => by simp [itemsRows] at h
  | x :: xs, ih, hn, h, hc => by
    obtain ⟨hnx, hnxs, hdisj⟩ := nodup_idsRows_cons hn
    simp only [itemsRows, List.mem_append] at h
    rcases h with h | h
    · have hcx : c.id ∈ idsRows x.rows := id_mem_idsRows_of_mem_rows h hc
      have hcx2 : c.id ∈ ids x := by rw [ids_eq]; exact List.mem_cons_of_mem _ hcx
      have hne : x.d.id ≠ c.id := fun e => id_not_mem_idsRows hnx (by simpa [Item.id, e] using hcx)
      refine ⟨?_, ?_⟩
      · simp only [List.any_cons, hne, decide_False, Bool.false_or]
        rw [List.any_eq_false]
        intro y hy
        have hyid : y.id ∈ idsRows xs := mem_idsRows.2 ⟨y, hy, id_mem_ids y⟩
        have : y.d.id ≠ c.id := fun e => hdisj _ hcx2 (by simpa [Item.id, e] using hyid)
        simpa using this
      · simp only [parentRows?, ih x (List.mem_cons_self _ _) hnx h]
    · have hcxs : c.id ∈ idsRows xs := by
        obtain ⟨y, hy, hay⟩ := mem_itemsRows.1 h
        exact mem_idsRows.2 ⟨y, hy,
          id_mem_ids_of_mem_items (mem_items_trans (mem_items_of_mem_rows hc) hay)⟩
      have hne : x.d.id ≠ c.id := fun e => hdisj _ (id_mem_ids x) (by simpa [Item.id, e] using hcxs)
      have hnone : parent? c.id x = none :=
        parent?_none_of_not_mem (fun hin => hdisj _ (by rw [ids_eq]; exact List.mem_cons_of_mem _ hin) hcxs)
      have := parentRows?_of_mem_rows (fun y hy => ih y (List.mem_cons_of_mem _ hy)) hnxs h hc
      refine ⟨?_, ?_⟩
      · simp only [List.any_cons, hne, decide_False, Bool.false_or, this.1]
      · simp only [parentRows?, hnone, this.2]

/-- With unique addresses, the parent of a row of an item of the tree is that
item. -/
theorem parent?_of_mem_rows (a c : Item) (hc : c ∈ a.rows) :
    ∀ (t : Item), (ids t).Nodup → a ∈ items t → parent? c.id t = some a := by
  intro t
  induction t using Item.ind with
  | h d rows ih =>
    intro hn ha
    obtain ⟨hd, hnr⟩ := nodup_ids_node hn
    rw [items_eq] at ha
    rcases List.mem_cons.1 ha with rfl | ha
    · have : rows.any (fun y => decide (y.d.id = c.id)) = true :=
        List.any_eq_true.2 ⟨c, hc, by simp [Item.id]⟩
      simp only [parent?, this, if_true]
    · have := parentRows?_of_mem_rows ih hnr ha hc
      simp only [parent?, this.1, Bool.false_eq_true, if_false, this.2]

theorem removeItemRows_of_not_mem {p : Nat} : ∀ {rows : List Item},
    (∀ x ∈ rows, p ∉ idsRows x.rows → removeItem p x = x) →
    p ∉ idsRows rows → removeItemRows p rows = rows
  | [], _, _ => rfl
  | x :: xs, ih, h => by
    simp only [idsRows, List.mem_append, not_or] at h
    have hne : x.d.id ≠ p := fun e => h.1 (by simpa [Item.id, e] using id_mem_ids x)
    have hx : p ∉ idsRows x.rows := fun hin => h.1 (by rw [ids_eq]; exact List.mem_cons_of_mem _ hin)
    simp only [removeItemRows, if_neg hne, ih x (List.mem_cons_self _ _) hx,
      removeItemRows_of_not_mem (fun y hy => ih y (List.mem_cons_of_mem _ hy)) h.2]

/-- Removing an address that is not below the item changes nothing. -/
theorem removeItem_of_not_mem (p : Nat) : ∀ (t : Item), p ∉ idsRows t.rows → removeItem p t = t := by
  intro t
  induction t using Item.ind with
  | h d rows ih =>
    intro h
    simp only [removeItem, removeItemRows_of_not_mem ih h]

theorem removeItemRows_split {c : Item} : ∀ {before after : List Item},
    (idsRows (before ++ c :: after)).Nodup →
    removeItemRows c.id (before ++ c :: after) = before ++ after
  | [], after, _ => by simp [removeItemRows, Item.id]
  | x :: xs, after, hn => by
    have hn2 : (idsRows (x :: (xs ++ c :: after))).Nodup := by simpa using hn
    obtain ⟨_, hnxs, hdisj⟩ := nodup_idsRows_cons hn2
    have hc : c.id ∈ idsRows (xs ++ c :: after) :=
      mem_idsRows.2 ⟨c, by simp, id_mem_ids c⟩
    have hne : x.d.id ≠ c.id := fun e => hdisj _ (id_mem_ids x) (by simpa [Item.id, e] using hc)
    have hx : removeItem c.id x = x :=
      removeItem_of_not_mem _ _
        (fun hin => hdisj _ (by rw [ids_eq]; exact List.mem_cons_of_mem _ hin) hc)
    have ih := removeItemRows_split hnxs
    show removeItemRows c.id (x :: (xs ++ c :: after)) = x :: (xs ++ after)
    simp only [removeItemRows, if_neg hne, hx, ih]

theorem removeItemRows_eq_modifyRows {a c : Item} {before after : List Item}
    (hrows : a.rows = before ++ c :: after) : ∀ {rows : List Item},
    (∀ x ∈ rows, (ids x).Nodup → a ∈ items x →
      removeItem c.id x = modify a.id (fun f => f.setRows (before ++ after)) x) →
    (idsRows rows).Nodup → a ∈ itemsRows rows →
    removeItemRows c.id rows = modifyRows a.id (fun f => f.setRows (before ++ after)) rows
  | [], _, _, h => by simp [itemsRows] at h
  | x :: xs, ih, hn, h => by
    obtain ⟨hnx, hnxs, hdisj⟩ := nodup_idsRows_cons hn
    have hcmem : c ∈ a.rows := by rw [hrows]; simp
    simp only [itemsRows, List.mem_append] at h
    rcases h with h | h
    · have hcx : c.id ∈ idsRows x.rows := id_mem_idsRows_of_mem_rows h hcmem
      have hcx2 : c.id ∈ ids x := by rw [ids_eq]; exact List.mem_cons_of_mem _ hcx
      have hne : x.d.id ≠ c.id := fun e => id_not_mem_idsRows hnx (by simpa [Item.id, e] using hcx)
      have hxs : removeItemRows c.id xs = xs :=
        removeItemRows_of_not_mem (fun y _ hy => removeItem_of_not_mem _ y hy)
          (fun hin => hdisj _ hcx2 hin)
      simp only [removeItemRows, if_neg hne, hxs, modifyRows, find?_of_mem_items x hnx a h,
        ih x (List.mem_cons_self _ _) hnx h]
    · have haxs : a.id ∈ idsRows xs := by
        obtain ⟨y, hy, hay⟩ := mem_itemsRows.1 h
        exact mem_idsRows.2 ⟨y, hy, id_mem_ids_of_mem_items hay⟩
      have hcxs : c.id ∈ idsRows xs := by
        obtain ⟨y, hy, hay⟩ := mem_itemsRows.1 h
        exact mem_idsRows.2 ⟨y, hy,
          id_mem_ids_of_mem_items (mem_items_trans (mem_items_of_mem_rows hcmem) hay)⟩
      have hne : x.d.id ≠ c.id := fun e => hdisj _ (id_mem_ids x) (by simpa [Item.id, e] using hcxs)
      have hx : removeItem c.id x = x :=
        removeItem_of_not_mem _ _
          (fun hin => hdisj _ (by rw [ids_eq]; exact List.mem_cons_of_mem _ hin) hcxs)
      have hfx : find? a.id x = none := find?_none_of_not_mem_ids (fun hin => hdisj _ hin haxs)
      simp only [removeItemRows, if_neg hne, hx, modifyRows, hfx,
        removeItemRows_eq_modifyRows hrows (fun y hy => ih y (List.mem_cons_of_mem _ hy)) hnxs h]

/-- With unique addresses, taking a row `c` of the item `a` out of the tree is
a call through the address of `a` that drops this row. -/
theorem removeItem_eq_modify (a c : Item) (before after : List Item)
    (hrows : a.rows = before ++ c :: after) :
    ∀ (t : Item), (ids t).Nodup → a ∈ items t →
      removeItem c.id t = modify a.id (fun f => f.setRows (before ++ after)) t := by
  intro t
  induction t using Item.ind with
  | h d rows ih =>
    intro hn ha
    obtain ⟨hd, hnr⟩ := nodup_ids_node hn
    rw [items_eq] at ha
    rcases List.mem_cons.1 ha with rfl | ha
    · simp only [rows_node] at hrows
      subst hrows
      simp only [removeItem, removeItemRows_split hnr, id_node, modify, if_true, setRows, d_node]
    · have haid : a.id ∈ idsRows rows := by
        obtain ⟨y, hy, hay⟩ := mem_itemsRows.1 ha
        exact mem_idsRows.2 ⟨y, hy, id_mem_ids_of_mem_items hay⟩
      have hne : d.id ≠ a.id := fun e => hd (e ▸ haid)
      simp only [removeItem, modify, if_neg hne,
        removeItemRows_eq_modifyRows hrows ih hnr ha]

end Item

/-! ## What a call through one address leaves alone -/

namespace Item

theorem modifyRows_length (p : Nat) (g : Item → Item) : ∀ (rows : List Item),
    (modifyRows p g rows).length = rows.length
  | [] => rfl
  | x :: xs => by
    simp only [modifyRows]
    split
    · rfl
    · simp [modifyRows_length p g xs]

theorem rowCount_modify_of_ne (p : Nat) (g : Item → Item) (x : Item) (h : x.id ≠ p) :
    (modify p g x).rowCount = x.rowCount := by
  cases x with
  | node d rows =>
    have hne : d.id ≠ p := by simpa using h
    simp only [modify, if_neg hne, rowCount, rows_node, modifyRows_length]

theorem d_modify_of_ne (p : Nat) (g : Item → Item) (x : Item) (h : x.id ≠ p) :
    (modify p g x).d = x.d := by
  cases x with
  | node d rows =>
    have hne : d.id ≠ p := by simpa using h
    simp only [modify, if_neg hne, d_node]

theorem findRows?_modifyRows_frame {α : Type} (φ : Item → α) (p q : Nat) (g : Item → Item) :
    ∀ (rows : List Item),
    (∀ x ∈ rows, (∀ b, find? p x = some b → q ∉ ids b ∧ q ∉ ids (g b)) →
      (find? q (modify p g x)).map φ = (find? q x).map φ) →
    (∀ b, findRows? p rows = some b → q ∉ ids b ∧ q ∉ ids (g b)) →
    (findRows? q (modifyRows p g rows)).map φ = (findRows? q rows).map φ
  | [], _, _ => rfl
  | x :: xs, ih, hq => by
    cases hpx : find? p x with
    | some b =>
      have hx := ih x (List.mem_cons_self _ _)
        (fun b2 hb2 => hq b2 (by simp only [findRows?, hb2]))
      simp only [modifyRows, hpx, findRows?]
      cases hqx : find? q x with
      | some r =>
        rw [hqx] at hx
        cases hqm : find? q (modify p g x) with
        | some r2 =>
          rw [hqm] at hx
          simpa using hx
        | none => rw [hqm] at hx; simp at hx
      | none =>
        rw [hqx] at hx
        cases hqm : find? q (modify p g x) with
        | some r2 => rw [hqm] at hx; simp at hx
        | none => rfl
    | none =>
      have hxs := findRows?_modifyRows_frame φ p q g xs
        (fun y hy => ih y (List.mem_cons_of_mem _ hy))
        (fun b2 hb2 => hq b2 (by simp only [findRows?, hpx, hb2]))
      simp only [modifyRows, hpx, findRows?]
      cases hqx : find? q x with
      | some r => rfl
      | none => exact hxs

/-- A call through `p` leaves what is read at another address `q` as it was,
for a reading `φ` that does not look below the item (its data, its number of
rows), as long as `q` is neither below `p` before the call nor after it. -/
theorem find?_modify_frame {α : Type} (φ : Item → α) (p q : Nat) (g : Item → Item)
    (hφ : ∀ x, x.id ≠ p → φ (modify p g x) = φ x) :
    ∀ (t : Item), (∀ b, find? p t = some b → q ∉ ids b ∧ q ∉ ids (g b)) →
      (find? q (modify p g t)).map φ = (find? q t).map φ := by
  intro t
  induction t using Item.ind with
  | h d rows ih =>
    intro hq
    by_cases hp : d.id = p
    · have h1 := hq (node d rows) (by simp [find?, hp])
      simp only [modify, if_pos hp, find?_none_of_not_mem_ids h1.1,
        find?_none_of_not_mem_ids h1.2]
    · by_cases hqd : d.id = q
      · have := hφ (node d rows) (by simpa using hp)
        simp only [modify, if_neg hp] at this
        simp only [modify, if_neg hp, find?, if_pos hqd, Option.map_some', this]
      · simp only [modify, if_neg hp, find?, if_neg hqd]
        apply findRows?_modifyRows_frame φ p q g rows ih
        intro b hb
        exact hq b (by simp only [find?, if_neg hp, hb])

theorem findFaveRows_mem {hash : String} : ∀ {rows : List Item} {leaf : Item},
    (∀ x ∈ rows, ∀ leaf, findFave hash x = some leaf →
      leaf ∈ itemsRows x.rows ∧ leaf.kind = Kind.FilterItem ∧ leaf.hash = hash) →
    findFaveRows hash rows = some leaf →
    leaf ∈ itemsRows rows ∧ leaf.kind = Kind.FilterItem ∧ leaf.hash = hash
  | [], _, _, h => by simp [findFaveRows] at h
  | node d rs :: xs, leaf, ih, h => by
    have tail : findFaveRows hash xs = some leaf →
        leaf ∈ itemsRows (node d rs :: xs) ∧ leaf.kind = Kind.FilterItem ∧ leaf.hash = hash := by
      intro h2
      have := findFaveRows_mem (fun y hy => ih y (List.mem_cons_of_mem _ hy)) h2
      exact ⟨by simp only [itemsRows, List.mem_append]; exact Or.inr this.1, this.2⟩
    simp only [findFaveRows] at h
    split at h
    · next hc =>
      cases h
      refine ⟨?_, hc.1, hc.2⟩
      simp only [itemsRows, List.mem_append]
      exact Or.inl (self_mem_items _)
    · split at h
      · cases hx : findFave hash (node d rs) with
        | some r =>
          simp only [hx, Option.some.injEq] at h
          subst h
          have := ih (node d rs) (List.mem_cons_self _ _) _ hx
          refine ⟨?_, this.2⟩
          simp only [itemsRows, List.mem_append]
          left
          rw [items_eq]
          exact List.mem_cons_of_mem _ this.1
        | none =>
          simp only [hx] at h
          exact tail h
      · exact tail h

/-- What findFave gives is a FilterTreeItem with the hash, strictly below the
folder searched. -/
theorem findFave_mem (hash : String) : ∀ (t leaf : Item), findFave hash t = some leaf →
    leaf ∈ itemsRows t.rows ∧ leaf.kind = Kind.FilterItem ∧ leaf.hash = hash := by
  intro t
  induction t using Item.ind with
  | h d rows ih =>
    intro leaf h
    simp only [findFave] at h
    exact findFaveRows_mem ih h

/-- Every item strictly below `t` is a row of an item of `t`. -/
theorem exists_parent_of_mem_itemsRows (c : Item) : ∀ (t : Item), c ∈ itemsRows t.rows →
    ∃ b ∈ items t, c ∈ b.rows := by
  intro t
  induction t using Item.ind with
  | h d rows ih =>
    intro hc
    obtain ⟨x, hx, hcx⟩ := mem_itemsRows.1 hc
    rw [items_eq] at hcx
    rcases List.mem_cons.1 hcx with rfl | hcx
    · exact ⟨node d rows, self_mem_items _, hx⟩
    · obtain ⟨b, hb, hcb⟩ := ih x hx hcx
      refine ⟨b, ?_, hcb⟩
      rw [items_eq]
      exact List.mem_cons_of_mem _ (mem_itemsRows.2 ⟨x, hx, hb⟩)

end Item

/-! ## removeFave -/

theorem updateNull_shape (s : FiltersView) (F : Nat) (Fi : Item)
    (hF : s.root.find? F = some Fi) :
    ∃ g : Item → Item,
      s.updateNullItemInFaveSubfolder (some F)
        = { s with root := s.root.modify F g,
                   nextAddr := (s.updateNullItemInFaveSubfolder (some F)).nextAddr } ∧
      (∀ x : Item, x.id = F → (g x).id = F) ∧ (g Fi).rows ≠ [] ∧ (g Fi).d = Fi.d ∧
      (∀ i ∈ Item.ids (g Fi), i ∈ Item.ids Fi ∨ i = s.nextAddr) := by
  have hid : Fi.id = F := Item.find?_id F s.root Fi hF
  have keep : s.updateNullItemInFaveSubfolder (some F) = s → Fi.rows ≠ [] →
      ∃ g : Item → Item,
      s.updateNullItemInFaveSubfolder (some F)
        = { s with root := s.root.modify F g,
                   nextAddr := (s.updateNullItemInFaveSubfolder (some F)).nextAddr } ∧
      (∀ x : Item, x.id = F → (g x).id = F) ∧ (g Fi).rows ≠ [] ∧ (g Fi).d = Fi.d ∧
      (∀ i ∈ Item.ids (g Fi), i ∈ Item.ids Fi ∨ i = s.nextAddr) := by
    intro hkeep hne
    refine ⟨fun _ => Fi, ?_, fun _ _ => hid, hne, rfl, fun i hi => Or.inl hi⟩
    rw [hkeep, Item.modify_const_of_find? F Fi s.root hF]
  cases hrows : Fi.rows with
  | nil =>
    refine ⟨fun i => i.appendRow (newNullItem s.nextAddr), ?_, fun x hx => hx, ?_, rfl, ?_⟩
    · rw [updateNull_of_empty s F Fi hF hrows]
    · simp [Item.appendRow]
    · intro i hi
      simp [Item.appendRow, hrows, Item.ids, Item.idsRows, newNullItem] at hi
      rcases hi with hi | hi
      · left; rw [hi]; exact Item.id_mem_ids Fi
      · right; exact hi
  | cons n rest =>
    cases rest with
    | nil =>
      exact keep (updateNull_of_single s F Fi n hF hrows) (by simp [hrows])
    | cons c rest =>
      cases hn : n.isNullItem with
      | false =>
        exact keep (updateNull_of_real_first s F Fi n (c :: rest) hF hrows hn) (by simp [hrows])
      | true =>
        refine ⟨Item.removeRow 0, ?_, fun x hx => hx, ?_, rfl, ?_⟩
        · rw [updateNull_of_null_first s F Fi n c rest hF hrows hn]
        · simp [Item.removeRow, hrows]
        · intro i hi
          left
          rw [Item.ids_eq] at hi ⊢
          simp only [Item.removeRow, Item.id_node, Item.rows_node, hrows, List.eraseIdx_cons_zero,
            List.mem_cons] at hi
          rcases hi with hi | hi
          · rw [hi]; exact List.mem_cons_self _ _
          · apply List.mem_cons_of_mem
            rw [hrows]
            simp only [Item.idsRows, List.mem_append]
            exact Or.inr (by simpa [Item.idsRows] using hi)

/-- removeFave, for a leaf that findFave finds as a row of the folder at `F`:
the row is dropped through `F`, the placeholder of `F` is updated, and the
last test (no row left in the fave folder) is never true. -/
theorem removeFave_of_found (s : FiltersView) (hwf : s.WF) (hash : String)
    (ff F : Nat) (ffItem leaf a : Item) (before after : List Item)
    (hff : s._faveFolder = some ff) (hffi : s.root.find? ff = some ffItem)
    (hfave : Item.findFave hash ffItem = some leaf)
    (ha : s.root.find? F = some a) (hrows : a.rows = before ++ leaf :: after)
    (hfolder : a.isFolder = true) :
    s.removeFave hash =
      ({ s with root := s.root.modify F (fun f => f.setRows (before ++ after)) }
        ).updateNullItemInFaveSubfolder (some F) ∧
    ((s.removeFave hash).root.find? ff).map Item.d = some ffItem.d := by
  obtain ⟨hnodup, hfresh⟩ := hwf
  have haid : a.id = F := Item.find?_id F s.root a ha
  have hamem : a ∈ Item.items s.root := Item.find?_mem_items F s.root a ha
  have hffmem : ffItem ∈ Item.items s.root := Item.find?_mem_items ff s.root ffItem hffi
  have hffid : ffItem.id = ff := Item.find?_id ff s.root ffItem hffi
  have hleafrow : leaf ∈ a.rows := by rw [hrows]; simp
  have hleafbelow := (Item.findFave_mem hash ffItem leaf hfave).1
  have hfind : s.findFave hash = some leaf := by
    simp [FiltersView.findFave, hff, hffi, hfave]
  have hparent : s.parentFolder leaf.id = some F := by
    simp only [FiltersView.parentFolder,
      Item.parent?_of_mem_rows a leaf hleafrow s.root hnodup hamem, Option.filter, hfolder,
      if_true, Option.map_some', haid]
  have hremove : s.root.removeItem leaf.id = s.root.modify F (fun f => f.setRows (before ++ after)) := by
    rw [Item.removeItem_eq_modify a leaf before after hrows s.root hnodup hamem, haid]
  -- the item at F after the row is dropped
  have hpres0 : ∀ x : Item, x.id = F → (x.setRows (before ++ after)).id = F := fun x hx => hx
  have hF1 : (s.root.modify F (fun f => f.setRows (before ++ after))).find? F
      = some (a.setRows (before ++ after)) := by
    rw [Item.find?_modify F _ hpres0, ha]; rfl
  obtain ⟨g, hg, hgid, hgrows, hgd, hgids⟩ := updateNull_shape
    { s with root := s.root.modify F (fun f => f.setRows (before ++ after)) } F _ hF1
  -- where the fave folder stands
  have hffnodup : (Item.ids ffItem).Nodup := Item.nodup_of_mem_items hffmem hnodup
  have hffnot : ff ∉ Item.idsRows ffItem.rows := hffid ▸ Item.id_not_mem_idsRows hffnodup
  have hffrows : ffItem.rowCount ≠ 0 := by
    intro h0
    have : ffItem.rows = [] := List.length_eq_zero.1 h0
    rw [this] at hleafbelow
    simp [Item.itemsRows] at hleafbelow
  have key : ∀ {α : Type} (φ : Item → α),
      (∀ x : Item, x.id ≠ F → φ (Item.modify F g x) = φ x) →
      (∀ x : Item, x.id ≠ F →
        φ (Item.modify F (fun f => f.setRows (before ++ after)) x) = φ x) →
      ((Item.modify F g (s.root.modify F (fun f => f.setRows (before ++ after)))).find? ff).map φ
        = some (if F = ff then φ (g (a.setRows (before ++ after))) else φ ffItem) := by
    intro α φ hφ1 hφ2
    by_cases hFf : F = ff
    · subst hFf
      rw [Item.find?_modify F g hgid, hF1]
      simp
    · -- the folder at F is strictly below the fave folder
      have hab : a ∈ Item.itemsRows ffItem.rows := by
        obtain ⟨b, hb, hlb⟩ := Item.exists_parent_of_mem_itemsRows leaf ffItem hleafbelow
        have hb2 : b ∈ Item.items s.root := Item.mem_items_trans hb hffmem
        have e1 := Item.parent?_of_mem_rows b leaf hlb s.root hnodup hb2
        have e2 := Item.parent?_of_mem_rows a leaf hleafrow s.root hnodup hamem
        have : b = a := by rw [e1] at e2; exact Option.some.inj e2
        subst this
        rw [Item.items_eq] at hb
        rcases List.mem_cons.1 hb with h | h
        · exact absurd (by rw [h] at haid; rw [← haid, hffid]) hFf
        · exact h
      have hffa : ff ∉ Item.ids a := by
        intro hin
        obtain ⟨x, hx, hax⟩ := Item.mem_itemsRows.1 hab
        exact hffnot (Item.mem_idsRows.2 ⟨x, hx, (Item.ids_sublist_of_mem_items x a hax).subset hin⟩)
      have hsub : ∀ i ∈ Item.ids (a.setRows (before ++ after)), i ∈ Item.ids a := by
        intro i hi
        rw [Item.ids_eq] at hi ⊢
        simp only [Item.setRows, Item.id_node, Item.rows_node, List.mem_cons] at hi
        rcases hi with hi | hi
        · rw [hi]; exact List.mem_cons_self _ _
        · apply List.mem_cons_of_mem
          rw [hrows]
          obtain ⟨x, hx, hix⟩ := Item.mem_idsRows.1 hi
          refine Item.mem_idsRows.2 ⟨x, ?_, hix⟩
          rcases List.mem_append.1 hx with h | h
          · exact List.mem_append.2 (Or.inl h)
          · exact List.mem_append.2 (Or.inr (List.mem_cons_of_mem _ h))
      have hffnext : ff ≠ s.nextAddr := by
        have := hfresh ff (hffid ▸ Item.id_mem_ids_of_mem_items hffmem)
        omega
      rw [Item.find?_modify_frame φ F ff g hφ1 _ (by
          intro b hb
          rw [hF1] at hb
          cases hb
          refine ⟨fun hin => hffa (hsub _ hin), fun hin => ?_⟩
          rcases hgids _ hin with h | h
          · exact hffa (hsub _ h)
          · exact hffnext h),
        Item.find?_modify_frame φ F ff _ hφ2 _ (by
          intro b hb
          rw [ha] at hb
          cases hb
          exact ⟨hffa, fun hin => hffa (hsub _ hin)⟩),
        hffi]
      simp only [Option.map_some', if_neg hFf]
  have hroot2 : (({ s with root := s.root.modify F (fun f => f.setRows (before ++ after)) } :
      FiltersView).updateNullItemInFaveSubfolder (some F)).root
      = Item.modify F g (s.root.modify F (fun f => f.setRows (before ++ after))) := by
    rw [hg]
  have hff2 : (({ s with root := s.root.modify F (fun f => f.setRows (before ++ after)) } :
      FiltersView).updateNullItemInFaveSubfolder (some F))._faveFolder = some ff := by
    rw [hg]; exact hff
  have hcount := key Item.rowCount (fun x hx => Item.rowCount_modify_of_ne F g x hx)
    (fun x hx => Item.rowCount_modify_of_ne F _ x hx)
  have hd := key Item.d (fun x hx => Item.d_modify_of_ne F g x hx)
    (fun x hx => Item.d_modify_of_ne F _ x hx)
  have hstep : s.removeFave hash =
      ({ s with root := s.root.modify F (fun f => f.setRows (before ++ after)) }
        ).updateNullItemInFaveSubfolder (some F) := by
    simp only [FiltersView.removeFave, hfind, hparent, hremove, hff2, Option.some_bind, hroot2]
    cases hfound : Item.find? ff
        (Item.modify F g (s.root.modify F (fun f => f.setRows (before ++ after)))) with
    | none => rfl
    | some f =>
      rw [hfound] at hcount
      have hne : f.rowCount ≠ 0 := by
        simp only [Option.map_some', Option.some.injEq] at hcount
        rw [hcount]
        split
        · simpa [Item.rowCount] using hgrows
        · exact hffrows
      simp only [if_neg hne]
  refine ⟨hstep, ?_⟩
  rw [hstep, hroot2, hd]
  split
  · next hFf =>
    subst hFf
    have : a = ffItem := by rw [ha] at hffi; exact Option.some.inj hffi
    subst this
    rw [hgd]
    rfl
  · rfl

theorem findFave_unfold (s : FiltersView) (hash : String) (leaf : Item)
    (hfind : s.findFave hash = some leaf) :
    ∃ ff ffItem, s._faveFolder = some ff ∧ s.root.find? ff = some ffItem ∧
      Item.findFave hash ffItem = some leaf := by
  simp only [FiltersView.findFave] at hfind
  cases hff : s._faveFolder with
  | none => simp [hff] at hfind
  | some ff =>
    cases hffi : s.root.find? ff with
    | none => simp [hff, hffi] at hfind
    | some ffItem =>
      refine ⟨ff, ffItem, rfl, hffi, ?_⟩
      simpa [hff, hffi] using hfind

/-! ## C10: removing the last entry of a favorites subfolder -/

/-- C10. Let F be a folder whose only row is the favorite leaf that
findFave(h) finds. removeFave(h) changes the tree at F alone: F stays where it
is, with the data it had, and its rows become exactly one new placeholder;
the fave folder handle is as before. -/
theorem removeFave_restores_placeholder (s : FiltersView) (hwf : s.WF) (hash : String)
    (F : Nat) (Fitem leaf : Item)
    (hfind : s.findFave hash = some leaf)
    (hF : s.root.find? F = some Fitem)
    (hrows : Fitem.rows = [leaf])
    (hfolder : Fitem.isFolder = true) :
    (s.removeFave hash).root = s.root.modify F (fun f => f.setRows [newNullItem s.nextAddr]) ∧
    ((s.removeFave hash).root.find? F).map Item.rows = some [newNullItem s.nextAddr] ∧
    ((s.removeFave hash).root.find? F).map Item.d = some Fitem.d ∧
    (s.removeFave hash)._faveFolder = s._faveFolder := by
  obtain ⟨ff, ffItem, hff, hffi, hfave⟩ := findFave_unfold s hash leaf hfind
  have h := (removeFave_of_found s hwf hash ff F ffItem leaf Fitem [] [] hff hffi hfave hF
    (by simpa using hrows) hfolder).1
  have hpres0 : ∀ x : Item, x.id = F → (x.setRows ([] ++ [])).id = F := fun x hx => hx
  have hF1 : (s.root.modify F (fun f => f.setRows ([] ++ []))).find? F
      = some (Fitem.setRows ([] ++ [])) := by
    rw [Item.find?_modify F _ hpres0, hF]; rfl
  rw [updateNull_of_empty _ F (Fitem.setRows ([] ++ [])) hF1 (by simp [Item.setRows])] at h
  have hroot : (s.removeFave hash).root
      = s.root.modify F (fun f => f.setRows [newNullItem s.nextAddr]) := by
    rw [h]
    show Item.modify F (fun i => i.appendRow (newNullItem s.nextAddr))
        (Item.modify F (fun f => f.setRows ([] ++ [])) s.root) = _
    rw [Item.modify_modify F _ _ hpres0]
    rfl
  refine ⟨hroot, ?_, ?_, ?_⟩
  · rw [hroot, Item.find?_modify F (fun f => f.setRows [newNullItem s.nextAddr])
      (fun x hx => hx), hF]; rfl
  · rw [hroot, Item.find?_modify F (fun f => f.setRows [newNullItem s.nextAddr])
      (fun x hx => hx), hF]; rfl
  · rw [h]

set_option maxRecDepth 100000 in
/-- C10, at a concrete input: the view after addFave(Retouch, h3,
[Portraits]) on the empty view, where the folder Portraits (address 2) holds
the leaf alone; then removeFave(h3). -/
theorem removeFave_restores_placeholder_witness :
    (((FiltersView.init []).addFave sampleEnv "Retouch" "h3" ["Portraits"]).removeFave "h3").root
      = ((FiltersView.init []).addFave sampleEnv "Retouch" "h3" ["Portraits"]).root.modify 2
          (fun f => f.setRows [newNullItem 5]) ∧
    ((((FiltersView.init []).addFave sampleEnv "Retouch" "h3" ["Portraits"]).removeFave
        "h3").root.find? 2).map Item.rows = some [newNullItem 5] ∧
    ((((FiltersView.init []).addFave sampleEnv "Retouch" "h3" ["Portraits"]).removeFave
        "h3").root.find? 2).map Item.d
      = some ((Item.node (newFolder sampleEnv 2 "Portraits").d []).setEditable true).d ∧
    (((FiltersView.init []).addFave sampleEnv "Retouch" "h3" ["Portraits"]).removeFave
        "h3")._faveFolder = some 1 :=
  removeFave_restores_placeholder
    ((FiltersView.init []).addFave sampleEnv "Retouch" "h3" ["Portraits"])
    ⟨by decide, by decide⟩ "h3" 2
    ((Item.node (newFolder sampleEnv 2 "Portraits").d
      [newFilterItem sampleEnv 4 "Retouch" "h3" false true]).setEditable true)
    (newFilterItem sampleEnv 4 "Retouch" "h3" false true) (by rfl) (by rfl) (by rfl) (by rfl)

/-! ## C1: removeFave and the fave folder -/

/-- C1, as the code has it. For a favorite leaf that findFave(h) finds as a
row of a favorites subfolder F (a folder other than the fave folder itself),
removeFave(h) keeps the fave folder: the handle stays set and the folder
flagged isFaveFolder stays in the tree, at its address. -/
theorem removeFave_keeps_fave_folder (s : FiltersView) (hwf : s.WF) (hash : String)
    (ff F : Nat) (ffItem leaf a : Item) (before after : List Item)
    (hff : s._faveFolder = some ff) (hffi : s.root.find? ff = some ffItem)
    (hflag : ffItem.d.isFaveFolder = true)
    (hfind : s.findFave hash = some leaf)
    (ha : s.root.find? F = some a) (hrows : a.rows = before ++ leaf :: after)
    (hfolder : a.isFolder = true) (_hsub : F ≠ ff) :
    (s.removeFave hash)._faveFolder = some ff ∧
    ∃ f, (s.removeFave hash).root.find? ff = some f ∧ f.d.isFaveFolder = true ∧
      f.d = ffItem.d := by
  obtain ⟨ff2, ffItem2, hff2, hffi2, hfave⟩ := findFave_unfold s hash leaf hfind
  have e1 : ff2 = ff := by rw [hff] at hff2; exact (Option.some.inj hff2).symm
  subst e1
  have e2 : ffItem2 = ffItem := by rw [hffi] at hffi2; exact (Option.some.inj hffi2).symm
  subst e2
  have h := removeFave_of_found s hwf hash ff2 F ffItem2 leaf a before after hff hffi hfave ha
    hrows hfolder
  refine ⟨?_, ?_⟩
  · have hpres0 : ∀ x : Item, x.id = F → (x.setRows (before ++ after)).id = F := fun x hx => hx
    have hF1 : (s.root.modify F (fun f => f.setRows (before ++ after))).find? F
        = some (a.setRows (before ++ after)) := by
      rw [Item.find?_modify F _ hpres0, ha]; rfl
    obtain ⟨g, hg, -⟩ := updateNull_shape
      { s with root := s.root.modify F (fun f => f.setRows (before ++ after)) } F _ hF1
    rw [h.1, hg]
    exact hff
  · cases hf : (s.removeFave hash).root.find? ff2 with
    | none =>
      have := h.2
      rw [hf] at this
      simp at this
    | some f =>
      have := h.2
      rw [hf] at this
      simp only [Option.map_some', Option.some.injEq] at this
      exact ⟨f, rfl, by rw [this]; exact hflag, this⟩

set_option maxRecDepth 100000 in
/-- C1 as amended, at a concrete input: the favorite Retouch/h3 in the
subfolder Portraits (address 2) of the fave folder (address 1). -/
theorem removeFave_keeps_fave_folder_witness :
    (((FiltersView.init []).addFave sampleEnv "Retouch" "h3" ["Portraits"]).removeFave
        "h3")._faveFolder = some 1 ∧
    ∃ f, (((FiltersView.init []).addFave sampleEnv "Retouch" "h3" ["Portraits"]).removeFave
        "h3").root.find? 1 = some f ∧ f.d.isFaveFolder = true ∧
      f.d = { (newFolder sampleEnv 1 "Faves").d with isFaveFolder := true } :=
  removeFave_keeps_fave_folder
    ((FiltersView.init []).addFave sampleEnv "Retouch" "h3" ["Portraits"])
    ⟨by decide, by decide⟩ "h3" 1 2
    (Item.node { (newFolder sampleEnv 1 "Faves").d with isFaveFolder := true }
      [(Item.node (newFolder sampleEnv 2 "Portraits").d
        [newFilterItem sampleEnv 4 "Retouch" "h3" false true]).setEditable true])
    (newFilterItem sampleEnv 4 "Retouch" "h3" false true)
    ((Item.node (newFolder sampleEnv 2 "Portraits").d
      [newFilterItem sampleEnv 4 "Retouch" "h3" false true]).setEditable true)
    [] [] (by rfl) (by rfl) (by rfl) (by rfl) (by rfl) (by rfl) (by rfl) (by decide)

set_option maxRecDepth 100000 in
/-- C1 as stated fails. The view after addFave(Retouch, h3, [Portraits]) on
the empty view holds exactly one favorite leaf, with hash h3, in a favorites
subfolder; after removeFave(h3) the handle is still set and a folder flagged
isFaveFolder is still in the tree. -/
theorem removeFave_last_fave_keeps_root :
    ((((FiltersView.init []).addFave sampleEnv "Retouch" "h3" ["Portraits"]).root.items.filter
        (fun i => i.isFilterItem && i.d.isFave)).map Item.hash = ["h3"]) ∧
    ¬ ((((FiltersView.init []).addFave sampleEnv "Retouch" "h3" ["Portraits"]).removeFave
          "h3")._faveFolder = none ∧
       (((FiltersView.init []).addFave sampleEnv "Retouch" "h3" ["Portraits"]).removeFave
          "h3").root.items.any (fun i => i.isFolder && i.d.isFaveFolder) = false) := by
  refine ⟨by rfl, ?_⟩
  intro h
  exact absurd h.1 (by decide)

set_option maxRecDepth 100000 in
/-- The other half of C1, at a concrete input: a single favorite directly in
the fave folder. After removeFave the fave folder (address 1) holds a
placeholder, so the test `_faveFolder->rowCount() == 0` that follows is false
and removeFaveFolder is not called. -/
theorem removeFave_direct_fave_leaves_placeholder :
    (((FiltersView.init []).addFave sampleEnv "Retouch" "h3" []).removeFave "h3")._faveFolder
      = some 1 ∧
    ((((FiltersView.init []).addFave sampleEnv "Retouch" "h3" []).removeFave "h3").root.find?
        1).map (fun f => f.rows.map Item.kind) = some [Kind.NullItem] := by
  constructor <;> rfl

/-! ## Lookups and addresses -/

theorem getFolderFromPath_mem_items (env : Env) (path : List String) :
    ∀ (t f : Item), getFolderFromPath env t path = some f → f ∈ Item.items t := by
  induction path with
  | nil =>
    intro t f h
    simp only [getFolderFromPath, Option.some.injEq] at h
    subst h
    exact Item.self_mem_items _
  | cons seg rest ih =>
    intro t f h
    simp only [getFolderFromPath] at h
    split at h
    · next c hc =>
      exact Item.mem_items_trans (ih c f h) (Item.mem_items_of_mem_rows (List.mem_of_find?_eq_some hc))
    · cases h

theorem modifyRows_eq_modifyFirst (found : Item → Bool) (g h : Item → Item) (c f : Item)
    (hfc : f ∈ Item.items c) (hc : (Item.ids c).Nodup → Item.modify f.id g c = h c) :
    ∀ (rows : List Item), (Item.idsRows rows).Nodup → rows.find? found = some c →
      Item.modifyRows f.id g rows = modifyFirst found h rows
  | [], _, hfind => by simp at hfind
  | x :: xs, hn, hfind => by
    obtain ⟨hnx, hnxs, hdisj⟩ := Item.nodup_idsRows_cons hn
    by_cases hx : found x = true
    · have : x = c := by simpa [List.find?, hx] using hfind
      subst this
      simp only [Item.modifyRows, Item.find?_of_mem_items x hnx f hfc, modifyFirst, hx, if_true,
        hc hnx]
    · have hfind2 : xs.find? found = some c := by simpa [List.find?, hx] using hfind
      have hcxs : c ∈ xs := List.mem_of_find?_eq_some hfind2
      have hfid : f.id ∈ Item.idsRows xs :=
        Item.mem_idsRows.2 ⟨c, hcxs, Item.id_mem_ids_of_mem_items hfc⟩
      have hnone : Item.find? f.id x = none :=
        Item.find?_none_of_not_mem_ids (fun hin => hdisj _ hin hfid)
      simp only [Item.modifyRows, hnone, modifyFirst, hx, Bool.false_eq_true, if_false,
        modifyRows_eq_modifyFirst found g h c f hfc hc xs hnxs hfind2]

/-- With unique addresses, a call through the pointer the lookup of `path`
returns acts on the folder the path addresses. -/
theorem modify_eq_modifyPath (env : Env) (g : Item → Item) (path : List String) :
    ∀ (t f : Item), (Item.ids t).Nodup → getFolderFromPath env t path = some f →
      Item.modify f.id g t = modifyPath env g path t := by
  induction path with
  | nil =>
    intro t f _ h
    simp only [getFolderFromPath, Option.some.injEq] at h
    subst h
    simp only [Item.modify_self, modifyPath]
  | cons seg rest ih =>
    intro t f hn h
    simp only [getFolderFromPath] at h
    split at h
    · next c hc =>
      have hfc : f ∈ Item.items c := getFolderFromPath_mem_items env rest c f h
      have hcmem : c ∈ t.rows := List.mem_of_find?_eq_some hc
      cases t with
      | node d rows =>
        obtain ⟨hd, hnr⟩ := Item.nodup_ids_node hn
        have hfid : f.id ∈ Item.idsRows rows :=
          Item.mem_idsRows.2 ⟨c, hcmem, Item.id_mem_ids_of_mem_items hfc⟩
        have hne : d.id ≠ f.id := fun e => hd (e ▸ hfid)
        simp only [Item.modify, if_neg hne, modifyPath, Item.setRows, Item.d_node, Item.rows_node]
        rw [modifyRows_eq_modifyFirst (isFolderNamed env seg) g (modifyPath env g rest) c f hfc
          (fun hnc => ih c f hnc h) rows hnr hc]
    · cases h

theorem find?_modifyFirst_self (found : Item → Bool) (h : Item → Item)
    (hh : ∀ x, found (h x) = found x) : ∀ (rows : List Item) (c : Item),
    rows.find? found = some c → (modifyFirst found h rows).find? found = some (h c)
  | [], _, hfind => by simp at hfind
  | x :: xs, c, hfind => by
    by_cases hx : found x = true
    · have : x = c := by simpa [List.find?, hx] using hfind
      subst this
      have h2 : found (h x) = true := by rw [hh]; exact hx
      simp [modifyFirst, hx, List.find?, h2]
    · have hfind2 : xs.find? found = some c := by simpa [List.find?, hx] using hfind
      simp [modifyFirst, hx, List.find?, find?_modifyFirst_self found h hh xs c hfind2]

theorem modifyPath_d (env : Env) (g : Item → Item) (hg : ∀ x, (g x).d = x.d)
    (path : List String) (t : Item) : (modifyPath env g path t).d = t.d := by
  cases path with
  | nil => exact hg t
  | cons seg rest => simp [modifyPath, Item.setRows]

/-- After `g` is applied to the folder `path` addresses, the lookup of `path`
gives that folder after `g`, when `g` keeps the data of an item. -/
theorem getFolderFromPath_modifyPath_self (env : Env) (g : Item → Item)
    (hg : ∀ x, (g x).d = x.d) (path : List String) :
    ∀ (t f : Item), getFolderFromPath env t path = some f →
      getFolderFromPath env (modifyPath env g path t) path = some (g f) := by
  induction path with
  | nil =>
    intro t f h
    simp only [getFolderFromPath, Option.some.injEq] at h
    subst h
    rfl
  | cons seg rest ih =>
    intro t f h
    simp only [getFolderFromPath] at h
    split at h
    · next c hc =>
      simp only [getFolderFromPath, modifyPath, Item.setRows, Item.rows_node]
      rw [find?_modifyFirst_self (isFolderNamed env seg) (modifyPath env g rest)
        (fun x => isFolderNamed_congr env seg (modifyPath_d env g hg rest x)) t.rows c hc]
      exact ih c f h
    · cases h

/-! ## createFolder along a path -/

theorem createFolderRows_of_find? (step : Item → Nat → Item × Nat × Nat) (fresh : Nat → Item)
    (found : Item → Bool) (c : Item) (n : Nat) (hstep : step c n = (c, (step c n).2.1, n)) :
    ∀ (rows : List Item), rows.find? found = some c →
      createFolderRows step fresh found rows n = (rows, (step c n).2.1, n)
  | [], hfind => by simp at hfind
  | x :: xs, hfind => by
    by_cases hx : found x = true
    · have : x = c := by simpa [List.find?, hx] using hfind
      subst this
      simp only [createFolderRows, hx, if_true]
      rw [hstep]
    · have hfind2 : xs.find? found = some c := by simpa [List.find?, hx] using hfind
      simp only [createFolderRows, hx, Bool.false_eq_true, if_false,
        createFolderRows_of_find? step fresh found c n hstep xs hfind2]

/-- When the lookup of the path succeeds, createFolder creates nothing and
returns the folder the lookup gives. -/
theorem createFolder_of_lookup (env : Env) (sel : Bool) (path : List String) :
    ∀ (parent f : Item) (n : Nat), getFolderFromPath env parent path = some f →
      createFolder env sel path parent n = (parent, f.id, n) := by
  induction path with
  | nil =>
    intro parent f n h
    simp only [getFolderFromPath, Option.some.injEq] at h
    subst h
    rfl
  | cons seg rest ih =>
    intro parent f n h
    simp only [getFolderFromPath] at h
    split at h
    · next c hc =>
      have hstep := ih c f n h
      simp only [createFolder]
      rw [createFolderRows_of_find? (createFolder env sel rest) _ (isFolderNamed env seg) c n
        (by rw [hstep]) parent.rows hc, hstep]
      simp [Item.setRows, Item.node_eta]
    · cases h

theorem find?_createFolderRows (step : Item → Nat → Item × Nat × Nat) (fresh : Nat → Item)
    (found : Item → Bool) (hstep : ∀ x n, found (step x n).1 = found x)
    (hfresh : ∀ n, found (fresh n) = true) : ∀ (rows : List Item) (n : Nat),
    ∃ c m, (createFolderRows step fresh found rows n).1.find? found = some (step c m).1 ∧
      (createFolderRows step fresh found rows n).2 = (step c m).2
  | [], n => by
    refine ⟨fresh n, n + 1, ?_, rfl⟩
    have : found (step (fresh n) (n + 1)).1 = true := by rw [hstep]; exact hfresh n
    simp [createFolderRows, List.find?, this]
  | x :: xs, n => by
    by_cases hx : found x = true
    · refine ⟨x, n, ?_, ?_⟩
      · have : found (step x n).1 = true := by rw [hstep]; exact hx
        simp [createFolderRows, hx, List.find?, this]
      · simp [createFolderRows, hx]
    · obtain ⟨c, m, h1, h2⟩ := find?_createFolderRows step fresh found hstep hfresh xs n
      refine ⟨c, m, ?_, ?_⟩
      · simp [createFolderRows, hx, List.find?, h1]
      · simp [createFolderRows, hx, h2]

/-- After createFolder the lookup of the path succeeds and gives the folder
createFolder returned. -/
theorem getFolderFromPath_createFolder (env : Env)
    (hEnv : ∀ x, env.folderText x = env.removeWarningPrefix x) (sel : Bool) (path : List String) :
    ∀ (parent : Item) (n : Nat),
      ∃ f, getFolderFromPath env (createFolder env sel path parent n).1 path = some f ∧
        f.id = (createFolder env sel path parent n).2.1 := by
  induction path with
  | nil =>
    intro parent n
    exact ⟨parent, rfl, rfl⟩
  | cons seg rest ih =>
    intro parent n
    obtain ⟨c, m, h1, h2⟩ := find?_createFolderRows (createFolder env sel rest)
      (fun a => if sel then (withCheckbox (newFolder env a seg)).setVisibility true
                else newFolder env a seg)
      (isFolderNamed env seg)
      (fun x k => isFolderNamed_congr env seg (createFolder_d env sel rest x k))
      (fun k => isFolderNamed_fresh env hEnv sel seg k) parent.rows n
    obtain ⟨f, hf1, hf2⟩ := ih c m
    refine ⟨f, ?_, ?_⟩
    · simp only [createFolder, getFolderFromPath, Item.setRows, Item.rows_node, h1]
      exact hf1
    · simp only [createFolder, h2]
      exact hf2

/-! ## Fresh addresses -/

theorem ids_fresh_folder (env : Env) (sel : Bool) (seg : String) (a : Nat) :
    Item.ids (if sel then (withCheckbox (newFolder env a seg)).setVisibility true
              else newFolder env a seg) = [a] := by
  cases sel <;> rfl

theorem createFolderRows_ids (step : Item → Nat → Item × Nat × Nat) (fresh : Nat → Item)
    (found : Item → Bool) (hfresh : ∀ a, Item.ids (fresh a) = [a])
    (hstep : ∀ x n, n ≤ (step x n).2.2 ∧
      (Item.ids (step x n).1).Perm (Item.ids x ++ List.range' n ((step x n).2.2 - n))) :
    ∀ (rows : List Item) (n : Nat),
      n ≤ (createFolderRows step fresh found rows n).2.2 ∧
      (Item.idsRows (createFolderRows step fresh found rows n).1).Perm
        (Item.idsRows rows ++
          List.range' n ((createFolderRows step fresh found rows n).2.2 - n))
  | [], n => by
    obtain ⟨h1, h2⟩ := hstep (fresh n) (n + 1)
    simp only [createFolderRows, Item.idsRows, List.append_nil, List.nil_append]
    refine ⟨by omega, ?_⟩
    have e : (step (fresh n) (n + 1)).2.2 - n = ((step (fresh n) (n + 1)).2.2 - (n + 1)) + 1 := by
      omega
    rw [e, List.range'_succ]
    rw [hfresh] at h2
    simpa using h2
  | x :: xs, n => by
    by_cases hx : found x = true
    · obtain ⟨h1, h2⟩ := hstep x n
      simp only [createFolderRows, hx, if_true, Item.idsRows]
      refine ⟨h1, ?_⟩
      refine (h2.append_right _).trans ?_
      simp only [List.append_assoc]
      exact List.Perm.append_left _ List.perm_append_comm
    · obtain ⟨h1, h2⟩ := createFolderRows_ids step fresh found hfresh hstep xs n
      simp only [createFolderRows, hx, Bool.false_eq_true, if_false, Item.idsRows]
      refine ⟨h1, ?_⟩
      simp only [List.append_assoc]
      exact List.Perm.append_left _ h2

/-- The addresses after createFolder are the addresses before and the fresh
ones handed out in between. -/
theorem createFolder_ids (env : Env) (sel : Bool) (path : List String) :
    ∀ (parent : Item) (n : Nat),
      n ≤ (createFolder env sel path parent n).2.2 ∧
      (Item.ids (createFolder env sel path parent n).1).Perm
        (Item.ids parent ++ List.range' n ((createFolder env sel path parent n).2.2 - n)) := by
  induction path with
  | nil =>
    intro parent n
    simp [createFolder]
  | cons seg rest ih =>
    intro parent n
    obtain ⟨h1, h2⟩ := createFolderRows_ids (createFolder env sel rest)
      (fun a => if sel then (withCheckbox (newFolder env a seg)).setVisibility true
                else newFolder env a seg)
      (isFolderNamed env seg) (fun a => ids_fresh_folder env sel seg a) ih parent.rows n
    simp only [createFolder]
    refine ⟨h1, ?_⟩
    rw [Item.ids_eq, Item.ids_eq parent]
    simp only [Item.setRows, Item.id_node, Item.rows_node, List.cons_append]
    exact List.Perm.cons _ h2

theorem nodup_append_range (l : List Nat) (n k : Nat) (hl : l.Nodup) (hb : ∀ i ∈ l, i < n) :
    (l ++ List.range' n k).Nodup := by
  rw [List.nodup_append]
  refine ⟨hl, List.nodup_range' n k, ?_⟩
  intro i hi hr
  have := hb i hi
  have := (List.mem_range'_1.1 hr).1
  omega

/-- createFolder keeps a tree well formed. -/
theorem createFolder_wf (env : Env) (sel : Bool) (path : List String) (parent : Item) (n : Nat)
    (hn : (Item.ids parent).Nodup) (hb : ∀ i ∈ Item.ids parent, i < n) :
    (Item.ids (createFolder env sel path parent n).1).Nodup ∧
    (∀ i ∈ Item.ids (createFolder env sel path parent n).1,
      i < (createFolder env sel path parent n).2.2) ∧
    n ≤ (createFolder env sel path parent n).2.2 := by
  obtain ⟨h1, h2⟩ := createFolder_ids env sel path parent n
  refine ⟨?_, ?_, h1⟩
  · exact (h2.nodup_iff).2 (nodup_append_range _ _ _ hn hb)
  · intro i hi
    rcases List.mem_append.1 (h2.subset hi) with h | h
    · have := hb i h
      omega
    · have := (List.mem_range'_1.1 h).2
      omega

theorem modifyFirst_ids (found : Item → Bool) (h : Item → Item) (extra : List Nat) (c : Item)
    (hc : (Item.ids (h c)).Perm (Item.ids c ++ extra)) :
    ∀ (rows : List Item), rows.find? found = some c →
      (Item.idsRows (modifyFirst found h rows)).Perm (Item.idsRows rows ++ extra)
  | [], hfind => by simp at hfind
  | x :: xs, hfind => by
    by_cases hx : found x = true
    · have : x = c := by simpa [List.find?, hx] using hfind
      subst this
      simp only [modifyFirst, hx, if_true, Item.idsRows]
      refine (hc.append_right _).trans ?_
      simp only [List.append_assoc]
      exact List.Perm.append_left _ List.perm_append_comm
    · have hfind2 : xs.find? found = some c := by simpa [List.find?, hx] using hfind
      simp only [modifyFirst, hx, Bool.false_eq_true, if_false, Item.idsRows, List.append_assoc]
      exact List.Perm.append_left _ (modifyFirst_ids found h extra c hc xs hfind2)

/-- The addresses after a row is appended to the folder a path addresses. -/
theorem modifyPath_appendRow_ids (env : Env) (leaf : Item) (path : List String) :
    ∀ (t f : Item), getFolderFromPath env t path = some f →
      (Item.ids (modifyPath env (fun x => x.appendRow leaf) path t)).Perm
        (Item.ids t ++ Item.ids leaf) := by
  induction path with
  | nil =>
    intro t f _
    cases t with
    | node d rows =>
      have : ∀ (l : List Item), Item.idsRows (l ++ [leaf]) = Item.idsRows l ++ Item.ids leaf := by
        intro l
        induction l with
        | nil => simp [Item.idsRows]
        | cons y ys ih => simp [Item.idsRows, ih]
      simp [modifyPath, Item.appendRow, Item.ids, this]
  | cons seg rest ih =>
    intro t f h
    simp only [getFolderFromPath] at h
    split at h
    · next c hc =>
      rw [Item.ids_eq, Item.ids_eq t]
      simp only [modifyPath, Item.setRows, Item.id_node, Item.rows_node, List.cons_append]
      exact List.Perm.cons _
        (modifyFirst_ids (isFolderNamed env seg) _ (Item.ids leaf) c (ih c f h) t.rows hc)
    · cases h

/-! ## addFilter on a well-formed view with a coherent cache -/

theorem appendItem_root (s : FiltersView) (folder : Nat) (item : Item) (visible : Bool) :
    s.appendItem folder item visible =
      { s with
        root := s.root.modify folder
          (fun f => f.appendRow (checkedRow s._isInSelectionMode item visible)) } := by
  cases hsel : s._isInSelectionMode <;>
    simp [FiltersView.appendItem, hsel, checkedRow, addStandardItemWithCheckbox]

theorem createFolderAt_root (env : Env) (s : FiltersView) (path : List String) :
    s.createFolderAt env (some s.root.id) path =
      ({ s with
          root := (createFolder env s._isInSelectionMode path s.root s.nextAddr).1,
          nextAddr := (createFolder env s._isInSelectionMode path s.root s.nextAddr).2.2 },
        some (createFolder env s._isInSelectionMode path s.root s.nextAddr).2.1) := by
  rw [createFolderAt_of_find? env s s.root.id path s.root (Item.find?_self _), Item.modify_self]

theorem addFilter_found (env : Env) (v : FiltersView) (hn : (Item.ids v.root).Nodup)
    (text hash : String) (path : List String) (warning visible : Bool) (f : Item)
    (hf : getFolderFromPath env v.root path = some f) :
    (v.appendItem f.id (newFilterItem env v.nextAddr text hash warning false) visible).allocated
      = v.withFilter env text hash path warning visible := by
  rw [appendItem_root, FiltersView.withFilter,
    createFolder_of_lookup env _ path v.root f v.nextAddr hf,
    modify_eq_modifyPath env _ path v.root f hn hf]
  rfl

theorem addFilter_created (env : Env) (hEnv : ∀ x, env.folderText x = env.removeWarningPrefix x)
    (v : FiltersView) (hwf : v.WF)
    (text hash : String) (path : List String) (warning visible : Bool) :
    (v.createFolderAt env (some v.root.id) path).2
      = some (createFolder env v._isInSelectionMode path v.root v.nextAddr).2.1 ∧
    ((v.createFolderAt env (some v.root.id) path).1.appendItem
        (createFolder env v._isInSelectionMode path v.root v.nextAddr).2.1
        (newFilterItem env (v.createFolderAt env (some v.root.id) path).1.nextAddr
          text hash warning false) visible).allocated
      = v.withFilter env text hash path warning visible := by
  obtain ⟨f, hf1, hf2⟩ := getFolderFromPath_createFolder env hEnv v._isInSelectionMode path
    v.root v.nextAddr
  have hwf1 := createFolder_wf env v._isInSelectionMode path v.root v.nextAddr hwf.1 hwf.2
  rw [createFolderAt_root]
  refine ⟨rfl, ?_⟩
  rw [appendItem_root, FiltersView.withFilter]
  simp only
  rw [← hf2, modify_eq_modifyPath env _ path _ f hwf1.1 hf1]
  rfl

/-- addFilter, when the entry passes the visibility policy: the folder chain
of the path is created where it is missing and one row is appended to the
folder the path addresses. The cache holds the path, with the pointer the
lookup gave before the chain was created. -/
theorem addFilter_eq (env : Env) (hEnv : ∀ x, env.folderText x = env.removeWarningPrefix x)
    (s : FiltersView) (hwf : s.WF) (hcache : s.CacheCoherent env)
    (text hash : String) (path : List String) (warning : Bool)
    (hgate : s._isInSelectionMode = true ∨ filterIsVisible s.visibilityMap hash = true) :
    s.addFilter env text hash path warning =
      { s.withFilter env text hash path warning (filterIsVisible s.visibilityMap hash) with
        _cachedFolder :=
          if path = s._cachedFolderPath then s._cachedFolder
          else (getFolderFromPath env s.root path).map Item.id,
        _cachedFolderPath := path } := by
  have hg : (!s._isInSelectionMode && !filterIsVisible s.visibilityMap hash) = false := by
    rcases hgate with h | h <;> simp [h]
  have hcr := addFilter_created env hEnv s hwf text hash path warning
    (filterIsVisible s.visibilityMap hash)
  have hfd := addFilter_found env s hwf.1 text hash path warning
    (filterIsVisible s.visibilityMap hash)
  simp only [FiltersView.addFilter, hg, Bool.false_eq_true, if_false]
  by_cases hp : path = s._cachedFolderPath
  · simp only [FiltersView.getFolderFromPath, if_pos hp]
    cases hc : s._cachedFolder with
    | none =>
      simp only [hcr.1, hcr.2]
      obtain ⟨root, ff, cf, cfp, sel, vm, na⟩ := s
      simp only at hp hc
      subst hp hc
      rfl
    | some p =>
      have hlook : (getFolderFromPath env s.root path).map Item.id = some p := by
        rcases hcache with h | h
        · rw [hc] at h; cases h
        · rw [hc, ← hp] at h; exact h.symm
      cases hf : getFolderFromPath env s.root path with
      | none => rw [hf] at hlook; cases hlook
      | some f =>
        rw [hf] at hlook
        simp only [Option.map_some', Option.some.injEq] at hlook
        subst hlook
        simp only [hfd f hf]
        obtain ⟨root, ff, cf, cfp, sel, vm, na⟩ := s
        simp only at hp hc
        subst hp hc
        rfl
  · simp only [FiltersView.getFolderFromPath, if_neg hp]
    cases hf : getFolderFromPath env s.root path with
    | none =>
      have hcr2 := addFilter_created env hEnv
        { s with _cachedFolder := none, _cachedFolderPath := path } hwf text hash path warning
        (filterIsVisible s.visibilityMap hash)
      simp only [Option.map_none'] at hcr2 ⊢
      simp only [hcr2.1, hcr2.2]
      rfl
    | some f =>
      have hfd2 := addFilter_found env
        { s with _cachedFolder := some f.id, _cachedFolderPath := path } hwf.1 text hash path warning
        (filterIsVisible s.visibilityMap hash) f hf
      simp only [Option.map_some'] at hfd2 ⊢
      simp only [hfd2]
      rfl

/-! ## addFilter in selection mode, with a coherent cache -/

/-- addFilter in selection mode while the cache is coherent. On a well-formed
view with a coherent cache (and the folder constructor that shows a segment
without its warning prefix), for every name, hash, path and warning flag,
visible or not: once the folder chain of the path exists (createFolder creates
what is missing and nothing when the path resolves), addFilter appends exactly
one row to the folder the path addresses, as its last row, a filter leaf with
that hash whose checkbox is checked exactly when the hash is visible; the rest
of the tree is as it was. -/
theorem addFilter_selection_mode (env : Env)
    (hEnv : ∀ x, env.folderText x = env.removeWarningPrefix x)
    (s : FiltersView) (hwf : s.WF) (hcache : s.CacheCoherent env)
    (hsel : s._isInSelectionMode = true)
    (text hash : String) (path : List String) (warning : Bool) :
    ∃ folder leaf,
      getFolderFromPath env (createFolder env s._isInSelectionMode path s.root s.nextAddr).1 path
        = some folder ∧
      (∀ f, getFolderFromPath env s.root path = some f →
        (createFolder env s._isInSelectionMode path s.root s.nextAddr).1 = s.root ∧ folder = f) ∧
      (s.addFilter env text hash path warning).root
        = modifyPath env (fun f => f.appendRow leaf) path
            (createFolder env s._isInSelectionMode path s.root s.nextAddr).1 ∧
      getFolderFromPath env (s.addFilter env text hash path warning).root path
        = some (folder.appendRow leaf) ∧
      (folder.appendRow leaf).rows = folder.rows ++ [leaf] ∧
      leaf.kind = Kind.FilterItem ∧ leaf.hash = hash ∧ leaf.rows = [] ∧
      leaf.d.visibilityItem
        = some (if filterIsVisible s.visibilityMap hash then CheckState.Checked
                else CheckState.Unchecked) ∧
      leaf.isVisible = filterIsVisible s.visibilityMap hash := by
  obtain ⟨folder, hfolder, -⟩ := getFolderFromPath_createFolder env hEnv s._isInSelectionMode
    path s.root s.nextAddr
  have heq := addFilter_eq env hEnv s hwf hcache text hash path warning (Or.inl hsel)
  refine ⟨folder, checkedRow s._isInSelectionMode
    (newFilterItem env (createFolder env s._isInSelectionMode path s.root s.nextAddr).2.2
      text hash warning false) (filterIsVisible s.visibilityMap hash), hfolder, ?_, ?_, ?_, ?_, ?_⟩
  · intro f hf
    have h := createFolder_of_lookup env s._isInSelectionMode path s.root f s.nextAddr hf
    rw [h] at hfolder
    rw [h]
    refine ⟨rfl, ?_⟩
    rw [hf] at hfolder
    exact (Option.some.inj hfolder).symm
  · rw [heq]
    rfl
  · rw [heq]
    exact getFolderFromPath_modifyPath_self env
      (fun f => f.appendRow (checkedRow s._isInSelectionMode
        (newFilterItem env (createFolder env s._isInSelectionMode path s.root s.nextAddr).2.2
          text hash warning false) (filterIsVisible s.visibilityMap hash)))
      (fun _ => rfl) path _ folder hfolder
  · simp [Item.appendRow]
  · rw [hsel]
    cases filterIsVisible s.visibilityMap hash <;>
      exact ⟨rfl, rfl, rfl, rfl, rfl⟩

set_option maxRecDepth 100000 in
/-- The same at a concrete input: selection mode, the hash `h1` marked not
visible, the path Effects not yet in the tree. -/
theorem addFilter_selection_mode_witness :
    ∃ folder leaf,
      getFolderFromPath sampleEnv
        (createFolder sampleEnv (FiltersView.init [("h1", false)]).enableSelectionMode._isInSelectionMode
          ["Effects"] (FiltersView.init [("h1", false)]).enableSelectionMode.root
          (FiltersView.init [("h1", false)]).enableSelectionMode.nextAddr).1 ["Effects"]
        = some folder ∧
      (∀ f, getFolderFromPath sampleEnv (FiltersView.init [("h1", false)]).enableSelectionMode.root
          ["Effects"] = some f →
        (createFolder sampleEnv (FiltersView.init [("h1", false)]).enableSelectionMode._isInSelectionMode
          ["Effects"] (FiltersView.init [("h1", false)]).enableSelectionMode.root
          (FiltersView.init [("h1", false)]).enableSelectionMode.nextAddr).1
            = (FiltersView.init [("h1", false)]).enableSelectionMode.root ∧ folder = f) ∧
      ((FiltersView.init [("h1", false)]).enableSelectionMode.addFilter sampleEnv "Blur" "h1"
          ["Effects"] false).root
        = modifyPath sampleEnv (fun f => f.appendRow leaf) ["Effects"]
            (createFolder sampleEnv
              (FiltersView.init [("h1", false)]).enableSelectionMode._isInSelectionMode
              ["Effects"] (FiltersView.init [("h1", false)]).enableSelectionMode.root
              (FiltersView.init [("h1", false)]).enableSelectionMode.nextAddr).1 ∧
      getFolderFromPath sampleEnv
        ((FiltersView.init [("h1", false)]).enableSelectionMode.addFilter sampleEnv "Blur" "h1"
          ["Effects"] false).root ["Effects"]
        = some (folder.appendRow leaf) ∧
      (folder.appendRow leaf).rows = folder.rows ++ [leaf] ∧
      leaf.kind = Kind.FilterItem ∧ leaf.hash = "h1" ∧ leaf.rows = [] ∧
      leaf.d.visibilityItem
        = some (if filterIsVisible (FiltersView.init [("h1", false)]).enableSelectionMode.visibilityMap
                  "h1" then CheckState.Checked
                else CheckState.Unchecked) ∧
      leaf.isVisible
        = filterIsVisible (FiltersView.init [("h1", false)]).enableSelectionMode.visibilityMap "h1" :=
  addFilter_selection_mode sampleEnv (fun _ => rfl)
    (FiltersView.init [("h1", false)]).enableSelectionMode ⟨by decide, by decide⟩ (Or.inr rfl) rfl
    "Blur" "h1" ["Effects"] false

/-! ## C7: addFilter in selection mode, with a stale cache -/

theorem isFolderNamed_eq_of_same (env : Env) (s1 s2 : String)
    (h : env.removeWarningPrefix s1 = env.removeWarningPrefix s2) :
    isFolderNamed env s1 = isFolderNamed env s2 := by
  funext c
  simp [isFolderNamed, h]

theorem isFolderNamed_false_of_other (env : Env) (s1 s2 : String)
    (h : env.removeWarningPrefix s1 ≠ env.removeWarningPrefix s2) (x : Item)
    (hx : isFolderNamed env s2 x = true) : isFolderNamed env s1 x = false := by
  have := ((isFolderNamed_iff env s2 x).1 hx).2
  cases h1 : isFolderNamed env s1 x with
  | false => rfl
  | true =>
    have h2 := ((isFolderNamed_iff env s1 x).1 h1).2
    exact absurd (h2.symm.trans this) h

theorem getFolderFromPath_congr (env : Env) : ∀ (p q : List String) (t : Item),
    samePath env p q = true → getFolderFromPath env t p = getFolderFromPath env t q
  | [], [], _, _ => rfl
  | [], _ :: _, _, h => by simp [samePath] at h
  | _ :: _, [], _, h => by simp [samePath] at h
  | s1 :: r1, s2 :: r2, t, h => by
    have h2 : env.removeWarningPrefix s1 = env.removeWarningPrefix s2 ∧
        samePath env r1 r2 = true := by
      simpa [samePath] using h
    simp only [getFolderFromPath, isFolderNamed_eq_of_same env s1 s2 h2.1]
    split
    · exact getFolderFromPath_congr env r1 r2 _ h2.2
    · rfl

theorem find?_modifyFirst_other (found p : Item → Bool) (h : Item → Item)
    (hp : ∀ x, found x = true → p x = false ∧ p (h x) = false) :
    ∀ (rows : List Item), (modifyFirst found h rows).find? p = rows.find? p
  | [] => rfl
  | x :: xs => by
    by_cases hx : found x = true
    · simp [modifyFirst, hx, List.find?, (hp x hx).1, (hp x hx).2]
    · simp only [modifyFirst, hx, Bool.false_eq_true, if_false, List.find?,
        find?_modifyFirst_other found p h hp xs]

theorem filter_modifyFirst (found p : Item → Bool) (h : Item → Item)
    (hp : ∀ x, found x = true → p x = false ∧ p (h x) = false) :
    ∀ (rows : List Item), (modifyFirst found h rows).filter p = rows.filter p
  | [] => rfl
  | x :: xs => by
    by_cases hx : found x = true
    · simp [modifyFirst, hx, List.filter, (hp x hx).1, (hp x hx).2]
    · simp only [modifyFirst, hx, Bool.false_eq_true, if_false, List.filter,
        filter_modifyFirst found p h hp xs]

theorem isFilterItem_false_of_named (env : Env) (seg : String) (x : Item)
    (hx : isFolderNamed env seg x = true) : x.isFilterItem = false := by
  have := ((isFolderNamed_iff env seg x).1 hx).1
  simp only [Item.isFolder, decide_eq_true_eq] at this
  simp [Item.isFilterItem, this]

theorem isFilterItem_congr {a b : Item} (h : a.d = b.d) : a.isFilterItem = b.isFilterItem := by
  simp [Item.isFilterItem, h]

/-- Lookups after `leaf`, a filter leaf, is appended to the folder that `q`
addresses: the lookup of any path `p` succeeds exactly when it did, gives a
folder with the same data, and the filter leaves among its rows are those it
had, followed by `leaf` when `p` addresses the same folder. -/
theorem getFolderFromPath_modifyPath_appendRow (env : Env) (leaf : Item)
    (hleaf : leaf.isFilterItem = true) :
    ∀ (q p : List String) (t : Item), (getFolderFromPath env t q).isSome = true →
      match getFolderFromPath env t p with
      | some f =>
        ∃ f2, getFolderFromPath env (modifyPath env (fun x => x.appendRow leaf) q t) p = some f2 ∧
          f2.d = f.d ∧
          f2.rows.filter Item.isFilterItem
            = f.rows.filter Item.isFilterItem ++ (if samePath env q p then [leaf] else [])
      | none => getFolderFromPath env (modifyPath env (fun x => x.appendRow leaf) q t) p = none := by
  have hnotfolder : leaf.isFolder = false := by
    simp only [Item.isFilterItem, decide_eq_true_eq] at hleaf
    simp [Item.isFolder, hleaf]
  intro q
  induction q with
  | nil =>
    intro p t _
    cases p with
    | nil =>
      simp only [getFolderFromPath, modifyPath]
      refine ⟨_, rfl, rfl, ?_⟩
      simp [Item.appendRow, samePath, List.filter_append, List.filter, hleaf]
    | cons s1 r1 =>
      have hfind : (t.appendRow leaf).rows.find? (isFolderNamed env s1)
          = t.rows.find? (isFolderNamed env s1) := by
        simp [Item.appendRow, List.find?_append, List.find?, isFolderNamed, hnotfolder]
      simp only [getFolderFromPath, modifyPath, hfind]
      cases hc : t.rows.find? (isFolderNamed env s1) with
      | none => simp
      | some c =>
        simp only
        cases hf : getFolderFromPath env c r1 with
        | none => simp
        | some f => exact ⟨f, rfl, rfl, by simp [samePath]⟩
  | cons s2 r2 ih =>
    intro p t hq
    simp only [getFolderFromPath] at hq
    cases hc2 : t.rows.find? (isFolderNamed env s2) with
    | none => simp [hc2] at hq
    | some c =>
      simp only [hc2] at hq
      have hd : ∀ x, (modifyPath env (fun x => x.appendRow leaf) r2 x).d = x.d :=
        fun x => modifyPath_d env (fun x => x.appendRow leaf) (fun _ => rfl) r2 x
      cases p with
      | nil =>
        simp only [getFolderFromPath, modifyPath]
        refine ⟨_, rfl, rfl, ?_⟩
        simp only [Item.setRows, Item.rows_node, samePath]
        rw [filter_modifyFirst (isFolderNamed env s2) Item.isFilterItem _ (fun x hx =>
          ⟨isFilterItem_false_of_named env s2 x hx,
           by rw [isFilterItem_congr (hd x)]; exact isFilterItem_false_of_named env s2 x hx⟩)]
        simp
      | cons s1 r1 =>
        by_cases hs : env.removeWarningPrefix s1 = env.removeWarningPrefix s2
        · have hsame : samePath env (s2 :: r2) (s1 :: r1) = samePath env r2 r1 := by
            simp [samePath, hs]
          have hfind := find?_modifyFirst_self (isFolderNamed env s2)
            (modifyPath env (fun x => x.appendRow leaf) r2)
            (fun x => isFolderNamed_congr env s2 (hd x)) t.rows c hc2
          simp only [getFolderFromPath, modifyPath, Item.setRows, Item.rows_node,
            isFolderNamed_eq_of_same env s1 s2 hs, hfind, hc2, hsame]
          exact ih r1 c hq
        · have hsame : samePath env (s2 :: r2) (s1 :: r1) = false := by
            have hs2 : env.removeWarningPrefix s2 ≠ env.removeWarningPrefix s1 :=
              fun h => hs h.symm
            simp [samePath, hs2]
          have hfind := find?_modifyFirst_other (isFolderNamed env s2) (isFolderNamed env s1)
            (modifyPath env (fun x => x.appendRow leaf) r2)
            (fun x hx => ⟨isFolderNamed_false_of_other env s1 s2 hs x hx,
              by rw [isFolderNamed_congr env s1 (hd x)]
                 exact isFolderNamed_false_of_other env s1 s2 hs x hx⟩) t.rows
          simp only [getFolderFromPath, modifyPath, Item.setRows, Item.rows_node, hfind, hsame]
          cases hc1 : t.rows.find? (isFolderNamed env s1) with
          | none => simp
          | some c1 =>
            simp only
            cases hf : getFolderFromPath env c1 r1 with
            | none => simp
            | some f => exact ⟨f, rfl, rfl, by simp⟩

/-! ## Lookups after createFolder -/

theorem filter_createFolderRows (step : Item → Nat → Item × Nat × Nat) (fresh : Nat → Item)
    (found p : Item → Bool)
    (hp : ∀ x, found x = true → ∀ n, p (step x n).1 = false ∧ p x = false)
    (hfresh : ∀ a m, p (step (fresh a) m).1 = false) :
    ∀ (rows : List Item) (n : Nat),
      (createFolderRows step fresh found rows n).1.filter p = rows.filter p
  | [], n => by simp [createFolderRows, List.filter, hfresh]
  | x :: xs, n => by
    by_cases hx : found x = true
    · simp [createFolderRows, hx, List.filter, (hp x hx n).1, (hp x hx n).2]
    · simp only [createFolderRows, hx, Bool.false_eq_true, if_false, List.filter,
        filter_createFolderRows step fresh found p hp hfresh xs n]

theorem find?_createFolderRows_other (step : Item → Nat → Item × Nat × Nat) (fresh : Nat → Item)
    (found p : Item → Bool)
    (hp : ∀ x, found x = true → ∀ n, p (step x n).1 = false ∧ p x = false)
    (hfresh : ∀ a m, p (step (fresh a) m).1 = false) :
    ∀ (rows : List Item) (n : Nat),
      (createFolderRows step fresh found rows n).1.find? p = rows.find? p
  | [], n => by simp [createFolderRows, List.find?, hfresh]
  | x :: xs, n => by
    by_cases hx : found x = true
    · simp [createFolderRows, hx, List.find?, (hp x hx n).1, (hp x hx n).2]
    · simp only [createFolderRows, hx, Bool.false_eq_true, if_false, List.find?,
        find?_createFolderRows_other step fresh found p hp hfresh xs n]

theorem find?_createFolderRows_some (step : Item → Nat → Item × Nat × Nat) (fresh : Nat → Item)
    (found : Item → Bool) (hstep : ∀ x n, found (step x n).1 = found x) :
    ∀ (rows : List Item) (n : Nat) (c : Item), rows.find? found = some c →
      (createFolderRows step fresh found rows n).1.find? found = some (step c n).1
  | [], _, _, h => by simp at h
  | x :: xs, n, c, h => by
    by_cases hx : found x = true
    · have : x = c := by simpa [List.find?, hx] using h
      subst this
      have h2 : found (step x n).1 = true := by rw [hstep]; exact hx
      simp [createFolderRows, hx, List.find?, h2]
    · have h2 : xs.find? found = some c := by simpa [List.find?, hx] using h
      simp [createFolderRows, hx, List.find?,
        find?_createFolderRows_some step fresh found hstep xs n c h2]

theorem find?_createFolderRows_none (step : Item → Nat → Item × Nat × Nat) (fresh : Nat → Item)
    (found : Item → Bool) (hstep : ∀ x n, found (step x n).1 = found x)
    (hfresh : ∀ a, found (fresh a) = true) :
    ∀ (rows : List Item) (n : Nat), rows.find? found = none →
      (createFolderRows step fresh found rows n).1.find? found
        = some (step (fresh n) (n + 1)).1
  | [], n, _ => by
    have h2 : found (step (fresh n) (n + 1)).1 = true := by rw [hstep]; exact hfresh n
    simp [createFolderRows, List.find?, h2]
  | x :: xs, n, h => by
    have hx : found x = false := by
      cases hfx : found x with
      | false => rfl
      | true => simp [List.find?, hfx] at h
    have h2 : xs.find? found = none := by simpa [List.find?, hx] using h
    simp [createFolderRows, hx, List.find?,
      find?_createFolderRows_none step fresh found hstep hfresh xs n h2]

theorem leafHashes_of_related (env : Env) (t t1 : Item) (p : List String)
    (h : match getFolderFromPath env t p with
      | some f => ∃ f2, getFolderFromPath env t1 p = some f2 ∧ f2.d = f.d ∧
          f2.rows.filter Item.isFilterItem = f.rows.filter Item.isFilterItem
      | none => leafHashes env t1 p = []) :
    leafHashes env t1 p = leafHashes env t p := by
  cases hf : getFolderFromPath env t p with
  | none =>
    rw [hf] at h
    simp only [leafHashes, hf]
    exact h
  | some f =>
    rw [hf] at h
    obtain ⟨f2, h1, _, h3⟩ := h
    simp only [leafHashes, hf, h1, h3]

theorem leafHashes_fresh_folder (env : Env) (sel : Bool) (seg : String) (a : Nat)
    (p : List String) :
    leafHashes env (if sel then (withCheckbox (newFolder env a seg)).setVisibility true
                    else newFolder env a seg) p = [] := by
  cases p with
  | nil => cases sel <;> rfl
  | cons s r => cases sel <;> rfl

/-- Lookups after createFolder(parent, q): the lookup of any path `p` that
succeeded still succeeds and gives a folder with the same data and the same
filter leaves among its rows; where it failed, the folder it may now reach
has no filter leaf. -/
theorem getFolderFromPath_createFolder_other (env : Env)
    (hEnv : ∀ x, env.folderText x = env.removeWarningPrefix x) (sel : Bool) :
    ∀ (q p : List String) (t : Item) (n : Nat),
      match getFolderFromPath env t p with
      | some f =>
        ∃ f2, getFolderFromPath env (createFolder env sel q t n).1 p = some f2 ∧ f2.d = f.d ∧
          f2.rows.filter Item.isFilterItem = f.rows.filter Item.isFilterItem
      | none => leafHashes env (createFolder env sel q t n).1 p = [] := by
  intro q
  induction q with
  | nil =>
    intro p t n
    cases hf : getFolderFromPath env t p with
    | none => simp [createFolder, leafHashes, hf]
    | some f => exact ⟨f, by simp [createFolder, hf], rfl, rfl⟩
  | cons s2 r2 ih =>
    intro p t n
    have hd : ∀ x k, (createFolder env sel r2 x k).1.d = x.d :=
      fun x k => createFolder_d env sel r2 x k
    have hfreshNamed := fun k => isFolderNamed_fresh env hEnv sel s2 k
    cases p with
    | nil =>
      simp only [getFolderFromPath, createFolder]
      refine ⟨_, rfl, rfl, ?_⟩
      simp only [Item.setRows, Item.rows_node]
      exact filter_createFolderRows _ _ (isFolderNamed env s2) Item.isFilterItem
        (fun x hx k => ⟨by rw [isFilterItem_congr (hd x k)]
                           exact isFilterItem_false_of_named env s2 x hx,
                        isFilterItem_false_of_named env s2 x hx⟩)
        (fun a m => by
          rw [isFilterItem_congr (hd _ m)]
          exact isFilterItem_false_of_named env s2 _ (hfreshNamed a)) t.rows n
    | cons s1 r1 =>
      by_cases hs : env.removeWarningPrefix s1 = env.removeWarningPrefix s2
      · simp only [getFolderFromPath, createFolder, Item.setRows, Item.rows_node, leafHashes,
          isFolderNamed_eq_of_same env s1 s2 hs]
        cases hc : t.rows.find? (isFolderNamed env s2) with
        | some c =>
          rw [find?_createFolderRows_some _ _ (isFolderNamed env s2)
            (fun x k => isFolderNamed_congr env s2 (hd x k)) t.rows n c hc]
          exact ih r1 c n
        | none =>
          rw [find?_createFolderRows_none _ _ (isFolderNamed env s2)
            (fun x k => isFolderNamed_congr env s2 (hd x k)) hfreshNamed t.rows n hc]
          have h1 := leafHashes_of_related env _ _ r1 (ih r1
            (if sel then (withCheckbox (newFolder env n s2)).setVisibility true
             else newFolder env n s2) (n + 1))
          rw [leafHashes_fresh_folder] at h1
          exact h1
      · have hfind := find?_createFolderRows_other (createFolder env sel r2)
          (fun a => if sel then (withCheckbox (newFolder env a s2)).setVisibility true
                    else newFolder env a s2)
          (isFolderNamed env s2) (isFolderNamed env s1)
          (fun x hx k => ⟨by rw [isFolderNamed_congr env s1 (hd x k)]
                             exact isFolderNamed_false_of_other env s1 s2 hs x hx,
                          isFolderNamed_false_of_other env s1 s2 hs x hx⟩)
          (fun a m => by
            rw [isFolderNamed_congr env s1 (hd _ m)]
            exact isFolderNamed_false_of_other env s1 s2 hs _ (hfreshNamed a)) t.rows n
        simp only [getFolderFromPath, createFolder, Item.setRows, Item.rows_node, leafHashes,
          hfind]
        cases hc1 : t.rows.find? (isFolderNamed env s1) with
        | none => simp
        | some c1 =>
          simp only
          cases hf : getFolderFromPath env c1 r1 with
          | none => simp
          | some f => exact ⟨f, rfl, rfl, rfl⟩

/-! ## One call of addFilter, then a sequence -/

theorem checkedRow_newFilterItem (env : Env) (sel : Bool) (a : Nat) (text hash : String)
    (warning visible : Bool) :
    (checkedRow sel (newFilterItem env a text hash warning false) visible).isFilterItem = true ∧
    (checkedRow sel (newFilterItem env a text hash warning false) visible).hash = hash ∧
    Item.ids (checkedRow sel (newFilterItem env a text hash warning false) visible) = [a] := by
  cases sel <;> exact ⟨rfl, rfl, rfl⟩

/-- One call of addFilter that passes the visibility policy, on a well-formed
view with a coherent cache: the view stays so; the filter leaves of the folder
of every path are those it had, followed by the new hash when the path
addresses the folder of the call; every lookup that succeeded still succeeds,
with the same folder; the path of the call resolves. -/
theorem addFilter_step (env : Env) (hEnv : ∀ x, env.folderText x = env.removeWarningPrefix x)
    (s : FiltersView) (hwf : s.WF) (hcache : s.CacheCoherent env)
    (text hash : String) (path : List String) (warning : Bool)
    (hgate : s._isInSelectionMode = true ∨ filterIsVisible s.visibilityMap hash = true) :
    (s.addFilter env text hash path warning).WF ∧
    (s.addFilter env text hash path warning).CacheCoherent env ∧
    (s.addFilter env text hash path warning)._isInSelectionMode = s._isInSelectionMode ∧
    (s.addFilter env text hash path warning).visibilityMap = s.visibilityMap ∧
    (∀ p, leafHashes env (s.addFilter env text hash path warning).root p
      = leafHashes env s.root p ++ (if samePath env path p then [hash] else [])) ∧
    (∀ p f, getFolderFromPath env s.root p = some f →
      ∃ f2, getFolderFromPath env (s.addFilter env text hash path warning).root p = some f2 ∧
        f2.id = f.id) ∧
    (∃ f, getFolderFromPath env (s.addFilter env text hash path warning).root path = some f) := by
  have heq := addFilter_eq env hEnv s hwf hcache text hash path warning hgate
  obtain ⟨hleaf, hhash, hids⟩ := checkedRow_newFilterItem env s._isInSelectionMode
    (createFolder env s._isInSelectionMode path s.root s.nextAddr).2.2 text hash warning
    (filterIsVisible s.visibilityMap hash)
  obtain ⟨folder, hfolder, -⟩ := getFolderFromPath_createFolder env hEnv s._isInSelectionMode
    path s.root s.nextAddr
  have hwf1 := createFolder_wf env s._isInSelectionMode path s.root s.nextAddr hwf.1 hwf.2
  have hroot : (s.addFilter env text hash path warning).root
      = modifyPath env (fun f => f.appendRow (checkedRow s._isInSelectionMode
          (newFilterItem env (createFolder env s._isInSelectionMode path s.root s.nextAddr).2.2
            text hash warning false) (filterIsVisible s.visibilityMap hash)))
          path (createFolder env s._isInSelectionMode path s.root s.nextAddr).1 := by
    rw [heq]; rfl
  have hnext : (s.addFilter env text hash path warning).nextAddr
      = (createFolder env s._isInSelectionMode path s.root s.nextAddr).2.2 + 1 := by
    rw [heq]; rfl
  have hsome : (getFolderFromPath env
      (createFolder env s._isInSelectionMode path s.root s.nextAddr).1 path).isSome = true := by
    rw [hfolder]; rfl
  -- lookups persist
  have hpersist : ∀ p f, getFolderFromPath env s.root p = some f →
      ∃ f2, getFolderFromPath env (s.addFilter env text hash path warning).root p = some f2 ∧
        f2.d = f.d := by
    intro p f hf
    have h1 := getFolderFromPath_createFolder_other env hEnv s._isInSelectionMode path p s.root
      s.nextAddr
    rw [hf] at h1
    obtain ⟨f1, hf1, hd1, -⟩ := h1
    have h2 := getFolderFromPath_modifyPath_appendRow env _ hleaf path p _ hsome
    rw [hf1] at h2
    obtain ⟨f2, hf2, hd2, -⟩ := h2
    exact ⟨f2, by rw [hroot]; exact hf2, hd2.trans hd1⟩
  refine ⟨⟨?_, ?_⟩, ?_, ?_, ?_, ?_, ?_, ?_⟩
  · rw [hroot]
    have hperm := modifyPath_appendRow_ids env (checkedRow s._isInSelectionMode
      (newFilterItem env (createFolder env s._isInSelectionMode path s.root s.nextAddr).2.2
        text hash warning false) (filterIsVisible s.visibilityMap hash)) path _ folder hfolder
    rw [hids] at hperm
    rw [hperm.nodup_iff, List.nodup_append]
    refine ⟨hwf1.1, List.nodup_singleton _, ?_⟩
    intro i hi hi2
    have := hwf1.2.1 i hi
    simp only [List.mem_singleton] at hi2
    omega
  · intro i hi
    rw [hnext]
    rw [hroot] at hi
    have hperm := modifyPath_appendRow_ids env (checkedRow s._isInSelectionMode
      (newFilterItem env (createFolder env s._isInSelectionMode path s.root s.nextAddr).2.2
        text hash warning false) (filterIsVisible s.visibilityMap hash)) path _ folder hfolder
    rw [hids] at hperm
    rcases List.mem_append.1 (hperm.subset hi) with h | h
    · have := hwf1.2.1 i h
      omega
    · simp only [List.mem_singleton] at h
      omega
  · -- the cache
    have hcp : (s.addFilter env text hash path warning)._cachedFolderPath = path := by
      rw [heq]
    have hcf : (s.addFilter env text hash path warning)._cachedFolder
        = if path = s._cachedFolderPath then s._cachedFolder
          else (getFolderFromPath env s.root path).map Item.id := by
      rw [heq]
    have hold : (s.addFilter env text hash path warning)._cachedFolder = none ∨
        (s.addFilter env text hash path warning)._cachedFolder
          = (getFolderFromPath env s.root path).map Item.id := by
      rw [hcf]
      by_cases hp : path = s._cachedFolderPath
      · rw [if_pos hp]
        rcases hcache with h | h
        · exact Or.inl h
        · right; rw [h, hp]
      · rw [if_neg hp]
        exact Or.inr rfl
    rcases hold with h | h
    · exact Or.inl h
    · cases hf : getFolderFromPath env s.root path with
      | none =>
        left
        rw [h, hf]
        rfl
      | some f =>
        right
        obtain ⟨f2, hf2, hd2⟩ := hpersist path f hf
        rw [h, hf, hcp, hf2]
        simp [Item.id, hd2]
  · rw [heq]; rfl
  · rw [heq]; rfl
  · intro p
    have h1 := leafHashes_of_related env _ _ p
      (getFolderFromPath_createFolder_other env hEnv s._isInSelectionMode path p s.root s.nextAddr)
    have h2 := getFolderFromPath_modifyPath_appendRow env _ hleaf path p _ hsome
    rw [← h1, hroot]
    cases hf1 : getFolderFromPath env
        (createFolder env s._isInSelectionMode path s.root s.nextAddr).1 p with
    | none =>
      rw [hf1] at h2
      have hne : samePath env path p = false := by
        cases hsp : samePath env path p with
        | false => rfl
        | true =>
          have := getFolderFromPath_congr env path p
            (createFolder env s._isInSelectionMode path s.root s.nextAddr).1 hsp
          rw [hfolder, hf1] at this
          cases this
      simp [leafHashes, hf1, h2, hne]
    | some f1 =>
      rw [hf1] at h2
      obtain ⟨f2, hf2, -, hrows⟩ := h2
      simp only [leafHashes, hf1, hf2, hrows, List.map_append]
      split <;> simp [hhash]
  · intro p f hf
    obtain ⟨f2, hf2, hd2⟩ := hpersist p f hf
    exact ⟨f2, hf2, by simp [Item.id, hd2]⟩
  · rw [hroot]
    exact ⟨_, getFolderFromPath_modifyPath_self env
      (fun f => f.appendRow (checkedRow s._isInSelectionMode
        (newFilterItem env (createFolder env s._isInSelectionMode path s.root s.nextAddr).2.2
          text hash warning false) (filterIsVisible s.visibilityMap hash)))
      (fun _ => rfl) path _ folder hfolder⟩

theorem addFilters_cons (env : Env) (s : FiltersView) (c : AddFilterCall)
    (cs : List AddFilterCall) :
    s.addFilters env (c :: cs) = (s.addFilter env c.text c.hash c.path c.warning).addFilters env cs :=
  rfl

theorem addFilters_append (env : Env) (s : FiltersView) (xs ys : List AddFilterCall) :
    s.addFilters env (xs ++ ys) = (s.addFilters env xs).addFilters env ys := by
  simp [FiltersView.addFilters, List.foldl_append]

/-- A sequence of addFilter calls that all pass the visibility policy, on a
well-formed view with a coherent cache. -/
theorem addFilters_invariant (env : Env)
    (hEnv : ∀ x, env.folderText x = env.removeWarningPrefix x) (calls : List AddFilterCall) :
    ∀ (s : FiltersView), s.WF → s.CacheCoherent env →
      (∀ h, s._isInSelectionMode = true ∨ filterIsVisible s.visibilityMap h = true) →
      (s.addFilters env calls).WF ∧ (s.addFilters env calls).CacheCoherent env ∧
      (s.addFilters env calls)._isInSelectionMode = s._isInSelectionMode ∧
      (s.addFilters env calls).visibilityMap = s.visibilityMap ∧
      (∀ p, leafHashes env (s.addFilters env calls).root p
        = leafHashes env s.root p
          ++ (calls.filter (fun c => samePath env c.path p)).map AddFilterCall.hash) ∧
      (∀ p f, getFolderFromPath env s.root p = some f →
        ∃ f2, getFolderFromPath env (s.addFilters env calls).root p = some f2 ∧ f2.id = f.id) ∧
      (∀ c ∈ calls, ∃ f, getFolderFromPath env (s.addFilters env calls).root c.path = some f) := by
  induction calls with
  | nil =>
    intro s hwf hcache _
    refine ⟨hwf, hcache, rfl, rfl, ?_, ?_, ?_⟩
    · intro p; simp [FiltersView.addFilters]
    · intro p f hf; exact ⟨f, hf, rfl⟩
    · intro c hc; cases hc
  | cons c cs ih =>
    intro s hwf hcache hvis
    obtain ⟨hwf1, hcache1, hsel1, hvm1, hleaves1, hpersist1, hexists1⟩ :=
      addFilter_step env hEnv s hwf hcache c.text c.hash c.path c.warning (hvis c.hash)
    obtain ⟨hwf2, hcache2, hsel2, hvm2, hleaves2, hpersist2, hexists2⟩ :=
      ih (s.addFilter env c.text c.hash c.path c.warning) hwf1 hcache1
        (by intro h; rw [hsel1, hvm1]; exact hvis h)
    rw [addFilters_cons]
    refine ⟨hwf2, hcache2, hsel2.trans hsel1, hvm2.trans hvm1, ?_, ?_, ?_⟩
    · intro p
      rw [hleaves2 p, hleaves1 p]
      cases hsp : samePath env c.path p <;> simp [List.filter, hsp]
    · intro p f hf
      obtain ⟨f1, hf1, hid1⟩ := hpersist1 p f hf
      obtain ⟨f2, hf2, hid2⟩ := hpersist2 p f1 hf1
      exact ⟨f2, hf2, hid2.trans hid1⟩
    · intro c2 hc2
      rcases List.mem_cons.1 hc2 with rfl | hc2
      · obtain ⟨f1, hf1⟩ := hexists1
        obtain ⟨f2, hf2, -⟩ := hpersist2 _ f1 hf1
        exact ⟨f2, hf2⟩
      · exact hexists2 c2 hc2

theorem empty_wf (vm : List (String × Bool)) (sel : Bool) : (FiltersView.empty vm sel).WF := by
  constructor
  · show ([0] : List Nat).Nodup
    decide
  · show ∀ i ∈ ([0] : List Nat), i < 1
    decide

theorem empty_cacheCoherent (env : Env) (vm : List (String × Bool)) (sel : Bool) :
    (FiltersView.empty vm sel).CacheCoherent env :=
  Or.inr rfl

theorem leafHashes_empty (env : Env) (vm : List (String × Bool)) (sel : Bool)
    (p : List String) : leafHashes env (FiltersView.empty vm sel).root p = [] := by
  cases p <;> rfl

/-! ## Leaves at any depth -/

theorem itemsRows_append (xs ys : List Item) :
    Item.itemsRows (xs ++ ys) = Item.itemsRows xs ++ Item.itemsRows ys := by
  induction xs with
  | nil => rfl
  | cons x xs ih => simp [Item.itemsRows, ih]

theorem filter_items_of_not_filter (x : Item) (hx : x.isFilterItem = false) :
    (Item.items x).filter Item.isFilterItem = allLeaves x := by
  rw [Item.items_eq, allLeaves]
  simp [List.filter, hx]

theorem itemsRows_modifyFirst_perm (found : Item → Bool) (h : Item → Item) (extra : List Item)
    (hfound : ∀ x, found x = true → x.isFilterItem = false ∧ (h x).isFilterItem = false)
    (c : Item) (hc : (allLeaves (h c)).Perm (allLeaves c ++ extra)) :
    ∀ (rows : List Item), rows.find? found = some c →
      ((Item.itemsRows (modifyFirst found h rows)).filter Item.isFilterItem).Perm
        ((Item.itemsRows rows).filter Item.isFilterItem ++ extra)
  | [], hfind => by simp at hfind
  | x :: xs, hfind => by
    by_cases hx : found x = true
    · have : x = c := by simpa [List.find?, hx] using hfind
      subst this
      simp only [modifyFirst, hx, if_true, Item.itemsRows, List.filter_append,
        filter_items_of_not_filter _ (hfound x hx).1, filter_items_of_not_filter _ (hfound x hx).2]
      refine (List.Perm.append_right _ hc).trans ?_
      simp only [List.append_assoc]
      exact List.Perm.append_left _ List.perm_append_comm
    · have hfind2 : xs.find? found = some c := by simpa [List.find?, hx] using hfind
      simp only [modifyFirst, hx, Bool.false_eq_true, if_false, Item.itemsRows,
        List.filter_append, List.append_assoc]
      exact List.Perm.append_left _
        (itemsRows_modifyFirst_perm found h extra hfound c hc xs hfind2)

theorem getFolderFromPath_isSome_of_under (env : Env) : ∀ (p q : List String) (t : Item),
    underPath env p q = true → (getFolderFromPath env t q).isSome = true →
    (getFolderFromPath env t p).isSome = true
  | [], _, _, _, _ => rfl
  | _ :: _, [], _, h, _ => by simp [underPath] at h
  | s1 :: r1, s2 :: r2, t, h, hq => by
    have h2 : env.removeWarningPrefix s1 = env.removeWarningPrefix s2 ∧
        underPath env r1 r2 = true := by
      simpa [underPath] using h
    simp only [getFolderFromPath, isFolderNamed_eq_of_same env s1 s2 h2.1] at hq ⊢
    cases hc : t.rows.find? (isFolderNamed env s2) with
    | none => simp [hc] at hq
    | some c =>
      simp only [hc] at hq ⊢
      exact getFolderFromPath_isSome_of_under env r1 r2 c h2.2 hq

/-- Lookups after `leaf`, a filter leaf without rows, is appended to the
folder that `q` addresses: the filter leaves at any depth below the folder of
a path `p` are those there were, and `leaf` when `q` leads into or below that
folder. -/
theorem allLeaves_modifyPath_appendRow (env : Env) (leaf : Item)
    (hleaf : leaf.isFilterItem = true) (hrows : leaf.rows = []) :
    ∀ (q p : List String) (t f : Item), (getFolderFromPath env t q).isSome = true →
      getFolderFromPath env t p = some f →
      ∃ f2, getFolderFromPath env (modifyPath env (fun x => x.appendRow leaf) q t) p = some f2 ∧
        (allLeaves f2).Perm (allLeaves f ++ (if underPath env p q then [leaf] else [])) := by
  have hnotfolder : leaf.isFolder = false := by
    simp only [Item.isFilterItem, decide_eq_true_eq] at hleaf
    simp [Item.isFolder, hleaf]
  have hitems : Item.items leaf = [leaf] := by
    rw [Item.items_eq, hrows]; rfl
  intro q
  induction q with
  | nil =>
    intro p t f _ hf
    cases p with
    | nil =>
      simp only [getFolderFromPath, Option.some.injEq] at hf
      subst hf
      refine ⟨_, rfl, ?_⟩
      simp only [modifyPath, underPath, if_true, allLeaves]
      simp [Item.appendRow, itemsRows_append, Item.itemsRows, hitems,
        List.filter_append, List.filter, hleaf]
    | cons s1 r1 =>
      have hfind : (t.appendRow leaf).rows.find? (isFolderNamed env s1)
          = t.rows.find? (isFolderNamed env s1) := by
        simp [Item.appendRow, List.find?_append, List.find?, isFolderNamed, hnotfolder]
      refine ⟨f, ?_, by simp [underPath]⟩
      simp only [getFolderFromPath, modifyPath, hfind] at hf ⊢
      exact hf
  | cons s2 r2 ih =>
    intro p t f hq hf
    simp only [getFolderFromPath] at hq
    cases hc2 : t.rows.find? (isFolderNamed env s2) with
    | none => simp [hc2] at hq
    | some c =>
      simp only [hc2] at hq
      have hd : ∀ x, (modifyPath env (fun x => x.appendRow leaf) r2 x).d = x.d :=
        fun x => modifyPath_d env (fun x => x.appendRow leaf) (fun _ => rfl) r2 x
      cases p with
      | nil =>
        simp only [getFolderFromPath, Option.some.injEq] at hf
        subst hf
        refine ⟨_, rfl, ?_⟩
        obtain ⟨c2, hc2eq, hperm⟩ := ih [] c c hq rfl
        simp only [getFolderFromPath, Option.some.injEq] at hc2eq
        subst hc2eq
        simp only [underPath, if_true] at hperm ⊢
        exact itemsRows_modifyFirst_perm (isFolderNamed env s2) _ [leaf]
          (fun x hx => ⟨isFilterItem_false_of_named env s2 x hx,
            by rw [isFilterItem_congr (hd x)]; exact isFilterItem_false_of_named env s2 x hx⟩)
          c hperm t.rows hc2
      | cons s1 r1 =>
        by_cases hs : env.removeWarningPrefix s1 = env.removeWarningPrefix s2
        · have hunder : underPath env (s1 :: r1) (s2 :: r2) = underPath env r1 r2 := by
            simp [underPath, hs]
          have hfind := find?_modifyFirst_self (isFolderNamed env s2)
            (modifyPath env (fun x => x.appendRow leaf) r2)
            (fun x => isFolderNamed_congr env s2 (hd x)) t.rows c hc2
          simp only [getFolderFromPath, isFolderNamed_eq_of_same env s1 s2 hs, hc2] at hf
          simp only [getFolderFromPath, modifyPath, Item.setRows, Item.rows_node,
            isFolderNamed_eq_of_same env s1 s2 hs, hfind, hunder]
          exact ih r1 c f hq hf
        · have hunder : underPath env (s1 :: r1) (s2 :: r2) = false := by
            simp [underPath, hs]
          have hfind := find?_modifyFirst_other (isFolderNamed env s2) (isFolderNamed env s1)
            (modifyPath env (fun x => x.appendRow leaf) r2)
            (fun x hx => ⟨isFolderNamed_false_of_other env s1 s2 hs x hx,
              by rw [isFolderNamed_congr env s1 (hd x)]
                 exact isFolderNamed_false_of_other env s1 s2 hs x hx⟩) t.rows
          refine ⟨f, ?_, by simp [hunder]⟩
          simp only [getFolderFromPath, modifyPath, Item.setRows, Item.rows_node, hfind] at hf ⊢
          exact hf

theorem itemsRows_createFolderRows_filter (step : Item → Nat → Item × Nat × Nat)
    (fresh : Nat → Item) (found : Item → Bool)
    (hstep : ∀ x n, found x = true →
      (Item.items (step x n).1).filter Item.isFilterItem = (Item.items x).filter Item.isFilterItem)
    (hfresh : ∀ a m, (Item.items (step (fresh a) m).1).filter Item.isFilterItem = []) :
    ∀ (rows : List Item) (n : Nat),
      (Item.itemsRows (createFolderRows step fresh found rows n).1).filter Item.isFilterItem
        = (Item.itemsRows rows).filter Item.isFilterItem
  | [], n => by simp [createFolderRows, Item.itemsRows, hfresh]
  | x :: xs, n => by
    by_cases hx : found x = true
    · simp only [createFolderRows, hx, if_true, Item.itemsRows, List.filter_append, hstep x n hx]
    · simp only [createFolderRows, hx, Bool.false_eq_true, if_false, Item.itemsRows,
        List.filter_append, itemsRows_createFolderRows_filter step fresh found hstep hfresh xs n]

theorem allLeaves_fresh_folder (env : Env) (sel : Bool) (seg : String) (a : Nat) :
    allLeaves (if sel then (withCheckbox (newFolder env a seg)).setVisibility true
               else newFolder env a seg) = [] := by
  cases sel <;> rfl

/-- createFolder adds no filter leaf anywhere. -/
theorem allLeaves_createFolder (env : Env)
    (hEnv : ∀ x, env.folderText x = env.removeWarningPrefix x) (sel : Bool) :
    ∀ (q : List String) (t : Item) (n : Nat), allLeaves (createFolder env sel q t n).1 = allLeaves t := by
  intro q
  induction q with
  | nil => intro t n; rfl
  | cons s2 r2 ih =>
    intro t n
    have hd : ∀ x k, (createFolder env sel r2 x k).1.d = x.d :=
      fun x k => createFolder_d env sel r2 x k
    have hfreshNamed := fun k => isFolderNamed_fresh env hEnv sel s2 k
    simp only [createFolder, allLeaves, Item.setRows, Item.rows_node]
    apply itemsRows_createFolderRows_filter
    · intro x k hx
      have h1 := isFilterItem_false_of_named env s2 x hx
      have h2 : (createFolder env sel r2 x k).1.isFilterItem = false := by
        rw [isFilterItem_congr (hd x k)]; exact h1
      rw [filter_items_of_not_filter _ h1, filter_items_of_not_filter _ h2, ih]
    · intro a m
      have h1 := isFilterItem_false_of_named env s2 _ (hfreshNamed a)
      have h2 : (createFolder env sel r2
          (if sel then (withCheckbox (newFolder env a s2)).setVisibility true
           else newFolder env a s2) m).1.isFilterItem = false := by
        rw [isFilterItem_congr (hd _ m)]; exact h1
      rw [filter_items_of_not_filter _ h2, ih, allLeaves_fresh_folder]

theorem leafHashesBelow_of_related (env : Env) (t t1 : Item) (p : List String)
    (h : match getFolderFromPath env t p with
      | some f => ∃ f2, getFolderFromPath env t1 p = some f2 ∧ allLeaves f2 = allLeaves f
      | none => leafHashesBelow env t1 p = []) :
    leafHashesBelow env t1 p = leafHashesBelow env t p := by
  cases hf : getFolderFromPath env t p with
  | none =>
    rw [hf] at h
    simp only [leafHashesBelow, hf]
    exact h
  | some f =>
    rw [hf] at h
    obtain ⟨f2, h1, h3⟩ := h
    simp only [leafHashesBelow, hf, h1, h3]

theorem leafHashesBelow_fresh_folder (env : Env) (sel : Bool) (seg : String) (a : Nat)
    (p : List String) :
    leafHashesBelow env (if sel then (withCheckbox (newFolder env a seg)).setVisibility true
                         else newFolder env a seg) p = [] := by
  cases p with
  | nil => cases sel <;> rfl
  | cons s r => cases sel <;> rfl

/-- Lookups after createFolder(parent, q), for the leaves at any depth: the
folder of a path `p` that resolved keeps the leaves below it; a folder that
`p` newly reaches has none. -/
theorem allLeaves_createFolder_other (env : Env)
    (hEnv : ∀ x, env.folderText x = env.removeWarningPrefix x) (sel : Bool) :
    ∀ (q p : List String) (t : Item) (n : Nat),
      match getFolderFromPath env t p with
      | some f =>
        ∃ f2, getFolderFromPath env (createFolder env sel q t n).1 p = some f2 ∧
          allLeaves f2 = allLeaves f
      | none => leafHashesBelow env (createFolder env sel q t n).1 p = [] := by
  intro q
  induction q with
  | nil =>
    intro p t n
    cases hf : getFolderFromPath env t p with
    | none => simp [createFolder, leafHashesBelow, hf]
    | some f => exact ⟨f, by simp [createFolder, hf], rfl⟩
  | cons s2 r2 ih =>
    intro p t n
    have hd : ∀ x k, (createFolder env sel r2 x k).1.d = x.d :=
      fun x k => createFolder_d env sel r2 x k
    have hfreshNamed := fun k => isFolderNamed_fresh env hEnv sel s2 k
    cases p with
    | nil =>
      simp only [getFolderFromPath]
      exact ⟨_, rfl, allLeaves_createFolder env hEnv sel (s2 :: r2) t n⟩
    | cons s1 r1 =>
      by_cases hs : env.removeWarningPrefix s1 = env.removeWarningPrefix s2
      · simp only [getFolderFromPath, createFolder, Item.setRows, Item.rows_node, leafHashesBelow,
          isFolderNamed_eq_of_same env s1 s2 hs]
        cases hc : t.rows.find? (isFolderNamed env s2) with
        | some c =>
          rw [find?_createFolderRows_some _ _ (isFolderNamed env s2)
            (fun x k => isFolderNamed_congr env s2 (hd x k)) t.rows n c hc]
          exact ih r1 c n
        | none =>
          rw [find?_createFolderRows_none _ _ (isFolderNamed env s2)
            (fun x k => isFolderNamed_congr env s2 (hd x k)) hfreshNamed t.rows n hc]
          have h1 := leafHashesBelow_of_related env _ _ r1 (ih r1
            (if sel then (withCheckbox (newFolder env n s2)).setVisibility true
             else newFolder env n s2) (n + 1))
          rw [leafHashesBelow_fresh_folder] at h1
          exact h1
      · have hfind := find?_createFolderRows_other (createFolder env sel r2)
          (fun a => if sel then (withCheckbox (newFolder env a s2)).setVisibility true
                    else newFolder env a s2)
          (isFolderNamed env s2) (isFolderNamed env s1)
          (fun x hx k => ⟨by rw [isFolderNamed_congr env s1 (hd x k)]
                             exact isFolderNamed_false_of_other env s1 s2 hs x hx,
                          isFolderNamed_false_of_other env s1 s2 hs x hx⟩)
          (fun a m => by
            rw [isFolderNamed_congr env s1 (hd _ m)]
            exact isFolderNamed_false_of_other env s1 s2 hs _ (hfreshNamed a)) t.rows n
        simp only [getFolderFromPath, createFolder, Item.setRows, Item.rows_node, leafHashesBelow,
          hfind]
        cases hc1 : t.rows.find? (isFolderNamed env s1) with
        | none => simp
        | some c1 =>
          simp only
          cases hf : getFolderFromPath env c1 r1 with
          | none => simp
          | some f => exact ⟨f, rfl, rfl⟩

/-- One call of addFilter, for the leaves at any depth: below the folder of
every path `p` they are those there were, and the new hash when the path of
the call leads into or below that folder. -/
theorem addFilter_step_below (env : Env)
    (hEnv : ∀ x, env.folderText x = env.removeWarningPrefix x)
    (s : FiltersView) (hwf : s.WF) (hcache : s.CacheCoherent env)
    (text hash : String) (path : List String) (warning : Bool)
    (hgate : s._isInSelectionMode = true ∨ filterIsVisible s.visibilityMap hash = true)
    (p : List String) :
    (leafHashesBelow env (s.addFilter env text hash path warning).root p).Perm
      (leafHashesBelow env s.root p ++ (if underPath env p path then [hash] else [])) := by
  have heq := addFilter_eq env hEnv s hwf hcache text hash path warning hgate
  obtain ⟨hleaf, hhash, -⟩ := checkedRow_newFilterItem env s._isInSelectionMode
    (createFolder env s._isInSelectionMode path s.root s.nextAddr).2.2 text hash warning
    (filterIsVisible s.visibilityMap hash)
  have hrows : (checkedRow s._isInSelectionMode
      (newFilterItem env (createFolder env s._isInSelectionMode path s.root s.nextAddr).2.2
        text hash warning false) (filterIsVisible s.visibilityMap hash)).rows = [] := by
    cases s._isInSelectionMode <;> rfl
  obtain ⟨folder, hfolder, -⟩ := getFolderFromPath_createFolder env hEnv s._isInSelectionMode
    path s.root s.nextAddr
  have hroot : (s.addFilter env text hash path warning).root
      = modifyPath env (fun f => f.appendRow (checkedRow s._isInSelectionMode
          (newFilterItem env (createFolder env s._isInSelectionMode path s.root s.nextAddr).2.2
            text hash warning false) (filterIsVisible s.visibilityMap hash)))
          path (createFolder env s._isInSelectionMode path s.root s.nextAddr).1 := by
    rw [heq]; rfl
  have hsome : (getFolderFromPath env
      (createFolder env s._isInSelectionMode path s.root s.nextAddr).1 path).isSome = true := by
    rw [hfolder]; rfl
  have h1 := leafHashesBelow_of_related env _ _ p
    (allLeaves_createFolder_other env hEnv s._isInSelectionMode path p s.root s.nextAddr)
  rw [← h1, hroot]
  cases hf1 : getFolderFromPath env
      (createFolder env s._isInSelectionMode path s.root s.nextAddr).1 p with
  | none =>
    have h2 := getFolderFromPath_modifyPath_appendRow env _ hleaf path p _ hsome
    rw [hf1] at h2
    have hne : underPath env p path = false := by
      cases hu : underPath env p path with
      | false => rfl
      | true =>
        have := getFolderFromPath_isSome_of_under env p path _ hu hsome
        rw [hf1] at this
        cases this
    simp [leafHashesBelow, hf1, h2, hne]
  | some f1 =>
    obtain ⟨f2, hf2, hperm⟩ := allLeaves_modifyPath_appendRow env _ hleaf hrows path p _ f1
      hsome hf1
    simp only [leafHashesBelow, hf1, hf2]
    have := hperm.map Item.hash
    rw [List.map_append] at this
    refine this.trans ?_
    split <;> simp [hhash]

/-- A sequence of addFilter calls, for the leaves at any depth. -/
theorem addFilters_below (env : Env)
    (hEnv : ∀ x, env.folderText x = env.removeWarningPrefix x) (calls : List AddFilterCall)
    (p : List String) :
    ∀ (s : FiltersView), s.WF → s.CacheCoherent env →
      (∀ h, s._isInSelectionMode = true ∨ filterIsVisible s.visibilityMap h = true) →
      (leafHashesBelow env (s.addFilters env calls).root p).Perm
        (leafHashesBelow env s.root p
          ++ (calls.filter (fun c => underPath env p c.path)).map AddFilterCall.hash) := by
  induction calls with
  | nil =>
    intro s _ _ _
    simp [FiltersView.addFilters]
  | cons c cs ih =>
    intro s hwf hcache hvis
    obtain ⟨hwf1, hcache1, hsel1, hvm1, -⟩ :=
      addFilter_step env hEnv s hwf hcache c.text c.hash c.path c.warning (hvis c.hash)
    have h1 := addFilter_step_below env hEnv s hwf hcache c.text c.hash c.path c.warning
      (hvis c.hash) p
    have h2 := ih (s.addFilter env c.text c.hash c.path c.warning) hwf1 hcache1
      (by intro h; rw [hsel1, hvm1]; exact hvis h)
    rw [addFilters_cons]
    refine h2.trans ((List.Perm.append_right _ h1).trans ?_)
    cases hu : underPath env p c.path <;> simp [List.filter, hu]

theorem leafHashesBelow_empty (env : Env) (vm : List (String × Bool)) (sel : Bool)
    (p : List String) : leafHashesBelow env (FiltersView.empty vm sel).root p = [] := by
  cases p <;> rfl

/-! ## C5: a sequence of addFilter calls from the empty view -/

/-- C5. From the empty view (in either mode) with every hash visible, after
any sequence of addFilter calls, for every path `p` that one of the calls used
(paths compared segment by segment without the warning prefix, for the folder
constructor that shows a segment without it): the uncached lookup of `p`
gives a folder; the hashes of the filter leaves among its rows are exactly
the hashes of the calls with that path, in call order; the hashes of the
filter leaves at any depth below it are exactly, up to order, the hashes of
the calls whose path leads into or below it; and it is the folder the lookup
of `p` gave right after any call that used `p`, the first one in
particular. -/
theorem addFilter_sequence (env : Env)
    (hEnv : ∀ x, env.folderText x = env.removeWarningPrefix x)
    (vm : List (String × Bool)) (sel : Bool) (hvis : ∀ h, filterIsVisible vm h = true)
    (calls : List AddFilterCall) (p : List String)
    (hused : ∃ c ∈ calls, samePath env c.path p = true) :
    ∃ f, getFolderFromPath env ((FiltersView.empty vm sel).addFilters env calls).root p = some f ∧
      (f.rows.filter Item.isFilterItem).map Item.hash
        = (calls.filter (fun c => samePath env c.path p)).map AddFilterCall.hash ∧
      ((allLeaves f).map Item.hash).Perm
        ((calls.filter (fun c => underPath env p c.path)).map AddFilterCall.hash) ∧
      ∀ (before : List AddFilterCall) (c : AddFilterCall) (after : List AddFilterCall),
        calls = before ++ c :: after → samePath env c.path p = true →
        ∃ f0, getFolderFromPath env
            ((FiltersView.empty vm sel).addFilters env (before ++ [c])).root p = some f0 ∧
          f0.id = f.id := by
  have hvis0 : ∀ h, (FiltersView.empty vm sel)._isInSelectionMode = true ∨
      filterIsVisible (FiltersView.empty vm sel).visibilityMap h = true :=
    fun h => Or.inr (hvis h)
  obtain ⟨-, -, -, -, hleaves, -, hexists⟩ := addFilters_invariant env hEnv calls
    (FiltersView.empty vm sel) (empty_wf vm sel) (empty_cacheCoherent env vm sel) hvis0
  obtain ⟨c, hc, hsame⟩ := hused
  obtain ⟨f, hf⟩ := hexists c hc
  rw [getFolderFromPath_congr env c.path p _ hsame] at hf
  refine ⟨f, hf, ?_, ?_, ?_⟩
  · have := hleaves p
    rw [leafHashes_empty, List.nil_append] at this
    simpa [leafHashes, hf] using this
  · have := addFilters_below env hEnv calls p (FiltersView.empty vm sel) (empty_wf vm sel)
      (empty_cacheCoherent env vm sel) hvis0
    rw [leafHashesBelow_empty, List.nil_append] at this
    simpa [leafHashesBelow, hf] using this
  · intro before c2 after hcalls hsame2
    obtain ⟨hwfM, hcacheM, hselM, hvmM, -, -, hexistsM⟩ := addFilters_invariant env hEnv
      (before ++ [c2]) (FiltersView.empty vm sel) (empty_wf vm sel)
      (empty_cacheCoherent env vm sel) hvis0
    obtain ⟨f0, hf0⟩ := hexistsM c2 (by simp)
    rw [getFolderFromPath_congr env c2.path p _ hsame2] at hf0
    obtain ⟨-, -, -, -, -, hpersist, -⟩ := addFilters_invariant env hEnv after
      ((FiltersView.empty vm sel).addFilters env (before ++ [c2])) hwfM hcacheM
      (by intro h; rw [hselM, hvmM]; exact hvis0 h)
    obtain ⟨f2, hf2, hid⟩ := hpersist p f0 hf0
    have hsplit : (FiltersView.empty vm sel).addFilters env calls
        = ((FiltersView.empty vm sel).addFilters env (before ++ [c2])).addFilters env after := by
      rw [← addFilters_append, hcalls]
      simp
    rw [hsplit, hf2] at hf
    cases hf
    exact ⟨f0, hf0, hid.symm⟩

set_option maxRecDepth 100000 in
/-- C5, at the input of the specification: addFilter(Blur, h1,
[Effects, Blur], false) then addFilter(Sharpen, h2, [Effects, Blur], false) on
the empty view. The folder Effects/Blur holds exactly the leaves h1, h2. -/
theorem addFilter_sequence_witness :
    ∃ f, getFolderFromPath sampleEnv ((FiltersView.empty [] false).addFilters sampleEnv
          [⟨"Blur", "h1", ["Effects", "Blur"], false⟩,
           ⟨"Sharpen", "h2", ["Effects", "Blur"], false⟩]).root ["Effects", "Blur"] = some f ∧
      (f.rows.filter Item.isFilterItem).map Item.hash = ["h1", "h2"] ∧
      ((allLeaves f).map Item.hash).Perm ["h1", "h2"] ∧
      ∀ (before : List AddFilterCall) (c : AddFilterCall) (after : List AddFilterCall),
        [(⟨"Blur", "h1", ["Effects", "Blur"], false⟩ : AddFilterCall),
           ⟨"Sharpen", "h2", ["Effects", "Blur"], false⟩] = before ++ c :: after →
        samePath sampleEnv c.path ["Effects", "Blur"] = true →
        ∃ f0, getFolderFromPath sampleEnv
            ((FiltersView.empty [] false).addFilters sampleEnv (before ++ [c])).root
              ["Effects", "Blur"] = some f0 ∧
          f0.id = f.id :=
  addFilter_sequence sampleEnv (fun _ => rfl) [] false (fun _ => rfl)
    [⟨"Blur", "h1", ["Effects", "Blur"], false⟩, ⟨"Sharpen", "h2", ["Effects", "Blur"], false⟩]
    ["Effects", "Blur"] ⟨⟨"Blur", "h1", ["Effects", "Blur"], false⟩, List.mem_cons_self _ _, by rfl⟩

/-! ## C16: findFave -/

namespace Item

theorem findFaveRows_none {hash : String} : ∀ {rows : List Item},
    (∀ x ∈ rows, (∀ y ∈ itemsRows x.rows, y.isFolder = false → y.rows = []) →
      findFave hash x = none →
      ∀ y ∈ itemsRows x.rows, ¬ (y.kind = Kind.FilterItem ∧ y.hash = hash)) →
    (∀ y ∈ itemsRows rows, y.isFolder = false → y.rows = []) →
    findFaveRows hash rows = none →
    ∀ y ∈ itemsRows rows, ¬ (y.kind = Kind.FilterItem ∧ y.hash = hash)
  | [], _, _, _ => by intro y hy; simp [itemsRows] at hy
  | node d rs :: xs, ih, hl, h => by
    have hlx : ∀ y ∈ itemsRows rs, y.isFolder = false → y.rows = [] := fun y hy =>
      hl y (by simp only [itemsRows, items, List.mem_append, List.mem_cons]; exact Or.inl (Or.inr hy))
    have hlxs : ∀ y ∈ itemsRows xs, y.isFolder = false → y.rows = [] := fun y hy =>
      hl y (by simp only [itemsRows, List.mem_append]; exact Or.inr hy)
    have ihxs := fun x hx => ih x (List.mem_cons_of_mem _ hx)
    simp only [findFaveRows] at h
    split_ifs at h with h1 h2
    · -- a folder
      cases hf : findFave hash (node d rs) with
      | some r => rw [hf] at h; exact absurd h (by simp)
      | none =>
        rw [hf] at h
        intro y hy
        simp only [itemsRows, items, List.mem_append, List.mem_cons] at hy
        rcases hy with (rfl | hy) | hy
        · exact h1
        · exact ih (node d rs) (List.mem_cons_self _ _) hlx hf y hy
        · exact findFaveRows_none ihxs hlxs h y hy
    · -- neither: no rows
      have hnf : (node d rs).isFolder = false := by simp [isFolder, Item.d, h2]
      have hrs : rs = [] := hl (node d rs)
        (by simp [itemsRows, items]) hnf
      intro y hy
      simp only [itemsRows, items, List.mem_append, List.mem_cons] at hy
      rcases hy with (rfl | hy) | hy
      · exact h1
      · rw [hrs] at hy; simp [itemsRows] at hy
      · exact findFaveRows_none ihxs hlxs h y hy

/-- Below a subtree where only folders have rows, a search that finds nothing
has seen every item: no filter leaf at any depth carries the hash. -/
theorem findFave_none (hash : String) : ∀ (t : Item),
    (∀ y ∈ itemsRows t.rows, y.isFolder = false → y.rows = []) →
    findFave hash t = none →
    ∀ y ∈ itemsRows t.rows, ¬ (y.kind = Kind.FilterItem ∧ y.hash = hash) := by
  intro t
  induction t using Item.ind with
  | h d rows ih =>
    intro hl h
    exact findFaveRows_none ih hl (by simpa only [findFave] using h)

end Item

theorem Item.rows_of_onlyFoldersHaveRows {t : Item} (h : t.onlyFoldersHaveRows = true) :
    ∀ y ∈ Item.itemsRows t.rows, y.isFolder = false → y.rows = [] := by
  intro y hy hf
  have := List.all_eq_true.1 h y hy
  simpa [hf, List.isEmpty_iff] using this

/-- C16. Where only folders have rows below the favorites root (filter leaves
and placeholders are leaves), findFave(hash) returns an item exactly when a
filter leaf with this hash lies below the favorites root, at any depth, and
what it returns is such a leaf: a FilterTreeItem below the folder `_faveFolder`
refers to, whose hash is the argument. It returns not-found otherwise: without
a favorites root, and when the hash is carried only by items outside the
favorites subtree. -/
theorem findFave_spec (s : FiltersView) (hash : String)
    (hleafy : ∀ ff ffItem, s._faveFolder = some ff → s.root.find? ff = some ffItem →
      ffItem.onlyFoldersHaveRows = true) :
    (∀ leaf, s.findFave hash = some leaf →
      ∃ ff ffItem, s._faveFolder = some ff ∧ s.root.find? ff = some ffItem ∧
        leaf ∈ Item.itemsRows ffItem.rows ∧ leaf.kind = Kind.FilterItem ∧ leaf.hash = hash) ∧
    (s.findFave hash = none ↔
      ∀ ff ffItem, s._faveFolder = some ff → s.root.find? ff = some ffItem →
        ∀ y ∈ Item.itemsRows ffItem.rows, ¬ (y.kind = Kind.FilterItem ∧ y.hash = hash)) := by
  refine ⟨?_, ?_, ?_⟩
  · intro leaf h
    obtain ⟨ff, ffItem, h1, h2, h3⟩ := findFave_unfold s hash leaf h
    exact ⟨ff, ffItem, h1, h2, Item.findFave_mem hash ffItem leaf h3⟩
  · intro h ff ffItem h1 h2
    have h3 : Item.findFave hash ffItem = none := by
      simpa [FiltersView.findFave, h1, h2] using h
    exact Item.findFave_none hash ffItem
      (Item.rows_of_onlyFoldersHaveRows (hleafy ff ffItem h1 h2)) h3
  · intro h
    cases hf : s.findFave hash with
    | none => rfl
    | some leaf =>
      obtain ⟨ff, ffItem, h1, h2, h3⟩ := findFave_unfold s hash leaf hf
      obtain ⟨h4, h5, h6⟩ := Item.findFave_mem hash ffItem leaf h3
      exact absurd ⟨h5, h6⟩ (h ff ffItem h1 h2 leaf h4)

set_option maxRecDepth 100000 in
theorem findFave_spec_witness :
    (((FiltersView.init []).addFilter sampleEnv "Blur" "h1" ["Effects"] false).addFave sampleEnv
        "Blur" "h2" ["A", "B"]).findFave "h1" = none ∧
    ((((FiltersView.init []).addFilter sampleEnv "Blur" "h1" ["Effects"] false).addFave
        sampleEnv "Blur" "h2" ["A", "B"]).findFave "h2").map Item.hash = some "h2" := by
  have hl : ∀ ff ffItem,
      (((FiltersView.init []).addFilter sampleEnv "Blur" "h1" ["Effects"] false).addFave sampleEnv
        "Blur" "h2" ["A", "B"])._faveFolder = some ff →
      (((FiltersView.init []).addFilter sampleEnv "Blur" "h1" ["Effects"] false).addFave sampleEnv
        "Blur" "h2" ["A", "B"]).root.find? ff = some ffItem →
      ffItem.onlyFoldersHaveRows = true := by
    intro ff ffItem h1 h2
    have e1 : ff = 3 := (Option.some.inj (h1.symm.trans (by rfl))).symm ▸ rfl
    subst e1
    have e3 := Option.some.inj (h2.symm.trans (by rfl))
    rw [e3]
    rfl
  have h := findFave_spec
    (((FiltersView.init []).addFilter sampleEnv "Blur" "h1" ["Effects"] false).addFave sampleEnv
        "Blur" "h2" ["A", "B"]) "h1" hl
  refine ⟨h.2.2 ?_, by rfl⟩
  intro ff ffItem h1 h2
  have e1 : ff = 3 := (Option.some.inj (h1.symm.trans (by rfl))).symm ▸ rfl
  subst e1
  have e3 := Option.some.inj (h2.symm.trans (by rfl))
  rw [e3]
  decide

/-! ## C19: the item of an index -/

/-- C19. With unique addresses, for every position of the model, the row `row`
below the item at address `parent` (the invisible root for a top-level row)
and any column: the item of the index is the item `c` of the row for column 0
and a plain item of its own for a further column (in column 1 the checkbox),
and filterTreeStandardItemFromIndex returns in every case the column-0 item
`c` of the row. So the label cell and the checkbox cell of a row resolve to the
same node, filterTreeItemFromIndex and filterTreeFolderFromIndex give the cast
of `c` for every column, and selectedItem and selectedFolder give the same
answer whichever of the two cells is current. The invalid index yields
not-found, and so does a position whose row is not there. -/
theorem filterTreeStandardItemFromIndex_spec (s : FiltersView) (hn : (Item.ids s.root).Nodup)
    (parent row : Nat) (p c : Item)
    (hp : s.root.find? parent = some p) (hc : p.rows.get? row = some c) :
    s.itemFromIndex (ModelIndex.cell parent row 0) = some (QStandardItem.left c) ∧
    (∀ column, column ≠ 0 →
      s.itemFromIndex (ModelIndex.cell parent row column) =
        some (QStandardItem.other c.id column)) ∧
    (∀ column, s.filterTreeStandardItemFromIndex (ModelIndex.cell parent row column) =
      some (QStandardItem.left c)) ∧
    (∀ column, s.filterTreeItemFromIndex (ModelIndex.cell parent row column) =
      if c.isFilterItem then some c else none) ∧
    (∀ column, s.filterTreeFolderFromIndex (ModelIndex.cell parent row column) =
      if c.isFolder then some c else none) ∧
    (∀ v w : TreeView, v.currentIndex = ModelIndex.cell parent row 0 →
      w.currentIndex = ModelIndex.cell parent row 1 →
      s.selectedItem v = s.selectedItem w ∧ s.selectedFolder v = s.selectedFolder w) ∧
    s.filterTreeStandardItemFromIndex ModelIndex.invalid = none ∧
    (∀ parent2 row2 column, (s.root.find? parent2).bind (fun q => q.rows.get? row2) = none →
      s.filterTreeStandardItemFromIndex (ModelIndex.cell parent2 row2 column) = none) := by
  have hmem : c ∈ p.rows := List.get?_mem hc
  have hpar : s.root.parent? c.id = some p :=
    Item.parent?_of_mem_rows p c hmem s.root hn (Item.find?_mem_items parent s.root p hp)
  have hcell : ∀ column, s.itemFromIndex (ModelIndex.cell parent row column) =
      if column = 0 then some (QStandardItem.left c) else some (QStandardItem.other c.id column) := by
    intro column
    simp only [FiltersView.itemFromIndex, hp, Option.some_bind, Item.child, hc, Option.map_some']
    split_ifs <;> rfl
  have key : ∀ column,
      s.filterTreeStandardItemFromIndex (ModelIndex.cell parent row column) =
        some (QStandardItem.left c) := by
    intro column
    simp only [FiltersView.filterTreeStandardItemFromIndex, hcell]
    by_cases h0 : column = 0
    · simp only [h0, if_true, FiltersView.parentOrRoot, hpar, Option.getD_some, Item.child, hc,
        Option.map_some']
    · simp only [h0, if_false, FiltersView.parentOrRoot, hpar, Option.getD_some, Item.child, hc,
        Option.map_some', if_true]
  refine ⟨?_, ?_, key, ?_, ?_, ?_, rfl, ?_⟩
  · rw [hcell, if_pos rfl]
  · intro column h0
    rw [hcell, if_neg h0]
  · intro column
    simp only [FiltersView.filterTreeItemFromIndex, key, Option.some_bind,
      QStandardItem.asFilterTreeItem]
  · intro column
    simp only [FiltersView.filterTreeFolderFromIndex, key, Option.some_bind,
      QStandardItem.asFilterTreeFolder]
  · intro v w hv hw
    simp only [FiltersView.selectedItem, FiltersView.selectedFolder,
      FiltersView.filterTreeItemFromIndex, FiltersView.filterTreeFolderFromIndex, hv, hw, key,
      and_self]
  · intro parent2 row2 column hnone
    have hnone2 : (s.root.find? parent2).bind (fun q => q.child row2 column) = none := by
      cases hq : s.root.find? parent2 with
      | none => rfl
      | some q =>
        rw [hq] at hnone
        simp only [Option.some_bind] at hnone ⊢
        simp only [Item.child, hnone, Option.map_none']
    simp only [FiltersView.filterTreeStandardItemFromIndex, FiltersView.itemFromIndex, hnone2]

set_option maxRecDepth 100000 in
theorem filterTreeStandardItemFromIndex_spec_witness :
    ((FiltersView.empty [] true).addFilter sampleEnv "Blur" "h1" ["Effects"] false
      ).itemFromIndex (ModelIndex.cell 1 0 1) = some (QStandardItem.other 2 1) ∧
    (((FiltersView.empty [] true).addFilter sampleEnv "Blur" "h1" ["Effects"] false
      ).filterTreeItemFromIndex (ModelIndex.cell 1 0 1)).map Item.hash = some "h1" ∧
    (((FiltersView.empty [] true).addFilter sampleEnv "Blur" "h1" ["Effects"] false
      ).filterTreeItemFromIndex (ModelIndex.cell 1 0 0)).map Item.hash = some "h1" :=
  ⟨((filterTreeStandardItemFromIndex_spec
      ((FiltersView.empty [] true).addFilter sampleEnv "Blur" "h1" ["Effects"] false)
      (by decide) 1 0 _ _ (by rfl) (by rfl)).2.1 1 (by decide)).trans (by rfl),
   by
    rw [(filterTreeStandardItemFromIndex_spec
      ((FiltersView.empty [] true).addFilter sampleEnv "Blur" "h1" ["Effects"] false)
      (by decide) 1 0 _ _ (by rfl) (by rfl)).2.2.2.1 1]
    rfl,
   by
    rw [(filterTreeStandardItemFromIndex_spec
      ((FiltersView.empty [] true).addFilter sampleEnv "Blur" "h1" ["Effects"] false)
      (by decide) 1 0 _ _ (by rfl) (by rfl)).2.2.2.1 0]
    rfl⟩

/-! ## C20: the rename request of a favorites subfolder -/

namespace Item

theorem pathRows_last {p : Nat} : ∀ {rows : List Item} {l : List String},
    (∀ x ∈ rows, ∀ l, pathBelow p x = some l →
      ∃ y ∈ itemsRows x.rows, y.id = p ∧ l.getLast? = some y.text) →
    pathRows p rows = some l →
    ∃ y ∈ itemsRows rows, y.id = p ∧ l.getLast? = some y.text
  | [], _, _, h => by simp [pathRows] at h
  | x :: xs, l, ih, h => by
    simp only [pathRows] at h
    split_ifs at h with h1
    · cases h
      exact ⟨x, by rw [itemsRows]; exact List.mem_append_left _ (self_mem_items x), h1, rfl⟩
    · cases hx : pathBelow p x with
      | some l1 =>
        rw [hx] at h
        cases h
        obtain ⟨y, hy, hyp, hl⟩ := ih x (List.mem_cons_self _ _) l1 hx
        refine ⟨y, ?_, hyp, ?_⟩
        · rw [itemsRows, items_eq]
          exact List.mem_append_left _ (List.mem_cons_of_mem _ hy)
        · cases l1 with
          | nil => simp at hl
          | cons a as => simpa [List.getLast?_cons_cons] using hl
      | none =>
        rw [hx] at h
        obtain ⟨y, hy, hyp, hl⟩ :=
          pathRows_last (fun z hz => ih z (List.mem_cons_of_mem _ hz)) h
        exact ⟨y, by rw [itemsRows]; exact List.mem_append_right _ hy, hyp, hl⟩

/-- The last segment of the path of an item is the text of an item with that
address. -/
theorem pathBelow_last (p : Nat) : ∀ (t : Item) (l : List String), pathBelow p t = some l →
    ∃ y ∈ itemsRows t.rows, y.id = p ∧ l.getLast? = some y.text := by
  intro t
  induction t using Item.ind with
  | h d rows ih =>
    intro l h
    exact pathRows_last ih (by simpa only [pathBelow] using h)

theorem parentRows?_mem_items {p : Nat} : ∀ {rows : List Item} {b : Item},
    (∀ x ∈ rows, ∀ b, parent? p x = some b → b ∈ items x) →
    parentRows? p rows = some b → b ∈ itemsRows rows
  | [], _, _, h => by simp [parentRows?] at h
  | x :: xs, b, ih, h => by
    simp only [parentRows?] at h
    cases hx : parent? p x with
    | some r =>
      rw [hx] at h
      cases h
      rw [itemsRows]
      exact List.mem_append_left _ (ih x (List.mem_cons_self _ _) _ hx)
    | none =>
      rw [hx] at h
      rw [itemsRows]
      exact List.mem_append_right _
        (parentRows?_mem_items (fun z hz => ih z (List.mem_cons_of_mem _ hz)) h)

/-- The parent found for an address is an item of the tree. -/
theorem parent?_mem_items (p : Nat) : ∀ (t b : Item), parent? p t = some b → b ∈ items t := by
  intro t
  induction t using Item.ind with
  | h d rows ih =>
    intro b h
    simp only [parent?] at h
    split_ifs at h with h1
    · cases h
      exact self_mem_items _
    · rw [items_eq]
      exact List.mem_cons_of_mem _ (parentRows?_mem_items ih h)

/-- With unique addresses, two items of the tree with the same address are the
same item. -/
theorem eq_of_mem_items_of_id {t a b : Item} (hn : (ids t).Nodup) (ha : a ∈ items t)
    (hb : b ∈ items t) (h : a.id = b.id) : a = b := by
  have h1 := find?_of_mem_items t hn a ha
  have h2 := find?_of_mem_items t hn b hb
  rw [h] at h1
  exact Option.some.inj (h1.symm.trans h2)

end Item

theorem getLast?_concat_string (l : List String) (a : String) : (l ++ [a]).getLast? = some a := by
  simp

/-- What filterTreeStandardItemFromIndex returns is the item of a row, an item
of the tree. -/
theorem filterTreeStandardItemFromIndex_mem (s : FiltersView) (index : ModelIndex)
    (r : QStandardItem) (h : s.filterTreeStandardItemFromIndex index = some r) :
    ∃ c, r = QStandardItem.left c ∧ c ∈ Item.itemsRows s.root.rows := by
  cases index with
  | invalid => simp [FiltersView.filterTreeStandardItemFromIndex] at h
  | cell parent row column =>
    simp only [FiltersView.filterTreeStandardItemFromIndex] at h
    cases h1 : s.itemFromIndex (ModelIndex.cell parent row column) with
    | none => rw [h1] at h; simp at h
    | some item =>
      rw [h1] at h
      simp only [Item.child, Option.map_eq_some', if_true] at h
      obtain ⟨c, hget, rfl⟩ := h
      refine ⟨c, rfl, ?_⟩
      have hc := List.get?_mem hget
      have hpm : s.parentOrRoot item ∈ Item.items s.root := by
        cases item with
        | left x =>
          simp only [FiltersView.parentOrRoot]
          cases h2 : s.root.parent? x.id with
          | none => exact Item.self_mem_items _
          | some par => exact Item.parent?_mem_items x.id s.root par h2
        | other a k =>
          simp only [FiltersView.parentOrRoot]
          cases h2 : s.root.parent? a with
          | none => exact Item.self_mem_items _
          | some par => exact Item.parent?_mem_items a s.root par h2
      have hcm : c ∈ Item.items s.root :=
        Item.mem_items_trans (Item.mem_items_of_mem_rows hc) hpm
      rw [Item.items_eq] at hpm
      rcases List.mem_cons.1 hpm with e | hpm2
      · rw [e] at hc
        exact Item.mem_itemsRows.2 ⟨c, hc, Item.self_mem_items c⟩
      · obtain ⟨x, hx, hpx⟩ := Item.mem_itemsRows.1 hpm2
        exact Item.mem_itemsRows.2
          ⟨x, hx, Item.mem_items_trans (Item.mem_items_of_mem_rows hc) hpx⟩

/-- C20 (as the code has it). When no filter leaf is selected and the selected
folder has a path of at least two segments (a folder below a top-level folder:
a favorites subfolder below the favorites root), onRenameFinished emits
faveSubfolderRenamed with, as first component, the path of the folder below
the top-level folder with its final segment replaced by the text the editor
started with (textBeforeEditing), joined by the favorites path separator, and,
as second component, the final segment detached from the path of the folder,
which is the text the folder shows when the slot runs. -/
theorem onRenameFinished_folder (env : Env) (s : FiltersView) (hn : (Item.ids s.root).Nodup)
    (v : TreeView) (editorText : String) (folder : Item) (top name : String)
    (above : List String)
    (hitem : s.selectedItem v = none) (hfolder : s.selectedFolder v = some folder)
    (hpath : s.root.pathBelow folder.id = some (top :: (above ++ [name]))) :
    s.onRenameFinished env v editorText =
      some (Signal.faveSubfolderRenamed
        (env.favePathSeparator.intercalate (above ++ [v.textBeforeEditing])) name) ∧
    name = folder.text := by
  constructor
  · simp only [FiltersView.onRenameFinished, hitem, hfolder, hpath, Option.getD_some,
      List.drop_succ_cons, List.drop_zero, getLast?_concat_string, List.dropLast_concat]
  · obtain ⟨y, hy, hyp, hl⟩ := Item.pathBelow_last folder.id s.root _ hpath
    have hfm : folder ∈ Item.itemsRows s.root.rows := by
      have h0 := hfolder
      simp only [FiltersView.selectedFolder, FiltersView.filterTreeFolderFromIndex] at h0
      cases h1 : s.filterTreeStandardItemFromIndex v.currentIndex with
      | none => rw [h1] at h0; cases h0
      | some r =>
        obtain ⟨c, hr, hcm⟩ := filterTreeStandardItemFromIndex_mem s _ r h1
        rw [h1, hr] at h0
        simp only [Option.some_bind, QStandardItem.asFilterTreeFolder] at h0
        split_ifs at h0
        rw [← Option.some.inj h0]
        exact hcm
    have hy2 : y ∈ Item.items s.root := by
      rw [Item.items_eq]; exact List.mem_cons_of_mem _ hy
    have hf2 : folder ∈ Item.items s.root := by
      rw [Item.items_eq]; exact List.mem_cons_of_mem _ hfm
    have := Item.eq_of_mem_items_of_id hn hy2 hf2 hyp
    subst this
    have : (top :: (above ++ [name])).getLast? = some name :=
      getLast?_concat_string (top :: above) name
    rw [this] at hl
    exact Option.some.inj hl

set_option maxRecDepth 100000 in
theorem onRenameFinished_folder_witness :
    ((FiltersView.init []).addFave sampleEnv "" "" ["A", "B"]).onRenameFinished sampleEnv
        { expanded := [], currentIndex := ModelIndex.cell 2 0 0, textBeforeEditing := "Old" } "B" =
      some (Signal.faveSubfolderRenamed
        (sampleEnv.favePathSeparator.intercalate (["A"] ++ ["Old"])) "B") :=
  (onRenameFinished_folder sampleEnv ((FiltersView.init []).addFave sampleEnv "" "" ["A", "B"])
    (by decide)
    { expanded := [], currentIndex := ModelIndex.cell 2 0 0, textBeforeEditing := "Old" } "B"
    (Item.node
      { id := 3, kind := Kind.Folder, text := "B", hash := "", isWarning := false,
        isFave := false, isFaveFolder := false, editable := true, visibilityItem := none }
      [newNullItem 4])
    "Faves" "B" ["A"] (by rfl) (by rfl) (by rfl)).1

set_option maxRecDepth 100000 in
/-- C20, as stated, fails. The favorites subfolder A/B is selected, it shows
B, and the editor started with the text Old. The request carries A/Old as its
first component, not the path A/B of the folder below the favorites root, and
B as its second component, the text the folder shows, not the text from before
the edit. -/
theorem onRenameFinished_sends_pre_edit_path :
    ((FiltersView.init []).addFave sampleEnv "" "" ["A", "B"]).selectedItem
        { expanded := [], currentIndex := ModelIndex.cell 2 0 0, textBeforeEditing := "Old" } =
      none ∧
    (((FiltersView.init []).addFave sampleEnv "" "" ["A", "B"]).selectedFolder
        { expanded := [], currentIndex := ModelIndex.cell 2 0 0, textBeforeEditing := "Old" }).map
      Item.id = some 3 ∧
    ((FiltersView.init []).addFave sampleEnv "" "" ["A", "B"]).root.pathBelow 3 =
      some ["Faves", "A", "B"] ∧
    ((FiltersView.init []).addFave sampleEnv "" "" ["A", "B"]).onRenameFinished sampleEnv
        { expanded := [], currentIndex := ModelIndex.cell 2 0 0, textBeforeEditing := "Old" } "B" =
      some (Signal.faveSubfolderRenamed "A/Old" "B") ∧
    sampleEnv.favePathSeparator.intercalate ["A", "B"] = "A/B" ∧
    "A/Old" ≠ "A/B" ∧ "B" ≠ "Old" := by
  refine ⟨by rfl, by rfl, by rfl, by rfl, by rfl, by decide, by decide⟩

/-! ## C13: leaving selection mode stores the checkboxes -/

theorem find?_filter_of_imp {α : Type} (p q : α → Bool) (hpq : ∀ x, p x = true → q x = true) :
    ∀ (l : List α), (l.filter q).find? p = l.find? p
  | [] => rfl
  | x :: xs => by
    by_cases hq : q x = true
    · rw [List.filter_cons_of_pos hq, List.find?_cons, List.find?_cons,
        find?_filter_of_imp p q hpq xs]
    · have hp : p x = false := by
        cases h : p x with
        | false => rfl
        | true => exact absurd (hpq x h) hq
      rw [List.filter_cons_of_neg hq, List.find?_cons, hp, find?_filter_of_imp p q hpq xs]

/-- The map after setVisibility: the entry of the hash is the new one, every
other entry is as before. -/
theorem filterIsVisible_setVisibility (m : List (String × Bool)) (h : String) (b : Bool)
    (k : String) :
    filterIsVisible (setVisibility m h b) k = if k = h then b else filterIsVisible m k := by
  unfold filterIsVisible setVisibility
  by_cases hk : k = h
  · subst hk
    simp
  · have hne : ¬ h = k := fun e => hk e.symm
    rw [List.find?_cons]
    simp only [hne, decide_False, if_neg hk]
    rw [find?_filter_of_imp]
    intro x hx
    have : x.1 = k := by simpa using hx
    simp [this, hk]

theorem storeLeaves_append (m : List (String × Bool)) (xs ys : List Item) :
    storeLeaves m (xs ++ ys) = storeLeaves (storeLeaves m xs) ys := by
  simp [storeLeaves, List.foldl_append]

namespace Item

theorem saveFiltersVisibilityRows_eq : ∀ (rows : List Item) (m : List (String × Bool)),
    (∀ x ∈ rows, (∀ y ∈ items x, y.isFilterItem = true → y.rows.isEmpty = true) →
      ∀ m, saveFiltersVisibility m x = storeLeaves m ((items x).filter isFilterItem)) →
    (∀ y ∈ itemsRows rows, y.isFilterItem = true → y.rows.isEmpty = true) →
    saveFiltersVisibilityRows m rows = storeLeaves m ((itemsRows rows).filter isFilterItem)
  | [], m, _, _ => rfl
  | x :: xs, m, ih, hl => by
    have hlx : ∀ y ∈ items x, y.isFilterItem = true → y.rows.isEmpty = true := fun y hy =>
      hl y (by rw [itemsRows]; exact List.mem_append_left _ hy)
    have hlxs : ∀ y ∈ itemsRows xs, y.isFilterItem = true → y.rows.isEmpty = true := fun y hy =>
      hl y (by rw [itemsRows]; exact List.mem_append_right _ hy)
    rw [saveFiltersVisibilityRows, ih x (List.mem_cons_self _ _) hlx m,
      saveFiltersVisibilityRows_eq xs _ (fun z hz => ih z (List.mem_cons_of_mem _ hz)) hlxs,
      itemsRows, List.filter_append, storeLeaves_append]

/-- Where filter leaves have no rows, saveFiltersVisibility stores the state
of every filter leaf of the subtree, at any depth, in depth-first order. -/
theorem saveFiltersVisibility_eq : ∀ (t : Item),
    (∀ y ∈ items t, y.isFilterItem = true → y.rows.isEmpty = true) →
    ∀ m, saveFiltersVisibility m t = storeLeaves m ((items t).filter isFilterItem) := by
  intro t
  induction t using Item.ind with
  | h d rows ih =>
    intro hl m
    by_cases hk : d.kind = Kind.FilterItem
    · have hf : (node d rows).isFilterItem = true := by simp [isFilterItem, Item.d, hk]
      have hr : rows = [] := by
        have := hl (node d rows) (self_mem_items _) hf
        simpa [Item.rows, List.isEmpty_iff] using this
      subst hr
      simp only [saveFiltersVisibility, hk, if_true, items, itemsRows]
      rw [List.filter_cons_of_pos hf]
      rfl
    · have hf : ¬ (node d rows).isFilterItem = true := by simp [isFilterItem, Item.d, hk]
      simp only [saveFiltersVisibility, hk, if_false, items]
      rw [List.filter_cons_of_neg hf]
      exact saveFiltersVisibilityRows_eq rows m ih
        (fun y hy => hl y (by rw [items]; exact List.mem_cons_of_mem _ hy))

end Item

theorem storeLeaves_of_not_mem (k : String) : ∀ (leaves : List Item) (m : List (String × Bool)),
    (∀ l ∈ leaves, l.hash ≠ k) →
    filterIsVisible (storeLeaves m leaves) k = filterIsVisible m k
  | [], _, _ => rfl
  | l :: ls, m, h => by
    have h1 : ¬ k = l.hash := fun e => h l (List.mem_cons_self _ _) e.symm
    rw [show storeLeaves m (l :: ls) = storeLeaves (setVisibility m l.hash l.isVisible) ls from rfl,
      storeLeaves_of_not_mem k ls _ (fun x hx => h x (List.mem_cons_of_mem _ hx)),
      filterIsVisible_setVisibility, if_neg h1]

theorem storeLeaves_of_last (m : List (String × Bool)) (pre post : List Item) (l : Item)
    (h : ∀ x ∈ post, x.hash ≠ l.hash) :
    filterIsVisible (storeLeaves m (pre ++ l :: post)) l.hash = l.isVisible := by
  rw [storeLeaves_append,
    show storeLeaves (storeLeaves m pre) (l :: post) =
      storeLeaves (setVisibility (storeLeaves m pre) l.hash l.isVisible) post from rfl,
    storeLeaves_of_not_mem l.hash post _ h, filterIsVisible_setVisibility, if_pos rfl]

theorem storeLeaves_of_agree (m : List (String × Bool)) (k : String) (b : Bool) :
    ∀ (leaves : List Item), (∃ l ∈ leaves, l.hash = k) →
    (∀ l ∈ leaves, l.hash = k → l.isVisible = b) →
    filterIsVisible (storeLeaves m leaves) k = b := by
  intro leaves
  induction leaves using List.reverseRecOn with
  | nil => intro ⟨l, hl, _⟩; simp at hl
  | append_singleton ls l ih =>
    intro hex hag
    by_cases hl : l.hash = k
    · subst hl
      rw [storeLeaves_of_last m ls [] l (by simp)]
      exact hag l (by simp) rfl
    · have hk : ¬ k = l.hash := fun e => hl e.symm
      rw [storeLeaves_append,
        show storeLeaves (storeLeaves m ls) [l] =
          setVisibility (storeLeaves m ls) l.hash l.isVisible from rfl,
        filterIsVisible_setVisibility, if_neg hk]
      apply ih
      · obtain ⟨x, hx, hxk⟩ := hex
        rcases List.mem_append.1 hx with hx | hx
        · exact ⟨x, hx, hxk⟩
        · simp only [List.mem_singleton] at hx
          subst hx
          exact absurd hxk hl
      · exact fun x hx => hag x (List.mem_append_left _ hx)

/-- C13. Where filter leaves have no rows, disableSelectionMode leaves browse
mode and the tree as it is, and the visibility map afterwards is the map from
before overridden, for every filter leaf of the whole tree (regular or
favorite, at any depth, in depth-first order), by its hash with the state of
its checkbox at the time of the call: a hash that no leaf carries keeps its
entry; a hash has the state of the last leaf that carries it; so when all the
leaves that carry a hash show the same state (in particular when one leaf
carries it) the map gives that state. -/
theorem disableSelectionMode_persists (s : FiltersView)
    (hleaf : ∀ y ∈ Item.items s.root, y.isFilterItem = true → y.rows.isEmpty = true) :
    s.disableSelectionMode._isInSelectionMode = false ∧
    s.disableSelectionMode.root = s.root ∧
    (∀ k, (∀ l ∈ (Item.items s.root).filter Item.isFilterItem, l.hash ≠ k) →
      filterIsVisible s.disableSelectionMode.visibilityMap k =
        filterIsVisible s.visibilityMap k) ∧
    (∀ pre l post, (Item.items s.root).filter Item.isFilterItem = pre ++ l :: post →
      (∀ x ∈ post, x.hash ≠ l.hash) →
      filterIsVisible s.disableSelectionMode.visibilityMap l.hash = l.isVisible) ∧
    (∀ l ∈ (Item.items s.root).filter Item.isFilterItem,
      (∀ x ∈ (Item.items s.root).filter Item.isFilterItem, x.hash = l.hash →
        x.isVisible = l.isVisible) →
      filterIsVisible s.disableSelectionMode.visibilityMap l.hash = l.isVisible) := by
  have hm : s.disableSelectionMode.visibilityMap =
      storeLeaves s.visibilityMap ((Item.items s.root).filter Item.isFilterItem) :=
    Item.saveFiltersVisibility_eq s.root hleaf s.visibilityMap
  refine ⟨rfl, rfl, ?_, ?_, ?_⟩
  · intro k hk
    rw [hm, storeLeaves_of_not_mem k _ _ hk]
  · intro pre l post hsplit hpost
    rw [hm, hsplit, storeLeaves_of_last _ _ _ _ hpost]
  · intro l hl hag
    rw [hm]
    exact storeLeaves_of_agree _ _ _ _ ⟨l, hl, rfl⟩ hag

set_option maxRecDepth 100000 in
theorem disableSelectionMode_persists_witness :
    filterIsVisible
      ((((FiltersView.empty [("h2", false), ("h9", false)] true).addFilter sampleEnv "Blur" "h1" ["Effects"]
        false).addFilter sampleEnv "Sharpen" "h2" ["Effects"] false).setCheckState 2
        CheckState.Unchecked).disableSelectionMode.visibilityMap "h9" = false ∧
    filterIsVisible
      ((((FiltersView.empty [("h2", false), ("h9", false)] true).addFilter sampleEnv "Blur" "h1" ["Effects"]
        false).addFilter sampleEnv "Sharpen" "h2" ["Effects"] false).setCheckState 2
        CheckState.Unchecked).disableSelectionMode.visibilityMap "h1" = false :=
  ⟨((disableSelectionMode_persists
      ((((FiltersView.empty [("h2", false), ("h9", false)] true).addFilter sampleEnv "Blur" "h1"
        ["Effects"] false).addFilter sampleEnv "Sharpen" "h2" ["Effects"] false).setCheckState 2
        CheckState.Unchecked) (by decide)).2.2.1 "h9" (by decide)).trans (by rfl),
   by rfl⟩

/-! ## C12: what onItemChanged does to the checkboxes -/

theorem findIdx?_bind_get? {α : Type} (p : α → Bool) : ∀ (l : List α),
    (l.findIdx? p).bind (fun i => l.get? i) = l.find? p
  | [] => rfl
  | x :: xs => by
    rw [List.findIdx?_cons, List.find?_cons]
    cases h : p x with
    | true => simp
    | false =>
      have ih := findIdx?_bind_get? p xs
      simp only [Bool.false_eq_true, if_false, zero_add, List.findIdx?_succ]
      cases h2 : xs.findIdx? p with
      | none => rw [h2] at ih; simpa using ih
      | some i => rw [h2] at ih; simpa using ih

namespace Item

theorem idsRows_modifyRows_of_ids (p : Nat) (g : Item → Item) : ∀ (rows : List Item),
    (∀ x ∈ rows, ids (modify p g x) = ids x) → idsRows (modifyRows p g rows) = idsRows rows
  | [], _ => rfl
  | x :: xs, ih => by
    simp only [modifyRows]
    cases h : find? p x with
    | some r => simp only [idsRows, ih x (List.mem_cons_self _ _)]
    | none =>
      simp only [idsRows,
        idsRows_modifyRows_of_ids p g xs (fun z hz => ih z (List.mem_cons_of_mem _ hz))]

/-- A call that keeps the addresses of what it acts on keeps the addresses of
the tree. -/
theorem ids_modify_of_ids (p : Nat) (g : Item → Item) (hg : ∀ x, ids (g x) = ids x) :
    ∀ (t : Item), ids (modify p g t) = ids t := by
  intro t
  induction t using Item.ind with
  | h d rows ih =>
    simp only [modify]
    split_ifs with h
    · exact hg _
    · simp only [ids, idsRows_modifyRows_of_ids p g rows ih]

theorem findRows?_modifyRows_setData (p q : Nat) (g : Item → Item) : ∀ (rows : List Item),
    (∀ x ∈ rows, (find? q (modify p g x)).map Item.d = (find? q x).map Item.d) →
    (findRows? q (modifyRows p g rows)).map Item.d = (findRows? q rows).map Item.d
  | [], _ => rfl
  | x :: xs, ih => by
    have ihx := ih x (List.mem_cons_self _ _)
    simp only [modifyRows]
    cases h : find? p x with
    | some r =>
      simp only [findRows?]
      cases h1 : find? q (modify p g x) with
      | some a =>
        rw [h1] at ihx
        cases h2 : find? q x with
        | some b => rw [h2] at ihx; simpa using ihx
        | none => rw [h2] at ihx; simp at ihx
      | none =>
        rw [h1] at ihx
        cases h2 : find? q x with
        | some b => rw [h2] at ihx; simp at ihx
        | none => rfl
    | none =>
      simp only [findRows?]
      cases h2 : find? q x with
      | some b => rfl
      | none =>
        exact findRows?_modifyRows_setData p q g xs (fun z hz => ih z (List.mem_cons_of_mem _ hz))

/-- A call that changes only the data of the item at `p`, not its address, is
not seen in the data of an item at another address. -/
theorem find?_modify_setData (p q : Nat) (f : ItemData → ItemData) (hf : ∀ d, (f d).id = d.id)
    (hq : q ≠ p) : ∀ (t : Item),
    (find? q (modify p (fun i => node (f i.d) i.rows) t)).map Item.d = (find? q t).map Item.d := by
  intro t
  induction t using Item.ind with
  | h d rows ih =>
    simp only [modify]
    split_ifs with h
    · have h1 : ¬ (f d).id = q := by rw [hf, h]; exact fun e => hq e.symm
      have h2 : ¬ d.id = q := by rw [h]; exact fun e => hq e.symm
      simp only [find?, Item.d, Item.rows, h1, h2, if_false]
    · by_cases h2 : d.id = q
      · simp only [find?, h2, if_true, Option.map_some', Item.d]
      · simp only [find?, h2, if_false]
        exact findRows?_modifyRows_setData p q _ rows ih

theorem setVisibility_d_rows (flag : Bool) (x : Item) :
    (x.setVisibility flag).rows = x.rows ∧ (x.setVisibility flag).d.id = x.d.id ∧
      (x.setVisibility flag).d.kind = x.d.kind := by
  cases x with
  | node d rows =>
    unfold setVisibility
    cases h : d.visibilityItem <;> simp [Item.d, Item.rows, h]

theorem ids_setVisibility (flag : Bool) (x : Item) : ids (x.setVisibility flag) = ids x := by
  have h := setVisibility_d_rows flag x
  rw [ids_eq, ids_eq x, h.1, Item.id, Item.id, h.2.1]

theorem setVisibility_state (flag : Bool) (x : Item) :
    (x.setVisibility flag).d.visibilityItem = none ∨
      (x.setVisibility flag).d.visibilityItem =
        some (if flag then CheckState.Checked else CheckState.Unchecked) := by
  cases x with
  | node d rows =>
    unfold setVisibility
    cases h : d.visibilityItem <;> simp [Item.d, h]

theorem setVisibilityRows_state (flag : Bool) : ∀ (rows : List Item),
    (∀ x ∈ rows, (∀ y ∈ itemsRows x.rows, y.isFolder = false → y.rows = []) →
      ∀ l ∈ itemsRows (setVisibilityBelow flag x).rows, l.isFilterItem = true →
        l.d.visibilityItem = none ∨
          l.d.visibilityItem = some (if flag then CheckState.Checked else CheckState.Unchecked)) →
    (∀ y ∈ itemsRows rows, y.isFolder = false → y.rows = []) →
    ∀ l ∈ itemsRows (setVisibilityRows flag rows), l.isFilterItem = true →
      l.d.visibilityItem = none ∨
        l.d.visibilityItem = some (if flag then CheckState.Checked else CheckState.Unchecked)
  | [], _, _ => by intro l hl; simp [setVisibilityRows, itemsRows] at hl
  | node d rs :: xs, ih, hleaf => by
    have hlx : ∀ y ∈ itemsRows rs, y.isFolder = false → y.rows = [] := fun y hy =>
      hleaf y (by rw [itemsRows, items]; exact List.mem_append_left _ (List.mem_cons_of_mem _ hy))
    have hlxs : ∀ y ∈ itemsRows xs, y.isFolder = false → y.rows = [] := fun y hy =>
      hleaf y (by rw [itemsRows]; exact List.mem_append_right _ hy)
    intro l hl hfl
    simp only [setVisibilityRows, itemsRows, List.mem_append] at hl
    rcases hl with hl | hl
    · split_ifs at hl with h1 h2
      · -- a folder: itself, then what is below it
        rw [items_eq] at hl
        rcases List.mem_cons.1 hl with rfl | hl
        · exact setVisibility_state flag _
        · rw [(setVisibility_d_rows flag _).1] at hl
          exact ih (node d rs) (List.mem_cons_self _ _) hlx l hl hfl
      · -- a filter leaf
        have hrs : rs = [] := hleaf (node d rs)
          (by rw [itemsRows]; exact List.mem_append_left _ (self_mem_items _))
          (by simp [isFolder, Item.d, h1])
        rw [items_eq, (setVisibility_d_rows flag _).1] at hl
        rcases List.mem_cons.1 hl with rfl | hl
        · exact setVisibility_state flag _
        · rw [hrs] at hl; simp [Item.rows, itemsRows] at hl
      · have hrs : rs = [] := hleaf (node d rs)
          (by rw [itemsRows]; exact List.mem_append_left _ (self_mem_items _))
          (by simp [isFolder, Item.d, h1])
        rw [items_eq] at hl
        rcases List.mem_cons.1 hl with rfl | hl
        · simp [isFilterItem, Item.d, h2] at hfl
        · rw [hrs] at hl; simp [Item.rows, itemsRows] at hl
    · exact setVisibilityRows_state flag xs (fun z hz => ih z (List.mem_cons_of_mem _ hz)) hlxs
        l hl hfl

/-- After the cascade below an item where only folders have rows, every filter
leaf below it, at any depth, that has a checkbox shows the state handed
down. -/
theorem setVisibilityBelow_state (flag : Bool) : ∀ (t : Item),
    (∀ y ∈ itemsRows t.rows, y.isFolder = false → y.rows = []) →
    ∀ l ∈ itemsRows (setVisibilityBelow flag t).rows, l.isFilterItem = true →
      l.d.visibilityItem = none ∨
        l.d.visibilityItem = some (if flag then CheckState.Checked else CheckState.Unchecked) := by
  intro t
  induction t using Item.ind with
  | h d rows ih =>
    intro hleaf l hl
    exact setVisibilityRows_state flag rows ih hleaf l hl

theorem setVisibilityBelow_d (flag : Bool) (t : Item) : (setVisibilityBelow flag t).d = t.d := by
  cases t; rfl

end Item

/-- With unique addresses, the item onItemChanged works on for a cell of the
row of an item below the root is that item. -/
theorem leftItem_eq (s : FiltersView) (hn : (Item.ids s.root).Nodup) (a : Nat) (x : Item)
    (hx : s.root.find? a = some x) (hne : a ≠ s.root.id) : s.leftItem a = some x := by
  have hxa := Item.find?_id a s.root x hx
  have hmem := Item.find?_mem_items a s.root x hx
  rw [Item.items_eq] at hmem
  rcases List.mem_cons.1 hmem with rfl | hmem
  · exact absurd hxa.symm hne
  · obtain ⟨b, hb, hxb⟩ := Item.exists_parent_of_mem_itemsRows x s.root hmem
    have hpar := Item.parent?_of_mem_rows b x hxb s.root hn hb
    rw [hxa] at hpar
    unfold FiltersView.leftItem
    rw [hpar, Option.some_bind, findIdx?_bind_get?]
    cases hf : b.rows.find? (fun c => decide (c.id = a)) with
    | none =>
      have := List.find?_eq_none.1 hf x hxb
      simp [hxa] at this
    | some y =>
      have hy := List.mem_of_find?_eq_some hf
      have hya : y.id = a := by simpa using List.find?_some hf
      have := Item.eq_of_mem_items_of_id hn
        (Item.mem_items_trans (Item.mem_items_of_mem_rows hy) hb)
        (Item.mem_items_trans (Item.mem_items_of_mem_rows hxb) hb) (hya.trans hxa.symm)
      rw [this]

/-- C12 (as the code has it). With unique addresses: (1) when the checkbox of
a folder (below which only folders have rows) is set checked and the change is
delivered to onItemChanged, the folder is checked and every filter leaf below
it, at any depth, that has a checkbox is checked; (2) when the checkbox of a
filter leaf, or of any row that is not a folder, is set to some state and the
change is delivered, onItemChanged changes nothing: the view is as the change
of that one checkbox left it, and every item at another address, the parent
folder and the ancestors among them, has the data, checkbox included, it had
before. No folder is put in the partial state. -/
theorem onItemChanged_cascades_down_only (s : FiltersView) (hn : (Item.ids s.root).Nodup) :
    (∀ F Fi, s.root.find? F = some Fi → F ≠ s.root.id → Fi.isFolder = true →
      Fi.onlyFoldersHaveRows = true → Fi.d.visibilityItem ≠ none →
      ∃ Fi2,
        (FiltersView.onItemChanged { s with root := s.root.modify F (Item.setVisibility true) }
          (Cell.checkbox F)).root.find? F = some Fi2 ∧
        Fi2.d.visibilityItem = some CheckState.Checked ∧
        ∀ l ∈ allLeaves Fi2,
          l.d.visibilityItem = none ∨ l.d.visibilityItem = some CheckState.Checked) ∧
    (∀ L leaf c, s.root.find? L = some leaf → L ≠ s.root.id → leaf.isFolder = false →
      FiltersView.onItemChanged
          { s with
            root := s.root.modify L
              (fun i => Item.node { i.d with visibilityItem := some c } i.rows) }
          (Cell.checkbox L) =
        { s with
          root := s.root.modify L
            (fun i => Item.node { i.d with visibilityItem := some c } i.rows) } ∧
      ∀ q, q ≠ L →
        ((s.root.modify L
          (fun i => Item.node { i.d with visibilityItem := some c } i.rows)).find? q).map Item.d =
        (s.root.find? q).map Item.d) := by
  constructor
  · intro F Fi hF hne hfolder hleafy hbox
    have hid : ∀ x : Item, x.id = F → (x.setVisibility true).id = F := fun x hx => by
      rw [Item.id, (Item.setVisibility_d_rows true x).2.1]; exact hx
    have hn1 : (Item.ids (s.root.modify F (Item.setVisibility true))).Nodup := by
      rw [Item.ids_modify_of_ids F _ (Item.ids_setVisibility true)]; exact hn
    have hF1 : (s.root.modify F (Item.setVisibility true)).find? F =
        some (Fi.setVisibility true) := by
      rw [Item.find?_modify F _ hid, hF]; rfl
    have hroot : (s.root.modify F (Item.setVisibility true)).id = s.root.id := by
      have := congrArg List.head? (Item.ids_modify_of_ids F _ (Item.ids_setVisibility true) s.root)
      rw [Item.ids_eq, Item.ids_eq s.root] at this
      simpa using this
    have hleft := leftItem_eq { s with root := s.root.modify F (Item.setVisibility true) } hn1 F
      (Fi.setVisibility true) hF1 (by rw [hroot]; exact hne)
    have hfold1 : (Fi.setVisibility true).isFolder = true := by
      have := hfolder
      simp only [Item.isFolder, (Item.setVisibility_d_rows true Fi).2.2] at this ⊢
      exact this
    have hidF : (Fi.setVisibility true).id = F := hid Fi (Item.find?_id F s.root Fi hF)
    have hstate : (Fi.setVisibility true).d.visibilityItem = some CheckState.Checked := by
      cases Fi with
      | node d rows =>
        unfold Item.setVisibility
        cases h : d.visibilityItem with
        | none => simp [Item.d, h] at hbox
        | some c => simp [Item.d, h]
    have hvis : (Fi.setVisibility true).isVisible = true := by
      unfold Item.isVisible; rw [hstate]; simp
    refine ⟨Item.setVisibilityBelow true (Fi.setVisibility true), ?_, ?_, ?_⟩
    · simp only [FiltersView.onItemChanged, hleft, hfold1, if_true, hidF]
      rw [Item.find?_modify F _ (fun x hx => by
        rw [Item.applyVisibilityStatusToFolderContents, Item.id, Item.setVisibilityBelow_d]
        exact hx), hF1]
      simp only [Option.map_some', Item.applyVisibilityStatusToFolderContents, hvis]
    · rw [Item.setVisibilityBelow_d]; exact hstate
    · intro l hl
      have hl2 := List.mem_filter.1 hl
      have := Item.setVisibilityBelow_state true (Fi.setVisibility true)
        (by
          rw [(Item.setVisibility_d_rows true Fi).1]
          exact Item.rows_of_onlyFoldersHaveRows hleafy) l hl2.1 hl2.2
      simpa using this
  · intro L leaf c hL hne hleaf
    have hid : ∀ x : Item, x.id = L →
        (Item.node { x.d with visibilityItem := some c } x.rows).id = L := fun x hx => hx
    have hids : ∀ x : Item, Item.ids (Item.node { x.d with visibilityItem := some c } x.rows) =
        Item.ids x := fun x => by rw [Item.ids_eq, Item.ids_eq x]; rfl
    have hn1 := hn
    rw [← Item.ids_modify_of_ids L _ hids] at hn1
    have hL1 := Item.find?_modify L _ hid s.root
    rw [hL] at hL1
    have hroot : (s.root.modify L
        (fun i => Item.node { i.d with visibilityItem := some c } i.rows)).id = s.root.id := by
      have := congrArg List.head? (Item.ids_modify_of_ids L _ hids s.root)
      rw [Item.ids_eq, Item.ids_eq s.root] at this
      simpa using this
    have hleft := leftItem_eq
      { s with
        root := s.root.modify L
          (fun i => Item.node { i.d with visibilityItem := some c } i.rows) }
      hn1 L _ hL1 (by rw [hroot]; exact hne)
    constructor
    · have hnf : (Item.node { leaf.d with visibilityItem := some c } leaf.rows).isFolder =
          false := hleaf
      simp only [FiltersView.onItemChanged, hleft, hnf, Bool.false_eq_true, if_false]
    · intro q hq
      exact Item.find?_modify_setData L q (fun d => { d with visibilityItem := some c })
        (fun d => rfl) hq s.root

set_option maxRecDepth 100000 in
theorem onItemChanged_cascades_down_only_witness :
    FiltersView.onItemChanged
        { ((FiltersView.empty [] true).addFilter sampleEnv "Blur" "h1" ["Effects"] false) with
          root := ((FiltersView.empty [] true).addFilter sampleEnv "Blur" "h1" ["Effects"]
            false).root.modify 2
              (fun i => Item.node { i.d with visibilityItem := some CheckState.Unchecked } i.rows) }
        (Cell.checkbox 2) =
      { ((FiltersView.empty [] true).addFilter sampleEnv "Blur" "h1" ["Effects"] false) with
        root := ((FiltersView.empty [] true).addFilter sampleEnv "Blur" "h1" ["Effects"]
          false).root.modify 2
            (fun i => Item.node { i.d with visibilityItem := some CheckState.Unchecked } i.rows) } :=
  ((onItemChanged_cascades_down_only
    ((FiltersView.empty [] true).addFilter sampleEnv "Blur" "h1" ["Effects"] false)
    (by decide)).2 2 _ CheckState.Unchecked (by rfl) (by decide) (by rfl)).1

set_option maxRecDepth 100000 in
/-- C12, as stated, fails. In selection mode the folder Effects (address 1)
holds the leaves Blur (2) and Sharpen (3). The folder is unchecked, then
checked: both leaves are checked. Then the checkbox of Blur is unchecked and
the change delivered: Sharpen is still checked, and the folder is checked, not
in the partial state. -/
theorem unchecked_leaf_leaves_folder_checked :
    (((((FiltersView.empty [] true).addFilter sampleEnv "Blur" "h1" ["Effects"] false).addFilter
        sampleEnv "Sharpen" "h2" ["Effects"] false).setCheckState 1
        CheckState.Unchecked).setCheckState 1 CheckState.Checked).root.items.map
      (fun i => (i.id, i.d.visibilityItem)) =
      [(0, none), (1, some CheckState.Checked), (2, some CheckState.Checked),
        (3, some CheckState.Checked)] ∧
    ((((((FiltersView.empty [] true).addFilter sampleEnv "Blur" "h1" ["Effects"] false).addFilter
        sampleEnv "Sharpen" "h2" ["Effects"] false).setCheckState 1
        CheckState.Unchecked).setCheckState 1 CheckState.Checked).setCheckState 2
        CheckState.Unchecked).root.items.map
      (fun i => (i.id, i.d.visibilityItem)) =
      [(0, none), (1, some CheckState.Checked), (2, some CheckState.Unchecked),
        (3, some CheckState.Checked)] ∧
    (((((((FiltersView.empty [] true).addFilter sampleEnv "Blur" "h1" ["Effects"] false).addFilter
        sampleEnv "Sharpen" "h2" ["Effects"] false).setCheckState 1
        CheckState.Unchecked).setCheckState 1 CheckState.Checked).setCheckState 2
        CheckState.Unchecked).root.find? 1).map (fun i => i.d.visibilityItem) ≠
      some (some CheckState.PartiallyChecked) := by
  refine ⟨by rfl, by rfl, by decide⟩

/-! ## C17: expandFolders asserts the state of every folder -/

namespace Item

theorem expandFoldersRows_eq (root : Item) (paths : List String) : ∀ (rows : List Item) (v : TreeView),
    (∀ x ∈ rows, ∀ v, expandFolders root paths x v =
      ((subfolders x).map Item.id).foldl (expandStep root paths) v) →
    expandFoldersRows root paths rows v =
      ((subfoldersRows rows).map Item.id).foldl (expandStep root paths) v
  | [], v, _ => rfl
  | node d rs :: xs, v, ih => by
    have ihxs := fun z hz => ih z (List.mem_cons_of_mem _ hz)
    by_cases h1 : d.kind = Kind.Folder
    · have e : expandFoldersRows root paths (node d rs :: xs) v =
          expandFoldersRows root paths xs
            (expandFolders root paths (node d rs) (expandStep root paths v d.id)) := by
        rw [expandFoldersRows, if_pos h1]; rfl
      rw [e, expandFoldersRows_eq root paths xs _ ihxs, ih (node d rs) (List.mem_cons_self _ _)]
      simp only [subfoldersRows, if_pos h1, List.map_cons, List.map_append, List.foldl_cons,
        List.foldl_append, Item.id, Item.d]
    · rw [expandFoldersRows, if_neg h1, subfoldersRows, if_neg h1]
      exact expandFoldersRows_eq root paths xs v ihxs

/-- The walk of expandFolders is one step for each folder reached through
folders, in depth-first order. -/
theorem expandFolders_eq (root : Item) (paths : List String) : ∀ (t : Item) (v : TreeView),
    expandFolders root paths t v = ((subfolders t).map Item.id).foldl (expandStep root paths) v := by
  intro t
  induction t using Item.ind with
  | h d rows ih =>
    intro v
    simp only [expandFolders, subfolders]
    exact expandFoldersRows_eq root paths rows v ih

theorem subfoldersRows_of_leafy : ∀ (rows : List Item),
    (∀ x ∈ rows, (∀ y ∈ itemsRows x.rows, y.isFolder = false → y.rows = []) →
      ∀ f ∈ itemsRows x.rows, f.isFolder = true → f ∈ subfolders x) →
    (∀ y ∈ itemsRows rows, y.isFolder = false → y.rows = []) →
    ∀ f ∈ itemsRows rows, f.isFolder = true → f ∈ subfoldersRows rows
  | [], _, _ => by intro f hf; simp [itemsRows] at hf
  | node d rs :: xs, ih, hleaf => by
    have hlx : ∀ y ∈ itemsRows rs, y.isFolder = false → y.rows = [] := fun y hy =>
      hleaf y (by rw [itemsRows, items]; exact List.mem_append_left _ (List.mem_cons_of_mem _ hy))
    have hlxs : ∀ y ∈ itemsRows xs, y.isFolder = false → y.rows = [] := fun y hy =>
      hleaf y (by rw [itemsRows]; exact List.mem_append_right _ hy)
    have ihxs := fun z hz => ih z (List.mem_cons_of_mem _ hz)
    intro f hf hfold
    rw [itemsRows, List.mem_append] at hf
    simp only [subfoldersRows]
    split_ifs with h1
    · rcases hf with hf | hf
      · rw [items] at hf
        rcases List.mem_cons.1 hf with rfl | hf
        · exact List.mem_cons_self _ _
        · exact List.mem_cons_of_mem _ (List.mem_append_left _
            (ih (node d rs) (List.mem_cons_self _ _) hlx f hf hfold))
      · exact List.mem_cons_of_mem _ (List.mem_append_right _
          (subfoldersRows_of_leafy xs ihxs hlxs f hf hfold))
    · rcases hf with hf | hf
      · have hrs : rs = [] := hleaf (node d rs)
          (by rw [itemsRows]; exact List.mem_append_left _ (self_mem_items _))
          (by simp [isFolder, Item.d, h1])
        rw [items] at hf
        rcases List.mem_cons.1 hf with rfl | hf
        · simp [isFolder, Item.d, h1] at hfold
        · rw [hrs] at hf; simp [itemsRows] at hf
      · exact subfoldersRows_of_leafy xs ihxs hlxs f hf hfold

/-- Where only folders have rows, every folder below an item is reached
through folders. -/
theorem subfolders_of_leafy : ∀ (t : Item),
    (∀ y ∈ itemsRows t.rows, y.isFolder = false → y.rows = []) →
    ∀ f ∈ itemsRows t.rows, f.isFolder = true → f ∈ subfolders t := by
  intro t
  induction t using Item.ind with
  | h d rows ih =>
    intro hleaf f hf hfold
    exact subfoldersRows_of_leafy rows ih hleaf f hf hfold

end Item

theorem isExpanded_expandStep (root : Item) (paths : List String) (v : TreeView) (a b : Nat) :
    (expandStep root paths v a).isExpanded b =
      if b = a then
        paths.contains (FilterTreePathSeparator.intercalate ((root.pathBelow a).getD []))
      else v.isExpanded b := by
  unfold expandStep
  by_cases hb : b = a
  · subst hb
    rw [if_pos rfl]
    cases h : paths.contains (FilterTreePathSeparator.intercalate ((root.pathBelow b).getD []))
    · simp [TreeView.isExpanded, TreeView.collapse]
    · simp [TreeView.isExpanded, TreeView.expand]
  · have hb2 : ¬ a = b := fun e => hb e.symm
    rw [if_neg hb]
    cases h : paths.contains (FilterTreePathSeparator.intercalate ((root.pathBelow a).getD []))
    · simp [TreeView.isExpanded, TreeView.collapse, hb]
    · simp [TreeView.isExpanded, TreeView.expand, hb]

theorem isExpanded_foldl_expandStep (root : Item) (paths : List String) (b : Nat) :
    ∀ (l : List Nat) (v : TreeView),
      (l.foldl (expandStep root paths) v).isExpanded b =
        if b ∈ l then
          paths.contains (FilterTreePathSeparator.intercalate ((root.pathBelow b).getD []))
        else v.isExpanded b
  | [], v => by simp
  | a :: l, v => by
    rw [List.foldl_cons, isExpanded_foldl_expandStep root paths b l, isExpanded_expandStep]
    by_cases h1 : b ∈ l
    · simp [h1]
    · by_cases h2 : b = a
      · subst h2; simp [h1]
      · simp [h1, h2]

theorem expandStep_frame (root : Item) (paths : List String) :
    ∀ (l : List Nat) (v : TreeView),
      (l.foldl (expandStep root paths) v).currentIndex = v.currentIndex ∧
      (l.foldl (expandStep root paths) v).textBeforeEditing = v.textBeforeEditing
  | [], v => ⟨rfl, rfl⟩
  | a :: l, v => by
    rw [List.foldl_cons]
    have h := expandStep_frame root paths l (expandStep root paths v a)
    have h2 : (expandStep root paths v a).currentIndex = v.currentIndex ∧
        (expandStep root paths v a).textBeforeEditing = v.textBeforeEditing := by
      unfold expandStep; split_ifs <;> exact ⟨rfl, rfl⟩
    exact ⟨h.1.trans h2.1, h.2.trans h2.2⟩

/-- C17. Where only folders have rows, expandFolders(list) is a full
re-assertion: for every list of path strings and every prior state of the
view, afterwards a folder of the tree, at any depth, is expanded if and only
if its path joined with the tab separator occurs in the list (so every folder
not listed is collapsed, whatever its state was); an address that is not a
folder of the tree keeps its state, and the selection is untouched. -/
theorem expandFolders_spec (s : FiltersView) (paths : List String) (v : TreeView)
    (hleafy : s.root.onlyFoldersHaveRows = true) :
    (∀ f ∈ Item.itemsRows s.root.rows, f.isFolder = true →
      ((s.expandFolders paths v).isExpanded f.id = true ↔
        FilterTreePathSeparator.intercalate ((s.root.pathBelow f.id).getD []) ∈ paths)) ∧
    (∀ a, a ∉ (Item.subfolders s.root).map Item.id →
      (s.expandFolders paths v).isExpanded a = v.isExpanded a) ∧
    (s.expandFolders paths v).currentIndex = v.currentIndex := by
  have heq : s.expandFolders paths v =
      ((Item.subfolders s.root).map Item.id).foldl (expandStep s.root paths) v :=
    Item.expandFolders_eq s.root paths s.root v
  refine ⟨?_, ?_, ?_⟩
  · intro f hf hfold
    have hsub := Item.subfolders_of_leafy s.root (Item.rows_of_onlyFoldersHaveRows hleafy) f hf hfold
    have hmem : f.id ∈ (Item.subfolders s.root).map Item.id := List.mem_map_of_mem _ hsub
    rw [heq, isExpanded_foldl_expandStep, if_pos hmem]; simp
  · intro a ha
    rw [heq, isExpanded_foldl_expandStep, if_neg ha]
  · rw [heq]
    exact (expandStep_frame s.root paths _ v).1

set_option maxRecDepth 100000 in
theorem expandFolders_spec_witness :
    ((((FiltersView.init []).addFilter sampleEnv "Blur" "h1" ["Effects", "Blur"] false).addFilter
        sampleEnv "Noise" "h2" ["Other"] false).expandFolders ["Effects\tBlur"]
        { expanded := [1, 99], currentIndex := ModelIndex.invalid, textBeforeEditing := "" }
      ).isExpanded 99 = true ∧
    ((((FiltersView.init []).addFilter sampleEnv "Blur" "h1" ["Effects", "Blur"] false).addFilter
        sampleEnv "Noise" "h2" ["Other"] false).expandFolders ["Effects\tBlur"]
        { expanded := [1, 99], currentIndex := ModelIndex.invalid, textBeforeEditing := "" }
      ).expanded = [2, 99] :=
  ⟨((expandFolders_spec
      (((FiltersView.init []).addFilter sampleEnv "Blur" "h1" ["Effects", "Blur"] false).addFilter
        sampleEnv "Noise" "h2" ["Other"] false) ["Effects\tBlur"]
      { expanded := [1, 99], currentIndex := ModelIndex.invalid, textBeforeEditing := "" }
      (by rfl)).2.1 99 (by decide)).trans (by rfl),
   by rfl⟩

/-! ## C18: the pass over the folders when the model is enabled -/

theorem leafyRows_cons {d : ItemData} {rs xs : List Item} (h : LeafyRows (Item.node d rs :: xs)) :
    LeafyRows rs ∧ LeafyRows xs ∧ (d.kind ≠ Kind.Folder → rs = []) := by
  refine ⟨fun y hy => h y ?_, fun y hy => h y ?_, fun hk => h (Item.node d rs) ?_ ?_⟩
  · rw [Item.itemsRows, Item.items]
    exact List.mem_append_left _ (List.mem_cons_of_mem _ hy)
  · rw [Item.itemsRows]; exact List.mem_append_right _ hy
  · rw [Item.itemsRows]; exact List.mem_append_left _ (Item.self_mem_items _)
  · simp [Item.isFolder, Item.d, hk]

theorem leafyRows_cons_iff {x : Item} {xs : List Item} :
    LeafyRows (x :: xs) ↔ (x.isFolder = false → x.rows = []) ∧ LeafyRows x.rows ∧ LeafyRows xs := by
  constructor
  · intro h
    refine ⟨fun hx => h x ?_ hx, fun y hy => h y ?_, fun y hy => h y ?_⟩
    · rw [Item.itemsRows]; exact List.mem_append_left _ (Item.self_mem_items _)
    · rw [Item.itemsRows, Item.items_eq]
      exact List.mem_append_left _ (List.mem_cons_of_mem _ hy)
    · rw [Item.itemsRows]; exact List.mem_append_right _ hy
  · rintro ⟨h1, h2, h3⟩ y hy
    rw [Item.itemsRows, Item.items_eq, List.mem_append, List.mem_cons] at hy
    rcases hy with (rfl | hy) | hy
    · exact h1
    · exact h2 y hy
    · exact h3 y hy

theorem leavesOfRows_cons (x : Item) (xs : List Item) :
    leavesOfRows (x :: xs) =
      (if x.isFilterItem then [x] else []) ++ leavesOfRows x.rows ++ leavesOfRows xs := by
  unfold leavesOfRows
  rw [Item.itemsRows, Item.items_eq, List.filter_append, List.filter_cons]
  split_ifs <;> simp

theorem subfoldersRows_cons (x : Item) (xs : List Item) :
    Item.subfoldersRows (x :: xs) =
      if x.isFolder then x :: (Item.subfoldersRows x.rows ++ Item.subfoldersRows xs)
      else Item.subfoldersRows xs := by
  cases x with
  | node d rs =>
    simp only [Item.subfoldersRows, Item.subfolders, Item.isFolder, Item.d, Item.rows,
      decide_eq_true_eq]

namespace Item

theorem setVisibility_of_unchecked (x : Item) (h : x.d.visibilityItem = some CheckState.Unchecked) :
    x.setVisibility false = x := by
  cases x with
  | node d rows =>
    cases d
    simp only [Item.d] at h
    subst h
    rfl

theorem isFolder_setVisibility (flag : Bool) (x : Item) :
    (x.setVisibility flag).isFolder = x.isFolder := by
  simp only [isFolder, (setVisibility_d_rows flag x).2.2]

theorem isFilterItem_setVisibility (flag : Bool) (x : Item) :
    (x.setVisibility flag).isFilterItem = x.isFilterItem := by
  simp only [isFilterItem, (setVisibility_d_rows flag x).2.2]

theorem setVisibilityRows_cons (flag : Bool) (x : Item) (xs : List Item) :
    setVisibilityRows flag (x :: xs) =
      (if x.isFolder then (setVisibilityBelow flag x).setVisibility flag
       else if x.isFilterItem then x.setVisibility flag else x) :: setVisibilityRows flag xs := by
  cases x with
  | node d rs =>
    simp only [setVisibilityRows, isFolder, isFilterItem, Item.d, decide_eq_true_eq]

theorem setVisibilityBelow_rows (flag : Bool) (x : Item) :
    (setVisibilityBelow flag x).rows = setVisibilityRows flag x.rows := by
  cases x; rfl

/-- Induction on the rows of an item: a property of lists of rows that holds
for the empty list, and for `x :: xs` when it holds for the rows of `x` and for
`xs`, holds for every list of rows. -/
theorem rows_ind {P : List Item → Prop} (hnil : P [])
    (hcons : ∀ x xs, P x.rows → P xs → P (x :: xs)) : ∀ rows, P rows := by
  intro rows
  refine Item.rec_1 (motive_1 := fun t => P t.rows) (motive_2 := P) ?_ ?_ ?_ rows
  · intro d rows h; exact h
  · exact hnil
  · intro x xs hx hxs; exact hcons x xs hx hxs

theorem isFilterItem_of_isFolder {x : Item} (h : x.isFolder = true) : x.isFilterItem = false := by
  simp only [isFolder, decide_eq_true_eq] at h
  simp [isFilterItem, h]

/-- The cascade over rows below which only folders have rows: the same holds
afterwards, every folder reached shows the state handed down (or has no
checkbox), and where every filter leaf was unchecked already the leaves are
as they were. -/
theorem setVisibilityRows_spec (flag : Bool) : ∀ (rows : List Item), LeafyRows rows →
    LeafyRows (setVisibilityRows flag rows) ∧
    (∀ f ∈ subfoldersRows (setVisibilityRows flag rows), f.BoxIs flag) ∧
    (flag = false → (∀ l ∈ leavesOfRows rows, l.d.visibilityItem = some CheckState.Unchecked) →
      leavesOfRows (setVisibilityRows flag rows) = leavesOfRows rows) := by
  intro rows
  induction rows using Item.rows_ind with
  | hnil =>
    intro _
    exact ⟨by intro y hy; simp [setVisibilityRows, itemsRows] at hy,
      by intro f hf; simp [setVisibilityRows, subfoldersRows] at hf, fun _ _ => rfl⟩
  | hcons x xs ihx ihxs =>
    intro hleaf
    obtain ⟨h1, hlx, hlxs⟩ := leafyRows_cons_iff.1 hleaf
    obtain ⟨ax, bx, cx⟩ := ihx hlx
    obtain ⟨axs, bxs, cxs⟩ := ihxs hlxs
    rw [setVisibilityRows_cons]
    by_cases hf : x.isFolder = true
    · -- a folder: the state goes to it and to its rows
      have hnew_rows : ((setVisibilityBelow flag x).setVisibility flag).rows =
          setVisibilityRows flag x.rows := by
        rw [(setVisibility_d_rows flag _).1, setVisibilityBelow_rows]
      have hnew_folder : ((setVisibilityBelow flag x).setVisibility flag).isFolder = true := by
        rw [isFolder_setVisibility, isFolder, setVisibilityBelow_d]; exact hf
      have hnew_nf : ((setVisibilityBelow flag x).setVisibility flag).isFilterItem = false :=
        isFilterItem_of_isFolder hnew_folder
      rw [if_pos hf]
      refine ⟨leafyRows_cons_iff.2 ⟨fun h => ?_, ?_, axs⟩, ?_, ?_⟩
      · rw [hnew_folder] at h; cases h
      · rw [hnew_rows]; exact ax
      · intro f hfm
        rw [subfoldersRows_cons, if_pos hnew_folder, hnew_rows] at hfm
        rcases List.mem_cons.1 hfm with rfl | hfm
        · exact setVisibility_state flag _
        · rcases List.mem_append.1 hfm with hfm | hfm
          · exact bx f hfm
          · exact bxs f hfm
      · intro hflag hall
        rw [leavesOfRows_cons, leavesOfRows_cons x, hnew_nf, isFilterItem_of_isFolder hf,
          hnew_rows] at *
        simp only [Bool.false_eq_true, if_false, List.nil_append] at hall ⊢
        rw [cx hflag (fun l hl => hall l (List.mem_append_left _ hl)),
          cxs hflag (fun l hl => hall l (List.mem_append_right _ hl))]
    · have hf2 : x.isFolder = false := by simpa using hf
      have hrows := h1 hf2
      rw [if_neg hf]
      by_cases hfi : x.isFilterItem = true
      · -- a filter leaf
        rw [if_pos hfi]
        have hnew_rows : (x.setVisibility flag).rows = [] := by
          rw [(setVisibility_d_rows flag _).1, hrows]
        have hnew_folder : (x.setVisibility flag).isFolder = false := by
          rw [isFolder_setVisibility]; exact hf2
        refine ⟨leafyRows_cons_iff.2 ⟨fun _ => hnew_rows, ?_, axs⟩, ?_, ?_⟩
        · rw [hnew_rows]; intro y hy; simp [itemsRows] at hy
        · intro f hfm
          rw [subfoldersRows_cons, hnew_folder] at hfm
          exact bxs f hfm
        · intro hflag hall
          subst hflag
          have hx : x.d.visibilityItem = some CheckState.Unchecked :=
            hall x (by rw [leavesOfRows_cons, hfi]; simp)
          rw [setVisibility_of_unchecked x hx, leavesOfRows_cons, leavesOfRows_cons x,
            cxs rfl (fun l hl => hall l (by
              rw [leavesOfRows_cons]; exact List.mem_append_right _ hl))]
      · rw [if_neg hfi]
        refine ⟨leafyRows_cons_iff.2 ⟨h1, hlx, axs⟩, ?_, ?_⟩
        · intro f hfm
          rw [subfoldersRows_cons, hf2] at hfm
          exact bxs f hfm
        · intro hflag hall
          rw [leavesOfRows_cons, leavesOfRows_cons x,
            cxs hflag (fun l hl => hall l (by
              rw [leavesOfRows_cons]; exact List.mem_append_right _ hl))]

theorem uncheckRows_cons (x : Item) (xs : List Item) :
    uncheckRows (x :: xs) =
      (if x.isFolder then
        (if (uncheckFullyUncheckedFolders x).isFullyUnchecked
         then (uncheckFullyUncheckedFolders x).setFolderVisibility false
         else uncheckFullyUncheckedFolders x)
       else x) :: uncheckRows xs := by
  cases x with
  | node d rs => simp only [uncheckRows, isFolder, Item.d, decide_eq_true_eq]

theorem uncheckFullyUncheckedFolders_d_rows (x : Item) :
    (uncheckFullyUncheckedFolders x).d = x.d ∧
      (uncheckFullyUncheckedFolders x).rows = uncheckRows x.rows := by
  cases x; exact ⟨rfl, rfl⟩

theorem isFullyUnchecked_eq (f : Item) :
    f.isFullyUnchecked = (leavesOfRows f.rows).all (fun l => !l.isVisible) := rfl

theorem unchecked_of_not_visible {l : Item} (hv : l.isVisible = false)
    (hp : l.d.visibilityItem ≠ some CheckState.PartiallyChecked) :
    l.d.visibilityItem = some CheckState.Unchecked := by
  unfold isVisible at hv
  cases h : l.d.visibilityItem with
  | none => rw [h] at hv; simp at hv
  | some c =>
    rw [h] at hv hp
    cases c with
    | Unchecked => rfl
    | PartiallyChecked => exact absurd rfl hp
    | Checked => simp at hv

/-- The call `folder->setVisibility(false)` with its signal, on a folder below
which only folders have rows and every filter leaf is unchecked: the folder
is unchecked (or has no checkbox), so is every folder below it when the state
was handed down, its rows are those before or those after the cascade, and the
leaves are as they were. -/
theorem setFolderVisibility_false (x : Item) (hleaf : LeafyRows x.rows)
    (hall : ∀ l ∈ leavesOfRows x.rows, l.d.visibilityItem = some CheckState.Unchecked) :
    (x.setFolderVisibility false).isFolder = x.isFolder ∧
    (x.setFolderVisibility false).BoxIs false ∧
    LeafyRows (x.setFolderVisibility false).rows ∧
    leavesOfRows (x.setFolderVisibility false).rows = leavesOfRows x.rows ∧
    ((x.setFolderVisibility false).rows = x.rows ∨
      ∀ f ∈ subfoldersRows (x.setFolderVisibility false).rows, f.BoxIs false) := by
  obtain ⟨a, b, c⟩ := setVisibilityRows_spec false x.rows hleaf
  have hstate := setVisibility_state false x
  unfold setFolderVisibility
  split_ifs with h
  · refine ⟨isFolder_setVisibility _ _, hstate, ?_, ?_, Or.inl (setVisibility_d_rows _ _).1⟩
    · rw [(setVisibility_d_rows _ _).1]; exact hleaf
    · rw [(setVisibility_d_rows _ _).1]
  · have hvis : (x.setVisibility false).isVisible = false := by
      rcases hstate with hs | hs
      · exfalso
        apply h
        rw [hs]
        cases x with
        | node d rows =>
          unfold setVisibility at hs
          cases hd : d.visibilityItem with
          | none => exact hd.symm
          | some c => simp [Item.d, hd] at hs
      · unfold isVisible; rw [hs]; simp
    have hrows : (x.setVisibility false).applyVisibilityStatusToFolderContents.rows =
        setVisibilityRows false x.rows := by
      rw [applyVisibilityStatusToFolderContents, hvis, setVisibilityBelow_rows,
        (setVisibility_d_rows _ _).1]
    have hd : (x.setVisibility false).applyVisibilityStatusToFolderContents.d =
        (x.setVisibility false).d := setVisibilityBelow_d _ _
    refine ⟨?_, ?_, ?_, ?_, Or.inr ?_⟩
    · rw [isFolder, hd, ← isFolder_setVisibility false x]; rfl
    · unfold BoxIs; rw [hd]; exact hstate
    · rw [hrows]; exact a
    · rw [hrows]; exact c rfl hall
    · rw [hrows]; exact b

/-- The pass over rows below which only folders have rows and no filter leaf
is in the partial state: the same holds afterwards, the filter leaves are as
they were, and every folder reached whose filter leaves are all unchecked is
unchecked, or has no checkbox. -/
theorem uncheckRows_spec : ∀ (rows : List Item), LeafyRows rows →
    (∀ l ∈ leavesOfRows rows, l.d.visibilityItem ≠ some CheckState.PartiallyChecked) →
    LeafyRows (uncheckRows rows) ∧
    leavesOfRows (uncheckRows rows) = leavesOfRows rows ∧
    ∀ f ∈ subfoldersRows (uncheckRows rows), f.isFullyUnchecked = true → f.BoxIs false := by
  intro rows
  induction rows using Item.rows_ind with
  | hnil =>
    intro _ _
    exact ⟨by intro y hy; simp [uncheckRows, itemsRows] at hy, rfl,
      by intro f hf; simp [uncheckRows, subfoldersRows] at hf⟩
  | hcons x xs ihx ihxs =>
    intro hleaf hpart
    obtain ⟨h1, hlx, hlxs⟩ := leafyRows_cons_iff.1 hleaf
    have hpx : ∀ l ∈ leavesOfRows x.rows,
        l.d.visibilityItem ≠ some CheckState.PartiallyChecked := fun l hl =>
      hpart l (by
        rw [leavesOfRows_cons]
        exact List.mem_append_left _ (List.mem_append_right _ hl))
    have hpxs : ∀ l ∈ leavesOfRows xs,
        l.d.visibilityItem ≠ some CheckState.PartiallyChecked := fun l hl =>
      hpart l (by rw [leavesOfRows_cons]; exact List.mem_append_right _ hl)
    obtain ⟨ax, bx, cx⟩ := ihx hlx hpx
    obtain ⟨axs, bxs, cxs⟩ := ihxs hlxs hpxs
    obtain ⟨hUd, hUr⟩ := uncheckFullyUncheckedFolders_d_rows x
    rw [uncheckRows_cons]
    by_cases hf : x.isFolder = true
    · have hUf : (uncheckFullyUncheckedFolders x).isFolder = true := by
        rw [isFolder, hUd]; exact hf
      rw [if_pos hf]
      by_cases hfu : (uncheckFullyUncheckedFolders x).isFullyUnchecked = true
      · -- every leaf below is unchecked: the folder is set unchecked
        rw [if_pos hfu]
        have hall : ∀ l ∈ leavesOfRows (uncheckFullyUncheckedFolders x).rows,
            l.d.visibilityItem = some CheckState.Unchecked := by
          intro l hl
          have hv := List.all_eq_true.1 hfu l hl
          have hp : l.d.visibilityItem ≠ some CheckState.PartiallyChecked := by
            rw [hUr, bx] at hl; exact hpx l hl
          exact unchecked_of_not_visible (by simpa using hv) hp
        obtain ⟨e1, e2, e3, e4, e5⟩ := setFolderVisibility_false (uncheckFullyUncheckedFolders x)
          (by rw [hUr]; exact ax) hall
        have hnf : ((uncheckFullyUncheckedFolders x).setFolderVisibility false).isFolder = true :=
          e1.trans hUf
        refine ⟨leafyRows_cons_iff.2 ⟨fun h => ?_, e3, axs⟩, ?_, ?_⟩
        · rw [hnf] at h; cases h
        · rw [leavesOfRows_cons, leavesOfRows_cons x, isFilterItem_of_isFolder hnf,
            isFilterItem_of_isFolder hf, e4, hUr, bx, bxs]
          rfl
        · intro f hfm hfull
          rw [subfoldersRows_cons, if_pos hnf] at hfm
          rcases List.mem_cons.1 hfm with rfl | hfm
          · exact e2
          · rcases List.mem_append.1 hfm with hfm | hfm
            · rcases e5 with e5 | e5
              · rw [e5, hUr] at hfm; exact cx f hfm hfull
              · exact e5 f hfm
            · exact cxs f hfm hfull
      · rw [if_neg hfu]
        refine ⟨leafyRows_cons_iff.2 ⟨fun h => ?_, ?_, axs⟩, ?_, ?_⟩
        · rw [hUf] at h; cases h
        · rw [hUr]; exact ax
        · rw [leavesOfRows_cons, leavesOfRows_cons x, isFilterItem_of_isFolder hUf,
            isFilterItem_of_isFolder hf, hUr, bx, bxs]
          rfl
        · intro f hfm hfull
          rw [subfoldersRows_cons, if_pos hUf] at hfm
          rcases List.mem_cons.1 hfm with rfl | hfm
          · exact absurd hfull hfu
          · rcases List.mem_append.1 hfm with hfm | hfm
            · rw [hUr] at hfm; exact cx f hfm hfull
            · exact cxs f hfm hfull
    · have hf2 : x.isFolder = false := by simpa using hf
      rw [if_neg hf]
      refine ⟨leafyRows_cons_iff.2 ⟨h1, hlx, axs⟩, ?_, ?_⟩
      · rw [leavesOfRows_cons, leavesOfRows_cons x, bxs]
      · intro f hfm hfull
        rw [subfoldersRows_cons, hf2] at hfm
        exact cxs f hfm hfull

end Item

/-- C18 (as the code has it). Where only folders have rows and no filter leaf
is in the partial state, after the pass uncheckFullyUncheckedFolders() no
filter leaf of the tree has changed, its checkbox included, and every folder
of the tree, at any depth, all of whose descendant filter leaves are unchecked
is itself unchecked when it has a checkbox. -/
theorem uncheckFullyUncheckedFolders_spec (s : FiltersView)
    (hleafy : s.root.onlyFoldersHaveRows = true)
    (hstates : ∀ l ∈ allLeaves s.root,
      l.d.visibilityItem ≠ some CheckState.PartiallyChecked) :
    allLeaves s.uncheckFullyUncheckedFolders.root = allLeaves s.root ∧
    ∀ f ∈ Item.itemsRows s.uncheckFullyUncheckedFolders.root.rows, f.isFolder = true →
      f.isFullyUnchecked = true →
      f.d.visibilityItem = none ∨ f.d.visibilityItem = some CheckState.Unchecked := by
  obtain ⟨a, b, c⟩ := Item.uncheckRows_spec s.root.rows
    (Item.rows_of_onlyFoldersHaveRows hleafy) hstates
  have hr : s.uncheckFullyUncheckedFolders.root.rows = Item.uncheckRows s.root.rows :=
    (Item.uncheckFullyUncheckedFolders_d_rows s.root).2
  refine ⟨?_, ?_⟩
  · show leavesOfRows s.uncheckFullyUncheckedFolders.root.rows = leavesOfRows s.root.rows
    rw [hr, b]
  · intro f hf hfold hfull
    have hsub := Item.subfolders_of_leafy s.uncheckFullyUncheckedFolders.root
      (by rw [hr]; exact a) f hf hfold
    have hsub2 : f ∈ Item.subfoldersRows (Item.uncheckRows s.root.rows) := by
      rw [← hr]
      cases hroot : s.uncheckFullyUncheckedFolders.root with
      | node d rows => rw [hroot] at hsub; simpa [Item.subfolders] using hsub
    simpa [Item.BoxIs] using c f hsub2 hfull

set_option maxRecDepth 100000 in
theorem uncheckFullyUncheckedFolders_spec_witness :
    allLeaves
      (((((FiltersView.empty [] true).addFilter sampleEnv "Blur" "h1" ["Effects"] false).addFilter
        sampleEnv "Sharpen" "h2" ["Effects"] false).setCheckState 2
        CheckState.Unchecked).setCheckState 3
        CheckState.Unchecked).uncheckFullyUncheckedFolders.root =
    allLeaves
      (((((FiltersView.empty [] true).addFilter sampleEnv "Blur" "h1" ["Effects"] false).addFilter
        sampleEnv "Sharpen" "h2" ["Effects"] false).setCheckState 2
        CheckState.Unchecked).setCheckState 3 CheckState.Unchecked).root ∧
    (((((FiltersView.empty [] true).addFilter sampleEnv "Blur" "h1" ["Effects"] false).addFilter
        sampleEnv "Sharpen" "h2" ["Effects"] false).setCheckState 2
        CheckState.Unchecked).setCheckState 3
        CheckState.Unchecked).uncheckFullyUncheckedFolders.root.items.map
      (fun i => (i.id, i.d.visibilityItem)) =
      [(0, none), (1, some CheckState.Unchecked), (2, some CheckState.Unchecked),
        (3, some CheckState.Unchecked)] :=
  ⟨(uncheckFullyUncheckedFolders_spec
      (((((FiltersView.empty [] true).addFilter sampleEnv "Blur" "h1" ["Effects"] false).addFilter
        sampleEnv "Sharpen" "h2" ["Effects"] false).setCheckState 2
        CheckState.Unchecked).setCheckState 3 CheckState.Unchecked)
      (by rfl) (by decide)).1,
   by rfl⟩

set_option maxRecDepth 100000 in
/-- C18, as stated, fails for a folder without a checkbox. In selection mode a
favorite whose hash is hidden is added: createFaveFolder appends the favorites
root (address 1) without a checkbox, the leaf (address 2) is unchecked. After
the pass the favorites root, all of whose filter leaves are unchecked, has no
checkbox at all and isVisible() is true for it: it is not unchecked. -/
theorem fave_folder_not_unchecked :
    (((FiltersView.empty [("h1", false)] true).addFave sampleEnv "Blur" "h1"
        [])).uncheckFullyUncheckedFolders.root.items.map
      (fun i => (i.id, i.isFolder, i.d.visibilityItem, i.isFullyUnchecked, i.isVisible)) =
      [(0, false, none, true, true), (1, true, none, true, true),
        (2, false, some CheckState.Unchecked, true, false)] := by
  rfl

/-! ## Row invariants and calls through an address -/

theorem Local.same (I : RowInv) (b : Item) : Local I b b :=
  ⟨rfl, rfl, fun _ => rfl, id, id, id⟩

theorem Local.andThen {I : RowInv} {a b c : Item} (h1 : Local I a b) (h2 : Local I b c) :
    Local I a c := by
  obtain ⟨a1, a2, a3, a4, a5, a6⟩ := h1
  obtain ⟨b1, b2, b3, b4, b5, b6⟩ := h2
  exact ⟨b1.trans a1, b2.trans a2, fun h => (b3 (a2.trans h)).trans (a3 h),
    fun h => b4 (a4 h), fun h => b5 (a5 h), fun h => b6 (a6 h)⟩

namespace Item

theorem fkeys_cons (d : ItemData) (x : Item) (xs : List Item) :
    (node d (x :: xs)).fkeys =
      (if x.isFolder then [x.fkey] else []) ++ (node d xs).fkeys := by
  unfold fkeys
  simp only [Item.rows, List.filter_cons]
  split_ifs <;> simp

theorem local_modifyRows (I : RowInv) (p : Nat) (g : Item → Item) (d : ItemData) :
    ∀ (rows : List Item),
    (∀ x ∈ rows, (∀ b, find? p x = some b → Local I b (g b)) → Local I x (modify p g x)) →
    (∀ b, findRows? p rows = some b → Local I b (g b)) →
    (node d (modifyRows p g rows)).fkeys = (node d rows).fkeys ∧
    ((∀ x ∈ itemsRows rows, I.Q x.fkeys) → ∀ x ∈ itemsRows (modifyRows p g rows), I.Q x.fkeys)
  | [], _, _ => ⟨rfl, fun h => h⟩
  | x :: xs, ih, hg => by
    simp only [modifyRows]
    cases hx : find? p x with
    | some r =>
      have hl : Local I x (modify p g x) := ih x (List.mem_cons_self _ _) (fun b hb =>
        hg b (by simp only [findRows?, hb]))
      obtain ⟨l1, l2, l3, l4, l5, l6⟩ := hl
      constructor
      · rw [fkeys_cons, fkeys_cons, l2]
        by_cases hf : x.isFolder = true
        · rw [if_pos hf, if_pos hf, l3 hf]
        · rw [if_neg hf, if_neg hf]
      · intro h y hy
        rw [itemsRows, items_eq, List.mem_append, List.mem_cons] at hy
        have hx0 : I.Q x.fkeys := h x (by
          rw [itemsRows]; exact List.mem_append_left _ (self_mem_items x))
        have hxb : ∀ z ∈ itemsRows x.rows, I.Q z.fkeys := fun z hz => h z (by
          rw [itemsRows, items_eq]
          exact List.mem_append_left _ (List.mem_cons_of_mem _ hz))
        rcases hy with (rfl | hy) | hy
        · exact l5 hx0
        · exact l6 hxb y hy
        · exact h y (by rw [itemsRows]; exact List.mem_append_right _ hy)
    | none =>
      obtain ⟨e1, e2⟩ := local_modifyRows I p g d xs
        (fun z hz => ih z (List.mem_cons_of_mem _ hz))
        (fun b hb => hg b (by simp only [findRows?, hx, hb]))
      constructor
      · rw [fkeys_cons, fkeys_cons, e1]
      · intro h y hy
        rw [itemsRows, List.mem_append] at hy
        rcases hy with hy | hy
        · exact h y (by rw [itemsRows]; exact List.mem_append_left _ hy)
        · exact e2 (fun z hz => h z (by rw [itemsRows]; exact List.mem_append_right _ hz)) y hy

/-- A call through the address `p` that does no harm where it acts does no
harm to the tree around it. -/
theorem local_modify (I : RowInv) (p : Nat) (g : Item → Item) : ∀ (t : Item),
    (∀ b, find? p t = some b → Local I b (g b)) → Local I t (modify p g t) := by
  intro t
  induction t using Item.ind with
  | h d rows ih =>
    intro hg
    by_cases hp : d.id = p
    · have : modify p g (node d rows) = g (node d rows) := by simp only [modify, hp, if_true]
      rw [this]
      exact hg _ (by simp only [find?, hp, if_true])
    · have hm : modify p g (node d rows) = node d (modifyRows p g rows) := by
        simp only [modify, hp, if_false]
      rw [hm]
      obtain ⟨e1, e2⟩ := local_modifyRows I p g d rows ih (fun b hb =>
        hg b (by simp only [find?, hp, if_false, hb]))
      exact ⟨rfl, rfl, fun _ => rfl, fun h => by rw [e1]; exact h,
        fun h => by rw [e1]; exact h, e2⟩

theorem fkeys_eq_of_rows {b c : Item}
    (h : (c.rows.filter Item.isFolder).map Item.fkey = (b.rows.filter Item.isFolder).map Item.fkey) :
    c.fkeys = b.fkeys := h

/-- Rows taken out, none of them a folder, do no harm. -/
theorem local_setRows_sublist (I : RowInv) (b : Item) (rows2 : List Item)
    (hsub : rows2.Sublist b.rows)
    (hf : rows2.filter Item.isFolder = b.rows.filter Item.isFolder) :
    Local I b (b.setRows rows2) := by
  have hk : (b.setRows rows2).fkeys = b.fkeys := by
    unfold fkeys; rw [show (b.setRows rows2).rows = rows2 from rfl, hf]
  refine ⟨rfl, rfl, fun _ => rfl, fun h => by rw [hk]; exact h, fun h => by rw [hk]; exact h, ?_⟩
  intro h x hx
  obtain ⟨y, hy, hxy⟩ := mem_itemsRows.1 hx
  exact h x (mem_itemsRows.2 ⟨y, hsub.subset hy, hxy⟩)

/-- One row taken out, not a folder, does no harm. -/
theorem local_setRows_remove (I : RowInv) (b leaf : Item) (before after : List Item)
    (hrows : b.rows = before ++ leaf :: after) (hleaf : leaf.isFolder = false) :
    Local I b (b.setRows (before ++ after)) := by
  apply local_setRows_sublist
  · rw [hrows]
    exact List.Sublist.append (List.Sublist.refl _) (List.sublist_cons_self _ _)
  · rw [hrows, List.filter_append, List.filter_append, List.filter_cons, hleaf]
    simp

/-- The first row taken out, not a folder, does no harm. -/
theorem local_removeRow_zero (I : RowInv) (b n : Item) (rest : List Item)
    (hrows : b.rows = n :: rest) (hn : n.isFolder = false) : Local I b (b.removeRow 0) := by
  have : b.removeRow 0 = b.setRows ([] ++ rest) := by
    unfold removeRow setRows; rw [hrows]; rfl
  rw [this]
  exact local_setRows_remove I b n [] rest hrows hn

/-- A new row that is not a folder and has no rows does no harm. -/
theorem local_appendRow (I : RowInv) (b c : Item) (hc : c.isFolder = false) (hr : c.rows = []) :
    Local I b (b.appendRow c) := by
  have hk : (b.appendRow c).fkeys = b.fkeys := by
    unfold fkeys
    rw [show (b.appendRow c).rows = b.rows ++ [c] from rfl, List.filter_append]
    simp [hc]
  refine ⟨rfl, rfl, fun _ => rfl, fun h => by rw [hk]; exact h, fun h => by rw [hk]; exact h, ?_⟩
  intro h x hx
  rw [show (b.appendRow c).rows = b.rows ++ [c] from rfl] at hx
  obtain ⟨y, hy, hxy⟩ := mem_itemsRows.1 hx
  rcases List.mem_append.1 hy with hy | hy
  · exact h x (mem_itemsRows.2 ⟨y, hy, hxy⟩)
  · simp only [List.mem_singleton] at hy
    subst hy
    rw [items_eq, hr] at hxy
    simp only [itemsRows, List.mem_singleton] at hxy
    subst hxy
    have : x.fkeys = [] := by unfold fkeys; rw [hr]; rfl
    rw [this]
    exact I.nilQ

/-- A change of the data of an item that keeps its address, its kind, its
fave-folder flag and, for a folder, its text, does no harm. -/
theorem local_setData (I : RowInv) (b : Item) (d2 : ItemData) (hid : d2.id = b.d.id)
    (hkind : d2.kind = b.d.kind)
    (hkey : b.isFolder = true → d2.isFaveFolder = b.d.isFaveFolder ∧ d2.text = b.d.text) :
    Local I b (node d2 b.rows) := by
  refine ⟨hid, ?_, ?_, fun h => h, fun h => h, fun h => h⟩
  · simp only [isFolder, Item.d, hkind]
  · intro hf
    obtain ⟨h1, h2⟩ := hkey hf
    simp only [fkey, Item.id, Item.text, Item.d, hid, h1, h2]

theorem local_setEditable (I : RowInv) (flag : Bool) (b : Item) : Local I b (b.setEditable flag) :=
  local_setData I b _ rfl rfl (fun _ => ⟨rfl, rfl⟩)

theorem local_setVisibility (I : RowInv) (flag : Bool) (b : Item) :
    Local I b (b.setVisibility flag) := by
  cases b with
  | node d rows =>
    unfold setVisibility
    cases h : d.visibilityItem with
    | none => simp only [Item.d, h]; exact Local.same I _
    | some c =>
      simp only [Item.d, h]
      exact local_setData I (node d rows) _ rfl rfl (fun _ => ⟨rfl, rfl⟩)

theorem local_withCheckbox (I : RowInv) (b : Item) : Local I b (withCheckbox b) :=
  local_setData I b _ rfl rfl (fun _ => ⟨rfl, rfl⟩)

end Item

theorem insertSorted_perm (lt : Item → Item → Bool) (x : Item × Item) :
    ∀ (l : List (Item × Item)), (insertSorted lt x l).Perm (x :: l)
  | [] => List.Perm.refl _
  | y :: ys => by
    simp only [insertSorted]
    split_ifs
    · exact ((insertSorted_perm lt x ys).cons y).trans (List.Perm.swap x y ys)
    · exact List.Perm.refl _

theorem stableSort_perm (lt : Item → Item → Bool) :
    ∀ (l : List (Item × Item)), (stableSort lt l).Perm l
  | [] => List.Perm.refl _
  | x :: xs => by
    simp only [stableSort]
    exact (insertSorted_perm lt x _).trans ((stableSort_perm lt xs).cons x)

namespace Item

theorem sortedPairs_eq (lt : Item → Item → Bool) : ∀ (rows : List Item),
    sortedPairs lt rows = rows.map (fun x => (x, sortChildren lt x))
  | [] => rfl
  | x :: xs => by rw [sortedPairs, sortedPairs_eq lt xs]; rfl

/-- The rows after sortChildren are the sorted rows, in some order. -/
theorem sortChildren_rows_perm (lt : Item → Item → Bool) (t : Item) :
    (sortChildren lt t).rows.Perm (t.rows.map (sortChildren lt)) := by
  cases t with
  | node d rows =>
    simp only [sortChildren, Item.rows, sortedPairs_eq]
    have := (stableSort_perm lt (rows.map (fun x => (x, sortChildren lt x)))).map Prod.snd
    simpa [List.map_map, Function.comp] using this

theorem sortChildren_d (lt : Item → Item → Bool) (t : Item) : (sortChildren lt t).d = t.d := by
  cases t; rfl

/-- Sorting does no harm. -/
theorem local_sortChildren (I : RowInv) (lt : Item → Item → Bool) :
    ∀ (t : Item), Local I t (sortChildren lt t) := by
  intro t
  induction t using Item.ind with
  | h d rows ih =>
    have hperm := sortChildren_rows_perm lt (node d rows)
    have hd := sortChildren_d lt (node d rows)
    have hk : ((rows.map (sortChildren lt)).filter Item.isFolder).map Item.fkey =
        (rows.filter Item.isFolder).map Item.fkey := by
      clear hperm hd
      induction rows with
      | nil => rfl
      | cons x xs ihx =>
        obtain ⟨l1, l2, l3, _, _, _⟩ := ih x (List.mem_cons_self _ _)
        rw [List.map_cons, List.filter_cons, List.filter_cons, l2]
        by_cases hf : x.isFolder = true
        · rw [if_pos hf, if_pos hf, List.map_cons, List.map_cons, l3 hf,
            ihx (fun z hz => ih z (List.mem_cons_of_mem _ hz))]
        · rw [if_neg hf, if_neg hf, ihx (fun z hz => ih z (List.mem_cons_of_mem _ hz))]
    have hkp : (sortChildren lt (node d rows)).fkeys.Perm (node d rows).fkeys := by
      unfold fkeys
      rw [show (node d rows).rows = rows from rfl, ← hk]
      exact (hperm.filter _).map _
    refine ⟨by rw [Item.id, hd]; rfl, by rw [isFolder, hd]; rfl,
      fun _ => by rw [fkey, Item.id, Item.text, hd]; rfl,
      fun h => I.permP _ _ hkp.symm h, fun h => I.permQ _ _ hkp.symm h, ?_⟩
    intro h y hy
    obtain ⟨x2, hx2, hy2⟩ := mem_itemsRows.1 hy
    have hx3 := hperm.subset hx2
    obtain ⟨x, hx, rfl⟩ := List.mem_map.1 hx3
    obtain ⟨_, _, _, _, l5, l6⟩ := ih x hx
    rw [items_eq] at hy2
    rcases List.mem_cons.1 hy2 with rfl | hy2
    · exact l5 (h x (mem_itemsRows.2 ⟨x, hx, self_mem_items x⟩))
    · exact l6 (fun z hz => h z (mem_itemsRows.2 ⟨x, hx, by
        rw [items_eq]; exact List.mem_cons_of_mem _ hz⟩)) y hy2

end Item

/-! ## Row invariants and createFolder -/

/-- What the loop of createFolder leaves: the rows with the first matching row
replaced by the result of the recursive call on it, or, when no row matches,
the rows with the recursive call on a new folder at the end. -/
theorem createFolderRows_shape (step : Item → Nat → Item × Nat × Nat) (fresh : Nat → Item)
    (found : Item → Bool) : ∀ (rows : List Item) (n : Nat),
    (∃ pre x post, rows = pre ++ x :: post ∧ found x = true ∧
      (createFolderRows step fresh found rows n).1 = pre ++ (step x n).1 :: post) ∨
    ((∀ y ∈ rows, found y = false) ∧
      (createFolderRows step fresh found rows n).1 = rows ++ [(step (fresh n) (n + 1)).1])
  | [], n => Or.inr ⟨by simp, rfl⟩
  | x :: xs, n => by
    by_cases hx : found x = true
    · exact Or.inl ⟨[], x, xs, rfl, hx, by simp [createFolderRows, hx]⟩
    · have hx2 : found x = false := by simpa using hx
      rcases createFolderRows_shape step fresh found xs n with
        ⟨pre, y, post, h1, h2, h3⟩ | ⟨h1, h2⟩
      · exact Or.inl ⟨x :: pre, y, post, by rw [h1]; rfl, h2, by
          simp [createFolderRows, hx2, h3]⟩
      · refine Or.inr ⟨?_, by simp [createFolderRows, hx2, h2]⟩
        intro y hy
        rcases List.mem_cons.1 hy with rfl | hy
        · exact hx2
        · exact h1 y hy

theorem Item.local_replace_row (I : RowInv) (d : ItemData) (pre post : List Item) (x x2 : Item)
    (h : Local I x x2) : Local I (Item.node d (pre ++ x :: post)) (Item.node d (pre ++ x2 :: post)) := by
  obtain ⟨l1, l2, l3, l4, l5, l6⟩ := h
  have hk : (Item.node d (pre ++ x2 :: post)).fkeys = (Item.node d (pre ++ x :: post)).fkeys := by
    unfold Item.fkeys
    simp only [Item.rows, List.filter_append, List.filter_cons, l2, List.map_append]
    by_cases hf : x.isFolder = true
    · simp only [hf, if_true, List.map_cons, l3 hf]
    · simp only [hf, Bool.false_eq_true, if_false]
  refine ⟨rfl, rfl, fun _ => rfl, fun h => by rw [hk]; exact h, fun h => by rw [hk]; exact h, ?_⟩
  intro hq y hy
  simp only [Item.rows] at hq hy
  rw [itemsRows_append, List.mem_append] at hy
  have hq2 : ∀ z ∈ Item.itemsRows pre ++ (Item.items x ++ Item.itemsRows post), I.Q z.fkeys := by
    intro z hz
    apply hq z
    rw [itemsRows_append, Item.itemsRows]
    exact hz
  rcases hy with hy | hy
  · exact hq2 y (List.mem_append_left _ hy)
  · rw [Item.itemsRows, List.mem_append, Item.items_eq, List.mem_cons] at hy
    rcases hy with (rfl | hy) | hy
    · exact l5 (hq2 x (List.mem_append_right _ (List.mem_append_left _ (Item.self_mem_items x))))
    · exact l6 (fun z hz => hq2 z (List.mem_append_right _ (List.mem_append_left _ (by
        rw [Item.items_eq]; exact List.mem_cons_of_mem _ hz)))) y hy
    · exact hq2 y (List.mem_append_right _ (List.mem_append_right _ hy))

theorem fresh_folder_facts (env : Env) (sel : Bool) (seg : String) (a : Nat) :
    (if sel then (withCheckbox (newFolder env a seg)).setVisibility true
     else newFolder env a seg).isFolder = true ∧
    (if sel then (withCheckbox (newFolder env a seg)).setVisibility true
     else newFolder env a seg).fkey = (a, false, env.folderText seg) ∧
    (if sel then (withCheckbox (newFolder env a seg)).setVisibility true
     else newFolder env a seg).rows = [] := by
  cases sel <;> exact ⟨rfl, rfl, rfl⟩

/-- createFolder does no harm: the folders it creates are not flagged, and
(where the invariant needs it) a folder is created only under a name that no
folder beside it has, given that a new folder shows its name without the
warning prefix. -/
theorem local_createFolder (I : RowInv) (env : Env) (sel : Bool)
    (hEnv : I.needFresh → ∀ x, env.folderText x = env.removeWarningPrefix x)
    (path : List String) :
    ∀ (parent : Item) (n : Nat), Local I parent (createFolder env sel path parent n).1 := by
  induction path with
  | nil => intro parent n; exact Local.same I parent
  | cons seg rest ih =>
    intro parent n
    cases parent with
    | node d rows =>
    simp only [createFolder, Item.setRows, Item.d, Item.rows]
    rcases createFolderRows_shape (createFolder env sel rest)
      (fun a => if sel then (withCheckbox (newFolder env a seg)).setVisibility true
                else newFolder env a seg)
      (isFolderNamed env seg) rows n with ⟨pre, x, post, h1, h2, h3⟩ | ⟨h1, h2⟩
    · rw [h3, h1]
      exact Item.local_replace_row I d pre post x _ (ih x n)
    · rw [h2]
      obtain ⟨f1, f2, f3⟩ := fresh_folder_facts env sel seg n
      obtain ⟨l1, l2, l3, l4, l5, l6⟩ := ih
        (if sel then (withCheckbox (newFolder env n seg)).setVisibility true
         else newFolder env n seg) (n + 1)
      have hk : (Item.node d (rows ++
          [(createFolder env sel rest
            (if sel then (withCheckbox (newFolder env n seg)).setVisibility true
             else newFolder env n seg) (n + 1)).1])).fkeys =
          (Item.node d rows).fkeys ++ [(n, false, env.folderText seg)] := by
        unfold Item.fkeys
        simp only [Item.rows, List.filter_append, List.map_append, List.filter_cons, l2, f1,
          if_true, List.filter_nil, List.map_cons, List.map_nil, l3 f1, f2]
      have hfresh : I.needFresh → ∀ k ∈ (Item.node d rows).fkeys, k.2.2 ≠ env.folderText seg := by
        intro hneed k hk2
        unfold Item.fkeys at hk2
        obtain ⟨y, hy, rfl⟩ := List.mem_map.1 hk2
        obtain ⟨hy1, hy2⟩ := List.mem_filter.1 hy
        have := h1 y hy1
        intro e
        have : isFolderNamed env seg y = true := by
          simp only [isFolderNamed, hy2, Bool.true_and, decide_eq_true_eq]
          rw [← hEnv hneed seg]; exact e
        rw [h1 y hy1] at this
        cases this
      refine ⟨rfl, rfl, fun _ => rfl, fun h => by rw [hk]; exact I.freshP _ _ _ hfresh h,
        fun h => by rw [hk]; exact I.freshQ _ _ _ hfresh h, ?_⟩
      intro hq y hy
      simp only [Item.rows] at hq hy
      rw [itemsRows_append, List.mem_append] at hy
      rcases hy with hy | hy
      · exact hq y hy
      · simp only [Item.itemsRows, List.append_nil] at hy
        rw [Item.items_eq, List.mem_cons] at hy
        have hq0 : I.Q (if sel then (withCheckbox (newFolder env n seg)).setVisibility true
            else newFolder env n seg).fkeys := by
          have : (if sel then (withCheckbox (newFolder env n seg)).setVisibility true
            else newFolder env n seg).fkeys = [] := by unfold Item.fkeys; rw [f3]; rfl
          rw [this]; exact I.nilQ
        rcases hy with rfl | hy
        · exact l5 hq0
        · exact l6 (by rw [f3]; intro z hz; simp [Item.itemsRows] at hz) y hy

/-! ## Addresses after a call through an address -/

namespace Item

theorem idsRows_modifyRows_split (p : Nat) : ∀ (rows : List Item) (b : Item),
    (∀ x ∈ rows, ∀ b, find? p x = some b →
      ∃ pre post, ids x = pre ++ ids b ++ post ∧
        ∀ g, ids (modify p g x) = pre ++ ids (g b) ++ post) →
    findRows? p rows = some b →
    ∃ pre post, idsRows rows = pre ++ ids b ++ post ∧
      ∀ g, idsRows (modifyRows p g rows) = pre ++ ids (g b) ++ post
  | [], _, _, h => by simp [findRows?] at h
  | x :: xs, b, ih, h => by
    simp only [findRows?] at h
    cases hx : find? p x with
    | some r =>
      rw [hx] at h
      cases h
      obtain ⟨pre, post, e1, e2⟩ := ih x (List.mem_cons_self _ _) b hx
      refine ⟨pre, post ++ idsRows xs, by simp [idsRows, e1], fun g => ?_⟩
      simp [modifyRows, hx, idsRows, e2 g]
    | none =>
      rw [hx] at h
      obtain ⟨pre, post, e1, e2⟩ := idsRows_modifyRows_split p xs b
        (fun z hz => ih z (List.mem_cons_of_mem _ hz)) h
      refine ⟨ids x ++ pre, post, by simp [idsRows, e1], fun g => ?_⟩
      simp [modifyRows, hx, idsRows, e2 g]

/-- The addresses of the tree around the item a call acts on: they stay, and
in between are the addresses of the item after the call. -/
theorem ids_modify_split (p : Nat) : ∀ (t b : Item), find? p t = some b →
    ∃ pre post, ids t = pre ++ ids b ++ post ∧
      ∀ g, ids (modify p g t) = pre ++ ids (g b) ++ post := by
  intro t
  induction t using Item.ind with
  | h d rows ih =>
    intro b hb
    by_cases hp : d.id = p
    · simp only [find?, hp, if_true] at hb
      cases hb
      exact ⟨[], [], by simp, fun g => by simp [modify, hp]⟩
    · simp only [find?, hp, if_false] at hb
      obtain ⟨pre, post, e1, e2⟩ := idsRows_modifyRows_split p rows b ih hb
      refine ⟨d.id :: pre, post, by simp [ids, e1], fun g => ?_⟩
      simp [modify, hp, ids, e2 g]

theorem ids_modify_perm (p : Nat) (g : Item → Item) (extra : List Nat) (t b : Item)
    (hb : find? p t = some b) (h : (ids (g b)).Perm (ids b ++ extra)) :
    (ids (modify p g t)).Perm (ids t ++ extra) := by
  obtain ⟨pre, post, e1, e2⟩ := ids_modify_split p t b hb
  rw [e1, e2 g]
  refine ((h.append_left pre).append_right post).trans ?_
  simp only [List.append_assoc]
  exact List.Perm.append_left _ (List.Perm.append_left _ List.perm_append_comm)

theorem ids_modify_sublist (p : Nat) (g : Item → Item) (t b : Item)
    (hb : find? p t = some b) (h : (ids (g b)).Sublist (ids b)) :
    (ids (modify p g t)).Sublist (ids t) := by
  obtain ⟨pre, post, e1, e2⟩ := ids_modify_split p t b hb
  rw [e1, e2 g]
  exact ((List.Sublist.refl pre).append h).append (List.Sublist.refl post)

theorem idsRows_eq_flatMap : ∀ (rows : List Item), idsRows rows = rows.flatMap ids
  | [] => rfl
  | x :: xs => by rw [idsRows, idsRows_eq_flatMap xs, List.flatMap_cons]

theorem idsRows_append (xs ys : List Item) : idsRows (xs ++ ys) = idsRows xs ++ idsRows ys := by
  simp only [idsRows_eq_flatMap, List.flatMap_append]

theorem idsRows_sublist {l1 l2 : List Item} (h : l1.Sublist l2) :
    (idsRows l1).Sublist (idsRows l2) := by
  induction h with
  | slnil => exact List.Sublist.refl _
  | cons a _ ih => rw [idsRows]; exact ih.trans (List.sublist_append_right _ _)
  | cons₂ a _ ih => rw [idsRows, idsRows]; exact (List.Sublist.refl _).append ih

/-- Sorting keeps the addresses. -/
theorem ids_sortChildren (lt : Item → Item → Bool) : ∀ (t : Item),
    (ids (sortChildren lt t)).Perm (ids t) := by
  intro t
  induction t using Item.ind with
  | h d rows ih =>
    have hperm := sortChildren_rows_perm lt (node d rows)
    rw [ids_eq, ids_eq (node d rows), Item.id, sortChildren_d]
    refine List.Perm.cons _ ?_
    rw [idsRows_eq_flatMap, idsRows_eq_flatMap]
    refine (hperm.flatMap_right ids).trans ?_
    simp only [Item.rows, List.flatMap_map]
    exact List.Perm.flatMap_left _ (fun x hx => ih x hx)

theorem ids_appendRow (b c : Item) : ids (b.appendRow c) = ids b ++ ids c := by
  rw [ids_eq, ids_eq b]
  simp [appendRow, idsRows_append, idsRows, Item.id, Item.d, Item.rows]

theorem ids_setRows_sublist (b : Item) (rows2 : List Item) (h : rows2.Sublist b.rows) :
    (ids (b.setRows rows2)).Sublist (ids b) := by
  rw [ids_eq, ids_eq b]
  refine List.Sublist.cons₂ _ ?_
  exact idsRows_sublist h

end Item

/-! ## Steps of the view that keep well-formedness and a row invariant -/

theorem wf_lists_perm {l l2 extra : List Nat} {n n2 : Nat} (hl : l.Nodup) (hb : ∀ i ∈ l, i < n)
    (hp : l2.Perm (l ++ extra)) (he : extra.Nodup) (hr : ∀ i ∈ extra, n ≤ i ∧ i < n2)
    (hle : n ≤ n2) : l2.Nodup ∧ ∀ i ∈ l2, i < n2 := by
  constructor
  · rw [hp.nodup_iff, List.nodup_append]
    refine ⟨hl, he, ?_⟩
    intro a ha1 ha2
    have := hb a ha1
    have := (hr a ha2).1
    omega
  · intro i hi
    rcases List.mem_append.1 (hp.subset hi) with h | h
    · have := hb i h; omega
    · exact (hr i h).2

theorem wf_lists_sublist {l l2 : List Nat} {n n2 : Nat} (hl : l.Nodup) (hb : ∀ i ∈ l, i < n)
    (hs : l2.Sublist l) (hle : n ≤ n2) : l2.Nodup ∧ ∀ i ∈ l2, i < n2 :=
  ⟨hl.sublist hs, fun i hi => by have := hb i (hs.subset hi); omega⟩

theorem Evolves.refl (I : RowInv) (s : FiltersView) : Evolves I s s :=
  ⟨rfl, fun h => h, fun _ => Local.same I _⟩

theorem Evolves.trans {I : RowInv} {a b c : FiltersView} (h1 : Evolves I a b)
    (h2 : Evolves I b c) : Evolves I a c :=
  ⟨h2.1.trans h1.1, fun h => h2.2.1 (h1.2.1 h),
    fun h => (h1.2.2 h).andThen (h2.2.2 (h1.2.1 h))⟩

/-- A step that changes neither the tree, nor the next address, nor
`_faveFolder`. -/
theorem evolves_of_eq (I : RowInv) (s s2 : FiltersView) (h1 : s2.root = s.root)
    (h2 : s2.nextAddr = s.nextAddr) (h3 : s2._faveFolder = s._faveFolder) : Evolves I s s2 := by
  refine ⟨h3, fun h => ?_, fun _ => by rw [h1]; exact Local.same I _⟩
  unfold FiltersView.WF at h ⊢
  rw [h1, h2]; exact h

/-- A call through an address that does no harm where it acts and adds
addresses `extra`, all fresh. -/
theorem evolves_modify_perm (I : RowInv) (s : FiltersView) (p : Nat) (g : Item → Item)
    (n2 : Nat) (extra : List Nat) (b : Item) (hb : s.root.find? p = some b)
    (hloc : Local I b (g b)) (hids : (Item.ids (g b)).Perm (Item.ids b ++ extra))
    (he : extra.Nodup) (hr : ∀ i ∈ extra, s.nextAddr ≤ i ∧ i < n2) (hle : s.nextAddr ≤ n2) :
    Evolves I s { s with root := s.root.modify p g, nextAddr := n2 } := by
  refine ⟨rfl, fun h => ?_, fun _ => ?_⟩
  · exact wf_lists_perm h.1 h.2 (Item.ids_modify_perm p g extra s.root b hb hids) he hr hle
  · exact Item.local_modify I p g s.root (fun b2 hb2 => by
      rw [hb] at hb2; cases hb2; exact hloc)

/-- A call through an address that does no harm where it acts and adds no
address. -/
theorem evolves_modify_sublist (I : RowInv) (s : FiltersView) (p : Nat) (g : Item → Item)
    (b : Item) (hb : s.root.find? p = some b)
    (hloc : Local I b (g b)) (hids : (Item.ids (g b)).Sublist (Item.ids b)) :
    Evolves I s { s with root := s.root.modify p g } := by
  refine ⟨rfl, fun h => ?_, fun _ => ?_⟩
  · exact wf_lists_sublist h.1 h.2 (Item.ids_modify_sublist p g s.root b hb hids) (le_refl _)
  · exact Item.local_modify I p g s.root (fun b2 hb2 => by
      rw [hb] at hb2; cases hb2; exact hloc)

/-- A call through an address that is not in the tree changes nothing. -/
theorem evolves_modify_none (I : RowInv) (s : FiltersView) (p : Nat) (g : Item → Item)
    (hb : s.root.find? p = none) :
    Evolves I s { s with root := s.root.modify p g } :=
  evolves_of_eq I s _ (Item.modify_of_find?_none p g s.root hb) rfl rfl

theorem updateNull_evolves (I : RowInv) (s : FiltersView) (folder : Option Nat) :
    Evolves I s (s.updateNullItemInFaveSubfolder folder) := by
  unfold FiltersView.updateNullItemInFaveSubfolder
  cases hf : folder.bind (fun p => s.root.find? p) with
  | none => exact Evolves.refl I s
  | some f =>
    have hfind : s.root.find? f.id = some f := by
      cases folder with
      | none => simp at hf
      | some p =>
        simp only [Option.some_bind] at hf
        rw [Item.find?_id p s.root f hf]; exact hf
    simp only
    split_ifs with h1 h2
    · -- no row: a placeholder is appended
      refine evolves_modify_perm I s f.id _ (s.nextAddr + 1) [s.nextAddr] f hfind
        (Item.local_appendRow I f _ rfl rfl) ?_ (List.nodup_singleton _) ?_ (Nat.le_succ _)
      · rw [Item.ids_appendRow]; rfl
      · intro i hi
        simp only [List.mem_singleton] at hi
        omega
    · -- a placeholder in front of other rows: it is removed
      cases hr : f.rows with
      | nil => simp [Item.rowCount, hr] at h1
      | cons n rest =>
        have hn : n.isFolder = false := by
          have : n.isNullItem = true := by
            have h3 : 1 < f.rowCount ∧ n.isNullItem = true := by simpa [hr] using h2
            exact h3.2
          simp only [Item.isNullItem, decide_eq_true_eq] at this
          simp [Item.isFolder, this]
        refine evolves_modify_sublist I s f.id _ f hfind
          (Item.local_removeRow_zero I f n rest hr hn) ?_
        have : f.removeRow 0 = f.setRows rest := by
          unfold Item.removeRow Item.setRows; rw [hr]; rfl
        rw [this]
        exact Item.ids_setRows_sublist f rest (by rw [hr]; exact List.sublist_cons_self _ _)
    · exact Evolves.refl I s

theorem createFolderAt_evolves (I : RowInv) (env : Env)
    (hEnv : I.needFresh → ∀ x, env.folderText x = env.removeWarningPrefix x)
    (s : FiltersView) (parent : Option Nat) (path : List String) :
    Evolves I s (s.createFolderAt env parent path).1 := by
  unfold FiltersView.createFolderAt
  cases hf : parent.bind (fun p => s.root.find? p) with
  | none => exact Evolves.refl I s
  | some par =>
    have hfind : s.root.find? par.id = some par := by
      cases parent with
      | none => simp at hf
      | some p =>
        simp only [Option.some_bind] at hf
        rw [Item.find?_id p s.root par hf]; exact hf
    obtain ⟨h1, h2⟩ := createFolder_ids env s._isInSelectionMode path par s.nextAddr
    refine evolves_modify_perm I s par.id _ _ _ par hfind
      (local_createFolder I env s._isInSelectionMode hEnv path par s.nextAddr) h2
      (List.nodup_range' _ _) ?_ h1
    intro i hi
    have := List.mem_range'_1.1 hi
    omega

theorem setEditable_evolves (I : RowInv) (s : FiltersView) (p : Nat) :
    Evolves I s { s with root := s.root.modify p (Item.setEditable true) } := by
  cases hb : s.root.find? p with
  | none => exact evolves_modify_none I s p _ hb
  | some b =>
    exact evolves_modify_sublist I s p _ b hb (Item.local_setEditable I true b)
      (by rw [Item.ids_eq, Item.ids_eq b]; exact List.Sublist.refl _)

theorem sortFaves_eq (env : Env) (s : FiltersView) (f : Nat) (hf : s._faveFolder = some f) :
    s.sortFaves env = { s with root := s.root.modify f (Item.sortChildren env.lessThan) } := by
  simp only [FiltersView.sortFaves, hf]

theorem sortFaves_evolves (I : RowInv) (env : Env) (s : FiltersView) :
    Evolves I s (s.sortFaves env) := by
  cases hf : s._faveFolder with
  | none =>
    have : s.sortFaves env = s := by simp only [FiltersView.sortFaves, hf]
    rw [this]; exact Evolves.refl I s
  | some f =>
    rw [sortFaves_eq env s f hf]
    cases hb : s.root.find? f with
    | none => exact evolves_modify_none I s f _ hb
    | some b =>
      have := evolves_modify_perm I s f (Item.sortChildren env.lessThan) s.nextAddr [] b hb
        (Item.local_sortChildren I env.lessThan b)
        (by simpa using Item.ids_sortChildren env.lessThan b) List.nodup_nil (by simp)
        (le_refl _)
      exact this

theorem sort_evolves (I : RowInv) (env : Env) (s : FiltersView) : Evolves I s (s.sort env) := by
  refine ⟨rfl, fun h => ?_, fun _ => Item.local_sortChildren I env.lessThan s.root⟩
  exact wf_lists_perm h.1 h.2 (by simpa using Item.ids_sortChildren env.lessThan s.root)
    List.nodup_nil (by simp) (le_refl _)

theorem appendItem_evolves (I : RowInv) (s : FiltersView) (folder : Nat) (item : Item)
    (visible : Bool) (hfold : item.isFolder = false) (hrows : item.rows = [])
    (hid : item.id = s.nextAddr) :
    Evolves I s (s.appendItem folder item visible).allocated := by
  have hc : ((withCheckbox item).setVisibility visible).isFolder = false := by
    rw [Item.isFolder_setVisibility]; exact hfold
  have hr : ((withCheckbox item).setVisibility visible).rows = [] := by
    rw [(Item.setVisibility_d_rows visible _).1]; exact hrows
  have hi : Item.ids ((withCheckbox item).setVisibility visible) = [s.nextAddr] := by
    rw [Item.ids_setVisibility]
    cases item with
    | node d rows =>
      simp only [Item.rows] at hrows
      subst hrows
      simp only [withCheckbox, Item.ids, Item.idsRows]
      exact congrArg (fun a => [a]) hid
  have hi2 : Item.ids item = [s.nextAddr] := by
    rw [Item.ids_eq, hrows, hid]; rfl
  cases hb : s.root.find? folder with
  | none =>
    unfold FiltersView.appendItem FiltersView.allocated
    split_ifs
    · refine ⟨rfl, fun h => ?_, fun _ => ?_⟩
      · refine wf_lists_sublist h.1 h.2 ?_ (Nat.le_succ _)
        simp only [Item.modify_of_find?_none folder _ s.root hb]
        exact List.Sublist.refl _
      · simp only [Item.modify_of_find?_none folder _ s.root hb]
        exact Local.same I _
    · refine ⟨rfl, fun h => ?_, fun _ => ?_⟩
      · refine wf_lists_sublist h.1 h.2 ?_ (Nat.le_succ _)
        simp only [Item.modify_of_find?_none folder _ s.root hb]
        exact List.Sublist.refl _
      · simp only [Item.modify_of_find?_none folder _ s.root hb]
        exact Local.same I _
  | some b =>
    unfold FiltersView.appendItem FiltersView.allocated
    split_ifs
    · exact evolves_modify_perm I s folder _ (s.nextAddr + 1) [s.nextAddr] b hb
        (Item.local_appendRow I b _ hc hr)
        (by unfold addStandardItemWithCheckbox; rw [Item.ids_appendRow, hi])
        (List.nodup_singleton _) (by intro i hi; simp only [List.mem_singleton] at hi; omega)
        (Nat.le_succ _)
    · exact evolves_modify_perm I s folder _ (s.nextAddr + 1) [s.nextAddr] b hb
        (Item.local_appendRow I b _ hfold hrows)
        (by rw [Item.ids_appendRow, hi2])
        (List.nodup_singleton _) (by intro i hi; simp only [List.mem_singleton] at hi; omega)
        (Nat.le_succ _)

theorem getFolderFromPath_evolves (I : RowInv) (env : Env) (s : FiltersView)
    (path : List String) : Evolves I s (s.getFolderFromPath env path).1 := by
  unfold FiltersView.getFolderFromPath
  split_ifs
  · exact Evolves.refl I s
  · exact evolves_of_eq I s _ rfl rfl rfl

theorem addFilter_evolves (I : RowInv) (env : Env)
    (hEnv : I.needFresh → ∀ x, env.folderText x = env.removeWarningPrefix x)
    (s : FiltersView) (text hash : String) (path : List String) (warning : Bool) :
    Evolves I s (s.addFilter env text hash path warning) := by
  unfold FiltersView.addFilter
  simp only
  split_ifs with hgate
  · exact Evolves.refl I s
  · have h1 := getFolderFromPath_evolves I env s path
    cases hr : (s.getFolderFromPath env path).2 with
    | some folder =>
      simp only
      exact h1.trans (appendItem_evolves I _ folder _ _ rfl rfl rfl)
    | none =>
      simp only
      have h2 := createFolderAt_evolves I env hEnv (s.getFolderFromPath env path).1
        (some (s.getFolderFromPath env path).1.root.id) path
      cases hc : ((s.getFolderFromPath env path).1.createFolderAt env
          (some (s.getFolderFromPath env path).1.root.id) path).2 with
      | none => simp only; exact h1.trans h2
      | some folder =>
        simp only
        exact (h1.trans h2).trans (appendItem_evolves I _ folder _ _ rfl rfl rfl)

theorem createFolder_evolves (I : RowInv) (env : Env)
    (hEnv : I.needFresh → ∀ x, env.folderText x = env.removeWarningPrefix x)
    (s : FiltersView) (path : List String) : Evolves I s (s.createFolder env path) :=
  createFolderAt_evolves I env hEnv s (some s.root.id) path

/-- createFaveSubfolder on a view that has a fave folder. -/
theorem createFaveSubfolder_evolves (I : RowInv) (env : Env)
    (hEnv : I.needFresh → ∀ x, env.folderText x = env.removeWarningPrefix x)
    (s : FiltersView) (path : List String) (hff : s._faveFolder.isNone = false) :
    Evolves I s (s.createFaveSubfolder env path).1 := by
  unfold FiltersView.createFaveSubfolder
  simp only [hff, Bool.false_eq_true, if_false]
  have h1 := createFolderAt_evolves I env hEnv s s._faveFolder path
  cases hf : ((((s.createFolderAt env s._faveFolder path).2.bind
      (fun p => (s.createFolderAt env s._faveFolder path).1.root.find? p)).filter
      Item.isFolder).map Item.id) with
  | none => simp only; exact h1
  | some p =>
    simp only
    exact ((h1.trans (setEditable_evolves I _ p)).trans
      (updateNull_evolves I _ (some p))).trans (sortFaves_evolves I env _)

/-- addFave on a view that has a fave folder. -/
theorem addFave_evolves (I : RowInv) (env : Env)
    (hEnv : I.needFresh → ∀ x, env.folderText x = env.removeWarningPrefix x)
    (s : FiltersView) (text hash : String) (path : List String)
    (hff : s._faveFolder.isNone = false) :
    Evolves I s (s.addFave env text hash path) := by
  unfold FiltersView.addFave
  simp only [hff, Bool.false_eq_true, if_false]
  by_cases hgate : (!s._isInSelectionMode && !filterIsVisible s.visibilityMap hash) = true
  · rw [if_pos hgate]; exact Evolves.refl I s
  · rw [if_neg hgate]
    cases hg : s.getFaveSubfolderFromPath env path with
    | some folder =>
      simp only
      split_ifs
      · exact updateNull_evolves I _ _
      · exact (appendItem_evolves I s folder (newFilterItem env s.nextAddr text hash false true)
          _ rfl rfl rfl).trans (updateNull_evolves I _ _)
    | none =>
      simp only
      have h1 := createFaveSubfolder_evolves I env hEnv s path hff
      cases hc : (s.createFaveSubfolder env path).2 with
      | none => simp only; exact h1
      | some folder =>
        simp only
        have h2 := h1.trans (updateNull_evolves I (s.createFaveSubfolder env path).1
          ((s.createFaveSubfolder env path).1.parentFolder folder))
        split_ifs
        · exact h2.trans (updateNull_evolves I _ _)
        · exact (h2.trans (appendItem_evolves I _ folder
            (newFilterItem env _ text hash false true) _ rfl rfl rfl)).trans
            (updateNull_evolves I _ _)

namespace Item

theorem findFaveRows_parent {hash : String} (t : Item) : ∀ {rows : List Item} {leaf : Item},
    (∀ x ∈ rows, ∀ leaf, findFave hash x = some leaf →
      ∃ a ∈ items x, leaf ∈ a.rows ∧ (a = x ∨ a.isFolder = true)) →
    (∀ x ∈ rows, x ∈ t.rows) →
    findFaveRows hash rows = some leaf →
    ∃ a ∈ items t, leaf ∈ a.rows ∧ (a = t ∨ a.isFolder = true)
  | [], _, _, _, h => by simp [findFaveRows] at h
  | node d rs :: xs, leaf, ih, hsub, h => by
    have hx : node d rs ∈ t.rows := hsub _ (List.mem_cons_self _ _)
    simp only [findFaveRows] at h
    split_ifs at h with h1 h2
    · cases h
      exact ⟨t, self_mem_items t, hx, Or.inl rfl⟩
    · cases hf : findFave hash (node d rs) with
      | some r =>
        rw [hf] at h
        cases h
        obtain ⟨a, ha, hl, hor⟩ := ih _ (List.mem_cons_self _ _) leaf hf
        refine ⟨a, mem_items_trans ha (mem_items_of_mem_rows hx), hl, Or.inr ?_⟩
        rcases hor with rfl | hor
        · simp [isFolder, Item.d, h2]
        · exact hor
      | none =>
        rw [hf] at h
        exact findFaveRows_parent t (fun z hz => ih z (List.mem_cons_of_mem _ hz))
          (fun z hz => hsub z (List.mem_cons_of_mem _ hz)) h
    · exact findFaveRows_parent t (fun z hz => ih z (List.mem_cons_of_mem _ hz))
        (fun z hz => hsub z (List.mem_cons_of_mem _ hz)) h

/-- What findFave returns is a row of the folder searched or of a folder below
it. -/
theorem findFave_parent (hash : String) : ∀ (t leaf : Item), findFave hash t = some leaf →
    ∃ a ∈ items t, leaf ∈ a.rows ∧ (a = t ∨ a.isFolder = true) := by
  intro t
  induction t using Item.ind with
  | h d rows ih =>
    intro leaf h
    exact findFaveRows_parent (node d rows) ih (fun x hx => hx)
      (by simpa only [findFave] using h)

end Item

/-- removeFave on a well-formed view whose `_faveFolder` refers to a folder. -/
theorem removeFave_evolves (I : RowInv) (s : FiltersView) (hash : String) (hwf : s.WF)
    (hHF : ∀ ff ffItem, s._faveFolder = some ff → s.root.find? ff = some ffItem →
      ffItem.isFolder = true) :
    Evolves I s (s.removeFave hash) := by
  cases hfind : s.findFave hash with
  | none =>
    have : s.removeFave hash = s := by simp only [FiltersView.removeFave, hfind]
    rw [this]; exact Evolves.refl I s
  | some leaf =>
    obtain ⟨ff, ffItem, hff, hffi, hfave⟩ := findFave_unfold s hash leaf hfind
    obtain ⟨a, ha, hleaf, hor⟩ := Item.findFave_parent hash ffItem leaf hfave
    obtain ⟨_, hkind, _⟩ := Item.findFave_mem hash ffItem leaf hfave
    have hfolder : a.isFolder = true := by
      rcases hor with rfl | hor
      · exact hHF ff a hff hffi
      · exact hor
    have ha2 : a ∈ Item.items s.root :=
      Item.mem_items_trans ha (Item.find?_mem_items ff s.root ffItem hffi)
    have hafind : s.root.find? a.id = some a := Item.find?_of_mem_items s.root hwf.1 a ha2
    obtain ⟨before, after, hrows⟩ := List.append_of_mem hleaf
    have hlf : leaf.isFolder = false := by
      simp only [Item.kind] at hkind
      simp [Item.isFolder, hkind]
    rw [(removeFave_of_found s hwf hash ff a.id ffItem leaf a before after hff hffi hfave hafind
      hrows hfolder).1]
    refine (evolves_modify_sublist I s a.id _ a hafind
      (Item.local_setRows_remove I a leaf before after hrows hlf) ?_).trans
      (updateNull_evolves I _ _)
    exact Item.ids_setRows_sublist a _ (by
      rw [hrows]
      exact List.Sublist.append (List.Sublist.refl _) (List.sublist_cons_self _ _))

/-- updateFaveItem on a well-formed view. -/
theorem updateFaveItem_evolves (I : RowInv) (s : FiltersView) (currentHash newHash newName : String)
    (hwf : s.WF) : Evolves I s (s.updateFaveItem currentHash newHash newName) := by
  cases hfind : s.findFave currentHash with
  | none =>
    have : s.updateFaveItem currentHash newHash newName = s := by
      simp only [FiltersView.updateFaveItem, hfind]
    rw [this]; exact Evolves.refl I s
  | some leaf =>
    obtain ⟨ff, ffItem, hff, hffi, hfave⟩ := findFave_unfold s currentHash leaf hfind
    obtain ⟨hmem, hkind, _⟩ := Item.findFave_mem currentHash ffItem leaf hfave
    have hl2 : leaf ∈ Item.items s.root :=
      Item.mem_items_trans (by rw [Item.items_eq]; exact List.mem_cons_of_mem _ hmem)
        (Item.find?_mem_items ff s.root ffItem hffi)
    have hlfind : s.root.find? leaf.id = some leaf := Item.find?_of_mem_items s.root hwf.1 leaf hl2
    have hlf : leaf.isFolder = false := by
      simp only [Item.kind] at hkind
      simp [Item.isFolder, hkind]
    have : s.updateFaveItem currentHash newHash newName =
        { s with
          root := s.root.modify leaf.id
            (fun i => Item.node { i.d with text := newName, hash := newHash } i.rows) } := by
      simp only [FiltersView.updateFaveItem, hfind]
    rw [this]
    exact evolves_modify_sublist I s leaf.id _ leaf hlfind
      (Item.local_setData I leaf _ rfl rfl (fun h => by rw [hlf] at h; cases h))
      (by rw [Item.ids_eq, Item.ids_eq leaf]; exact List.Sublist.refl _)

/-! ## The invariants of the reachable views -/

theorem inv_of_evolves {I : RowInv} {s s2 : FiltersView} (h : Evolves I s s2)
    (hinv : s.Inv I) : s2.Inv I := by
  obtain ⟨hwf, hp, hq⟩ := hinv
  obtain ⟨_, _, _, l4, _, l6⟩ := h.2.2 hwf
  exact ⟨h.2.1 hwf, l4 hp, l6 hq⟩

theorem createFaveFolder_eq (env : Env) (s : FiltersView) (hff : s._faveFolder = none) :
    s.createFaveFolder env =
      { s with
        _faveFolder := some s.nextAddr,
        root := (s.root.appendRow (Item.node
          { (newFolder env s.nextAddr env.faveFolderText).d with isFaveFolder := true }
          [])).sortChildren env.lessThan,
        nextAddr := s.nextAddr + 1 } := by
  simp only [FiltersView.createFaveFolder, hff]

/-- createFaveFolder on a view without a fave folder: a row invariant `I` that
holds before gives a row invariant `I2` after, when `I2` accepts a new flagged
folder at the end of rows of the root that satisfy `I`. -/
theorem createFaveFolder_inv (I I2 : RowInv) (env : Env) (s : FiltersView)
    (hff : s._faveFolder = none)
    (hP : ∀ l text, I.P l → I2.P (l ++ [(s.nextAddr, true, text)]))
    (hQ : ∀ l, I.Q l → I2.Q l) (hinv : s.Inv I) : (s.createFaveFolder env).Inv I2 := by
  obtain ⟨hwf, hp, hq⟩ := hinv
  rw [createFaveFolder_eq env s hff]
  have hk : (s.root.appendRow (Item.node
      { (newFolder env s.nextAddr env.faveFolderText).d with isFaveFolder := true } [])).fkeys =
      s.root.fkeys ++ [(s.nextAddr, true, env.folderText env.faveFolderText)] := by
    unfold Item.fkeys
    rw [show (s.root.appendRow _).rows = s.root.rows ++ [_] from rfl, List.filter_append,
      List.map_append]
    rfl
  obtain ⟨_, _, _, l4, _, l6⟩ := Item.local_sortChildren I2 env.lessThan (s.root.appendRow
    (Item.node { (newFolder env s.nextAddr env.faveFolderText).d with isFaveFolder := true } []))
  refine ⟨?_, l4 (by rw [hk]; exact hP _ _ hp), l6 ?_⟩
  · refine wf_lists_perm hwf.1 hwf.2 ((Item.ids_sortChildren env.lessThan _).trans ?_)
      (List.nodup_singleton s.nextAddr) ?_ (Nat.le_succ _)
    · rw [Item.ids_appendRow]; rfl
    · intro i hi
      simp only [List.mem_singleton] at hi
      subst hi
      exact ⟨le_refl _, Nat.lt_succ_self _⟩
  · intro x hx
    rw [show (s.root.appendRow _).rows = s.root.rows ++ [_] from rfl, itemsRows_append,
      List.mem_append] at hx
    rcases hx with hx | hx
    · exact hQ _ (hq x hx)
    · simp only [Item.itemsRows, Item.items, List.append_nil, List.mem_singleton] at hx
      subst hx
      exact I2.nilQ

theorem removeFaveFolder_root (s : FiltersView) :
    s.removeFaveFolder.root.id = s.root.id ∧ s.removeFaveFolder.nextAddr = s.nextAddr := by
  cases h : s._faveFolder with
  | none => simp only [FiltersView.removeFaveFolder, h, and_self]
  | some f =>
    simp only [FiltersView.removeFaveFolder, h, and_true]
    split <;> rfl

/-- After clear the tree is the invisible root alone and there is no fave
folder. -/
theorem clear_inv (I : RowInv) (s : FiltersView) (hP : I.P []) (hwf : s.WF) :
    s.clear.Inv I ∧ s.clear._faveFolder = none := by
  obtain ⟨h1, h2⟩ := removeFaveFolder_root s
  have hh : s.removeFaveFolder._faveFolder = none := by
    cases h : s._faveFolder <;> simp only [FiltersView.removeFaveFolder, h]
  refine ⟨⟨⟨?_, ?_⟩, hP, ?_⟩, hh⟩
  · show (Item.ids (s.removeFaveFolder.root.setRows [])).Nodup
    rw [Item.ids_eq]
    exact List.nodup_singleton _
  · intro i hi
    have hi2 : i ∈ Item.ids (s.removeFaveFolder.root.setRows []) := hi
    rw [Item.ids_eq] at hi2
    simp only [Item.setRows, Item.rows, Item.idsRows, List.mem_singleton] at hi2
    have : i = s.root.id := by rw [hi2]; exact h1
    show i < s.removeFaveFolder.nextAddr
    rw [h2, this]
    exact hwf.2 _ (Item.id_mem_ids s.root)
  · intro x hx
    have hx2 : x ∈ Item.itemsRows (s.removeFaveFolder.root.setRows []).rows := hx
    simp [Item.setRows, Item.rows, Item.itemsRows] at hx2

/-- With the invariant of the favorites root, `_faveFolder` refers to a row of
the invisible root that is a folder flagged isFaveFolder. -/
theorem faveFolder_of_inv (s : FiltersView) (hinv : s.Inv (flaggedInv s._faveFolder))
    (ff : Nat) (ffItem : Item) (hff : s._faveFolder = some ff)
    (hfind : s.root.find? ff = some ffItem) :
    ffItem ∈ s.root.rows ∧ ffItem.isFolder = true ∧ ffItem.d.isFaveFolder = true := by
  obtain ⟨hwf, hp, _⟩ := hinv
  have hp2 : ((s.root.fkeys).filter (fun k => k.2.1)).map (fun k => k.1) = [ff] := by
    have := hp
    simp only [flaggedInv, hff] at this
    exact this
  have hmem : ff ∈ ((s.root.fkeys).filter (fun k => k.2.1)).map (fun k => k.1) := by
    rw [hp2]; exact List.mem_singleton_self _
  obtain ⟨k, hk, hk1⟩ := List.mem_map.1 hmem
  obtain ⟨hk2, hk3⟩ := List.mem_filter.1 hk
  unfold Item.fkeys at hk2
  obtain ⟨c, hc, rfl⟩ := List.mem_map.1 hk2
  obtain ⟨hc1, hc2⟩ := List.mem_filter.1 hc
  have hc3 : s.root.find? c.id = some c :=
    Item.find?_of_mem_items s.root hwf.1 c (Item.mem_items_of_mem_rows hc1)
  have : c = ffItem := by
    have e : c.id = ff := hk1
    rw [e, hfind] at hc3
    exact (Option.some.inj hc3).symm
  subst this
  exact ⟨hc1, hc2, hk3⟩

theorem addFave_of_none (env : Env) (s : FiltersView) (text hash : String) (path : List String)
    (hff : s._faveFolder = none)
    (hgate : (!s._isInSelectionMode && !filterIsVisible s.visibilityMap hash) = false) :
    s.addFave env text hash path = (s.createFaveFolder env).addFave env text hash path := by
  have h1 : (s.createFaveFolder env)._faveFolder = some s.nextAddr := by
    rw [createFaveFolder_eq env s hff]
  have h2 : (s.createFaveFolder env)._isInSelectionMode = s._isInSelectionMode := by
    rw [createFaveFolder_eq env s hff]
  have h3 : (s.createFaveFolder env).visibilityMap = s.visibilityMap := by
    rw [createFaveFolder_eq env s hff]
  unfold FiltersView.addFave
  simp only [hff, h1, h2, h3, hgate, Option.isNone_none, Option.isNone_some, if_true,
    Bool.false_eq_true, if_false]

theorem createFaveSubfolder_of_none (env : Env) (s : FiltersView) (path : List String)
    (hff : s._faveFolder = none) :
    s.createFaveSubfolder env path = (s.createFaveFolder env).createFaveSubfolder env path := by
  have h1 : (s.createFaveFolder env)._faveFolder = some s.nextAddr := by
    rw [createFaveFolder_eq env s hff]
  unfold FiltersView.createFaveSubfolder
  simp only [hff, h1, Option.isNone_none, Option.isNone_some, if_true, Bool.false_eq_true,
    if_false]

theorem inv_pair_of_evolves (env : Env) (s s2 : FiltersView)
    (hev : ∀ I : RowInv, (I.needFresh → ∀ x, env.folderText x = env.removeWarningPrefix x) →
      Evolves I s s2)
    (ih : s.Inv (flaggedInv s._faveFolder) ∧
      ((∀ x, env.folderText x = env.removeWarningPrefix x) → s.Inv namesInv)) :
    s2.Inv (flaggedInv s2._faveFolder) ∧
      ((∀ x, env.folderText x = env.removeWarningPrefix x) → s2.Inv namesInv) := by
  constructor
  · have e := hev (flaggedInv s._faveFolder) (fun h => h.elim)
    rw [e.1]
    exact inv_of_evolves e ih.1
  · intro hE
    exact inv_of_evolves (hev namesInv (fun _ => hE)) (ih.2 hE)

theorem createFaveFolder_pair (env : Env) (s : FiltersView) (hff : s._faveFolder = none)
    (ih : s.Inv (flaggedInv s._faveFolder) ∧
      ((∀ x, env.folderText x = env.removeWarningPrefix x) → s.Inv namesInv)) :
    (s.createFaveFolder env).Inv (flaggedInv (s.createFaveFolder env)._faveFolder) ∧
      ((∀ x, env.folderText x = env.removeWarningPrefix x) →
        (s.createFaveFolder env).Inv namesInv) := by
  have h1 : (s.createFaveFolder env)._faveFolder = some s.nextAddr := by
    rw [createFaveFolder_eq env s hff]
  constructor
  · rw [h1]
    refine createFaveFolder_inv (flaggedInv none) (flaggedInv (some s.nextAddr)) env s hff ?_ ?_
      (by have := ih.1; rw [hff] at this; exact this)
    · intro l text hp
      have hp2 : (l.filter (fun k => k.2.1)).map (fun k => k.1) = [] := hp
      show ((l ++ [(s.nextAddr, true, text)]).filter (fun k => k.2.1)).map (fun k => k.1) =
        [s.nextAddr]
      simp [List.filter_append, hp2]
    · intro l hq; exact hq
  · intro hE
    refine createFaveFolder_inv namesInv namesInv env s hff ?_ (fun l hq => hq) (ih.2 hE)
    intro l text hp
    have hp2 : ((l.filter (fun k => !k.2.1)).map (fun k => k.2.2)).Nodup := hp
    show (((l ++ [(s.nextAddr, true, text)]).filter (fun k => !k.2.1)).map
      (fun k => k.2.2)).Nodup
    simpa [List.filter_append] using hp2

theorem addFave_of_gate (env : Env) (s : FiltersView) (text hash : String) (path : List String)
    (hgate : (!s._isInSelectionMode && !filterIsVisible s.visibilityMap hash) = true) :
    s.addFave env text hash path = s := by
  unfold FiltersView.addFave
  simp only [hgate, if_true]

/-- In every reachable view: the view is well formed, the invariant of the
favorites root holds and, when a new folder shows its name without the warning
prefix, the invariant of the names holds. -/
theorem reachable_inv (env : Env) (s : FiltersView) (h : FiltersView.Reachable env s) :
    s.Inv (flaggedInv s._faveFolder) ∧
      ((∀ x, env.folderText x = env.removeWarningPrefix x) → s.Inv namesInv) := by
  induction h with
  | init vm =>
    have hwf : (FiltersView.init vm).WF := ⟨by
      show ([0] : List Nat).Nodup
      decide, by
      intro i hi
      have : i ∈ ([0] : List Nat) := hi
      simp only [List.mem_singleton] at this
      subst this
      exact Nat.zero_lt_one⟩
    refine ⟨⟨hwf, rfl, ?_⟩, fun _ => ⟨hwf, List.nodup_nil, ?_⟩⟩
    · intro x hx; cases hx
    · intro x hx; cases hx
  | @clear s _ ih =>
    obtain ⟨h1, h2⟩ := clear_inv (flaggedInv none) s rfl ih.1.1
    constructor
    · rw [h2]; exact h1
    · intro _
      exact (clear_inv namesInv s List.nodup_nil ih.1.1).1
  | @addFilter s text hash path warning _ ih =>
    exact inv_pair_of_evolves env s _
      (fun I hI => addFilter_evolves I env hI s text hash path warning) ih
  | @addFave s text hash path _ ih =>
    cases hff : s._faveFolder with
    | some f =>
      exact inv_pair_of_evolves env s _
        (fun I hI => addFave_evolves I env hI s text hash path (by rw [hff]; rfl)) ih
    | none =>
      cases hgate : (!s._isInSelectionMode && !filterIsVisible s.visibilityMap hash) with
      | true => rw [addFave_of_gate env s text hash path hgate]; exact ih
      | false =>
        rw [addFave_of_none env s text hash path hff hgate]
        have h1 : (s.createFaveFolder env)._faveFolder = some s.nextAddr := by
          rw [createFaveFolder_eq env s hff]
        exact inv_pair_of_evolves env _ _
          (fun I hI => addFave_evolves I env hI _ text hash path (by rw [h1]; rfl))
          (createFaveFolder_pair env s hff ih)
  | @createFolder s path _ ih =>
    exact inv_pair_of_evolves env s _ (fun I hI => createFolder_evolves I env hI s path) ih
  | @createFaveSubfolder s path _ ih =>
    cases hff : s._faveFolder with
    | some f =>
      exact inv_pair_of_evolves env s _
        (fun I hI => createFaveSubfolder_evolves I env hI s path (by rw [hff]; rfl)) ih
    | none =>
      rw [createFaveSubfolder_of_none env s path hff]
      have h1 : (s.createFaveFolder env)._faveFolder = some s.nextAddr := by
        rw [createFaveFolder_eq env s hff]
      exact inv_pair_of_evolves env _ _
        (fun I hI => createFaveSubfolder_evolves I env hI _ path (by rw [h1]; rfl))
        (createFaveFolder_pair env s hff ih)
  | @removeFave s hash _ ih =>
    exact inv_pair_of_evolves env s _
      (fun I _ => removeFave_evolves I s hash ih.1.1
        (fun ff ffItem h1 h2 => (faveFolder_of_inv s ih.1 ff ffItem h1 h2).2.1)) ih
  | @updateFaveItem s a b c _ ih =>
    exact inv_pair_of_evolves env s _
      (fun I _ => updateFaveItem_evolves I s a b c ih.1.1) ih
  | @sort s _ ih =>
    exact inv_pair_of_evolves env s _ (fun I _ => sort_evolves I env s) ih
  | @sortFaves s _ ih =>
    exact inv_pair_of_evolves env s _ (fun I _ => sortFaves_evolves I env s) ih
  | @enableSelectionMode s _ ih =>
    exact inv_pair_of_evolves env s _ (fun I _ => evolves_of_eq I s _ rfl rfl rfl) ih
  | @disableSelectionMode s _ ih =>
    exact inv_pair_of_evolves env s _ (fun I _ => evolves_of_eq I s _ rfl rfl rfl) ih

/-! ## C15: the one folder flagged isFaveFolder -/

theorem fkeys_flagged_rows : ∀ (rows : List Item),
    (((rows.filter Item.isFolder).map Item.fkey).filter (fun k => k.2.1)) =
      (rows.filter Item.isFlaggedFolder).map Item.fkey
  | [] => rfl
  | x :: xs => by
    have ih := fkeys_flagged_rows xs
    by_cases h1 : x.isFolder = true
    · by_cases h2 : x.d.isFaveFolder = true
      · have h3 : x.isFlaggedFolder = true := by simp [Item.isFlaggedFolder, h1, h2]
        have h4 : x.fkey.2.1 = true := h2
        rw [List.filter_cons_of_pos h1, List.map_cons, List.filter_cons_of_pos (by simpa using h4),
          ih, List.filter_cons_of_pos h3, List.map_cons]
      · have h3 : ¬ x.isFlaggedFolder = true := by simp [Item.isFlaggedFolder, h1, h2]
        have h4 : ¬ x.fkey.2.1 = true := h2
        rw [List.filter_cons_of_pos h1, List.map_cons, List.filter_cons_of_neg (by simpa using h4),
          ih, List.filter_cons_of_neg h3]
    · have h3 : ¬ x.isFlaggedFolder = true := by simp [Item.isFlaggedFolder, h1]
      rw [List.filter_cons_of_neg h1, ih, List.filter_cons_of_neg h3]

theorem fkeys_regular_rows : ∀ (rows : List Item),
    ((((rows.filter Item.isFolder).map Item.fkey).filter (fun k => !k.2.1)).map (fun k => k.2.2)) =
      (rows.filter Item.isRegularFolder).map Item.text
  | [] => rfl
  | x :: xs => by
    have ih := fkeys_regular_rows xs
    by_cases h1 : x.isFolder = true
    · by_cases h2 : x.d.isFaveFolder = true
      · have h3 : ¬ x.isRegularFolder = true := by simp [Item.isRegularFolder, h1, h2]
        have h4 : ¬ (fun k : FKey => !k.2.1) x.fkey = true := by
          show ¬ (!x.d.isFaveFolder) = true
          simp [h2]
        rw [List.filter_cons_of_pos h1, List.map_cons,
          List.filter_cons_of_neg (p := fun k : FKey => !k.2.1) h4, ih,
          List.filter_cons_of_neg h3]
      · have h3 : x.isRegularFolder = true := by simp [Item.isRegularFolder, h1, h2]
        have h4 : (fun k : FKey => !k.2.1) x.fkey = true := by
          show (!x.d.isFaveFolder) = true
          simpa using h2
        rw [List.filter_cons_of_pos h1, List.map_cons,
          List.filter_cons_of_pos (p := fun k : FKey => !k.2.1) h4,
          List.map_cons, ih, List.filter_cons_of_pos h3, List.map_cons]
        rfl
    · have h3 : ¬ x.isRegularFolder = true := by simp [Item.isRegularFolder, h1]
      rw [List.filter_cons_of_neg h1, ih, List.filter_cons_of_neg h3]

/-- Where no row of an item in or below the rows satisfies `q`, the items in
and below the rows that satisfy `q` are among the rows themselves. -/
theorem filter_itemsRows_of_deep (q : Item → Bool) : ∀ (rows : List Item),
    (∀ x ∈ Item.itemsRows rows, x.rows.filter q = []) →
    (Item.itemsRows rows).filter q = rows.filter q := by
  intro rows
  induction rows using Item.rows_ind with
  | hnil => intro _; rfl
  | hcons x xs ihx ihxs =>
    intro h
    have h1 : x.rows.filter q = [] := h x (by
      rw [Item.itemsRows]; exact List.mem_append_left _ (Item.self_mem_items x))
    have h2 := ihx (fun z hz => h z (by
      rw [Item.itemsRows, Item.items_eq]
      exact List.mem_append_left _ (List.mem_cons_of_mem _ hz)))
    have h3 := ihxs (fun z hz => h z (by
      rw [Item.itemsRows]; exact List.mem_append_right _ hz))
    rw [Item.itemsRows, Item.items_eq, List.filter_append, List.filter_cons, h2, h1, h3,
      List.filter_cons]
    split_ifs <;> simp

/-- What the invariant of the favorites root says of the tree. -/
theorem flagged_of_inv (s : FiltersView) (hinv : s.Inv (flaggedInv s._faveFolder)) :
    ((Item.itemsRows s.root.rows).filter Item.isFlaggedFolder).map Item.id =
      s._faveFolder.toList ∧
    (Item.itemsRows s.root.rows).filter Item.isFlaggedFolder =
      s.root.rows.filter Item.isFlaggedFolder := by
  obtain ⟨_, hp, hq⟩ := hinv
  have h1 : (Item.itemsRows s.root.rows).filter Item.isFlaggedFolder =
      s.root.rows.filter Item.isFlaggedFolder := by
    apply filter_itemsRows_of_deep
    intro x hx
    have := hq x hx
    have h2 : (x.fkeys.filter (fun k => k.2.1)) = [] := this
    unfold Item.fkeys at h2
    rw [fkeys_flagged_rows] at h2
    exact List.map_eq_nil_iff.1 h2
  refine ⟨?_, h1⟩
  have h3 : (s.root.fkeys.filter (fun k => k.2.1)).map (fun k => k.1) = s._faveFolder.toList := hp
  unfold Item.fkeys at h3
  rw [fkeys_flagged_rows, List.map_map] at h3
  rw [h1]
  exact h3

/-- C15. In every reachable state the folders of the whole tree that are
flagged isFaveFolder are exactly the one `_faveFolder` refers to: there is at
most one, there is none exactly when the handle is unset, every such folder is
a top-level child of the root, and the handle refers to it. The first addFave
that passes the visibility policy on a tree without a favorites root leaves
exactly one such folder. -/
theorem fave_folder_unique (env : Env) (s : FiltersView) (h : FiltersView.Reachable env s) :
    ((Item.itemsRows s.root.rows).filter Item.isFlaggedFolder).map Item.id =
      s._faveFolder.toList ∧
    (∀ f ∈ Item.itemsRows s.root.rows, f.isFlaggedFolder = true → f ∈ s.root.rows) ∧
    (∀ ff, s._faveFolder = some ff →
      ∃ f ∈ s.root.rows, f.isFlaggedFolder = true ∧ s.root.find? ff = some f) ∧
    (s._faveFolder = none ↔ ∀ f ∈ Item.itemsRows s.root.rows, f.isFlaggedFolder = false) ∧
    (∀ text hash path, s._faveFolder = none →
      (!s._isInSelectionMode && !filterIsVisible s.visibilityMap hash) = false →
      ((Item.itemsRows (s.addFave env text hash path).root.rows).filter
        Item.isFlaggedFolder).length = 1) := by
  have hinv := (reachable_inv env s h).1
  obtain ⟨h1, h2⟩ := flagged_of_inv s hinv
  refine ⟨h1, ?_, ?_, ?_, ?_⟩
  · intro f hf hflag
    have : f ∈ (Item.itemsRows s.root.rows).filter Item.isFlaggedFolder :=
      List.mem_filter.2 ⟨hf, hflag⟩
    rw [h2] at this
    exact (List.mem_filter.1 this).1
  · intro ff hff
    have hmem : ff ∈ ((Item.itemsRows s.root.rows).filter Item.isFlaggedFolder).map Item.id := by
      rw [h1, hff]; exact List.mem_singleton_self _
    obtain ⟨f, hf, hid⟩ := List.mem_map.1 hmem
    rw [h2] at hf
    obtain ⟨hf1, hf2⟩ := List.mem_filter.1 hf
    refine ⟨f, hf1, hf2, ?_⟩
    rw [← hid]
    exact Item.find?_of_mem_items s.root hinv.1.1 f (Item.mem_items_of_mem_rows hf1)
  · constructor
    · intro hff f hf
      rw [hff] at h1
      have h3 := List.map_eq_nil_iff.1 h1
      cases hb : f.isFlaggedFolder with
      | false => rfl
      | true =>
        have : f ∈ (Item.itemsRows s.root.rows).filter Item.isFlaggedFolder :=
          List.mem_filter.2 ⟨hf, hb⟩
        rw [h3] at this
        cases this
    · intro hall
      have h3 : (Item.itemsRows s.root.rows).filter Item.isFlaggedFolder = [] :=
        List.filter_eq_nil_iff.2 (fun f hf => by rw [hall f hf]; simp)
      rw [h3] at h1
      cases hff : s._faveFolder with
      | none => rfl
      | some a => rw [hff] at h1; cases h1
  · intro text hash path hff hgate
    have hr := FiltersView.Reachable.addFave text hash path h
    obtain ⟨h4, _⟩ := flagged_of_inv _ (reachable_inv env _ hr).1
    have h5 : (s.createFaveFolder env)._faveFolder = some s.nextAddr := by
      rw [createFaveFolder_eq env s hff]
    have h6 : (s.addFave env text hash path)._faveFolder = some s.nextAddr := by
      rw [addFave_of_none env s text hash path hff hgate]
      rw [(addFave_evolves (flaggedInv none) env (fun h => h.elim) (s.createFaveFolder env) text
        hash path (by rw [h5]; rfl)).1, h5]
    rw [h6] at h4
    have := congrArg List.length h4
    simpa using this

set_option maxRecDepth 100000 in
theorem fave_folder_unique_witness :
    ((Item.itemsRows (((FiltersView.init []).addFilter sampleEnv "Blur" "h1" ["Effects"]
        false).addFave sampleEnv "Blur" "h2" ["A"]).root.rows).filter
        Item.isFlaggedFolder).map Item.id =
      (((FiltersView.init []).addFilter sampleEnv "Blur" "h1" ["Effects"]
        false).addFave sampleEnv "Blur" "h2" ["A"])._faveFolder.toList :=
  (fave_folder_unique sampleEnv _
    (FiltersView.Reachable.addFave "Blur" "h2" ["A"]
      (FiltersView.Reachable.addFilter "Blur" "h1" ["Effects"] false
        (FiltersView.Reachable.init [])))).1

/-! ## C14: the names of sibling folders -/

/-- C14 (as the code has it). Where a new folder shows its name without the
warning prefix, in every state reachable from the empty tree through
createFolder, addFilter, addFave, createFaveSubfolder and removeFave (and
clear, updateFaveItem, sort, sortFaves), in either mode, no two sibling folders
that are not the favorites root have the same display name: under the
invisible root and under every item of the tree. -/
theorem sibling_folder_names_distinct (env : Env)
    (hEnv : ∀ x, env.folderText x = env.removeWarningPrefix x)
    (s : FiltersView) (h : FiltersView.Reachable env s) :
    ∀ x ∈ Item.items s.root, ((x.rows.filter Item.isRegularFolder).map Item.text).Nodup := by
  obtain ⟨_, hp, hq⟩ := (reachable_inv env s h).2 hEnv
  intro x hx
  rw [← fkeys_regular_rows]
  rw [Item.items_eq] at hx
  rcases List.mem_cons.1 hx with rfl | hx
  · exact hp
  · exact hq x hx

set_option maxRecDepth 100000 in
theorem sibling_folder_names_distinct_witness :
    ((((((FiltersView.init []).enableSelectionMode.createFolder sampleEnv
        ["Effects", "Blur"]).addFilter sampleEnv "Noise" "h1" ["Effects", "!Blur"] false).addFave
        sampleEnv "Noise" "h1" ["A"]).root.rows.filter Item.isRegularFolder).map
        Item.text).Nodup :=
  sibling_folder_names_distinct sampleEnv (fun _ => rfl) _
    (FiltersView.Reachable.addFave "Noise" "h1" ["A"]
      (FiltersView.Reachable.addFilter "Noise" "h1" ["Effects", "!Blur"] false
        (FiltersView.Reachable.createFolder ["Effects", "Blur"]
          (FiltersView.Reachable.enableSelectionMode (FiltersView.Reachable.init [])))))
    _ (Item.self_mem_items _)

set_option maxRecDepth 100000 in
/-- C14, as stated, fails for the favorites root. createFolder makes the
top-level folder Faves, then addFave makes the favorites root, which
createFaveFolder names Faves without looking at the folders that are there:
two sibling folders under the invisible root have the same display name. -/
theorem fave_root_shares_name :
    FiltersView.Reachable sampleEnv
      (((FiltersView.init []).createFolder sampleEnv ["Faves"]).addFave sampleEnv "Blur" "h1"
        []) ∧
    ((((FiltersView.init []).createFolder sampleEnv ["Faves"]).addFave sampleEnv "Blur" "h1"
        []).root.rows.filter Item.isFolder).map (fun c => (c.id, c.text, c.d.isFaveFolder)) =
      [(2, "Faves", true), (1, "Faves", false)] ∧
    ¬ (((((FiltersView.init []).createFolder sampleEnv ["Faves"]).addFave sampleEnv "Blur" "h1"
        []).root.rows.filter Item.isFolder).map Item.text).Nodup := by
  refine ⟨FiltersView.Reachable.addFave "Blur" "h1" []
    (FiltersView.Reachable.createFolder ["Faves"] (FiltersView.Reachable.init [])), by rfl, ?_⟩
  rw [show ((((FiltersView.init []).createFolder sampleEnv ["Faves"]).addFave sampleEnv "Blur"
    "h1" []).root.rows.filter Item.isFolder).map Item.text = ["Faves", "Faves"] from by rfl]
  decide

/-! ## No new filter leaf -/

namespace Item

theorem leafIds_eq (t : Item) :
    t.leafIds = (if t.isFilterItem then [t.id] else []) ++ leafIdsRows t.rows := by
  unfold leafIds leafIdsRows
  rw [items_eq, List.filter_cons]
  split_ifs <;> simp

theorem leafIdsRows_cons (x : Item) (xs : List Item) :
    leafIdsRows (x :: xs) = x.leafIds ++ leafIdsRows xs := by
  unfold leafIds leafIdsRows
  rw [itemsRows, List.filter_append, List.map_append]

theorem leafIdsRows_append (xs ys : List Item) :
    leafIdsRows (xs ++ ys) = leafIdsRows xs ++ leafIdsRows ys := by
  unfold leafIdsRows
  rw [itemsRows_append, List.filter_append, List.map_append]

theorem leafIdsRows_modifyRows_split (p : Nat) : ∀ (rows : List Item) (b : Item),
    (∀ x ∈ rows, ∀ b, find? p x = some b →
      ∃ pre post, x.leafIds = pre ++ b.leafIds ++ post ∧
        ∀ g, (modify p g x).leafIds = pre ++ (g b).leafIds ++ post) →
    findRows? p rows = some b →
    ∃ pre post, leafIdsRows rows = pre ++ b.leafIds ++ post ∧
      ∀ g, leafIdsRows (modifyRows p g rows) = pre ++ (g b).leafIds ++ post
  | [], _, _, h => by simp [findRows?] at h
  | x :: xs, b, ih, h => by
    simp only [findRows?] at h
    cases hx : find? p x with
    | some r =>
      rw [hx] at h
      cases h
      obtain ⟨pre, post, e1, e2⟩ := ih x (List.mem_cons_self _ _) b hx
      refine ⟨pre, post ++ leafIdsRows xs, by simp [leafIdsRows_cons, e1], fun g => ?_⟩
      simp [modifyRows, hx, leafIdsRows_cons, e2 g]
    | none =>
      rw [hx] at h
      obtain ⟨pre, post, e1, e2⟩ := leafIdsRows_modifyRows_split p xs b
        (fun z hz => ih z (List.mem_cons_of_mem _ hz)) h
      refine ⟨x.leafIds ++ pre, post, by simp [leafIdsRows_cons, e1], fun g => ?_⟩
      simp [modifyRows, hx, leafIdsRows_cons, e2 g]

/-- The filter leaves of the tree around the item a call acts on stay, and in
between are the filter leaves of the item after the call. -/
theorem leafIds_modify_split (p : Nat) : ∀ (t b : Item), find? p t = some b →
    ∃ pre post, t.leafIds = pre ++ b.leafIds ++ post ∧
      ∀ g, (modify p g t).leafIds = pre ++ (g b).leafIds ++ post := by
  intro t
  induction t using Item.ind with
  | h d rows ih =>
    intro b hb
    by_cases hp : d.id = p
    · simp only [find?, hp, if_true] at hb
      cases hb
      exact ⟨[], [], by simp, fun g => by simp [modify, hp]⟩
    · simp only [find?, hp, if_false] at hb
      obtain ⟨pre, post, e1, e2⟩ := leafIdsRows_modifyRows_split p rows b ih hb
      refine ⟨(if (node d rows).isFilterItem then [d.id] else []) ++ pre, post, ?_, fun g => ?_⟩
      · rw [leafIds_eq, Item.rows, e1]; simp [Item.id, Item.d]
      · have hm : modify p g (node d rows) = node d (modifyRows p g rows) := by
          simp only [modify, hp, if_false]
        rw [hm, leafIds_eq, Item.rows, e2 g]
        simp [Item.id, Item.d, isFilterItem]

/-- A call through an address that adds no filter leaf where it acts adds none
to the tree. -/
theorem leafIds_modify_subset (p : Nat) (g : Item → Item) (t : Item)
    (h : ∀ b, find? p t = some b → (g b).leafIds ⊆ b.leafIds) :
    (modify p g t).leafIds ⊆ t.leafIds := by
  cases hb : find? p t with
  | none => rw [modify_of_find?_none p g t hb]; exact List.Subset.refl _
  | some b =>
    obtain ⟨pre, post, e1, e2⟩ := leafIds_modify_split p t b hb
    rw [e1, e2 g]
    intro i hi
    simp only [List.mem_append] at hi ⊢
    rcases hi with (hi | hi) | hi
    · exact Or.inl (Or.inl hi)
    · exact Or.inl (Or.inr (h b hb hi))
    · exact Or.inr hi

theorem leafIdsRows_sublist {l1 l2 : List Item} (h : l1.Sublist l2) :
    (leafIdsRows l1).Sublist (leafIdsRows l2) := by
  induction h with
  | slnil => exact List.Sublist.refl _
  | cons a _ ih => rw [leafIdsRows_cons]; exact ih.trans (List.sublist_append_right _ _)
  | cons₂ a _ ih => rw [leafIdsRows_cons, leafIdsRows_cons]; exact (List.Sublist.refl _).append ih

theorem leafIds_setRows_subset (b : Item) (rows2 : List Item) (h : rows2.Sublist b.rows) :
    (b.setRows rows2).leafIds ⊆ b.leafIds := by
  rw [leafIds_eq, leafIds_eq b]
  exact List.append_subset.2 ⟨List.subset_append_left _ _,
    List.subset_append_of_subset_right _ (leafIdsRows_sublist h).subset⟩

theorem leafIds_appendRow_null (b : Item) (a : Nat) :
    (b.appendRow (newNullItem a)).leafIds ⊆ b.leafIds := by
  rw [leafIds_eq, leafIds_eq b]
  have : leafIdsRows (b.appendRow (newNullItem a)).rows = leafIdsRows b.rows := by
    rw [show (b.appendRow (newNullItem a)).rows = b.rows ++ [newNullItem a] from rfl,
      leafIdsRows_append]
    simp [leafIdsRows, itemsRows, items, newNullItem, isFilterItem, Item.d]
  rw [this]
  exact List.Subset.refl _

theorem leafIds_setEditable (flag : Bool) (b : Item) : (b.setEditable flag).leafIds = b.leafIds := by
  rw [leafIds_eq, leafIds_eq b]; rfl

/-- Sorting keeps the filter leaves. -/
theorem leafIds_sortChildren (lt : Item → Item → Bool) : ∀ (t : Item),
    (sortChildren lt t).leafIds.Perm t.leafIds := by
  intro t
  induction t using Item.ind with
  | h d rows ih =>
    have hperm := sortChildren_rows_perm lt (node d rows)
    rw [leafIds_eq, leafIds_eq (node d rows)]
    have h1 : (sortChildren lt (node d rows)).isFilterItem = (node d rows).isFilterItem := by
      rw [isFilterItem, sortChildren_d]; rfl
    have h2 : (sortChildren lt (node d rows)).id = (node d rows).id := by
      rw [Item.id, sortChildren_d]; rfl
    rw [h1, h2]
    refine List.Perm.append_left _ ?_
    have e : ∀ l : List Item, leafIdsRows l = l.flatMap leafIds := by
      intro l
      induction l with
      | nil => rfl
      | cons x xs ihx => rw [leafIdsRows_cons, ihx, List.flatMap_cons]
    rw [e, e]
    refine (hperm.flatMap_right leafIds).trans ?_
    simp only [Item.rows, List.flatMap_map]
    exact List.Perm.flatMap_left _ (fun x hx => ih x hx)

end Item

theorem leafIds_createFolder (env : Env)
    (hEnv : ∀ x, env.folderText x = env.removeWarningPrefix x) (sel : Bool)
    (path : List String) (parent : Item) (n : Nat) :
    (createFolder env sel path parent n).1.leafIds = parent.leafIds := by
  have h := allLeaves_createFolder env hEnv sel path parent n
  rw [Item.leafIds_eq, Item.leafIds_eq parent]
  have h1 : (createFolder env sel path parent n).1.isFilterItem = parent.isFilterItem := by
    rw [Item.isFilterItem, createFolder_d]; rfl
  have h2 : (createFolder env sel path parent n).1.id = parent.id := by
    rw [Item.id, createFolder_d]; rfl
  rw [h1, h2]
  unfold leafIdsRows
  unfold allLeaves at h
  rw [h]

theorem updateNull_leafIds (s : FiltersView) (folder : Option Nat) :
    (s.updateNullItemInFaveSubfolder folder).root.leafIds ⊆ s.root.leafIds := by
  unfold FiltersView.updateNullItemInFaveSubfolder
  cases folder.bind (fun p => s.root.find? p) with
  | none => exact List.Subset.refl _
  | some f =>
    simp only
    split_ifs
    · exact Item.leafIds_modify_subset _ _ _ (fun b _ => Item.leafIds_appendRow_null b _)
    · refine Item.leafIds_modify_subset _ _ _ (fun b _ => ?_)
      exact Item.leafIds_setRows_subset b (b.rows.eraseIdx 0) (List.eraseIdx_sublist _ _)
    · exact List.Subset.refl _

theorem createFolderAt_leafIds (env : Env)
    (hEnv : ∀ x, env.folderText x = env.removeWarningPrefix x) (s : FiltersView)
    (parent : Option Nat) (path : List String) :
    (s.createFolderAt env parent path).1.root.leafIds ⊆ s.root.leafIds := by
  unfold FiltersView.createFolderAt
  cases hf : parent.bind (fun p => s.root.find? p) with
  | none => exact List.Subset.refl _
  | some par =>
    have hfind : s.root.find? par.id = some par := by
      cases parent with
      | none => simp at hf
      | some p =>
        simp only [Option.some_bind] at hf
        rw [Item.find?_id p s.root par hf]; exact hf
    refine Item.leafIds_modify_subset _ _ _ (fun b hb => ?_)
    rw [hfind] at hb
    cases hb
    rw [leafIds_createFolder env hEnv]
    exact List.Subset.refl _

theorem sortFaves_leafIds (env : Env) (s : FiltersView) :
    (s.sortFaves env).root.leafIds ⊆ s.root.leafIds := by
  unfold FiltersView.sortFaves
  cases s._faveFolder with
  | none => exact List.Subset.refl _
  | some f =>
    exact Item.leafIds_modify_subset _ _ _
      (fun b _ => (Item.leafIds_sortChildren env.lessThan b).subset)

theorem createFaveFolder_leafIds (env : Env) (s : FiltersView) :
    (s.createFaveFolder env).root.leafIds ⊆ s.root.leafIds := by
  unfold FiltersView.createFaveFolder
  cases s._faveFolder with
  | some f => exact List.Subset.refl _
  | none =>
    refine (Item.leafIds_sortChildren env.lessThan _).subset.trans ?_
    rw [Item.leafIds_eq, Item.leafIds_eq s.root]
    have : leafIdsRows (s.root.appendRow (Item.node
        { (newFolder env s.nextAddr env.faveFolderText).d with isFaveFolder := true } [])).rows =
        leafIdsRows s.root.rows := by
      rw [show (s.root.appendRow _).rows = s.root.rows ++ [_] from rfl, Item.leafIdsRows_append]
      simp [leafIdsRows, Item.itemsRows, Item.items, newFolder, Item.isFilterItem, Item.d]
    rw [this]
    exact List.Subset.refl _

theorem createFaveSubfolder_leafIds (env : Env)
    (hEnv : ∀ x, env.folderText x = env.removeWarningPrefix x) (s : FiltersView)
    (path : List String) (hff : s._faveFolder.isNone = false) :
    (s.createFaveSubfolder env path).1.root.leafIds ⊆ s.root.leafIds := by
  unfold FiltersView.createFaveSubfolder
  simp only [hff, Bool.false_eq_true, if_false]
  have h1 := createFolderAt_leafIds env hEnv s s._faveFolder path
  cases hf : ((((s.createFolderAt env s._faveFolder path).2.bind
      (fun p => (s.createFolderAt env s._faveFolder path).1.root.find? p)).filter
      Item.isFolder).map Item.id) with
  | none => simp only; exact h1
  | some p =>
    simp only
    refine (sortFaves_leafIds env _).trans ((updateNull_leafIds _ _).trans ?_)
    refine List.Subset.trans ?_ h1
    exact Item.leafIds_modify_subset _ _ _
      (fun b _ => by rw [Item.leafIds_setEditable]; exact List.Subset.refl _)

/-! ## addFave with an empty name -/

theorem addFave_empty_found (env : Env) (s : FiltersView) (hash : String) (path : List String)
    (F : Nat) (hff : s._faveFolder.isNone = false)
    (hgate : (!s._isInSelectionMode && !filterIsVisible s.visibilityMap hash) = false)
    (hfound : s.getFaveSubfolderFromPath env path = some F) :
    s.addFave env "" hash path = s.updateNullItemInFaveSubfolder (some F) := by
  have he : ("" : String).isEmpty = true := by decide
  unfold FiltersView.addFave
  simp only [hff, hgate, hfound, he, Bool.false_eq_true, if_false, if_true]

theorem addFave_empty_created (env : Env) (s : FiltersView) (hash : String) (path : List String)
    (F : Nat) (hff : s._faveFolder.isNone = false)
    (hgate : (!s._isInSelectionMode && !filterIsVisible s.visibilityMap hash) = false)
    (hnone : s.getFaveSubfolderFromPath env path = none)
    (hc : (s.createFaveSubfolder env path).2 = some F) :
    s.addFave env "" hash path =
      ((s.createFaveSubfolder env path).1.updateNullItemInFaveSubfolder
        ((s.createFaveSubfolder env path).1.parentFolder F)).updateNullItemInFaveSubfolder
        (some F) := by
  have he : ("" : String).isEmpty = true := by decide
  unfold FiltersView.addFave
  simp only [hff, hgate, hnone, hc, he, Bool.false_eq_true, if_false, if_true]

theorem addFave_empty_failed (env : Env) (s : FiltersView) (hash : String) (path : List String)
    (hff : s._faveFolder.isNone = false)
    (hgate : (!s._isInSelectionMode && !filterIsVisible s.visibilityMap hash) = false)
    (hnone : s.getFaveSubfolderFromPath env path = none)
    (hc : (s.createFaveSubfolder env path).2 = none) :
    s.addFave env "" hash path = (s.createFaveSubfolder env path).1 := by
  unfold FiltersView.addFave
  simp only [hff, hgate, hnone, hc, Bool.false_eq_true, if_false]

/-- addFave with an empty name on a view that has a fave folder creates no
filter leaf. -/
theorem addFave_empty_leafIds (env : Env)
    (hEnv : ∀ x, env.folderText x = env.removeWarningPrefix x) (s : FiltersView)
    (hash : String) (path : List String) (hff : s._faveFolder.isNone = false) :
    (s.addFave env "" hash path).root.leafIds ⊆ s.root.leafIds := by
  cases hgate : (!s._isInSelectionMode && !filterIsVisible s.visibilityMap hash) with
  | true => rw [addFave_of_gate env s "" hash path hgate]; exact List.Subset.refl _
  | false =>
    cases hfound : s.getFaveSubfolderFromPath env path with
    | some F =>
      rw [addFave_empty_found env s hash path F hff hgate hfound]
      exact updateNull_leafIds _ _
    | none =>
      have h1 := createFaveSubfolder_leafIds env hEnv s path hff
      cases hc : (s.createFaveSubfolder env path).2 with
      | none => rw [addFave_empty_failed env s hash path hff hgate hfound hc]; exact h1
      | some F =>
        rw [addFave_empty_created env s hash path F hff hgate hfound hc]
        exact (updateNull_leafIds _ _).trans ((updateNull_leafIds _ _).trans h1)

/-! ## Following one folder through the steps of addFave -/

/-- The folder after updateNullItemInFaveSubfolder. -/
theorem updateNull_find (s : FiltersView) (F : Nat) (Fi : Item) (hF : s.root.find? F = some Fi) :
    (s.updateNullItemInFaveSubfolder (some F)).root.find? F =
      some (Item.node Fi.d (updateNullRows Fi.rows s.nextAddr)) := by
  have hid := Item.find?_id F s.root Fi hF
  cases hr : Fi.rows with
  | nil =>
    rw [updateNull_of_empty s F Fi hF hr]
    show (s.root.modify F (fun i => i.appendRow (newNullItem s.nextAddr))).find? F = _
    rw [Item.find?_modify F (fun i => i.appendRow (newNullItem s.nextAddr)) (fun x hx => hx), hF]
    simp only [Option.map_some', Item.appendRow, hr, List.nil_append, updateNullRows]
  | cons n rest =>
    cases rest with
    | nil =>
      rw [updateNull_of_single s F Fi n hF hr, hF]
      simp only [updateNullRows]
      rw [← hr, Item.node_eta]
    | cons c rest =>
      cases hn : n.isNullItem with
      | true =>
        rw [updateNull_of_null_first s F Fi n c rest hF hr hn]
        show (s.root.modify F (Item.removeRow 0)).find? F = _
        rw [Item.find?_modify F (Item.removeRow 0) (fun x hx => hx), hF]
        simp only [Option.map_some', Item.removeRow, hr, List.eraseIdx_cons_zero, updateNullRows,
          hn, if_true]
      | false =>
        rw [updateNull_of_real_first s F Fi n (c :: rest) hF hr hn, hF]
        simp only [updateNullRows, hn, Bool.false_eq_true, if_false]
        rw [← hr, Item.node_eta]

namespace Item

theorem findRows?_none_not_mem {p : Nat} : ∀ {rows : List Item},
    (∀ x ∈ rows, find? p x = none → p ∉ ids x) → findRows? p rows = none → p ∉ idsRows rows
  | [], _, _ => by simp [idsRows]
  | x :: xs, ih, h => by
    simp only [findRows?] at h
    cases hx : find? p x with
    | some r => rw [hx] at h; cases h
    | none =>
      rw [hx] at h
      rw [idsRows, List.mem_append]
      rintro (h1 | h1)
      · exact ih x (List.mem_cons_self _ _) hx h1
      · exact findRows?_none_not_mem (fun z hz => ih z (List.mem_cons_of_mem _ hz)) h h1

/-- An address of the tree is found. -/
theorem find?_none_not_mem (p : Nat) : ∀ (t : Item), find? p t = none → p ∉ ids t := by
  intro t
  induction t using Item.ind with
  | h d rows ih =>
    intro h
    simp only [find?] at h
    split_ifs at h with h1
    rw [ids, List.mem_cons]
    rintro (h2 | h2)
    · exact h1 h2.symm
    · exact findRows?_none_not_mem ih h h2

theorem find?_isSome_of_mem {p : Nat} {t : Item} (h : p ∈ ids t) : ∃ x, find? p t = some x := by
  cases hx : find? p t with
  | some x => exact ⟨x, rfl⟩
  | none => exact absurd h (find?_none_not_mem p t hx)

theorem findRows?_modifyRows_ancestor (p q : Nat) (g : Item → Item) :
    ∀ (rows : List Item) (a : Item), (idsRows rows).Nodup →
    (∀ x ∈ rows, (ids x).Nodup → ∀ a, find? q x = some a → p ∈ ids a →
      find? q (modify p g x) = some (modify p g a)) →
    findRows? q rows = some a → p ∈ ids a →
    findRows? q (modifyRows p g rows) = some (modify p g a)
  | [], _, _, _, h, _ => by simp [findRows?] at h
  | x :: xs, a, hn, ih, h, hp => by
    obtain ⟨hnx, hnxs, hdis⟩ := List.nodup_append.1 (by rw [idsRows] at hn; exact hn)
    simp only [findRows?] at h
    cases hx : find? q x with
    | some r =>
      rw [hx] at h
      cases h
      have hpx : p ∈ ids x := (ids_sublist_of_mem_items x a (find?_mem_items q x a hx)).subset hp
      obtain ⟨y, hy⟩ := find?_isSome_of_mem hpx
      simp only [modifyRows, hy, findRows?, ih x (List.mem_cons_self _ _) hnx a hx hp]
    | none =>
      rw [hx] at h
      have hpxs : p ∈ idsRows xs := by
        have hmem := findRows?_mem (fun z _ => find?_mem_items q z) h
        exact mem_idsRows.2 (by
          obtain ⟨z, hz, haz⟩ := mem_itemsRows.1 hmem
          exact ⟨z, hz, (ids_sublist_of_mem_items z a haz).subset hp⟩)
      have hpx : find? p x = none := find?_none_of_not_mem_ids (fun h1 => hdis h1 hpxs)
      simp only [modifyRows, hpx, findRows?, hx]
      exact findRows?_modifyRows_ancestor p q g xs a hnxs
        (fun z hz => ih z (List.mem_cons_of_mem _ hz)) h hp

/-- With unique addresses, an item that holds the address a call acts on
(the item acted on, or one above it) is found afterwards at its address, with
the call made inside it. -/
theorem find?_modify_ancestor (p q : Nat) (g : Item → Item)
    (hg : ∀ x, x.id = p → (g x).id = p) : ∀ (t a : Item), (ids t).Nodup →
    find? q t = some a → p ∈ ids a → find? q (modify p g t) = some (modify p g a) := by
  intro t
  induction t using Item.ind with
  | h d rows ih =>
    intro a hn h hp
    obtain ⟨hd, hnr⟩ := nodup_ids_node hn
    by_cases hq : d.id = q
    · simp only [find?, hq, if_true] at h
      cases h
      by_cases hpp : d.id = p
      · have : modify p g (node d rows) = g (node d rows) := by simp only [modify, hpp, if_true]
        rw [this]
        have hid : (g (node d rows)).id = q := by
          rw [hg (node d rows) hpp, ← hpp, hq]
        rw [← hid]
        exact find?_self _
      · have hm : modify p g (node d rows) = node d (modifyRows p g rows) := by
          simp only [modify, hpp, if_false]
        rw [hm]
        simp only [find?, hq, if_true]
    · simp only [find?, hq, if_false] at h
      have hpr : p ∈ idsRows rows := by
        have hmem := findRows?_mem (fun z _ => find?_mem_items q z) h
        obtain ⟨z, hz, haz⟩ := mem_itemsRows.1 hmem
        exact mem_idsRows.2 ⟨z, hz, (ids_sublist_of_mem_items z a haz).subset hp⟩
      have hpp : ¬ d.id = p := fun e => hd (by rw [e]; exact hpr)
      simp only [modify, hpp, if_false, find?, hq]
      exact findRows?_modifyRows_ancestor p q g rows a hnr
        (fun x hx hnx a2 h1 h2 => ih x hx a2 hnx h1 h2) h hp

/-- The sorted version of an item of the tree is an item of the sorted
tree. -/
theorem sortChildren_mem_items (lt : Item → Item → Bool) : ∀ (t x : Item), x ∈ items t →
    sortChildren lt x ∈ items (sortChildren lt t) := by
  intro t
  induction t using Item.ind with
  | h d rows ih =>
    intro x hx
    rw [items_eq] at hx
    rcases List.mem_cons.1 hx with rfl | hx
    · exact self_mem_items _
    · obtain ⟨y, hy, hxy⟩ := mem_itemsRows.1 hx
      have h1 := ih y hy x hxy
      have h2 : sortChildren lt y ∈ (sortChildren lt (node d rows)).rows :=
        (sortChildren_rows_perm lt (node d rows)).symm.subset (List.mem_map_of_mem _ hy)
      exact mem_items_trans h1 (mem_items_of_mem_rows h2)

end Item

/-- What a lookup of a non-empty path gives is a folder. -/
theorem getFolderFromPath_isFolder (env : Env) : ∀ (rest : List String) (seg : String)
    (t f : Item), getFolderFromPath env t (seg :: rest) = some f → f.isFolder = true := by
  intro rest
  induction rest with
  | nil =>
    intro seg t f h
    simp only [getFolderFromPath] at h
    cases hc : t.rows.find? (isFolderNamed env seg) with
    | none => rw [hc] at h; cases h
    | some c =>
      rw [hc] at h
      simp only [getFolderFromPath] at h
      cases h
      have := List.find?_some hc
      simp only [isFolderNamed, Bool.and_eq_true] at this
      exact this.1
  | cons seg2 rest ih =>
    intro seg t f h
    rw [getFolderFromPath] at h
    cases hc : t.rows.find? (isFolderNamed env seg) with
    | none => rw [hc] at h; cases h
    | some c =>
      rw [hc] at h
      exact ih seg2 c f h

/-- The row the lookup finds after the loop of createFolder: the recursive
call on the row the lookup found before, or on the new folder. -/
theorem find?_createFolderRows_first (step : Item → Nat → Item × Nat × Nat) (fresh : Nat → Item)
    (found : Item → Bool) (hstep : ∀ x n, found (step x n).1 = found x)
    (hfresh : ∀ n, found (fresh n) = true) : ∀ (rows : List Item) (n : Nat),
    (createFolderRows step fresh found rows n).1.find? found =
      match rows.find? found with
      | some x => some (step x n).1
      | none => some (step (fresh n) (n + 1)).1
  | [], n => by
    have : found (step (fresh n) (n + 1)).1 = true := by rw [hstep]; exact hfresh n
    simp [createFolderRows, List.find?, this]
  | x :: xs, n => by
    by_cases hx : found x = true
    · have : found (step x n).1 = true := by rw [hstep]; exact hx
      simp [createFolderRows, hx, List.find?, this]
    · have hx2 : found x = false := by simpa using hx
      have ih := find?_createFolderRows_first step fresh found hstep hfresh xs n
      simp only [createFolderRows, hx2, Bool.false_eq_true, if_false, List.find?_cons]
      exact ih

/-- When the lookup of the path fails, the folder that createFolder makes for
it, the one the lookup gives afterwards, is new: it has no rows. -/
theorem createFolder_fresh (env : Env)
    (hEnv : ∀ x, env.folderText x = env.removeWarningPrefix x) (sel : Bool) :
    ∀ (path : List String) (parent : Item) (n : Nat) (f : Item),
      getFolderFromPath env parent path = none →
      getFolderFromPath env (createFolder env sel path parent n).1 path = some f →
      f.rows = [] := by
  intro path
  induction path with
  | nil => intro parent n f h; simp [getFolderFromPath] at h
  | cons seg rest ih =>
    intro parent n f hnone hafter
    have hnamed : ∀ x k, isFolderNamed env seg (createFolder env sel rest x k).1 =
        isFolderNamed env seg x := fun x k =>
      isFolderNamed_congr env seg (createFolder_d env sel rest x k)
    have hfirst := find?_createFolderRows_first (createFolder env sel rest)
      (fun a => if sel then (withCheckbox (newFolder env a seg)).setVisibility true
                else newFolder env a seg)
      (isFolderNamed env seg) hnamed (fun k => isFolderNamed_fresh env hEnv sel seg k)
      parent.rows n
    simp only [createFolder, getFolderFromPath, Item.setRows, Item.rows_node] at hafter
    rw [hfirst] at hafter
    rw [getFolderFromPath] at hnone
    cases hc : parent.rows.find? (isFolderNamed env seg) with
    | some x =>
      rw [hc] at hafter hnone
      simp only at hafter hnone
      exact ih x n f hnone hafter
    | none =>
      rw [hc] at hafter
      simp only at hafter
      cases rest with
      | nil =>
        simp only [createFolder, getFolderFromPath] at hafter
        cases hafter
        exact (fresh_folder_facts env sel seg n).2.2
      | cons seg2 rest2 =>
        refine ih _ (n + 1) f ?_ hafter
        rw [getFolderFromPath, (fresh_folder_facts env sel seg n).2.2]
        rfl

theorem createFaveSubfolder_eq (env : Env) (s s2 : FiltersView) (path : List String)
    (ff p : Nat) (X : Item) (hff : s._faveFolder = some ff)
    (hcreate : s.createFolderAt env (some ff) path = (s2, some p))
    (hX : s2.root.find? p = some X) (hfold : X.isFolder = true) :
    s.createFaveSubfolder env path =
      ((({ s2 with root := s2.root.modify p (Item.setEditable true) } :
        FiltersView).updateNullItemInFaveSubfolder (some p)).sortFaves env, some p) := by
  have hid := Item.find?_id p s2.root X hX
  unfold FiltersView.createFaveSubfolder
  simp only [hff, Option.isNone_some, Bool.false_eq_true, if_false, hcreate, Option.some_bind, hX,
    Option.filter, hfold, if_true, Option.map_some', hid]

theorem sortChildren_single_null (lt : Item → Item → Bool) (d : ItemData) (a : Nat) :
    Item.sortChildren lt (Item.node d [newNullItem a]) = Item.node d [newNullItem a] := by
  rfl

/-! ## The lookup of a path after a call through a pointer -/

theorem Item.find?_none_of_not_mem (p : Nat) (t : Item) (h : p ∉ Item.ids t) :
    Item.find? p t = none := by
  cases hf : Item.find? p t with
  | none => rfl
  | some a =>
    exfalso
    have h1 := Item.find?_id p t a hf
    have h2 := Item.id_mem_ids_of_mem_items (Item.find?_mem_items p t a hf)
    rw [h1] at h2
    exact h h2

theorem Item.modify_of_not_mem (p : Nat) (g : Item → Item) (t : Item) (h : p ∉ Item.ids t) :
    Item.modify p g t = t :=
  Item.modify_of_find?_none p g t (Item.find?_none_of_not_mem p t h)

/-- The loop test of the lookup sees the same thing after a call through a
pointer, when the call keeps that test on the item it acts on. -/
theorem isFolderNamed_modify (env : Env) (seg : String) (p : Nat) (g : Item → Item) (x : Item)
    (hg : x.id = p → isFolderNamed env seg (g x) = isFolderNamed env seg x) :
    isFolderNamed env seg (Item.modify p g x) = isFolderNamed env seg x := by
  cases x with
  | node d rows =>
    by_cases hd : d.id = p
    · simp only [Item.modify, if_pos hd]
      exact hg hd
    · simp only [Item.modify, if_neg hd]
      exact isFolderNamed_congr env seg rfl

theorem find?_modifyRows (f : Item → Bool) (p : Nat) (g : Item → Item) :
    ∀ (rows : List Item), (Item.idsRows rows).Nodup →
      (∀ x ∈ rows, f (Item.modify p g x) = f x) →
      (Item.modifyRows p g rows).find? f = (rows.find? f).map (Item.modify p g)
  | [], _, _ => rfl
  | x :: xs, hn, hf => by
    have hn2 : (Item.ids x ++ Item.idsRows xs).Nodup := by simpa [Item.idsRows] using hn
    obtain ⟨hnx, hnxs, hdis⟩ := List.nodup_append.1 hn2
    have hfx := hf x (List.mem_cons_self _ _)
    cases hfind : Item.find? p x with
    | some b =>
      have hp : p ∈ Item.ids x := by
        have h1 := Item.find?_id p x b hfind
        have h2 := Item.id_mem_ids_of_mem_items (Item.find?_mem_items p x b hfind)
        rw [h1] at h2
        exact h2
      simp only [Item.modifyRows, hfind, List.find?_cons, hfx]
      cases hfx2 : f x with
      | true => rfl
      | false =>
        simp only
        cases hxs : xs.find? f with
        | none => rfl
        | some c =>
          have hc : c ∈ xs := List.mem_of_find?_eq_some hxs
          have hpc : p ∉ Item.ids c := fun h =>
            hdis hp (Item.mem_idsRows.2 ⟨c, hc, h⟩)
          simp only [Option.map_some', Item.modify_of_not_mem p g c hpc]
    | none =>
      have hx : Item.modify p g x = x := Item.modify_of_find?_none p g x hfind
      simp only [Item.modifyRows, hfind, List.find?_cons]
      cases hfx2 : f x with
      | true => simp only [Option.map_some', hx]
      | false =>
        simp only
        exact find?_modifyRows f p g xs hnxs (fun y hy => hf y (List.mem_cons_of_mem _ hy))

/-- The lookup of a path in a tree after a call `g` through the pointer `p`,
when `g` keeps, on the item it acts on, the loop test and the rows that are
folders: the folder found is the one found before, after the call. -/
theorem getFolderFromPath_modify (env : Env) (p : Nat) (g : Item → Item) (path : List String) :
    ∀ (t : Item), (Item.ids t).Nodup →
      (∀ x ∈ Item.items t, x.id = p →
        (∀ seg, isFolderNamed env seg (g x) = isFolderNamed env seg x) ∧
        (g x).rows.filter Item.isFolder = x.rows.filter Item.isFolder) →
      getFolderFromPath env (Item.modify p g t) path =
        (getFolderFromPath env t path).map (Item.modify p g) := by
  induction path with
  | nil => intro t _ _; rfl
  | cons seg rest ih =>
    intro t hn hg
    have himp : ∀ x : Item, isFolderNamed env seg x = true → Item.isFolder x = true := by
      intro x hx
      simp only [isFolderNamed, Bool.and_eq_true] at hx
      exact hx.1
    cases t with
    | node d rows =>
      obtain ⟨hd, hnr⟩ := Item.nodup_ids_node hn
      by_cases hdp : d.id = p
      · have hgt := hg (Item.node d rows) (Item.self_mem_items _) hdp
        simp only [Item.modify, if_pos hdp, getFolderFromPath]
        rw [← find?_filter_of_imp (isFolderNamed env seg) Item.isFolder himp (g (Item.node d rows)).rows,
          hgt.2, find?_filter_of_imp (isFolderNamed env seg) Item.isFolder himp]
        simp only [Item.rows_node]
        cases hfind : rows.find? (isFolderNamed env seg) with
        | none => rfl
        | some c =>
          simp only
          cases hl : getFolderFromPath env c rest with
          | none => rfl
          | some X =>
            have hX := getFolderFromPath_mem_items env rest c X hl
            have hc : c ∈ rows := List.mem_of_find?_eq_some hfind
            have hpX : p ∉ Item.ids X := by
              intro h
              apply hd
              rw [hdp]
              exact Item.mem_idsRows.2 ⟨c, hc, (Item.ids_sublist_of_mem_items c X hX).subset h⟩
            simp only [Option.map_some']
            have := Item.modify_of_not_mem p g X hpX
            simp only [Item.modify, if_pos hdp] at this ⊢
            rw [this]
      · simp only [Item.modify, if_neg hdp, getFolderFromPath, Item.rows_node]
        rw [find?_modifyRows (isFolderNamed env seg) p g rows hnr (fun x hx =>
          isFolderNamed_modify env seg p g x (fun hxp =>
            (hg x (Item.mem_items_of_mem_rows (a := Item.node d rows) hx) hxp).1 seg))]
        cases hfind : rows.find? (isFolderNamed env seg) with
        | none => rfl
        | some c =>
          have hc : c ∈ rows := List.mem_of_find?_eq_some hfind
          simp only [Option.map_some']
          refine ih c ?_ (fun x hx => hg x
            (Item.mem_items_trans hx (Item.mem_items_of_mem_rows (a := Item.node d rows) hc)))
          have := Item.ids_sublist_of_mem_items (Item.node d rows) c
            (Item.mem_items_of_mem_rows (a := Item.node d rows) hc)
          exact this.nodup hn

/-! ## The lookup of a path after a sort -/

theorem find?_perm_of_unique {α : Type} (f : α → Bool) {l l2 : List α} (h : l.Perm l2)
    (hu : ∀ a ∈ l, ∀ b ∈ l, f a = true → f b = true → a = b) :
    l.find? f = l2.find? f := by
  cases h1 : l.find? f with
  | none =>
    symm
    rw [List.find?_eq_none] at h1 ⊢
    intro x hx
    exact h1 x (h.mem_iff.2 hx)
  | some a =>
    have ha := List.mem_of_find?_eq_some h1
    have hfa := List.find?_some h1
    cases h2 : l2.find? f with
    | none =>
      rw [List.find?_eq_none] at h2
      exact absurd hfa (h2 a (h.mem_iff.1 ha))
    | some b =>
      have hb := List.mem_of_find?_eq_some h2
      have hfb := List.find?_some h2
      rw [hu a ha b (h.mem_iff.2 hb) hfa hfb]

theorem isFolderNamed_sortChildren (env : Env) (seg : String) (lt : Item → Item → Bool)
    (x : Item) : isFolderNamed env seg (Item.sortChildren lt x) = isFolderNamed env seg x :=
  isFolderNamed_congr env seg (Item.sortChildren_d lt x)

/-- Two rows of an item that pass the loop test for the same segment are the
same row, when the folders among the rows have distinct texts. -/
theorem isFolderNamed_unique (env : Env) (seg : String) (rows : List Item)
    (hn : ((rows.filter Item.isFolder).map Item.text).Nodup) :
    ∀ a ∈ rows, ∀ b ∈ rows, isFolderNamed env seg a = true → isFolderNamed env seg b = true →
      a = b := by
  intro a ha b hb hfa hfb
  simp only [isFolderNamed, Bool.and_eq_true, decide_eq_true_eq] at hfa hfb
  exact List.inj_on_of_nodup_map hn (List.mem_filter.2 ⟨ha, hfa.1⟩)
    (List.mem_filter.2 ⟨hb, hfb.1⟩) (hfa.2.trans hfb.2.symm)

/-- The lookup of a path in a sorted tree, when at every item the folders
among the rows have distinct texts: the folder found is the one found before,
sorted. -/
theorem getFolderFromPath_sortChildren (env : Env) (lt : Item → Item → Bool)
    (path : List String) :
    ∀ (t : Item), (∀ x ∈ Item.items t, ((x.rows.filter Item.isFolder).map Item.text).Nodup) →
      getFolderFromPath env (Item.sortChildren lt t) path =
        (getFolderFromPath env t path).map (Item.sortChildren lt) := by
  induction path with
  | nil => intro t _; rfl
  | cons seg rest ih =>
    intro t hn
    have hperm := Item.sortChildren_rows_perm lt t
    have hu : ∀ a ∈ t.rows.map (Item.sortChildren lt), ∀ b ∈ t.rows.map (Item.sortChildren lt),
        isFolderNamed env seg a = true → isFolderNamed env seg b = true → a = b := by
      intro a ha b hb hfa hfb
      obtain ⟨a0, ha0, rfl⟩ := List.mem_map.1 ha
      obtain ⟨b0, hb0, rfl⟩ := List.mem_map.1 hb
      rw [isFolderNamed_sortChildren] at hfa hfb
      rw [isFolderNamed_unique env seg t.rows (hn t (Item.self_mem_items t)) a0 ha0 b0 hb0 hfa hfb]
    simp only [getFolderFromPath]
    rw [find?_perm_of_unique (isFolderNamed env seg) hperm.symm hu |>.symm, List.find?_map]
    have hcomp : (isFolderNamed env seg ∘ Item.sortChildren lt) = isFolderNamed env seg := by
      funext x
      exact isFolderNamed_sortChildren env seg lt x
    rw [hcomp]
    cases hfind : t.rows.find? (isFolderNamed env seg) with
    | none => rfl
    | some c =>
      have hc : c ∈ t.rows := List.mem_of_find?_eq_some hfind
      simp only [Option.map_some']
      exact ih c (fun x hx => hn x (Item.mem_items_trans hx (Item.mem_items_of_mem_rows hc)))

/-! ## updateNullItemInFaveSubfolder as one call through the pointer -/

theorem updateNullRows_filter (rows : List Item) (a : Nat) :
    (updateNullRows rows a).filter Item.isFolder = rows.filter Item.isFolder := by
  match rows with
  | [] => rfl
  | [c] => rfl
  | n :: c :: rest =>
    simp only [updateNullRows]
    cases hn : n.isNullItem with
    | false => simp
    | true =>
      have hf : n.isFolder = false := by
        simp only [Item.isNullItem, decide_eq_true_eq] at hn
        simp [Item.isFolder, hn]
      simp only [if_true]
      rw [List.filter_cons_of_neg (l := c :: rest) (by simp [hf])]

/-- The tree after updateNullItemInFaveSubfolder(folder) for a folder that is
in the tree: one call through the pointer that keeps the data of the folder
and gives it the rows `updateNullRows`. -/
theorem updateNull_root (s : FiltersView) (q : Nat) (B : Item)
    (hB : s.root.find? q = some B) :
    ∃ g : Item → Item,
      (s.updateNullItemInFaveSubfolder (some q)).root = s.root.modify q g ∧
      (∀ x, x.id = q → (g x).id = q) ∧
      g B = Item.node B.d (updateNullRows B.rows s.nextAddr) := by
  have hid := Item.find?_id q s.root B hB
  match hr : B.rows with
  | [] =>
    refine ⟨fun i => i.appendRow (newNullItem s.nextAddr), ?_, fun x hx => hx, ?_⟩
    · rw [updateNull_of_empty s q B hB hr]
    · simp only [Item.appendRow, hr, List.nil_append, updateNullRows]
  | [c] =>
    refine ⟨fun _ => B, ?_, fun _ _ => hid, ?_⟩
    · rw [updateNull_of_single s q B c hB hr, Item.modify_const_of_find? q B s.root hB]
    · simp only [updateNullRows]
      rw [← hr, Item.node_eta]
  | n :: c :: rest =>
    cases hn : n.isNullItem with
    | true =>
      refine ⟨Item.removeRow 0, ?_, fun x hx => hx, ?_⟩
      · rw [updateNull_of_null_first s q B n c rest hB hr hn]
      · simp only [Item.removeRow, hr, List.eraseIdx_cons_zero, updateNullRows, hn, if_true]
    | false =>
      refine ⟨fun _ => B, ?_, fun _ _ => hid, ?_⟩
      · rw [updateNull_of_real_first s q B n (c :: rest) hB hr hn,
          Item.modify_const_of_find? q B s.root hB]
      · simp only [updateNullRows, hn, Bool.false_eq_true, if_false]
        rw [← hr, Item.node_eta]

/-! ## The lookup below the favorites root, step by step -/

/-- A call through the pointer `q`, below the favorites root, that keeps the
loop test and the rows that are folders on the item it acts on: the lookup of
the path below the favorites root gives the folder it gave, after the call. -/
theorem faveLookup_modify (env : Env) (root : Item) (ff q : Nat) (g : Item → Item)
    (path : List String) (cf Y B : Item) (hn : (Item.ids root).Nodup)
    (hcf : root.find? ff = some cf) (hY : getFolderFromPath env cf path = some Y)
    (hB : B ∈ Item.items cf) (hBq : B.id = q)
    (hid : ∀ x, x.id = q → (g x).id = q)
    (hg1 : ∀ seg, isFolderNamed env seg (g B) = isFolderNamed env seg B)
    (hg2 : (g B).rows.filter Item.isFolder = B.rows.filter Item.isFolder) :
    (root.modify q g).find? ff = some (cf.modify q g) ∧
      getFolderFromPath env (cf.modify q g) path = some (Y.modify q g) := by
  have hcfmem := Item.find?_mem_items ff root cf hcf
  have hncf : (Item.ids cf).Nodup := (Item.ids_sublist_of_mem_items root cf hcfmem).nodup hn
  refine ⟨?_, ?_⟩
  · exact Item.find?_modify_ancestor q ff g hid root cf hn hcf
      (hBq ▸ Item.id_mem_ids_of_mem_items hB)
  · rw [getFolderFromPath_modify env q g path cf hncf, hY]
    · rfl
    · intro x hx hxq
      have : x = B := Item.eq_of_mem_items_of_id hncf hx hB (hxq.trans hBq.symm)
      subst this
      exact ⟨hg1, hg2⟩

/-- After updateNullItemInFaveSubfolder(folder) for a folder `B` below the
favorites root, the lookup of the path below the favorites root gives the
folder it gave, after the call. -/
theorem faveLookup_updateNull (env : Env) (s : FiltersView) (ff q : Nat) (path : List String)
    (cf Y B : Item) (hwf : s.WF) (hcf : s.root.find? ff = some cf)
    (hY : getFolderFromPath env cf path = some Y) (hB : B ∈ Item.items cf) (hBq : B.id = q) :
    ∃ g : Item → Item, g B = Item.node B.d (updateNullRows B.rows s.nextAddr) ∧
      (s.updateNullItemInFaveSubfolder (some q)).root.find? ff = some (cf.modify q g) ∧
      getFolderFromPath env (cf.modify q g) path = some (Y.modify q g) := by
  have hBroot : B ∈ Item.items s.root :=
    Item.mem_items_trans hB (Item.find?_mem_items ff _ _ hcf)
  have hfB : s.root.find? q = some B := hBq ▸ Item.find?_of_mem_items _ hwf.1 B hBroot
  obtain ⟨g, hroot, hid, hgB⟩ := updateNull_root s q B hfB
  refine ⟨g, hgB, ?_⟩
  rw [hroot]
  refine faveLookup_modify env s.root ff q g path cf Y B hwf.1 hcf hY hB hBq hid ?_ ?_
  · intro seg
    rw [hgB]
    exact isFolderNamed_congr env seg rfl
  · rw [hgB]
    exact updateNullRows_filter _ _

/-- The folder a lookup of one segment or more returns is a row of an item of
the tree the lookup starts in. -/
theorem getFolderFromPath_parent (env : Env) : ∀ (rest : List String) (seg : String)
    (t Y : Item), getFolderFromPath env t (seg :: rest) = some Y →
      ∃ B ∈ Item.items t, Y ∈ B.rows := by
  intro rest
  induction rest with
  | nil =>
    intro seg t Y h
    simp only [getFolderFromPath] at h
    cases hc : t.rows.find? (isFolderNamed env seg) with
    | none => rw [hc] at h; cases h
    | some c =>
      rw [hc] at h
      simp only [Option.some.injEq] at h
      subst h
      exact ⟨t, Item.self_mem_items t, List.mem_of_find?_eq_some hc⟩
  | cons seg2 rest ih =>
    intro seg t Y h
    rw [getFolderFromPath] at h
    cases hc : t.rows.find? (isFolderNamed env seg) with
    | none => rw [hc] at h; cases h
    | some c =>
      rw [hc] at h
      obtain ⟨B, hB, hY⟩ := ih seg2 c Y h
      exact ⟨B, Item.mem_items_trans hB
        (Item.mem_items_of_mem_rows (List.mem_of_find?_eq_some hc)), hY⟩

/-- Under the two row invariants, the folders among the rows of an item below
the invisible root have distinct texts. -/
theorem names_nodup_of_inv (s : FiltersView) (o : Option Nat) (hF : s.Inv (flaggedInv o))
    (hN : s.Inv namesInv) :
    ∀ x ∈ Item.itemsRows s.root.rows, ((x.rows.filter Item.isFolder).map Item.text).Nodup := by
  intro x hx
  have h1 : (x.fkeys.filter (fun k => k.2.1)) = [] := hF.2.2 x hx
  have h2 : ((x.fkeys.filter (fun k => !k.2.1)).map (fun k => k.2.2)).Nodup := hN.2.2 x hx
  have h3 : x.fkeys.filter (fun k => !k.2.1) = x.fkeys := by
    rw [List.filter_eq_self]
    intro k hk
    rw [List.filter_eq_nil_iff] at h1
    have := h1 k hk
    simpa using this
  rw [h3] at h2
  simpa [Item.fkeys, Item.fkey, List.map_map, Function.comp_def, Item.text] using h2

/-- Under the invariant of the favorites root, `_faveFolder` refers to an item
of the tree: a row of the invisible root, a folder, flagged isFaveFolder. -/
theorem faveFolder_find_of_inv (s : FiltersView) (hinv : s.Inv (flaggedInv s._faveFolder))
    (ff : Nat) (hff : s._faveFolder = some ff) :
    ∃ ffItem, s.root.find? ff = some ffItem ∧ ffItem ∈ s.root.rows ∧ ffItem.isFolder = true ∧
      ffItem.d.isFaveFolder = true := by
  have h1 := (flagged_of_inv s hinv).1
  rw [hff] at h1
  have hmem : ff ∈ ((Item.itemsRows s.root.rows).filter Item.isFlaggedFolder).map Item.id := by
    rw [h1]; simp
  obtain ⟨x, hx, hxid⟩ := List.mem_map.1 hmem
  have hxr : x ∈ Item.items s.root := by
    rw [Item.items_eq]
    exact List.mem_cons_of_mem _ (List.mem_filter.1 hx).1
  have hfind := Item.find?_of_mem_items _ hinv.1.1 x hxr
  rw [hxid] at hfind
  exact ⟨x, hfind, faveFolder_of_inv s hinv ff x hff hfind⟩

/-! ## addFave with an empty name: the folder of the path -/

theorem getFaveSubfolderFromPath_of_lookup (env : Env) (s : FiltersView) (path : List String)
    (ff : Nat) (cf Y : Item) (hff : s._faveFolder = some ff) (hcf : s.root.find? ff = some cf)
    (hY : getFolderFromPath env cf path = some Y) (hYf : Y.isFolder = true)
    (hp : path.isEmpty = false) :
    s.getFaveSubfolderFromPath env path = some Y.id := by
  simp only [FiltersView.getFaveSubfolderFromPath, hff, hp, Bool.false_eq_true, if_false, hcf,
    Option.some_bind, hY, Option.filter, hYf, if_true, Option.map_some']

theorem lookup_of_getFaveSubfolderFromPath (env : Env) (s : FiltersView) (path : List String)
    (ff F : Nat) (cf : Item) (hff : s._faveFolder = some ff) (hcf : s.root.find? ff = some cf)
    (hp : path.isEmpty = false) (hfound : s.getFaveSubfolderFromPath env path = some F) :
    ∃ Y, getFolderFromPath env cf path = some Y ∧ Y.isFolder = true ∧ Y.id = F := by
  simp only [FiltersView.getFaveSubfolderFromPath, hff, hp, Bool.false_eq_true, if_false, hcf,
    Option.some_bind] at hfound
  cases hl : getFolderFromPath env cf path with
  | none => rw [hl] at hfound; simp [Option.filter] at hfound
  | some Y =>
    rw [hl] at hfound
    cases hYf : Y.isFolder with
    | false => simp [Option.filter, hYf] at hfound
    | true =>
      simp only [Option.filter, hYf, if_true, Option.map_some', Option.some.injEq] at hfound
      exact ⟨Y, rfl, hYf, hfound⟩

/-- The folder the lookup of the path below the favorites root returns, after
updateNullItemInFaveSubfolder on it: the lookup returns it again, and it has
its data and the rows `updateNullRows`. -/
theorem addFave_empty_existing (env : Env) (s : FiltersView) (path : List String) (ff F : Nat)
    (hinv : s.Inv (flaggedInv s._faveFolder)) (hff : s._faveFolder = some ff)
    (hfound : s.getFaveSubfolderFromPath env path = some F) :
    ∃ Fi, s.root.find? F = some Fi ∧ Fi.isFolder = true ∧
      (s.updateNullItemInFaveSubfolder (some F)).getFaveSubfolderFromPath env path = some F ∧
      (s.updateNullItemInFaveSubfolder (some F)).root.find? F =
        some (Item.node Fi.d (updateNullRows Fi.rows s.nextAddr)) := by
  obtain ⟨ffItem, hfi, _, hfold, _⟩ := faveFolder_find_of_inv s hinv ff hff
  have hff2 : (s.updateNullItemInFaveSubfolder (some F))._faveFolder = some ff :=
    (updateNull_evolves (flaggedInv none) s (some F)).1.trans hff
  cases hp : path.isEmpty with
  | true =>
    have hF : ff = F := by
      simpa [FiltersView.getFaveSubfolderFromPath, hff, hp] using hfound
    subst hF
    refine ⟨ffItem, hfi, hfold, ?_, updateNull_find s ff ffItem hfi⟩
    simp only [FiltersView.getFaveSubfolderFromPath, hff2, hp, if_true]
  | false =>
    obtain ⟨Y, hl, hYf, hYid⟩ :=
      lookup_of_getFaveSubfolderFromPath env s path ff F ffItem hff hfi hp hfound
    have hYmem := getFolderFromPath_mem_items env path ffItem Y hl
    have hYroot := Item.mem_items_trans hYmem (Item.find?_mem_items ff _ _ hfi)
    have hfY : s.root.find? F = some Y := hYid ▸ Item.find?_of_mem_items _ hinv.1.1 Y hYroot
    refine ⟨Y, hfY, hYf, ?_, updateNull_find s F Y hfY⟩
    obtain ⟨g, hgY, hfind2, hlook2⟩ :=
      faveLookup_updateNull env s ff F path ffItem Y Y hinv.1 hfi hl hYmem hYid
    have hmod : Y.modify F g = Item.node Y.d (updateNullRows Y.rows s.nextAddr) := by
      rw [← hYid, Item.modify_self, hgY]
    rw [hmod] at hlook2
    have := getFaveSubfolderFromPath_of_lookup env _ path ff _ _ hff2 hfind2 hlook2 hYf hp
    rw [this]
    exact congrArg some hYid

theorem isFolderNamed_setEditable (env : Env) (seg : String) (b : Bool) (x : Item) :
    isFolderNamed env seg (x.setEditable b) = isFolderNamed env seg x := rfl

theorem updateNull_none (s : FiltersView) : s.updateNullItemInFaveSubfolder none = s := rfl

/-- A row of an item of a tree with unique addresses is not above its
parent. -/
theorem Item.id_not_mem_ids_of_mem_rows {B c : Item} (hn : (Item.ids B).Nodup)
    (hc : c ∈ B.rows) : B.id ∉ Item.ids c := by
  cases B with
  | node d rows =>
    obtain ⟨hd, _⟩ := Item.nodup_ids_node hn
    intro h
    exact hd (Item.mem_idsRows.2 ⟨c, hc, h⟩)

/-- The new folder `X` (no rows yet) that the lookup of the path below the
favorites root gives, through the rest of createFaveSubfolder (setEditable,
updateNullItemInFaveSubfolder, sortFaves) and the two calls of
updateNullItemInFaveSubfolder in addFave, on the parent and on the folder: the
lookup of the path gives the folder at the end, with a placeholder as its one
row. -/
theorem track_new_folder (env : Env) (s2 : FiltersView) (ff p : Nat) (seg : String)
    (rest : List String) (cf X : Item)
    (hF2 : s2.Inv (flaggedInv (some ff))) (hN2 : s2.Inv namesInv)
    (hff : s2._faveFolder = some ff) (hcf : s2.root.find? ff = some cf)
    (hlook : getFolderFromPath env cf (seg :: rest) = some X)
    (hXid : X.id = p) (hXrows : X.rows = []) :
    ∃ Y a,
      ((((({ s2 with root := s2.root.modify p (Item.setEditable true) } :
          FiltersView).updateNullItemInFaveSubfolder (some p)).sortFaves
          env).updateNullItemInFaveSubfolder
          (((({ s2 with root := s2.root.modify p (Item.setEditable true) } :
          FiltersView).updateNullItemInFaveSubfolder (some p)).sortFaves
          env).parentFolder p)).updateNullItemInFaveSubfolder
          (some p)).getFaveSubfolderFromPath env (seg :: rest) = some p ∧
      ((((({ s2 with root := s2.root.modify p (Item.setEditable true) } :
          FiltersView).updateNullItemInFaveSubfolder (some p)).sortFaves
          env).updateNullItemInFaveSubfolder
          (((({ s2 with root := s2.root.modify p (Item.setEditable true) } :
          FiltersView).updateNullItemInFaveSubfolder (some p)).sortFaves
          env).parentFolder p)).updateNullItemInFaveSubfolder
          (some p)).root.find? p = some Y ∧
      Y.isFolder = true ∧ Y.rows = [newNullItem a] := by
  have hwf2 := hF2.1
  have hXfold : X.isFolder = true := getFolderFromPath_isFolder env rest seg cf X hlook
  have hXmem := getFolderFromPath_mem_items env (seg :: rest) cf X hlook
  -- setEditable
  obtain ⟨sE, hsE⟩ : ∃ sE : FiltersView,
      sE = { s2 with root := s2.root.modify p (Item.setEditable true) } := ⟨_, rfl⟩
  rw [← hsE]
  have evE : ∀ I : RowInv, Evolves I s2 sE := by
    intro I; rw [hsE]; exact setEditable_evolves I s2 p
  have hrootE : sE.root = s2.root.modify p (Item.setEditable true) := by rw [hsE]
  have hwfE := (evE namesInv).2.1 hwf2
  have hffE : sE._faveFolder = some ff := (evE namesInv).1.trans hff
  obtain ⟨hfindE, hlookE⟩ := faveLookup_modify env s2.root ff p (Item.setEditable true)
    (seg :: rest) cf X X hwf2.1 hcf hlook hXmem hXid (fun x hx => hx)
    (fun sg => isFolderNamed_setEditable env sg true X) rfl
  rw [← hrootE] at hfindE
  have hmodE : X.modify p (Item.setEditable true) = X.setEditable true := by
    rw [← hXid, Item.modify_self]
  rw [hmodE] at hlookE
  -- the placeholder
  obtain ⟨s3, hs3⟩ : ∃ s3 : FiltersView, s3 = sE.updateNullItemInFaveSubfolder (some p) :=
    ⟨_, rfl⟩
  rw [← hs3]
  have ev3 : ∀ I : RowInv, Evolves I sE s3 := by
    intro I; rw [hs3]; exact updateNull_evolves I sE (some p)
  have hwf3 := (ev3 namesInv).2.1 hwfE
  have hff3 : s3._faveFolder = some ff := (ev3 namesInv).1.trans hffE
  obtain ⟨g, hg, hfind3, hlook3⟩ := faveLookup_updateNull env sE ff p (seg :: rest) _ _
    (X.setEditable true) hwfE hfindE hlookE
    (getFolderFromPath_mem_items env (seg :: rest) _ _ hlookE) hXid
  rw [← hs3] at hfind3
  have hmod3 : (X.setEditable true).modify p g =
      Item.node (X.setEditable true).d [newNullItem sE.nextAddr] := by
    have h1 : (X.setEditable true).id = p := hXid
    rw [← h1, Item.modify_self, hg]
    rw [show (X.setEditable true).rows = X.rows from rfl, hXrows]
    rfl
  rw [hmod3] at hlook3
  -- sortFaves
  obtain ⟨s4, hs4⟩ : ∃ s4 : FiltersView, s4 = s3.sortFaves env := ⟨_, rfl⟩
  rw [← hs4]
  have ev4 : ∀ I : RowInv, Evolves I s3 s4 := by
    intro I; rw [hs4]; exact sortFaves_evolves I env s3
  have hwf4 := (ev4 namesInv).2.1 hwf3
  have hff4 : s4._faveFolder = some ff := (ev4 namesInv).1.trans hff3
  have hF3 : s3.Inv (flaggedInv (some ff)) :=
    inv_of_evolves (ev3 _) (inv_of_evolves (evE _) hF2)
  have hN3 : s3.Inv namesInv := inv_of_evolves (ev3 _) (inv_of_evolves (evE _) hN2)
  have hrow3 := (faveFolder_of_inv s3 (hff3 ▸ hF3) ff _ hff3 hfind3).1
  have hroot4 : s4.root = s3.root.modify ff (Item.sortChildren env.lessThan) := by
    rw [hs4, sortFaves_eq env s3 ff hff3]
  have hfind4 : s4.root.find? ff =
      some (Item.sortChildren env.lessThan (cf.modify p (Item.setEditable true) |>.modify p g)) := by
    rw [hroot4, Item.find?_modify ff (Item.sortChildren env.lessThan)
      (fun x hx => by rw [Item.id, Item.sortChildren_d]; exact hx), hfind3]
    rfl
  have hlook4 := getFolderFromPath_sortChildren env env.lessThan (seg :: rest)
    (cf.modify p (Item.setEditable true) |>.modify p g)
    (fun x hx => names_nodup_of_inv s3 (some ff) hF3 hN3 x
      (Item.mem_itemsRows.2 ⟨_, hrow3, hx⟩))
  rw [hlook3, Option.map_some', sortChildren_single_null] at hlook4
  -- the parent
  obtain ⟨Y, hY⟩ : ∃ Y : Item, Y = Item.node (X.setEditable true).d [newNullItem sE.nextAddr] :=
    ⟨_, rfl⟩
  rw [← hY] at hlook4
  have hYid : Y.id = p := by rw [hY]; exact hXid
  have hYfold : Y.isFolder = true := by rw [hY]; exact hXfold
  have hYrows : Y.rows = [newNullItem sE.nextAddr] := by rw [hY]; rfl
  obtain ⟨cf4, hcf4⟩ : ∃ cf4 : Item, cf4 =
      Item.sortChildren env.lessThan (cf.modify p (Item.setEditable true) |>.modify p g) :=
    ⟨_, rfl⟩
  rw [← hcf4] at hfind4 hlook4
  have hcf4root := Item.find?_mem_items ff _ _ hfind4
  obtain ⟨B, hB, hYB⟩ := getFolderFromPath_parent env rest seg cf4 Y hlook4
  have hBroot := Item.mem_items_trans hB hcf4root
  have hpar := Item.parent?_of_mem_rows B Y hYB s4.root hwf4.1 hBroot
  rw [hYid] at hpar
  obtain ⟨s5, hs5⟩ : ∃ s5 : FiltersView,
      s5 = s4.updateNullItemInFaveSubfolder (s4.parentFolder p) := ⟨_, rfl⟩
  rw [← hs5]
  have ev5 : ∀ I : RowInv, Evolves I s4 s5 := by
    intro I; rw [hs5]; exact updateNull_evolves I s4 _
  have hwf5 := (ev5 namesInv).2.1 hwf4
  have hff5 : s5._faveFolder = some ff := (ev5 namesInv).1.trans hff4
  have h5 : ∃ cf5, s5.root.find? ff = some cf5 ∧
      getFolderFromPath env cf5 (seg :: rest) = some Y := by
    cases hBf : B.isFolder with
    | false =>
      have : s4.parentFolder p = none := by
        simp [FiltersView.parentFolder, hpar, Option.filter, hBf]
      rw [this, updateNull_none] at hs5
      rw [hs5]
      exact ⟨cf4, hfind4, hlook4⟩
    | true =>
      have : s4.parentFolder p = some B.id := by
        simp [FiltersView.parentFolder, hpar, Option.filter, hBf]
      rw [this] at hs5
      obtain ⟨g5, _, hfind5, hlook5⟩ := faveLookup_updateNull env s4 ff B.id (seg :: rest) cf4 Y B
        hwf4 hfind4 hlook4 hB rfl
      rw [← hs5] at hfind5
      have hnB : (Item.ids B).Nodup :=
        (Item.ids_sublist_of_mem_items s4.root B hBroot).nodup hwf4.1
      rw [Item.modify_of_not_mem B.id g5 Y (Item.id_not_mem_ids_of_mem_rows hnB hYB)] at hlook5
      exact ⟨_, hfind5, hlook5⟩
  obtain ⟨cf5, hfind5, hlook5⟩ := h5
  -- the folder itself
  have hYroot5 := Item.mem_items_trans (getFolderFromPath_mem_items env _ cf5 Y hlook5)
    (Item.find?_mem_items ff _ _ hfind5)
  have hfY5 : s5.root.find? p = some Y := hYid ▸ Item.find?_of_mem_items _ hwf5.1 Y hYroot5
  rw [updateNull_of_single s5 p Y _ hfY5 hYrows]
  refine ⟨Y, sE.nextAddr, ?_, hfY5, hYfold, hYrows⟩
  rw [getFaveSubfolderFromPath_of_lookup env s5 (seg :: rest) ff cf5 Y hff5 hfind5 hlook5 hYfold rfl,
    hYid]

/-- The path addresses no folder below the favorites root: createFaveSubfolder
and the two calls of updateNullItemInFaveSubfolder that addFave makes leave a
folder that the lookup of the path returns, with a placeholder as its one
row. -/
theorem addFave_empty_new (env : Env)
    (hEnv : ∀ x, env.folderText x = env.removeWarningPrefix x) (s : FiltersView)
    (path : List String) (ff : Nat)
    (hinvF : s.Inv (flaggedInv s._faveFolder)) (hinvN : s.Inv namesInv)
    (hff : s._faveFolder = some ff)
    (hnone : s.getFaveSubfolderFromPath env path = none) :
    ∃ p Y a, (s.createFaveSubfolder env path).2 = some p ∧
      (((s.createFaveSubfolder env path).1.updateNullItemInFaveSubfolder
        ((s.createFaveSubfolder env path).1.parentFolder p)).updateNullItemInFaveSubfolder
        (some p)).getFaveSubfolderFromPath env path = some p ∧
      (((s.createFaveSubfolder env path).1.updateNullItemInFaveSubfolder
        ((s.createFaveSubfolder env path).1.parentFolder p)).updateNullItemInFaveSubfolder
        (some p)).root.find? p = some Y ∧
      Y.isFolder = true ∧ Y.rows = [newNullItem a] := by
  obtain ⟨ffItem, hffi, _, _, _⟩ := faveFolder_find_of_inv s hinvF ff hff
  have hwf := hinvF.1
  have hffid := Item.find?_id ff s.root ffItem hffi
  cases path with
  | nil => simp [FiltersView.getFaveSubfolderFromPath, hff] at hnone
  | cons seg rest =>
    have hlnone : getFolderFromPath env ffItem (seg :: rest) = none := by
      cases hl : getFolderFromPath env ffItem (seg :: rest) with
      | none => rfl
      | some Z =>
        have := getFaveSubfolderFromPath_of_lookup env s _ ff ffItem Z hff hffi hl
          (getFolderFromPath_isFolder env rest seg _ Z hl) rfl
        rw [hnone] at this
        cases this
    -- the folders of the path are created
    have hcreate := createFolderAt_of_find? env s ff (seg :: rest) ffItem hffi
    obtain ⟨X, hlook, hXid⟩ :=
      getFolderFromPath_createFolder env hEnv s._isInSelectionMode (seg :: rest) ffItem s.nextAddr
    have hXrows := createFolder_fresh env hEnv s._isInSelectionMode (seg :: rest) ffItem
      s.nextAddr X hlnone hlook
    have hXfold : X.isFolder = true := getFolderFromPath_isFolder env rest seg _ X hlook
    have hevF := createFolderAt_evolves (flaggedInv (some ff)) env (fun h => h.elim) s (some ff)
      (seg :: rest)
    have hevN := createFolderAt_evolves namesInv env (fun _ => hEnv) s (some ff) (seg :: rest)
    rw [hcreate] at hevF hevN
    have hF2 := inv_of_evolves hevF (hff ▸ hinvF)
    have hN2 := inv_of_evolves hevN hinvN
    have hwf2 := hF2.1
    have hcfid : (createFolder env s._isInSelectionMode (seg :: rest) ffItem s.nextAddr).1.id =
        ff := by
      rw [Item.id, createFolder_d]; exact hffid
    have hff2 : (s.root.modify ff (fun _ =>
        (createFolder env s._isInSelectionMode (seg :: rest) ffItem s.nextAddr).1)).find? ff =
        some (createFolder env s._isInSelectionMode (seg :: rest) ffItem s.nextAddr).1 := by
      rw [Item.find?_modify ff
        (fun _ => (createFolder env s._isInSelectionMode (seg :: rest) ffItem s.nextAddr).1)
        (fun _ _ => hcfid), hffi]
      rfl
    have hXin := getFolderFromPath_mem_items env (seg :: rest) _ X hlook
    have hXroot := Item.mem_items_trans hXin (Item.find?_mem_items ff _ _ hff2)
    have hX2 := Item.find?_of_mem_items _ hwf2.1 X hXroot
    rw [hXid] at hX2
    rw [createFaveSubfolder_eq env s _ (seg :: rest) ff _ X hff hcreate hX2 hXfold]
    obtain ⟨Y, a, h1, h2, h3, h4⟩ := track_new_folder env _ ff _ seg rest _ X hF2 hN2 hff hff2
      hlook hXid hXrows
    exact ⟨_, Y, a, rfl, h1, h2, h3, h4⟩

/-- addFave with an empty name on a view that has its favorites root: the
favorites root is there afterwards, the lookup of the path returns a folder,
and that folder is the one the path addressed before, with its data and the
rows `updateNullRows`, or, when the path addressed none, a folder with a
placeholder as its one row. -/
theorem addFave_empty_folder (env : Env)
    (hEnv : ∀ x, env.folderText x = env.removeWarningPrefix x) (s : FiltersView)
    (hash : String) (path : List String) (ff : Nat)
    (hinvF : s.Inv (flaggedInv s._faveFolder)) (hinvN : s.Inv namesInv)
    (hff : s._faveFolder = some ff)
    (hgate : (!s._isInSelectionMode && !filterIsVisible s.visibilityMap hash) = false) :
    (∃ R, (s.addFave env "" hash path)._faveFolder = some ff ∧
      (s.addFave env "" hash path).root.find? ff = some R ∧
      R ∈ (s.addFave env "" hash path).root.rows ∧ R.isFolder = true ∧
      R.d.isFaveFolder = true) ∧
    ∃ F Fi2, (s.addFave env "" hash path).getFaveSubfolderFromPath env path = some F ∧
      (s.addFave env "" hash path).root.find? F = some Fi2 ∧ Fi2.isFolder = true ∧
      ((∃ Fi, s.getFaveSubfolderFromPath env path = some F ∧ s.root.find? F = some Fi ∧
          Fi2 = Item.node Fi.d (updateNullRows Fi.rows s.nextAddr)) ∨
        (s.getFaveSubfolderFromPath env path = none ∧ ∃ a, Fi2.rows = [newNullItem a])) := by
  have hffn : s._faveFolder.isNone = false := by rw [hff]; rfl
  constructor
  · have hev := addFave_evolves (flaggedInv (some ff)) env (fun h => h.elim) s "" hash path hffn
    have hinv2 := inv_of_evolves hev (hff ▸ hinvF)
    have hff2 : (s.addFave env "" hash path)._faveFolder = some ff := hev.1.trans hff
    obtain ⟨R, h1, h2, h3, h4⟩ := faveFolder_find_of_inv _ (hff2 ▸ hinv2) ff hff2
    exact ⟨R, hff2, h1, h2, h3, h4⟩
  · cases hfound : s.getFaveSubfolderFromPath env path with
    | some F =>
      rw [addFave_empty_found env s hash path F hffn hgate hfound]
      obtain ⟨Fi, h1, h2, h3, h4⟩ := addFave_empty_existing env s path ff F hinvF hff hfound
      exact ⟨F, _, h3, h4, h2, Or.inl ⟨Fi, rfl, h1, rfl⟩⟩
    | none =>
      obtain ⟨p, Y, a, h1, h2, h3, h4, h5⟩ :=
        addFave_empty_new env hEnv s path ff hinvF hinvN hff hfound
      rw [addFave_empty_created env s hash path p hffn hgate hfound h1]
      exact ⟨p, Y, h2, h3, h4, Or.inr ⟨rfl, a, h5⟩⟩

/-! ## C11: addFave with an empty name, as a whole -/

/-- The favorites root that createFaveFolder makes is in the tree, at the
address that was free, without rows. -/
theorem createFaveFolder_find (env : Env) (s : FiltersView) (hff : s._faveFolder = none)
    (hwf : (s.createFaveFolder env).WF) :
    (s.createFaveFolder env)._faveFolder = some s.nextAddr ∧
    (s.createFaveFolder env).root.find? s.nextAddr = some (Item.node
      { (newFolder env s.nextAddr env.faveFolderText).d with isFaveFolder := true } []) := by
  rw [createFaveFolder_eq env s hff] at hwf ⊢
  refine ⟨rfl, ?_⟩
  have h1 : Item.node { (newFolder env s.nextAddr env.faveFolderText).d with isFaveFolder := true }
      [] ∈ Item.items (s.root.appendRow (Item.node
        { (newFolder env s.nextAddr env.faveFolderText).d with isFaveFolder := true } [])) := by
    apply Item.mem_items_of_mem_rows
    simp [Item.appendRow]
  have h2 := Item.sortChildren_mem_items env.lessThan _ _ h1
  exact Item.find?_of_mem_items _ hwf.1 _ h2

/-- C11 (as the code has it). Where a new folder shows its name without the
warning prefix, in a well-formed view in which `_faveFolder` refers to the one
folder flagged isFaveFolder and sibling folders have distinct names, for every
path and every hash that passes the visibility test (selection mode, or the
hash is visible), addFave with an empty name:
* creates no filter leaf: the addresses of the filter leaves afterwards are
  among those before;
* leaves the favorites root in the tree: `_faveFolder` refers to a folder
  flagged isFaveFolder among the rows of the invisible root;
* leaves a folder `F` that getFaveSubfolderFromPath(path) returns. When the
  path addressed a folder before, `F` is that folder, with the same data, and
  its rows are `updateNullRows` of the rows it had: one new placeholder when it
  had no row, the rows without the first one when that was a placeholder and
  other rows followed it, the rows it had otherwise. When the path addressed no
  folder before, `F` has one row, a placeholder. -/
theorem addFave_empty_name (env : Env)
    (hEnv : ∀ x, env.folderText x = env.removeWarningPrefix x) (s : FiltersView)
    (hash : String) (path : List String)
    (hinvF : s.Inv (flaggedInv s._faveFolder)) (hinvN : s.Inv namesInv)
    (hgate : (!s._isInSelectionMode && !filterIsVisible s.visibilityMap hash) = false) :
    (s.addFave env "" hash path).root.leafIds ⊆ s.root.leafIds ∧
    (∃ ff R, (s.addFave env "" hash path)._faveFolder = some ff ∧
      (s.addFave env "" hash path).root.find? ff = some R ∧
      R ∈ (s.addFave env "" hash path).root.rows ∧ R.isFolder = true ∧
      R.d.isFaveFolder = true) ∧
    ∃ F Fi2, (s.addFave env "" hash path).getFaveSubfolderFromPath env path = some F ∧
      (s.addFave env "" hash path).root.find? F = some Fi2 ∧ Fi2.isFolder = true ∧
      ((∃ Fi, s.getFaveSubfolderFromPath env path = some F ∧ s.root.find? F = some Fi ∧
          Fi2 = Item.node Fi.d (updateNullRows Fi.rows s.nextAddr)) ∨
        (s.getFaveSubfolderFromPath env path = none ∧ ∃ a, Fi2.rows = [newNullItem a])) := by
  cases hff : s._faveFolder with
  | some ff =>
    obtain ⟨⟨R, h1⟩, h2⟩ := addFave_empty_folder env hEnv s hash path ff hinvF hinvN hff hgate
    exact ⟨addFave_empty_leafIds env hEnv s hash path (by rw [hff]; rfl), ⟨ff, R, h1⟩, h2⟩
  | none =>
    have hpair := createFaveFolder_pair env s hff ⟨hinvF, fun _ => hinvN⟩
    obtain ⟨hff1, hfind1⟩ := createFaveFolder_find env s hff hpair.1.1
    have hgate1 : (!(s.createFaveFolder env)._isInSelectionMode &&
        !filterIsVisible (s.createFaveFolder env).visibilityMap hash) = false := by
      rw [createFaveFolder_eq env s hff]; exact hgate
    have hnone : s.getFaveSubfolderFromPath env path = none := by
      simp only [FiltersView.getFaveSubfolderFromPath, hff]
    rw [addFave_of_none env s "" hash path hff hgate]
    obtain ⟨⟨R, h1⟩, F, Fi2, h2, h3, h4, h5⟩ := addFave_empty_folder env hEnv
      (s.createFaveFolder env) hash path s.nextAddr hpair.1 (hpair.2 hEnv) hff1 hgate1
    refine ⟨?_, ⟨s.nextAddr, R, h1⟩, F, Fi2, h2, h3, h4, Or.inr ⟨hnone, ?_⟩⟩
    · exact (addFave_empty_leafIds env hEnv (s.createFaveFolder env) hash path
        (by rw [hff1]; rfl)).trans (createFaveFolder_leafIds env s)
    · rcases h5 with ⟨Fi, h6, h7, h8⟩ | ⟨_, h6⟩
      · cases hp : path.isEmpty with
        | true =>
          have hF : s.nextAddr = F := by
            simpa [FiltersView.getFaveSubfolderFromPath, hff1, hp] using h6
          subst hF
          rw [hfind1] at h7
          simp only [Option.some.injEq] at h7
          subst h7
          exact ⟨(s.createFaveFolder env).nextAddr, by rw [h8]; rfl⟩
        | false =>
          obtain ⟨Y, hl, _, _⟩ := lookup_of_getFaveSubfolderFromPath env _ path s.nextAddr F _
            hff1 hfind1 hp h6
          cases path with
          | nil => cases hp
          | cons seg rest => simp [getFolderFromPath] at hl
      · exact h6

set_option maxRecDepth 100000 in
theorem addFave_empty_name_witness :
    (((FiltersView.init []).addFave sampleEnv "Blur" "h1" ["A"]).addFave sampleEnv "" "h2"
        ["A", "B"]).root.leafIds ⊆
      ((FiltersView.init []).addFave sampleEnv "Blur" "h1" ["A"]).root.leafIds ∧
    (∃ ff R, (((FiltersView.init []).addFave sampleEnv "Blur" "h1" ["A"]).addFave sampleEnv ""
        "h2" ["A", "B"])._faveFolder = some ff ∧
      (((FiltersView.init []).addFave sampleEnv "Blur" "h1" ["A"]).addFave sampleEnv "" "h2"
        ["A", "B"]).root.find? ff = some R ∧
      R ∈ (((FiltersView.init []).addFave sampleEnv "Blur" "h1" ["A"]).addFave sampleEnv "" "h2"
        ["A", "B"]).root.rows ∧ R.isFolder = true ∧ R.d.isFaveFolder = true) ∧
    ∃ F Fi2, (((FiltersView.init []).addFave sampleEnv "Blur" "h1" ["A"]).addFave sampleEnv ""
        "h2" ["A", "B"]).getFaveSubfolderFromPath sampleEnv ["A", "B"] = some F ∧
      (((FiltersView.init []).addFave sampleEnv "Blur" "h1" ["A"]).addFave sampleEnv "" "h2"
        ["A", "B"]).root.find? F = some Fi2 ∧ Fi2.isFolder = true ∧
      ((∃ Fi, ((FiltersView.init []).addFave sampleEnv "Blur" "h1"
            ["A"]).getFaveSubfolderFromPath sampleEnv ["A", "B"] = some F ∧
          ((FiltersView.init []).addFave sampleEnv "Blur" "h1" ["A"]).root.find? F = some Fi ∧
          Fi2 = Item.node Fi.d (updateNullRows Fi.rows
            ((FiltersView.init []).addFave sampleEnv "Blur" "h1" ["A"]).nextAddr)) ∨
        (((FiltersView.init []).addFave sampleEnv "Blur" "h1"
            ["A"]).getFaveSubfolderFromPath sampleEnv ["A", "B"] = none ∧
          ∃ a, Fi2.rows = [newNullItem a])) :=
  addFave_empty_name sampleEnv (fun _ => rfl)
    ((FiltersView.init []).addFave sampleEnv "Blur" "h1" ["A"]) "h2" ["A", "B"]
    (reachable_inv sampleEnv _
      (FiltersView.Reachable.addFave "Blur" "h1" ["A"] (FiltersView.Reachable.init []))).1
    ((reachable_inv sampleEnv _
      (FiltersView.Reachable.addFave "Blur" "h1" ["A"] (FiltersView.Reachable.init []))).2
      (fun _ => rfl))
    (by rfl)

set_option maxRecDepth 100000 in
/-- C11, as stated, fails for a folder that holds a placeholder in row 0
beside another row. With an order that leaves the rows in place (operator<
is not in src/), addFave("", "", [A]) and addFave("", "", [A, B, C]) on the
empty view leave the favorites subfolder A (address 2) with the rows
placeholder (address 3) and folder B (address 4). A has a real entry.
addFave("", "", [A]) then calls updateNullItemInFaveSubfolder(A), which removes
row 0: A is left with the row B alone, not with the children it had. -/
theorem addFave_empty_drops_placeholder :
    FiltersView.Reachable { sampleEnv with lessThan := fun _ _ => false }
      (((FiltersView.init []).addFave { sampleEnv with lessThan := fun _ _ => false } "" ""
        ["A"]).addFave { sampleEnv with lessThan := fun _ _ => false } "" "" ["A", "B", "C"]) ∧
    (((FiltersView.init []).addFave { sampleEnv with lessThan := fun _ _ => false } "" ""
        ["A"]).addFave { sampleEnv with lessThan := fun _ _ => false } "" ""
        ["A", "B", "C"]).getFaveSubfolderFromPath
        { sampleEnv with lessThan := fun _ _ => false } ["A"] = some 2 ∧
    ((((FiltersView.init []).addFave { sampleEnv with lessThan := fun _ _ => false } "" ""
        ["A"]).addFave { sampleEnv with lessThan := fun _ _ => false } "" ""
        ["A", "B", "C"]).root.find? 2).map (fun f => f.rows.map (fun c => (c.id, c.kind))) =
      some [(3, Kind.NullItem), (4, Kind.Folder)] ∧
    ((((FiltersView.init []).addFave { sampleEnv with lessThan := fun _ _ => false } "" ""
        ["A"]).addFave { sampleEnv with lessThan := fun _ _ => false } "" ""
        ["A", "B", "C"]).addFave { sampleEnv with lessThan := fun _ _ => false } "" ""
        ["A"]).getFaveSubfolderFromPath
        { sampleEnv with lessThan := fun _ _ => false } ["A"] = some 2 ∧
    (((((FiltersView.init []).addFave { sampleEnv with lessThan := fun _ _ => false } "" ""
        ["A"]).addFave { sampleEnv with lessThan := fun _ _ => false } "" ""
        ["A", "B", "C"]).addFave { sampleEnv with lessThan := fun _ _ => false } "" ""
        ["A"]).root.find? 2).map (fun f => f.rows.map (fun c => (c.id, c.kind))) =
      some [(4, Kind.Folder)] := by
  refine ⟨FiltersView.Reachable.addFave "" "" ["A", "B", "C"]
    (FiltersView.Reachable.addFave "" "" ["A"] (FiltersView.Reachable.init [])), ?_, ?_, ?_, ?_⟩
    <;> rfl

/-! ## C22: removeFave of a hash that is not a favorite -/

/-- When no filter leaf below the favorites root carries the hash, findFave
finds nothing. -/
theorem findFave_eq_none_of_absent (s : FiltersView) (hash : String)
    (h : ∀ ff ffItem, s._faveFolder = some ff → s.root.find? ff = some ffItem →
      ∀ y ∈ Item.itemsRows ffItem.rows, ¬ (y.kind = Kind.FilterItem ∧ y.hash = hash)) :
    s.findFave hash = none := by
  cases hf : s.findFave hash with
  | none => rfl
  | some leaf =>
    obtain ⟨ff, ffItem, h1, h2, h3⟩ := findFave_unfold s hash leaf hf
    obtain ⟨h4, h5, h6⟩ := Item.findFave_mem hash ffItem leaf h3
    exact absurd ⟨h5, h6⟩ (h ff ffItem h1 h2 leaf h4)

/-- C22. For every state and every hash for which findFave answers not-found,
removeFave returns the state it was given: the tree (placeholders included),
`_faveFolder`, the cache, the mode, the visibility map and the allocator are
the same. findFave answers not-found in every state without a favorites root,
and in every state where no filter leaf below the favorites root carries the
hash. -/
theorem removeFave_not_found (s : FiltersView) (hash : String) :
    (s.findFave hash = none → s.removeFave hash = s) ∧
    (s._faveFolder = none → s.findFave hash = none ∧ s.removeFave hash = s) ∧
    ((∀ ff ffItem, s._faveFolder = some ff → s.root.find? ff = some ffItem →
        ∀ y ∈ Item.itemsRows ffItem.rows, ¬ (y.kind = Kind.FilterItem ∧ y.hash = hash)) →
      s.findFave hash = none ∧ s.removeFave hash = s) := by
  have h0 : s.findFave hash = none → s.removeFave hash = s := by
    intro h
    simp only [FiltersView.removeFave, h]
  refine ⟨h0, ?_, ?_⟩
  · intro hff
    have h1 : s.findFave hash = none := by
      simp only [FiltersView.findFave, hff, Option.none_bind]
    exact ⟨h1, h0 h1⟩
  · intro h
    have h1 := findFave_eq_none_of_absent s hash h
    exact ⟨h1, h0 h1⟩

set_option maxRecDepth 100000 in
theorem removeFave_not_found_witness :
    (((FiltersView.init []).addFilter sampleEnv "Blur" "h1" ["Effects"] false).addFave sampleEnv
        "Blur" "h2" ["A", "B"]).removeFave "h1" =
      ((FiltersView.init []).addFilter sampleEnv "Blur" "h1" ["Effects"] false).addFave sampleEnv
        "Blur" "h2" ["A", "B"] ∧
    ((FiltersView.init []).addFilter sampleEnv "Blur" "h1" ["Effects"] false).removeFave "h1" =
      (FiltersView.init []).addFilter sampleEnv "Blur" "h1" ["Effects"] false :=
  ⟨(removeFave_not_found
      (((FiltersView.init []).addFilter sampleEnv "Blur" "h1" ["Effects"] false).addFave sampleEnv
        "Blur" "h2" ["A", "B"]) "h1").1 (by rfl),
   ((removeFave_not_found
      ((FiltersView.init []).addFilter sampleEnv "Blur" "h1" ["Effects"] false) "h1").2.1
      (by rfl)).2⟩

/-! ## C23: updateFaveItem changes one leaf -/

namespace Item

theorem withTextAndHashRows_eq_map (p : Nat) (n h : String) : ∀ (rows : List Item),
    withTextAndHashRows p n h rows = rows.map (withTextAndHash p n h)
  | [] => rfl
  | x :: xs => by
    rw [withTextAndHashRows, withTextAndHashRows_eq_map p n h xs, List.map_cons]

theorem withTextAndHash_id (p : Nat) (n h : String) (t : Item) :
    (withTextAndHash p n h t).id = t.id := by
  cases t with
  | node d rows =>
    simp only [withTextAndHash, Item.id, Item.d]
    split_ifs <;> rfl

theorem withTextAndHash_d (p : Nat) (n h : String) (t : Item) :
    (withTextAndHash p n h t).d =
      if t.id = p then { t.d with text := n, hash := h } else t.d := by
  cases t with
  | node d rows => simp only [withTextAndHash, Item.id, Item.d]

theorem withTextAndHash_rows (p : Nat) (n h : String) (t : Item) :
    (withTextAndHash p n h t).rows = t.rows.map (withTextAndHash p n h) := by
  cases t with
  | node d rows => simp only [withTextAndHash, Item.rows, withTextAndHashRows_eq_map]

/-- The addresses of the rows of an item, in order, are what they were. -/
theorem withTextAndHash_rows_ids (p : Nat) (n h : String) (t : Item) :
    (withTextAndHash p n h t).rows.map Item.id = t.rows.map Item.id := by
  rw [withTextAndHash_rows, List.map_map]
  apply List.map_congr_left
  intro x _
  exact withTextAndHash_id p n h x

theorem withTextAndHash_of_not_mem (p : Nat) (n h : String) : ∀ (t : Item), p ∉ ids t →
    withTextAndHash p n h t = t := by
  intro t
  induction t using Item.ind with
  | h d rows ih =>
    intro hp
    rw [ids_eq] at hp
    have hd : ¬ d.id = p := fun e => hp (by rw [← e]; exact List.mem_cons_self _ _)
    have hr : rows.map (withTextAndHash p n h) = rows := by
      conv_rhs => rw [← List.map_id rows]
      apply List.map_congr_left
      intro x hx
      exact ih x hx (fun hpx => hp (List.mem_cons_of_mem _ (mem_idsRows.2 ⟨x, hx, hpx⟩)))
    simp only [withTextAndHash, if_neg hd, withTextAndHashRows_eq_map, hr]

theorem modifyRows_eq_withTextAndHash (p : Nat) (n h : String) : ∀ (rows : List Item),
    (idsRows rows).Nodup →
    (∀ x ∈ rows, (ids x).Nodup →
      modify p (fun i => node { i.d with text := n, hash := h } i.rows) x =
        withTextAndHash p n h x) →
    modifyRows p (fun i => node { i.d with text := n, hash := h } i.rows) rows =
      rows.map (withTextAndHash p n h)
  | [], _, _ => rfl
  | x :: xs, hn, ih => by
    have hn2 : (ids x ++ idsRows xs).Nodup := by simpa [idsRows] using hn
    obtain ⟨hnx, hnxs, hdis⟩ := List.nodup_append.1 hn2
    cases hfind : find? p x with
    | some b =>
      have hp : p ∈ ids x := by
        have h1 := find?_id p x b hfind
        have h2 := id_mem_ids_of_mem_items (find?_mem_items p x b hfind)
        rw [h1] at h2
        exact h2
      have hxs : xs.map (withTextAndHash p n h) = xs := by
        conv_rhs => rw [← List.map_id xs]
        apply List.map_congr_left
        intro y hy
        exact withTextAndHash_of_not_mem p n h y
          (fun hpy => hdis hp (mem_idsRows.2 ⟨y, hy, hpy⟩))
      simp only [modifyRows, hfind, List.map_cons, hxs, ih x (List.mem_cons_self _ _) hnx]
    | none =>
      have hx : withTextAndHash p n h x = x :=
        withTextAndHash_of_not_mem p n h x (find?_none_not_mem p x hfind)
      simp only [modifyRows, hfind, List.map_cons, hx]
      rw [modifyRows_eq_withTextAndHash p n h xs hnxs
        (fun y hy => ih y (List.mem_cons_of_mem _ hy))]

/-- With unique addresses, setText and setHash through the pointer `p` leave
the tree of the words of the specification: the text and the hash at `p`
replaced, and nothing else. -/
theorem modify_eq_withTextAndHash (p : Nat) (n h : String) : ∀ (t : Item), (ids t).Nodup →
    modify p (fun i => node { i.d with text := n, hash := h } i.rows) t =
      withTextAndHash p n h t := by
  intro t
  induction t using Item.ind with
  | h d rows ih =>
    intro hn
    obtain ⟨hd, hnr⟩ := nodup_ids_node hn
    by_cases hdp : d.id = p
    · have hr : rows.map (withTextAndHash p n h) = rows := by
        conv_rhs => rw [← List.map_id rows]
        apply List.map_congr_left
        intro x hx
        exact withTextAndHash_of_not_mem p n h x
          (fun hpx => hd (hdp ▸ mem_idsRows.2 ⟨x, hx, hpx⟩))
      simp only [modify, if_pos hdp, withTextAndHash, withTextAndHashRows_eq_map, hr, Item.d,
        Item.rows]
    · simp only [modify, if_neg hdp, withTextAndHash, withTextAndHashRows_eq_map]
      rw [modifyRows_eq_withTextAndHash p n h rows hnr (fun x hx hnx => ih x hx hnx)]

theorem findRows?_map_withTextAndHash (p q : Nat) (n h : String) : ∀ (rows : List Item),
    (∀ x ∈ rows, find? q (withTextAndHash p n h x) = (find? q x).map (withTextAndHash p n h)) →
    findRows? q (rows.map (withTextAndHash p n h)) =
      (findRows? q rows).map (withTextAndHash p n h)
  | [], _ => rfl
  | x :: xs, ih => by
    simp only [List.map_cons, findRows?, ih x (List.mem_cons_self _ _)]
    cases hx : find? q x with
    | some r => rfl
    | none =>
      simp only [Option.map_none']
      exact findRows?_map_withTextAndHash p q n h xs (fun y hy => ih y (List.mem_cons_of_mem _ hy))

/-- The item at an address in the tree with the text and hash replaced is the
item that was there, with the text and hash replaced in it. -/
theorem find?_withTextAndHash (p q : Nat) (n h : String) : ∀ (t : Item),
    find? q (withTextAndHash p n h t) = (find? q t).map (withTextAndHash p n h) := by
  intro t
  induction t using Item.ind with
  | h d rows ih =>
    have hW : withTextAndHash p n h (node d rows) =
        node (if d.id = p then { d with text := n, hash := h } else d)
          (rows.map (withTextAndHash p n h)) := by
      simp only [withTextAndHash, withTextAndHashRows_eq_map]
    have hid : (if d.id = p then { d with text := n, hash := h } else d).id = d.id := by
      split_ifs <;> rfl
    by_cases hq : d.id = q
    · have e1 : find? q (node d rows) = some (node d rows) := by simp [find?, hq]
      rw [e1, Option.map_some', hW]
      rw [find?, if_pos (hid.trans hq)]
    · have e1 : find? q (node d rows) = findRows? q rows := by simp [find?, hq]
      rw [e1, ← findRows?_map_withTextAndHash p q n h rows ih, hW]
      rw [find?, if_neg (fun e => hq (hid.symm.trans e))]

theorem idsRows_map_withTextAndHash (p : Nat) (n h : String) : ∀ (rows : List Item),
    (∀ x ∈ rows, ids (withTextAndHash p n h x) = ids x) →
    idsRows (rows.map (withTextAndHash p n h)) = idsRows rows
  | [], _ => rfl
  | x :: xs, ih => by
    simp only [List.map_cons, idsRows, ih x (List.mem_cons_self _ _),
      idsRows_map_withTextAndHash p n h xs (fun y hy => ih y (List.mem_cons_of_mem _ hy))]

theorem ids_withTextAndHash (p : Nat) (n h : String) : ∀ (t : Item),
    ids (withTextAndHash p n h t) = ids t := by
  intro t
  induction t using Item.ind with
  | h d rows ih =>
    rw [ids_eq, ids_eq, withTextAndHash_id, withTextAndHash_rows]
    simp only [Item.rows_node]
    rw [idsRows_map_withTextAndHash p n h rows ih]

end Item

/-- C23. With unique addresses, updateFaveItem(currentHash, newHash, newName)
returns the state it was given when findFave(currentHash) finds nothing (so
when no filter leaf below the favorites root carries currentHash). Otherwise
the leaf findFave returns is a filter leaf of the tree with hash currentHash,
and the state afterwards is the state before with, in the tree, the text and
the hash at the address of that leaf replaced by newName and newHash and
nothing else: that leaf keeps its rows and the rest of its data, every other
address holds an item with the data it had, every item has the rows it had at
the positions they had (the same addresses in the same order), and the
addresses of the tree are the same in the same depth-first order. -/
theorem updateFaveItem_spec (s : FiltersView) (currentHash newHash newName : String)
    (hn : (Item.ids s.root).Nodup) :
    (s.findFave currentHash = none → s.updateFaveItem currentHash newHash newName = s) ∧
    ((∀ ff ffItem, s._faveFolder = some ff → s.root.find? ff = some ffItem →
        ∀ y ∈ Item.itemsRows ffItem.rows,
          ¬ (y.kind = Kind.FilterItem ∧ y.hash = currentHash)) →
      s.updateFaveItem currentHash newHash newName = s) ∧
    (∀ leaf, s.findFave currentHash = some leaf →
      leaf.kind = Kind.FilterItem ∧ leaf.hash = currentHash ∧
      s.root.find? leaf.id = some leaf ∧
      s.updateFaveItem currentHash newHash newName =
        { s with root := s.root.withTextAndHash leaf.id newName newHash } ∧
      (s.updateFaveItem currentHash newHash newName).root.find? leaf.id =
        some (Item.node { leaf.d with text := newName, hash := newHash } leaf.rows) ∧
      (∀ q, q ≠ leaf.id →
        ((s.updateFaveItem currentHash newHash newName).root.find? q).map Item.d =
          (s.root.find? q).map Item.d) ∧
      (∀ q, ((s.updateFaveItem currentHash newHash newName).root.find? q).map
          (fun x => x.rows.map Item.id) = (s.root.find? q).map (fun x => x.rows.map Item.id)) ∧
      Item.ids (s.updateFaveItem currentHash newHash newName).root = Item.ids s.root) := by
  have h0 : s.findFave currentHash = none → s.updateFaveItem currentHash newHash newName = s := by
    intro h
    simp only [FiltersView.updateFaveItem, h]
  refine ⟨h0, fun h => h0 (findFave_eq_none_of_absent s currentHash h), ?_⟩
  intro leaf hfind
  obtain ⟨ff, ffItem, hff, hffi, hfave⟩ := findFave_unfold s currentHash leaf hfind
  obtain ⟨hmem, hkind, hhash⟩ := Item.findFave_mem currentHash ffItem leaf hfave
  have hl : leaf ∈ Item.items s.root :=
    Item.mem_items_trans (by rw [Item.items_eq]; exact List.mem_cons_of_mem _ hmem)
      (Item.find?_mem_items ff s.root ffItem hffi)
  have hfl : s.root.find? leaf.id = some leaf := Item.find?_of_mem_items s.root hn leaf hl
  have heq : s.updateFaveItem currentHash newHash newName =
      { s with root := s.root.withTextAndHash leaf.id newName newHash } := by
    simp only [FiltersView.updateFaveItem, hfind]
    rw [Item.modify_eq_withTextAndHash leaf.id newName newHash s.root hn]
  have hroot : (s.updateFaveItem currentHash newHash newName).root =
      s.root.withTextAndHash leaf.id newName newHash := by rw [heq]
  refine ⟨hkind, hhash, hfl, heq, ?_, ?_, ?_, ?_⟩
  · rw [hroot, Item.find?_withTextAndHash, hfl, Option.map_some']
    have hnl : (Item.ids leaf).Nodup := (Item.ids_sublist_of_mem_items s.root leaf hl).nodup hn
    cases leaf with
    | node d rows =>
      obtain ⟨hd, _⟩ := Item.nodup_ids_node hnl
      have hr : rows.map (Item.withTextAndHash d.id newName newHash) = rows := by
        conv_rhs => rw [← List.map_id rows]
        apply List.map_congr_left
        intro x hx
        exact Item.withTextAndHash_of_not_mem d.id newName newHash x
          (fun hpx => hd (Item.mem_idsRows.2 ⟨x, hx, hpx⟩))
      simp only [Item.withTextAndHash, Item.id, Item.d, if_true, Item.withTextAndHashRows_eq_map,
        hr, Item.rows]
  · intro q hq
    rw [hroot, Item.find?_withTextAndHash]
    cases hx : s.root.find? q with
    | none => rfl
    | some x =>
      have hxid := Item.find?_id q s.root x hx
      simp only [Option.map_some', Item.withTextAndHash_d]
      rw [if_neg (fun e => hq (hxid.symm.trans e))]
  · intro q
    rw [hroot, Item.find?_withTextAndHash]
    cases hx : s.root.find? q with
    | none => rfl
    | some x => simp only [Option.map_some', Item.withTextAndHash_rows_ids]
  · rw [hroot, Item.ids_withTextAndHash]

set_option maxRecDepth 100000 in
theorem updateFaveItem_spec_witness :
    ((((FiltersView.init []).addFilter sampleEnv "Blur" "h1" ["Effects"] false).addFave sampleEnv
        "Blur" "h2" ["A", "B"]).updateFaveItem "h1" "h9" "Sharpen" =
      ((FiltersView.init []).addFilter sampleEnv "Blur" "h1" ["Effects"] false).addFave sampleEnv
        "Blur" "h2" ["A", "B"]) ∧
    Item.ids ((((FiltersView.init []).addFilter sampleEnv "Blur" "h1" ["Effects"] false).addFave
        sampleEnv "Blur" "h2" ["A", "B"]).updateFaveItem "h2" "h9" "Sharpen").root =
      Item.ids (((FiltersView.init []).addFilter sampleEnv "Blur" "h1" ["Effects"] false).addFave
        sampleEnv "Blur" "h2" ["A", "B"]).root ∧
    (((((FiltersView.init []).addFilter sampleEnv "Blur" "h1" ["Effects"] false).addFave
        sampleEnv "Blur" "h2" ["A", "B"]).updateFaveItem "h2" "h9" "Sharpen").findFave "h9").map
        (fun x => (x.text, x.hash)) = some ("Sharpen", "h9") :=
  ⟨(updateFaveItem_spec
      (((FiltersView.init []).addFilter sampleEnv "Blur" "h1" ["Effects"] false).addFave sampleEnv
        "Blur" "h2" ["A", "B"]) "h1" "h9" "Sharpen" (by decide)).1 (by rfl),
   ((updateFaveItem_spec
      (((FiltersView.init []).addFilter sampleEnv "Blur" "h1" ["Effects"] false).addFave sampleEnv
        "Blur" "h2" ["A", "B"]) "h2" "h9" "Sharpen" (by decide)).2.2 _ (by rfl)).2.2.2.2.2.2.2,
   by rfl⟩

/-! ## C21: keeping and restoring the expanded folders -/

theorem preserveExpandedFoldersRows_cons (root : Item) (v : TreeView) (x : Item)
    (xs : List Item) (list : List String) :
    Item.preserveExpandedFoldersRows root v (x :: xs) list =
      if x.isFolder then
        Item.preserveExpandedFoldersRows root v xs
          (Item.preserveExpandedFoldersRows root v x.rows
            (if v.isExpanded x.id then list ++ [joinedPath root x.id] else list))
      else Item.preserveExpandedFoldersRows root v xs list := by
  cases x with
  | node d rs =>
    simp only [Item.preserveExpandedFoldersRows, Item.preserveExpandedFolders, Item.isFolder,
      Item.d, Item.rows, Item.id, decide_eq_true_eq, joinedPath]

/-- The walk of preserveExpandedFolders pushes, in depth-first order, the
joined path of every folder reached through folders that is shown
expanded. -/
theorem preserveExpandedFoldersRows_eq (root : Item) (v : TreeView) :
    ∀ (rows : List Item) (list : List String),
      Item.preserveExpandedFoldersRows root v rows list =
        list ++ ((Item.subfoldersRows rows).filter (fun f => v.isExpanded f.id)).map
          (fun f => joinedPath root f.id) := by
  intro rows
  induction rows using Item.rows_ind with
  | hnil => intro list; simp [Item.preserveExpandedFoldersRows, Item.subfoldersRows]
  | hcons x xs ihx ihxs =>
    intro list
    rw [preserveExpandedFoldersRows_cons, subfoldersRows_cons]
    cases hf : x.isFolder with
    | false => simp only [Bool.false_eq_true, if_false]; exact ihxs list
    | true =>
      simp only [if_true]
      rw [ihxs, ihx]
      cases he : v.isExpanded x.id with
      | false =>
        simp only [Bool.false_eq_true, if_false]
        rw [List.filter_cons_of_neg (by simp [he]), List.filter_append, List.map_append,
          List.append_assoc]
      | true =>
        simp only [if_true]
        rw [List.filter_cons_of_pos (by simp [he]), List.filter_append, List.map_cons,
          List.map_append]
        simp only [List.append_assoc, List.singleton_append, List.cons_append, List.nil_append]

theorem preserveExpandedFolders_eq (s : FiltersView) (v : TreeView) (old : List String) :
    s.preserveExpandedFolders v false old =
      ((Item.subfolders s.root).filter (fun f => v.isExpanded f.id)).map
        (fun f => joinedPath s.root f.id) := by
  simp only [FiltersView.preserveExpandedFolders, Bool.false_eq_true, if_false]
  cases hr : s.root with
  | node d rows =>
    simp only [Item.preserveExpandedFolders, Item.subfolders]
    rw [preserveExpandedFoldersRows_eq, List.nil_append]

/-- The state of an address after preserveExpandedFolders and
restoreExpandedFolders, with the model enabled. -/
theorem isExpanded_round_trip (s : FiltersView) (v : TreeView) (old : List String) (b : Nat) :
    (s.restoreExpandedFolders (s.preserveExpandedFolders v false old) v).isExpanded b =
      if b ∈ (Item.subfolders s.root).map Item.id then
        decide (∃ g ∈ Item.subfolders s.root, v.isExpanded g.id = true ∧
          joinedPath s.root g.id = joinedPath s.root b)
      else v.isExpanded b := by
  have heq : s.restoreExpandedFolders (s.preserveExpandedFolders v false old) v =
      ((Item.subfolders s.root).map Item.id).foldl
        (expandStep s.root (s.preserveExpandedFolders v false old)) v :=
    Item.expandFolders_eq s.root _ s.root v
  rw [heq, isExpanded_foldl_expandStep]
  by_cases hb : b ∈ (Item.subfolders s.root).map Item.id
  · rw [if_pos hb, if_pos hb, preserveExpandedFolders_eq]
    rw [Bool.eq_iff_iff]
    simp only [List.contains_eq_any_beq, List.any_eq_true, beq_iff_eq, List.mem_map,
      List.mem_filter, decide_eq_true_eq, joinedPath]
    constructor
    · rintro ⟨p, ⟨g, ⟨hg, he⟩, hp⟩, hpb⟩
      exact ⟨g, hg, he, hp.trans hpb.symm⟩
    · rintro ⟨g, hg, he, hp⟩
      exact ⟨_, ⟨g, ⟨hg, he⟩, rfl⟩, hp.symm⟩
  · rw [if_neg hb, if_neg hb]

/-- C21 (as the code has it). With the model enabled, for every tree, every
state of the view and every former value of the stored list,
preserveExpandedFolders() then restoreExpandedFolders() leaves a folder reached
through folders expanded exactly when some folder reached through folders
that was expanded has the same joined path (itself, or another folder with the
same path string); an address that is not such a folder keeps its state, and
the selection is untouched. So when the folders that share a joined path were
in the same state, and in particular when no two folders share a joined path,
every address has the state it had before the two calls. -/
theorem expanded_round_trip (s : FiltersView) (v : TreeView) (old : List String) :
    (∀ f ∈ Item.subfolders s.root,
      ((s.restoreExpandedFolders (s.preserveExpandedFolders v false old) v).isExpanded f.id = true ↔
        ∃ g ∈ Item.subfolders s.root, v.isExpanded g.id = true ∧
          joinedPath s.root g.id = joinedPath s.root f.id)) ∧
    (∀ a, a ∉ (Item.subfolders s.root).map Item.id →
      (s.restoreExpandedFolders (s.preserveExpandedFolders v false old) v).isExpanded a =
        v.isExpanded a) ∧
    ((∀ f ∈ Item.subfolders s.root, ∀ g ∈ Item.subfolders s.root,
        joinedPath s.root f.id = joinedPath s.root g.id → v.isExpanded f.id = v.isExpanded g.id) →
      ∀ a, (s.restoreExpandedFolders (s.preserveExpandedFolders v false old) v).isExpanded a =
        v.isExpanded a) ∧
    (s.restoreExpandedFolders (s.preserveExpandedFolders v false old) v).currentIndex =
      v.currentIndex := by
  refine ⟨?_, ?_, ?_, ?_⟩
  · intro f hf
    rw [isExpanded_round_trip, if_pos (List.mem_map_of_mem _ hf), decide_eq_true_eq]
  · intro a ha
    rw [isExpanded_round_trip, if_neg ha]
  · intro hsame a
    rw [isExpanded_round_trip]
    by_cases ha : a ∈ (Item.subfolders s.root).map Item.id
    · rw [if_pos ha]
      obtain ⟨f, hf, rfl⟩ := List.mem_map.1 ha
      rw [Bool.eq_iff_iff, decide_eq_true_eq]
      constructor
      · rintro ⟨g, hg, he, hp⟩
        rw [hsame f hf g hg hp.symm]; exact he
      · intro he
        exact ⟨f, hf, he, rfl⟩
    · rw [if_neg ha]
  · have heq : s.restoreExpandedFolders (s.preserveExpandedFolders v false old) v =
        ((Item.subfolders s.root).map Item.id).foldl
          (expandStep s.root (s.preserveExpandedFolders v false old)) v :=
      Item.expandFolders_eq s.root _ s.root v
    rw [heq]
    exact (expandStep_frame s.root _ _ v).1

set_option maxRecDepth 100000 in
theorem expanded_round_trip_witness :
    ((((FiltersView.init []).addFilter sampleEnv "Blur" "h1" ["Effects", "Blur"] false).addFilter
        sampleEnv "Noise" "h2" ["Other"] false).restoreExpandedFolders
      ((((FiltersView.init []).addFilter sampleEnv "Blur" "h1" ["Effects", "Blur"] false).addFilter
        sampleEnv "Noise" "h2" ["Other"] false).preserveExpandedFolders
        { expanded := [2, 99], currentIndex := ModelIndex.invalid, textBeforeEditing := "" }
        false ["Old"])
      { expanded := [2, 99], currentIndex := ModelIndex.invalid, textBeforeEditing := "" }
      ).isExpanded 1 =
    ({ expanded := [2, 99], currentIndex := ModelIndex.invalid, textBeforeEditing := "" } :
      TreeView).isExpanded 1 :=
  (expanded_round_trip
    (((FiltersView.init []).addFilter sampleEnv "Blur" "h1" ["Effects", "Blur"] false).addFilter
      sampleEnv "Noise" "h2" ["Other"] false)
    { expanded := [2, 99], currentIndex := ModelIndex.invalid, textBeforeEditing := "" }
    ["Old"]).2.2.1 (by decide) 1

set_option maxRecDepth 100000 in
/-- C21, as stated, fails when two folders have the same joined path. After
createFolder([Faves]) and addFave(Blur, h1, []) the invisible root has two
folders with the text Faves, the favorites root (address 2) and the regular
folder (address 1); both have the path [Faves]. With the favorites root
expanded and the regular folder collapsed, preserveExpandedFolders() stores
the one string Faves and restoreExpandedFolders() expands every folder whose
path joins to it: the regular folder is expanded afterwards. -/
theorem round_trip_expands_namesake :
    (((FiltersView.init []).createFolder sampleEnv ["Faves"]).addFave sampleEnv "Blur" "h1"
        []).root.rows.map (fun c => (c.id, c.kind, c.text)) =
      [(2, Kind.Folder, "Faves"), (1, Kind.Folder, "Faves")] ∧
    ({ expanded := [2], currentIndex := ModelIndex.invalid, textBeforeEditing := "" } :
      TreeView).isExpanded 1 = false ∧
    (((FiltersView.init []).createFolder sampleEnv ["Faves"]).addFave sampleEnv "Blur" "h1"
        []).preserveExpandedFolders
        { expanded := [2], currentIndex := ModelIndex.invalid, textBeforeEditing := "" }
        false [] = ["Faves"] ∧
    ((((FiltersView.init []).createFolder sampleEnv ["Faves"]).addFave sampleEnv "Blur" "h1"
        []).restoreExpandedFolders
      ((((FiltersView.init []).createFolder sampleEnv ["Faves"]).addFave sampleEnv "Blur" "h1"
        []).preserveExpandedFolders
        { expanded := [2], currentIndex := ModelIndex.invalid, textBeforeEditing := "" }
        false [])
      { expanded := [2], currentIndex := ModelIndex.invalid, textBeforeEditing := "" }
      ).isExpanded 1 = true := by
  refine ⟨by rfl, by rfl, by rfl, by rfl⟩

/-! ## What createFolder returns -/

/-- The loop of createFolder: the address returned is the one the recursive
call gives, on a row that passes the loop test or on the new folder, and the
row after that call is among the rows. -/
theorem createFolderRows_result (step : Item → Nat → Item × Nat × Nat) (fresh : Nat → Item)
    (found : Item → Bool) : ∀ (rows : List Item) (n : Nat),
    ∃ x m, ((x ∈ rows ∧ found x = true) ∨ x = fresh n) ∧
      (step x m).1 ∈ (createFolderRows step fresh found rows n).1 ∧
      (createFolderRows step fresh found rows n).2 = (step x m).2
  | [], n => ⟨fresh n, n + 1, Or.inr rfl, by simp [createFolderRows], rfl⟩
  | x :: xs, n => by
    by_cases hx : found x = true
    · exact ⟨x, n, Or.inl ⟨List.mem_cons_self _ _, hx⟩, by simp [createFolderRows, hx],
        by simp [createFolderRows, hx]⟩
    · have hx2 : found x = false := by simpa using hx
      obtain ⟨y, m, h1, h2, h3⟩ := createFolderRows_result step fresh found xs n
      refine ⟨y, m, ?_, ?_, ?_⟩
      · rcases h1 with ⟨h1, h4⟩ | h1
        · exact Or.inl ⟨List.mem_cons_of_mem _ h1, h4⟩
        · exact Or.inr h1
      · simp only [createFolderRows, hx2, Bool.false_eq_true, if_false]
        exact List.mem_cons_of_mem _ h2
      · simp only [createFolderRows, hx2, Bool.false_eq_true, if_false]
        exact h3

theorem isFolder_of_isFolderNamed (env : Env) (seg : String) (x : Item)
    (h : isFolderNamed env seg x = true) : x.isFolder = true := by
  simp only [isFolderNamed, Bool.and_eq_true] at h
  exact h.1

theorem isFolder_createFolder (env : Env) (sel : Bool) (path : List String) (parent : Item)
    (n : Nat) : (createFolder env sel path parent n).1.isFolder = parent.isFolder := by
  simp only [Item.isFolder, createFolder_d]

/-- For a path of one segment or more and a parent that is a folder,
createFolder returns the address of a folder that is a row of a folder of the
subtree of the parent. -/
theorem createFolder_returns_folder (env : Env) (sel : Bool) : ∀ (rest : List String)
    (seg : String) (parent : Item) (n : Nat), parent.isFolder = true →
    ∃ B X, B ∈ Item.items (createFolder env sel (seg :: rest) parent n).1 ∧
      B.isFolder = true ∧ X ∈ B.rows ∧
      X.id = (createFolder env sel (seg :: rest) parent n).2.1 ∧ X.isFolder = true := by
  intro rest
  induction rest with
  | nil =>
    intro seg parent n hp
    obtain ⟨x, m, h1, h2, h3⟩ := createFolderRows_result (createFolder env sel [])
      (fun a => if sel then (withCheckbox (newFolder env a seg)).setVisibility true
                else newFolder env a seg)
      (isFolderNamed env seg) parent.rows n
    have hx : x.isFolder = true := by
      rcases h1 with ⟨_, h1⟩ | h1
      · exact isFolder_of_isFolderNamed env seg x h1
      · rw [h1]; exact (fresh_folder_facts env sel seg n).1
    refine ⟨(createFolder env sel [seg] parent n).1, x, Item.self_mem_items _, ?_, ?_, ?_, hx⟩
    · rw [isFolder_createFolder]; exact hp
    · simp only [createFolder, Item.setRows, Item.rows_node] at h2 ⊢
      exact h2
    · simp only [createFolder] at h3 ⊢
      rw [h3]
  | cons seg2 rest ih =>
    intro seg parent n hp
    obtain ⟨x, m, h1, h2, h3⟩ := createFolderRows_result (createFolder env sel (seg2 :: rest))
      (fun a => if sel then (withCheckbox (newFolder env a seg)).setVisibility true
                else newFolder env a seg)
      (isFolderNamed env seg) parent.rows n
    have hx : x.isFolder = true := by
      rcases h1 with ⟨_, h1⟩ | h1
      · exact isFolder_of_isFolderNamed env seg x h1
      · rw [h1]; exact (fresh_folder_facts env sel seg n).1
    obtain ⟨B, X, hB, hBf, hX, hXid, hXf⟩ := ih seg2 x m hx
    have hrow : (createFolder env sel (seg2 :: rest) x m).1 ∈
        (createFolder env sel (seg :: seg2 :: rest) parent n).1.rows := by
      rw [createFolder]
      exact h2
    refine ⟨B, X, Item.mem_items_trans hB (Item.mem_items_of_mem_rows hrow), hBf, hX, ?_, hXf⟩
    rw [hXid]
    conv_rhs => rw [createFolder]
    simp only []
    rw [h3]

/-! ## A row and its parent, through the steps of createFaveSubfolder -/

theorem mem_modifyRows_of_mem (p : Nat) (g : Item → Item) : ∀ (rows : List Item) (X : Item),
    (Item.idsRows rows).Nodup → X ∈ rows → X.id = p → g X ∈ Item.modifyRows p g rows
  | [], _, _, h, _ => by cases h
  | x :: xs, X, hn, hX, hXid => by
    have hn2 : (Item.ids x ++ Item.idsRows xs).Nodup := by simpa [Item.idsRows] using hn
    obtain ⟨_, hnxs, hdis⟩ := List.nodup_append.1 hn2
    rcases List.mem_cons.1 hX with rfl | hX
    · have hf : Item.find? p X = some X := by rw [← hXid]; exact Item.find?_self X
      simp only [Item.modifyRows, hf]
      rw [← hXid, Item.modify_self]
      exact List.mem_cons_self _ _
    · have hpxs : p ∈ Item.idsRows xs :=
        Item.mem_idsRows.2 ⟨X, hX, hXid ▸ Item.id_mem_ids_of_mem_items (Item.self_mem_items X)⟩
      have hf : Item.find? p x = none :=
        Item.find?_none_of_not_mem p x (fun h => hdis h hpxs)
      simp only [Item.modifyRows, hf]
      exact List.mem_cons_of_mem _ (mem_modifyRows_of_mem p g xs X hnxs hX hXid)

/-- A call through the pointer of a row leaves the row, after the call, a row
of its parent, which keeps its data. -/
theorem parent_modify (p : Nat) (g : Item → Item) (hid : ∀ x, x.id = p → (g x).id = p)
    (t B X : Item) (hn : (Item.ids t).Nodup) (hB : B ∈ Item.items t) (hX : X ∈ B.rows)
    (hXid : X.id = p) :
    (B.modify p g) ∈ Item.items (t.modify p g) ∧ (B.modify p g).d = B.d ∧
      g X ∈ (B.modify p g).rows := by
  have hnB : (Item.ids B).Nodup := (Item.ids_sublist_of_mem_items t B hB).nodup hn
  have hpB : p ∈ Item.ids B := by
    rw [Item.ids_eq]
    exact List.mem_cons_of_mem _ (Item.mem_idsRows.2
      ⟨X, hX, hXid ▸ Item.id_mem_ids_of_mem_items (Item.self_mem_items X)⟩)
  have hne : B.id ≠ p := by
    intro e
    have := Item.id_not_mem_ids_of_mem_rows hnB hX
    rw [e, ← hXid] at this
    exact this (Item.id_mem_ids_of_mem_items (Item.self_mem_items X))
  have hfind := Item.find?_modify_ancestor p B.id g hid t B hn
    (Item.find?_of_mem_items t hn B hB) hpB
  refine ⟨Item.find?_mem_items _ _ _ hfind, ?_, ?_⟩
  · cases B with
    | node d rows =>
      have hne2 : ¬ d.id = p := hne
      simp only [Item.modify, if_neg hne2, Item.d]
  · cases B with
    | node d rows =>
      have hne2 : ¬ d.id = p := hne
      obtain ⟨_, hnr⟩ := Item.nodup_ids_node hnB
      simp only [Item.modify, if_neg hne2, Item.rows]
      exact mem_modifyRows_of_mem p g rows X hnr hX hXid

/-- A sort leaves a row, sorted, a row of its parent, sorted. -/
theorem parent_sortChildren (lt : Item → Item → Bool) (t B X : Item) (hB : B ∈ Item.items t)
    (hX : X ∈ B.rows) :
    Item.sortChildren lt B ∈ Item.items (Item.sortChildren lt t) ∧
      (Item.sortChildren lt B).d = B.d ∧
      Item.sortChildren lt X ∈ (Item.sortChildren lt B).rows := by
  refine ⟨Item.sortChildren_mem_items lt t B hB, Item.sortChildren_d lt B, ?_⟩
  exact (Item.sortChildren_rows_perm lt B).mem_iff.2 (List.mem_map_of_mem _ hX)

theorem isFolder_of_d_eq {a b : Item} (h : a.d = b.d) : a.isFolder = b.isFolder := by
  simp only [Item.isFolder, h]

theorem id_of_d_eq {a b : Item} (h : a.d = b.d) : a.id = b.id := by
  simp only [Item.id, h]

/-- The folder `X` at address `p`, a row of the folder `B` below the favorites
root, through the rest of createFaveSubfolder (setEditable,
updateNullItemInFaveSubfolder, sortFaves): at the end the item at `p` is a
folder and its parent is a folder. -/
theorem track_parent (env : Env) (s2 : FiltersView) (ff p : Nat) (cf B X : Item)
    (hwf2 : s2.WF) (hff : s2._faveFolder = some ff) (hcf : s2.root.find? ff = some cf)
    (hB : B ∈ Item.items cf) (hBf : B.isFolder = true) (hX : X ∈ B.rows) (hXid : X.id = p)
    (hXf : X.isFolder = true) :
    ∃ B4 X4,
      ((({ s2 with root := s2.root.modify p (Item.setEditable true) } :
          FiltersView).updateNullItemInFaveSubfolder (some p)).sortFaves env).root.parent? p =
        some B4 ∧
      B4.isFolder = true ∧
      ((({ s2 with root := s2.root.modify p (Item.setEditable true) } :
          FiltersView).updateNullItemInFaveSubfolder (some p)).sortFaves env).root.find? p =
        some X4 ∧
      X4.isFolder = true := by
  have hcfroot := Item.find?_mem_items ff _ _ hcf
  have hncf : (Item.ids cf).Nodup := (Item.ids_sublist_of_mem_items _ cf hcfroot).nodup hwf2.1
  have hXcf : X ∈ Item.items cf := Item.mem_items_trans (Item.mem_items_of_mem_rows hX) hB
  have hpcf : p ∈ Item.ids cf := hXid ▸ Item.id_mem_ids_of_mem_items hXcf
  -- setEditable
  obtain ⟨sE, hsE⟩ : ∃ sE : FiltersView,
      sE = { s2 with root := s2.root.modify p (Item.setEditable true) } := ⟨_, rfl⟩
  rw [← hsE]
  have evE : Evolves namesInv s2 sE := by rw [hsE]; exact setEditable_evolves namesInv s2 p
  have hrootE : sE.root = s2.root.modify p (Item.setEditable true) := by rw [hsE]
  have hwfE := evE.2.1 hwf2
  have hffE : sE._faveFolder = some ff := evE.1.trans hff
  have hfindE : sE.root.find? ff = some (cf.modify p (Item.setEditable true)) := by
    rw [hrootE]
    exact Item.find?_modify_ancestor p ff (Item.setEditable true) (fun x hx => hx) s2.root cf
      hwf2.1 hcf hpcf
  obtain ⟨hBE, hBEd, hXE⟩ := parent_modify p (Item.setEditable true) (fun x hx => hx) cf B X
    hncf hB hX hXid
  have hcfEroot := Item.find?_mem_items ff _ _ hfindE
  have hncfE : (Item.ids (cf.modify p (Item.setEditable true))).Nodup :=
    (Item.ids_sublist_of_mem_items _ _ hcfEroot).nodup hwfE.1
  have hXEid : (X.setEditable true).id = p := hXid
  have hXEcf : X.setEditable true ∈ Item.items (cf.modify p (Item.setEditable true)) :=
    Item.mem_items_trans (Item.mem_items_of_mem_rows hXE) hBE
  have hfXE : sE.root.find? p = some (X.setEditable true) :=
    hXEid ▸ Item.find?_of_mem_items _ hwfE.1 _ (Item.mem_items_trans hXEcf hcfEroot)
  -- the placeholder
  obtain ⟨s3, hs3⟩ : ∃ s3 : FiltersView, s3 = sE.updateNullItemInFaveSubfolder (some p) :=
    ⟨_, rfl⟩
  rw [← hs3]
  have ev3 : Evolves namesInv sE s3 := by rw [hs3]; exact updateNull_evolves namesInv sE (some p)
  have hwf3 := ev3.2.1 hwfE
  have hff3 : s3._faveFolder = some ff := ev3.1.trans hffE
  obtain ⟨g, hroot3, hgid, hgX⟩ := updateNull_root sE p _ hfXE
  rw [← hs3] at hroot3
  have hfind3 : s3.root.find? ff = some ((cf.modify p (Item.setEditable true)).modify p g) := by
    rw [hroot3]
    have hpE : p ∈ Item.ids (cf.modify p (Item.setEditable true)) := by
      have := Item.id_mem_ids_of_mem_items hXEcf
      rw [hXEid] at this
      exact this
    exact Item.find?_modify_ancestor p ff g hgid sE.root _ hwfE.1 hfindE hpE
  obtain ⟨hB3, hB3d, hX3⟩ := parent_modify p g hgid _ _ _ hncfE hBE hXE hXEid
  have hgXd : (g (X.setEditable true)).d = (X.setEditable true).d := by rw [hgX]; rfl
  -- sortFaves
  obtain ⟨s4, hs4⟩ : ∃ s4 : FiltersView, s4 = s3.sortFaves env := ⟨_, rfl⟩
  rw [← hs4]
  have ev4 : Evolves namesInv s3 s4 := by rw [hs4]; exact sortFaves_evolves namesInv env s3
  have hwf4 := ev4.2.1 hwf3
  have hroot4 : s4.root = s3.root.modify ff (Item.sortChildren env.lessThan) := by
    rw [hs4, sortFaves_eq env s3 ff hff3]
  have hfind4 : s4.root.find? ff =
      some (Item.sortChildren env.lessThan ((cf.modify p (Item.setEditable true)).modify p g)) := by
    rw [hroot4, Item.find?_modify ff (Item.sortChildren env.lessThan)
      (fun x hx => by rw [Item.id, Item.sortChildren_d]; exact hx), hfind3]
    rfl
  obtain ⟨hB4, hB4d, hX4⟩ := parent_sortChildren env.lessThan _ _ _ hB3 hX3
  have hB4root := Item.mem_items_trans hB4 (Item.find?_mem_items ff _ _ hfind4)
  have hpar := Item.parent?_of_mem_rows _ _ hX4 s4.root hwf4.1 hB4root
  have hX4d : (Item.sortChildren env.lessThan (g (X.setEditable true))).d =
      (X.setEditable true).d := (Item.sortChildren_d _ _).trans hgXd
  have hX4id : (Item.sortChildren env.lessThan (g (X.setEditable true))).id = p :=
    (id_of_d_eq hX4d).trans hXEid
  have hX4f : (Item.sortChildren env.lessThan (g (X.setEditable true))).isFolder = true :=
    (isFolder_of_d_eq hX4d).trans hXf
  rw [hX4id] at hpar
  refine ⟨_, _, hpar, ?_, ?_, hX4f⟩
  · exact (isFolder_of_d_eq (hB4d.trans (hB3d.trans hBEd))).trans hBf
  · have := Item.find?_of_mem_items _ hwf4.1 _
      (Item.mem_items_trans (Item.mem_items_of_mem_rows hX4) hB4root)
    rw [hX4id] at this
    exact this

/-! ## C24: no null folder in the creation of favorites folders -/

/-- On a view whose `_faveFolder` refers to the folder flagged isFaveFolder:
createFolder(_faveFolder, path) returns the address of a folder of the tree,
which createFaveSubfolder returns; for a path of one segment or more the
folder createFaveSubfolder returns is in the tree afterwards and its parent is
a folder. -/
theorem createFaveSubfolder_folder (env : Env) (s : FiltersView) (path : List String) (ff : Nat)
    (hinv : s.Inv (flaggedInv s._faveFolder)) (hff : s._faveFolder = some ff) :
    (∃ q X, (s.createFolderAt env s._faveFolder path).2 = some q ∧
      (s.createFolderAt env s._faveFolder path).1.root.find? q = some X ∧ X.isFolder = true ∧
      (s.createFaveSubfolder env path).2 = some q) ∧
    (path ≠ [] → ∃ p B Y, (s.createFaveSubfolder env path).2 = some p ∧
      (s.createFaveSubfolder env path).1.root.find? p = some Y ∧ Y.isFolder = true ∧
      (s.createFaveSubfolder env path).1.root.parent? p = some B ∧ B.isFolder = true ∧
      (s.createFaveSubfolder env path).1.parentFolder p = some B.id) := by
  obtain ⟨ffItem, hffi, _, hffold, _⟩ := faveFolder_find_of_inv s hinv ff hff
  have hwf := hinv.1
  have hffid := Item.find?_id ff s.root ffItem hffi
  have hcreate := createFolderAt_of_find? env s ff path ffItem hffi
  have hev := createFolderAt_evolves (flaggedInv (some ff)) env (fun h => h.elim) s (some ff) path
  rw [hcreate] at hev
  have hwf2 := hev.2.1 hwf
  have hcfid : (createFolder env s._isInSelectionMode path ffItem s.nextAddr).1.id = ff := by
    rw [Item.id, createFolder_d]; exact hffid
  have hff2 : (s.root.modify ff (fun _ =>
      (createFolder env s._isInSelectionMode path ffItem s.nextAddr).1)).find? ff =
      some (createFolder env s._isInSelectionMode path ffItem s.nextAddr).1 := by
    rw [Item.find?_modify ff
      (fun _ => (createFolder env s._isInSelectionMode path ffItem s.nextAddr).1)
      (fun _ _ => hcfid), hffi]
    rfl
  have hcff : (createFolder env s._isInSelectionMode path ffItem s.nextAddr).1.isFolder = true := by
    rw [isFolder_createFolder]; exact hffold
  -- the folder createFolder returns
  have hret : ∃ X, (s.root.modify ff (fun _ =>
      (createFolder env s._isInSelectionMode path ffItem s.nextAddr).1)).find?
        (createFolder env s._isInSelectionMode path ffItem s.nextAddr).2.1 = some X ∧
      X.isFolder = true := by
    cases path with
    | nil =>
      refine ⟨_, ?_, hcff⟩
      have : (createFolder env s._isInSelectionMode [] ffItem s.nextAddr).2.1 = ff := hffid
      rw [this]
      exact hff2
    | cons seg rest =>
      obtain ⟨B, X, hB, _, hX, hXid, hXf⟩ := createFolder_returns_folder env
        s._isInSelectionMode rest seg ffItem s.nextAddr hffold
      have hXroot : X ∈ Item.items (s.root.modify ff (fun _ =>
          (createFolder env s._isInSelectionMode (seg :: rest) ffItem s.nextAddr).1)) :=
        Item.mem_items_trans (Item.mem_items_trans (Item.mem_items_of_mem_rows hX) hB)
          (Item.find?_mem_items ff _ _ hff2)
      have := Item.find?_of_mem_items _ hwf2.1 X hXroot
      rw [hXid] at this
      exact ⟨X, this, hXf⟩
  obtain ⟨X, hX2, hXf⟩ := hret
  have heq := createFaveSubfolder_eq env s _ path ff _ X hff hcreate hX2 hXf
  refine ⟨⟨(createFolder env s._isInSelectionMode path ffItem s.nextAddr).2.1, X, ?_, ?_, hXf,
    ?_⟩, ?_⟩
  · rw [hff, hcreate]
  · rw [hff, hcreate]; exact hX2
  · rw [heq]
  · intro hne
    cases path with
    | nil => exact absurd rfl hne
    | cons seg rest =>
      obtain ⟨B, X0, hB, hBf, hX0, hX0id, hX0f⟩ := createFolder_returns_folder env
        s._isInSelectionMode rest seg ffItem s.nextAddr hffold
      obtain ⟨B4, X4, h1, h2, h3, h4⟩ := track_parent env _ ff _ _ B X0 hwf2 hff hff2 hB hBf hX0
        hX0id hX0f
      rw [heq]
      refine ⟨_, B4, X4, rfl, h3, h4, h1, h2, ?_⟩
      simp only [FiltersView.parentFolder, h1, Option.filter, h2, if_true, Option.map_some']

/-- C24. In every reachable state and for every path, on the view after the
test `if (!_faveFolder) createFaveFolder()` that createFaveSubfolder and
addFave both start with: createFolder(_faveFolder, path) returns the address
of an item of the tree that is a FilterTreeFolder (so the cast in
createFaveSubfolder gives a non-null folder, the one setEditable is called on
and the one returned); a path that getFaveSubfolderFromPath does not resolve
has one segment or more; and for such a path the folder createFaveSubfolder
returns is non-null, is a folder of the tree, and its parent is a
FilterTreeFolder, the non-null pointer that addFave passes to
updateNullItemInFaveSubfolder. -/
theorem fave_creation_no_null (env : Env) (s : FiltersView) (h : FiltersView.Reachable env s)
    (path : List String) :
    (∃ q X,
      ((if s._faveFolder.isNone then s.createFaveFolder env else s).createFolderAt env
        (if s._faveFolder.isNone then s.createFaveFolder env else s)._faveFolder path).2 =
        some q ∧
      ((if s._faveFolder.isNone then s.createFaveFolder env else s).createFolderAt env
        (if s._faveFolder.isNone then s.createFaveFolder env else s)._faveFolder
        path).1.root.find? q = some X ∧
      X.isFolder = true ∧ (s.createFaveSubfolder env path).2 = some q) ∧
    ((if s._faveFolder.isNone then s.createFaveFolder env
        else s).getFaveSubfolderFromPath env path = none → path ≠ []) ∧
    (path ≠ [] → ∃ p B Y,
      ((if s._faveFolder.isNone then s.createFaveFolder env else s).createFaveSubfolder env
        path).2 = some p ∧
      ((if s._faveFolder.isNone then s.createFaveFolder env else s).createFaveSubfolder env
        path).1.root.find? p = some Y ∧ Y.isFolder = true ∧
      ((if s._faveFolder.isNone then s.createFaveFolder env else s).createFaveSubfolder env
        path).1.root.parent? p = some B ∧ B.isFolder = true ∧
      ((if s._faveFolder.isNone then s.createFaveFolder env else s).createFaveSubfolder env
        path).1.parentFolder p = some B.id) := by
  have hpair := reachable_inv env s h
  -- the view after the test
  have key : ∀ (t : FiltersView) (ff : Nat), t.Inv (flaggedInv t._faveFolder) →
      t._faveFolder = some ff → (s.createFaveSubfolder env path).2 = (t.createFaveSubfolder env path).2 →
      (∃ q X, (t.createFolderAt env t._faveFolder path).2 = some q ∧
        (t.createFolderAt env t._faveFolder path).1.root.find? q = some X ∧
        X.isFolder = true ∧ (s.createFaveSubfolder env path).2 = some q) ∧
      (t.getFaveSubfolderFromPath env path = none → path ≠ []) ∧
      (path ≠ [] → ∃ p B Y, (t.createFaveSubfolder env path).2 = some p ∧
        (t.createFaveSubfolder env path).1.root.find? p = some Y ∧ Y.isFolder = true ∧
        (t.createFaveSubfolder env path).1.root.parent? p = some B ∧ B.isFolder = true ∧
        (t.createFaveSubfolder env path).1.parentFolder p = some B.id) := by
    intro t ff hinv hff hsame
    obtain ⟨⟨q, X, h1, h2, h3, h4⟩, h5⟩ := createFaveSubfolder_folder env t path ff hinv hff
    refine ⟨⟨q, X, h1, h2, h3, hsame.trans h4⟩, ?_, h5⟩
    intro hnone hnil
    subst hnil
    simp [FiltersView.getFaveSubfolderFromPath, hff] at hnone
  cases hff : s._faveFolder with
  | none =>
    have h1 : (if (none : Option Nat).isNone then s.createFaveFolder env else s) =
        s.createFaveFolder env := rfl
    rw [h1]
    have hff1 : (s.createFaveFolder env)._faveFolder = some s.nextAddr := by
      rw [createFaveFolder_eq env s hff]
    exact key _ s.nextAddr (createFaveFolder_pair env s hff hpair).1 hff1
      (by rw [createFaveSubfolder_of_none env s path hff])
  | some ff =>
    have h1 : (if (some ff : Option Nat).isNone then s.createFaveFolder env else s) = s := rfl
    rw [h1]
    exact key s ff hpair.1 hff rfl

theorem fave_creation_no_null_witness :
    (∃ q X,
      ((if ((FiltersView.init []).addFave sampleEnv "Blur" "h1" ["A"])._faveFolder.isNone then
          ((FiltersView.init []).addFave sampleEnv "Blur" "h1" ["A"]).createFaveFolder sampleEnv
        else (FiltersView.init []).addFave sampleEnv "Blur" "h1" ["A"]).createFolderAt sampleEnv
        (if ((FiltersView.init []).addFave sampleEnv "Blur" "h1" ["A"])._faveFolder.isNone then
          ((FiltersView.init []).addFave sampleEnv "Blur" "h1" ["A"]).createFaveFolder sampleEnv
        else (FiltersView.init []).addFave sampleEnv "Blur" "h1" ["A"])._faveFolder
        ["A", "B"]).2 = some q ∧
      ((if ((FiltersView.init []).addFave sampleEnv "Blur" "h1" ["A"])._faveFolder.isNone then
          ((FiltersView.init []).addFave sampleEnv "Blur" "h1" ["A"]).createFaveFolder sampleEnv
        else (FiltersView.init []).addFave sampleEnv "Blur" "h1" ["A"]).createFolderAt sampleEnv
        (if ((FiltersView.init []).addFave sampleEnv "Blur" "h1" ["A"])._faveFolder.isNone then
          ((FiltersView.init []).addFave sampleEnv "Blur" "h1" ["A"]).createFaveFolder sampleEnv
        else (FiltersView.init []).addFave sampleEnv "Blur" "h1" ["A"])._faveFolder
        ["A", "B"]).1.root.find? q = some X ∧
      X.isFolder = true ∧
      (((FiltersView.init []).addFave sampleEnv "Blur" "h1" ["A"]).createFaveSubfolder sampleEnv
        ["A", "B"]).2 = some q) ∧
    ∃ p B Y,
      ((if ((FiltersView.init []).addFave sampleEnv "Blur" "h1" ["A"])._faveFolder.isNone then
          ((FiltersView.init []).addFave sampleEnv "Blur" "h1" ["A"]).createFaveFolder sampleEnv
        else (FiltersView.init []).addFave sampleEnv "Blur" "h1"
          ["A"]).createFaveSubfolder sampleEnv ["A", "B"]).2 = some p ∧
      ((if ((FiltersView.init []).addFave sampleEnv "Blur" "h1" ["A"])._faveFolder.isNone then
          ((FiltersView.init []).addFave sampleEnv "Blur" "h1" ["A"]).createFaveFolder sampleEnv
        else (FiltersView.init []).addFave sampleEnv "Blur" "h1"
          ["A"]).createFaveSubfolder sampleEnv ["A", "B"]).1.root.find? p = some Y ∧
      Y.isFolder = true ∧
      ((if ((FiltersView.init []).addFave sampleEnv "Blur" "h1" ["A"])._faveFolder.isNone then
          ((FiltersView.init []).addFave sampleEnv "Blur" "h1" ["A"]).createFaveFolder sampleEnv
        else (FiltersView.init []).addFave sampleEnv "Blur" "h1"
          ["A"]).createFaveSubfolder sampleEnv ["A", "B"]).1.root.parent? p = some B ∧
      B.isFolder = true ∧
      ((if ((FiltersView.init []).addFave sampleEnv "Blur" "h1" ["A"])._faveFolder.isNone then
          ((FiltersView.init []).addFave sampleEnv "Blur" "h1" ["A"]).createFaveFolder sampleEnv
        else (FiltersView.init []).addFave sampleEnv "Blur" "h1"
          ["A"]).createFaveSubfolder sampleEnv ["A", "B"]).1.parentFolder p = some B.id :=
  ⟨(fave_creation_no_null sampleEnv ((FiltersView.init []).addFave sampleEnv "Blur" "h1" ["A"])
      (FiltersView.Reachable.addFave "Blur" "h1" ["A"] (FiltersView.Reachable.init []))
      ["A", "B"]).1,
   (fave_creation_no_null sampleEnv ((FiltersView.init []).addFave sampleEnv "Blur" "h1" ["A"])
      (FiltersView.Reachable.addFave "Blur" "h1" ["A"] (FiltersView.Reachable.init []))
      ["A", "B"]).2.2 (List.cons_ne_nil _ _)⟩

end GmicQt
